import Mathlib

/-!
Verification development for the World Athletics scoring-table extractor
(`tools/scoring-table-extractor/index.js` together with `events-config.js`).

The JavaScript source is shallowly embedded over `List Char` strings:
pure functions become Lean functions, the line-scanning state machine
becomes a fold over lines with an explicit state record, and the nested
`this.tables` object becomes nested association lists (insertion order
preserved, matching JavaScript object insertion order for the
non-integer-like keys that occur here).  JavaScript regular-expression
operations are implemented as concrete recursive scanners with the same
leftmost-match, ordered-alternation and word-boundary semantics as the
specific patterns used by the source.  `Char.toLower`-style case mapping
and the whitespace class are modelled on the ASCII range (the source data
is ASCII apart from the copyright sign, which none of the claims touch).
-/

set_option maxRecDepth 20000

namespace ScoringExtractor

/-- Strings are modelled as lists of characters. -/
abbrev Str := List Char

/-! ## Basic character classes (JavaScript `\d`, `\s`, `\w`) -/

/-- JavaScript `\d`. -/
def isDigitC (c : Char) : Bool := '0' ≤ c && c ≤ '9'

/-- JavaScript `\s`, restricted to the ASCII whitespace characters
(space, tab, line feed, carriage return, vertical tab, form feed). -/
def isWsC (c : Char) : Bool :=
  c = ' ' || c = '\t' || c = '\n' || c = '\r' || c = '\x0b' || c = '\x0c'

/-- JavaScript `\w` (word character), used by the `\b` word boundary. -/
def isWordC (c : Char) : Bool :=
  ('a' ≤ c && c ≤ 'z') || ('A' ≤ c && c ≤ 'Z') || isDigitC c || c = '_'

/-- ASCII lower-casing, as performed by `String.prototype.toLowerCase`
on the ASCII range. -/
def toLowerC (c : Char) : Char :=
  if 'A' ≤ c && c ≤ 'Z' then Char.ofNat (c.toNat + 32) else c

/-- Lower-case a whole string. -/
def lowerStr (s : Str) : Str := s.map toLowerC

/-! ## Small string utilities used throughout the embedding -/

/-- Does `pat` occur at the front of `s`? -/
def startsWithStr : Str → Str → Bool
  | _, [] => true
  | [], _ :: _ => false
  | c :: s, p :: ps => c = p && startsWithStr s ps

/-- Does `pat` occur anywhere in `s` (JavaScript `String.prototype.includes`)? -/
def containsStr : Str → Str → Bool
  | s, pat =>
    startsWithStr s pat ||
      match s with
      | [] => false
      | _ :: rest => containsStr rest pat

/-- `String.prototype.trim` (ASCII whitespace). -/
def trimStr (s : Str) : Str :=
  ((s.dropWhile isWsC).reverse.dropWhile isWsC).reverse

/-- State machine for `replace(/\s+/g, ' ')`: `prevWs` records whether the
previous character was whitespace (in which case further whitespace is
absorbed into the already-emitted single space). -/
def collapseGo (prevWs : Bool) : Str → Str
  | [] => []
  | c :: rest =>
    if isWsC c then
      if prevWs then collapseGo true rest else ' ' :: collapseGo true rest
    else c :: collapseGo false rest

/-- `replace(/\s+/g, ' ')`: every maximal whitespace run becomes a single
space. -/
def collapseWs (s : Str) : Str := collapseGo false s

/-! ## Data model: scoring entries and the nested table

`this.tables` maps gender → category → event → array of
`{performance, points}` records.  Nested JavaScript objects become nested
association lists; arrays become Lean lists. -/

/-- One stored `{performance, points}` record. -/
structure ScoringEntry where
  performance : Str
  points : Int
deriving DecidableEq

/-- Association-list lookup (JavaScript property read `obj[key]`,
`undefined` becoming `none`). -/
def getA {β : Type} : List (Str × β) → Str → Option β
  | [], _ => none
  | (k, v) :: rest, key => if k = key then some v else getA rest key

/-- `if (!obj[key]) obj[key] = d; f(obj[key])` — update the value at `key`
in place if present, otherwise append `(key, f d)`. -/
def updateA {β : Type} (m : List (Str × β)) (key : Str) (d : β) (f : β → β) :
    List (Str × β) :=
  match m with
  | [] => [(key, f d)]
  | (k, v) :: rest =>
    if k = key then (k, f v) :: rest else (k, v) :: updateA rest key d f

abbrev EventLeaves := List (Str × List ScoringEntry)
abbrev CategoryMap := List (Str × EventLeaves)
abbrev Table := List (Str × CategoryMap)

/-- Look up one event leaf of the table. -/
def leafOf (t : Table) (g c e : Str) : Option (List ScoringEntry) :=
  (getA t g).bind fun cats => (getA cats c).bind fun evs => getA evs e

/-! ## The clean-and-sort pass (`cleanAndSortData`, index.js lines 574-597)

Per event leaf: deduplicate via a `Map` keyed by the performance string
(`uniqueMap.set` replaces the stored entry only when its points are
strictly smaller than the new entry's), then sort the remaining entries
by points descending with JavaScript's stable `Array.prototype.sort`. -/

/-- One `uniqueMap` step: JavaScript `Map.set` keeps the key's original
position and replaces only the value, so an existing key is updated in
place; a new key is appended. -/
def upsertEntry (acc : List ScoringEntry) (e : ScoringEntry) : List ScoringEntry :=
  match acc with
  | [] => [e]
  | x :: xs =>
    if x.performance = e.performance then
      if x.points < e.points then e :: xs else x :: xs
    else x :: upsertEntry xs e

/-- The deduplication loop `for (const entry of entries) ...`. -/
def dedupEntries (l : List ScoringEntry) : List ScoringEntry :=
  l.foldl upsertEntry []

/-- The sort order `(a, b) => b.points - a.points`: `a` precedes `b` when
`b.points ≤ a.points`. -/
def entryGE (a b : ScoringEntry) : Prop := b.points ≤ a.points

instance : DecidableRel entryGE := fun a b =>
  inferInstanceAs (Decidable (b.points ≤ a.points))

instance : IsTotal ScoringEntry entryGE := ⟨fun a b => le_total b.points a.points⟩

instance : IsTrans ScoringEntry entryGE := ⟨fun _ _ _ h1 h2 => le_trans h2 h1⟩

/-- Stable insertion sort realises JavaScript's stable `Array.prototype.sort`
for the consistent comparator `b.points - a.points`. -/
def cleanEntries (l : List ScoringEntry) : List ScoringEntry :=
  List.insertionSort entryGE (dedupEntries l)

/-- The whole pass over every `(gender, category, event)` leaf. -/
def cleanAndSortData (t : Table) : Table :=
  t.map fun gc =>
    (gc.1, gc.2.map fun ce =>
      (ce.1, ce.2.map fun ee => (ee.1, cleanEntries ee.2)))

/-! ## Characterising the deduplication fold -/

/-- First entry of `l` whose performance is `p` (the entry the `Map` holds
under key `p`, thanks to uniqueness below). -/
def findPerf (p : Str) : List ScoringEntry → Option ScoringEntry
  | [] => none
  | e :: rest => if e.performance = p then some e else findPerf p rest

/-- Specification-level single step: what the `Map` holds under key `p`
after offering entry `e`. -/
def better (cur : Option ScoringEntry) (e : ScoringEntry) (p : Str) :
    Option ScoringEntry :=
  if e.performance = p then
    match cur with
    | none => some e
    | some b => if b.points < e.points then some e else some b
  else cur

/-- What the `Map` holds under key `p` after offering every entry of `l`. -/
def bestFor (p : Str) (l : List ScoringEntry) (init : Option ScoringEntry) :
    Option ScoringEntry :=
  l.foldl (fun cur e => better cur e p) init

theorem findPerf_upsert (acc : List ScoringEntry) (e : ScoringEntry) (p : Str) :
    findPerf p (upsertEntry acc e) = better (findPerf p acc) e p := by
  induction acc with
  | nil =>
    simp only [upsertEntry, findPerf, better]
  | cons x xs ih =>
    simp only [upsertEntry]
    by_cases hxe : x.performance = e.performance
    · simp only [hxe, if_true]
      by_cases hpt : x.points < e.points
      · simp only [hpt, if_true, findPerf]
        by_cases hxp : x.performance = p
        · have hep : e.performance = p := hxe ▸ hxp
          simp [hxp, hep, better, hpt]
        · have hep : ¬ e.performance = p := fun h => hxp (hxe ▸ h)
          simp [hxp, hep, better]
      · simp only [hpt, if_false, findPerf]
        by_cases hxp : x.performance = p
        · have hep : e.performance = p := hxe ▸ hxp
          simp [hxp, hep, better, hpt]
        · have hep : ¬ e.performance = p := fun h => hxp (hxe ▸ h)
          simp [hxp, hep, better]
    · simp only [hxe, if_false, findPerf]
      by_cases hxp : x.performance = p
      · have hep : ¬ e.performance = p := fun h => hxe (hxp.trans h.symm)
        simp [hxp, hep, better]
      · simp [hxp, ih]

theorem dedup_foldl_findPerf (p : Str) :
    ∀ (l : List ScoringEntry) (acc : List ScoringEntry),
      findPerf p (l.foldl upsertEntry acc) = bestFor p l (findPerf p acc) := by
  intro l
  induction l with
  | nil => intro acc; rfl
  | cons e l ih =>
    intro acc
    simp only [List.foldl_cons, bestFor]
    rw [ih (upsertEntry acc e), findPerf_upsert]
    rfl

theorem findPerf_dedup (p : Str) (l : List ScoringEntry) :
    findPerf p (dedupEntries l) = bestFor p l none := by
  have h := dedup_foldl_findPerf p l []
  simpa [dedupEntries, findPerf] using h

theorem bestFor_eq_none {p : Str} :
    ∀ (l : List ScoringEntry) (init : Option ScoringEntry),
      bestFor p l init = none →
      init = none ∧ ∀ x ∈ l, x.performance ≠ p := by
  intro l
  induction l with
  | nil => intro init h; exact ⟨h, by simp⟩
  | cons x l ih =>
    intro init h
    obtain ⟨h1, h2⟩ := ih (better init x p) h
    by_cases hxp : x.performance = p
    · exfalso
      simp only [better, hxp, if_true] at h1
      cases init <;> simp at h1
      rename_i b
      by_cases hb : b.points < x.points <;> simp [hb] at h1
    · refine ⟨?_, ?_⟩
      · simpa [better, hxp] using h1
      · intro y hy
        rcases List.mem_cons.mp hy with rfl | hmem
        · exact hxp
        · exact h2 y hmem

theorem bestFor_eq_some {p : Str} :
    ∀ (l : List ScoringEntry) (init : Option ScoringEntry) (e : ScoringEntry),
      bestFor p l init = some e →
      (init = some e ∨
        (e.performance = p ∧ ∃ l₁ l₂, l = l₁ ++ e :: l₂ ∧
          (∀ b, init = some b → b.points < e.points) ∧
          (∀ x ∈ l₁, x.performance = p → x.points < e.points))) ∧
      (∀ x ∈ l, x.performance = p → x.points ≤ e.points) := by
  intro l
  induction l with
  | nil =>
    intro init e h
    exact ⟨Or.inl h, by simp⟩
  | cons x l ih =>
    intro init e h
    obtain ⟨H1, H2⟩ := ih (better init x p) e h
    by_cases hxp : x.performance = p
    · cases init with
      | none =>
        have hbet : better none x p = some x := by simp [better, hxp]
        rw [hbet] at H1
        rcases H1 with hinit | ⟨hep, l₁, l₂, hl, hib, hl₁⟩
        · -- the retained entry is x itself
          injection hinit with hex
          subst hex
          refine ⟨Or.inr ⟨hxp, [], l, by simp, by simp, by simp⟩, ?_⟩
          intro y hy hyp
          rcases List.mem_cons.mp hy with rfl | hmem
          · exact le_refl _
          · exact H2 y hmem hyp
        · have hxlt : x.points < e.points := hib x rfl
          refine ⟨Or.inr ⟨hep, x :: l₁, l₂, by rw [hl]; rfl, by simp, ?_⟩, ?_⟩
          · intro y hy hyp
            rcases List.mem_cons.mp hy with rfl | hmem
            · exact hxlt
            · exact hl₁ y hmem hyp
          · intro y hy hyp
            rcases List.mem_cons.mp hy with rfl | hmem
            · exact le_of_lt hxlt
            · exact H2 y hmem hyp
      | some b =>
        have hbet : better (some b) x p =
            if b.points < x.points then some x else some b := by
          simp [better, hxp]
        by_cases hblt : b.points < x.points
        · rw [hbet, if_pos hblt] at H1
          rcases H1 with hinit | ⟨hep, l₁, l₂, hl, hib, hl₁⟩
          · injection hinit with hex
            subst hex
            refine ⟨Or.inr ⟨hxp, [], l, by simp, ?_, by simp⟩, ?_⟩
            · intro b' hb'
              injection hb' with hbb
              subst hbb
              exact hblt
            · intro y hy hyp
              rcases List.mem_cons.mp hy with rfl | hmem
              · exact le_refl _
              · exact H2 y hmem hyp
          · have hxlt : x.points < e.points := hib x rfl
            refine ⟨Or.inr ⟨hep, x :: l₁, l₂, by rw [hl]; rfl, ?_, ?_⟩, ?_⟩
            · intro b' hb'
              injection hb' with hbb
              subst hbb
              exact lt_trans hblt hxlt
            · intro y hy hyp
              rcases List.mem_cons.mp hy with rfl | hmem
              · exact hxlt
              · exact hl₁ y hmem hyp
            · intro y hy hyp
              rcases List.mem_cons.mp hy with rfl | hmem
              · exact le_of_lt hxlt
              · exact H2 y hmem hyp
        · rw [hbet, if_neg hblt] at H1
          rcases H1 with hinit | ⟨hep, l₁, l₂, hl, hib, hl₁⟩
          · injection hinit with hbe
            subst hbe
            refine ⟨Or.inl rfl, ?_⟩
            intro y hy hyp
            rcases List.mem_cons.mp hy with rfl | hmem
            · exact le_of_not_lt hblt
            · exact H2 y hmem hyp
          · have hblt' : b.points < e.points := hib b rfl
            refine ⟨Or.inr ⟨hep, x :: l₁, l₂, by rw [hl]; rfl, ?_, ?_⟩, ?_⟩
            · intro b' hb'
              injection hb' with hbb
              subst hbb
              exact hblt'
            · intro y hy hyp
              rcases List.mem_cons.mp hy with rfl | hmem
              · exact lt_of_le_of_lt (le_of_not_lt hblt) hblt'
              · exact hl₁ y hmem hyp
            · intro y hy hyp
              rcases List.mem_cons.mp hy with rfl | hmem
              · exact le_trans (le_of_not_lt hblt) (le_of_lt hblt')
              · exact H2 y hmem hyp
    · have hbet : better init x p = init := by simp [better, hxp]
      rw [hbet] at H1
      rcases H1 with hinit | ⟨hep, l₁, l₂, hl, hib, hl₁⟩
      · refine ⟨Or.inl hinit, ?_⟩
        intro y hy hyp
        rcases List.mem_cons.mp hy with rfl | hmem
        · exact absurd hyp hxp
        · exact H2 y hmem hyp
      · refine ⟨Or.inr ⟨hep, x :: l₁, l₂, by rw [hl]; rfl, hib, ?_⟩, ?_⟩
        · intro y hy hyp
          rcases List.mem_cons.mp hy with rfl | hmem
          · exact absurd hyp hxp
          · exact hl₁ y hmem hyp
        · intro y hy hyp
          rcases List.mem_cons.mp hy with rfl | hmem
          · exact absurd hyp hxp
          · exact H2 y hmem hyp

/-! ## Uniqueness and membership facts about the deduplicated list -/

/-- No two entries of the list share a performance string. -/
def UniquePerf (l : List ScoringEntry) : Prop :=
  l.Pairwise fun a b => a.performance ≠ b.performance

theorem mem_upsert {acc : List ScoringEntry} {e y : ScoringEntry}
    (h : y ∈ upsertEntry acc e) : y ∈ acc ∨ y = e := by
  induction acc with
  | nil =>
    simp only [upsertEntry, List.mem_singleton] at h
    exact Or.inr h
  | cons x xs ih =>
    simp only [upsertEntry] at h
    by_cases hxe : x.performance = e.performance
    · rw [if_pos hxe] at h
      by_cases hpt : x.points < e.points
      · rw [if_pos hpt] at h
        rcases List.mem_cons.mp h with rfl | hmem
        · exact Or.inr rfl
        · exact Or.inl (List.mem_cons_of_mem _ hmem)
      · rw [if_neg hpt] at h
        exact Or.inl h
    · rw [if_neg hxe] at h
      rcases List.mem_cons.mp h with rfl | hmem
      · exact Or.inl (List.mem_cons_self _ _)
      · rcases ih hmem with h' | h'
        · exact Or.inl (List.mem_cons_of_mem _ h')
        · exact Or.inr h'

theorem unique_upsert {acc : List ScoringEntry} {e : ScoringEntry}
    (h : UniquePerf acc) : UniquePerf (upsertEntry acc e) := by
  induction acc with
  | nil => simp [upsertEntry, UniquePerf]
  | cons x xs ih =>
    obtain ⟨hx, hxs⟩ := List.pairwise_cons.mp h
    simp only [upsertEntry]
    by_cases hxe : x.performance = e.performance
    · rw [if_pos hxe]
      by_cases hpt : x.points < e.points
      · rw [if_pos hpt]
        exact List.pairwise_cons.mpr
          ⟨fun y hy => hxe ▸ hx y hy, hxs⟩
      · rw [if_neg hpt]; exact h
    · rw [if_neg hxe]
      refine List.pairwise_cons.mpr ⟨?_, ih hxs⟩
      intro y hy
      rcases mem_upsert hy with h' | rfl
      · exact hx y h'
      · exact hxe

theorem unique_dedup (l : List ScoringEntry) : UniquePerf (dedupEntries l) := by
  have key : ∀ (l acc : List ScoringEntry), UniquePerf acc →
      UniquePerf (l.foldl upsertEntry acc) := by
    intro l
    induction l with
    | nil => intro acc h; exact h
    | cons e l ih =>
      intro acc h
      exact ih _ (unique_upsert h)
  exact key l [] (by simp [UniquePerf])

theorem findPerf_of_mem_unique {l : List ScoringEntry} {e : ScoringEntry}
    (hu : UniquePerf l) (hmem : e ∈ l) : findPerf e.performance l = some e := by
  induction l with
  | nil => cases hmem
  | cons x xs ih =>
    obtain ⟨hx, hxs⟩ := List.pairwise_cons.mp hu
    rcases List.mem_cons.mp hmem with rfl | hmem'
    · simp [findPerf]
    · have hne : ¬ x.performance = e.performance :=
        fun h => hx e hmem' h
      simp only [findPerf, if_neg hne]
      exact ih hxs hmem'

theorem findPerf_mem {p : Str} :
    ∀ {l : List ScoringEntry} {e : ScoringEntry},
      findPerf p l = some e → e ∈ l ∧ e.performance = p := by
  intro l
  induction l with
  | nil => intro e h; cases h
  | cons x xs ih =>
    intro e h
    simp only [findPerf] at h
    by_cases hxp : x.performance = p
    · rw [if_pos hxp] at h
      injection h with hx
      subst hx
      exact ⟨List.mem_cons_self _ _, hxp⟩
    · rw [if_neg hxp] at h
      obtain ⟨hm, hp⟩ := ih h
      exact ⟨List.mem_cons_of_mem _ hm, hp⟩

/-! ## Sortedness of the cleaned list -/

theorem cleanEntries_perm_dedup (l : List ScoringEntry) :
    List.Perm (cleanEntries l) (dedupEntries l) :=
  List.perm_insertionSort entryGE (dedupEntries l)

theorem cleanEntries_sorted (l : List ScoringEntry) :
    List.Sorted entryGE (cleanEntries l) :=
  List.sorted_insertionSort entryGE (dedupEntries l)

theorem cleanEntries_unique (l : List ScoringEntry) :
    UniquePerf (cleanEntries l) := by
  exact ((cleanEntries_perm_dedup l).pairwise_iff
    (fun h hes => h hes.symm)).mpr (unique_dedup l)

/-- The key characterisation: the entry retained for performance `p` is the
first entry of the original list attaining the maximal points value for `p`. -/
theorem cleanEntries_retained {l : List ScoringEntry} {p : Str} {e : ScoringEntry}
    (hmem : e ∈ cleanEntries l) (hperf : e.performance = p) :
    ∃ l₁ l₂, l = l₁ ++ e :: l₂ ∧
      (∀ x ∈ l₁, x.performance = p → x.points < e.points) ∧
      (∀ x ∈ l, x.performance = p → x.points ≤ e.points) := by
  have hmem' : e ∈ dedupEntries l :=
    (cleanEntries_perm_dedup l).mem_iff.mp hmem
  have hfind : findPerf p (dedupEntries l) = some e := by
    have := findPerf_of_mem_unique (unique_dedup l) hmem'
    rwa [hperf] at this
  rw [findPerf_dedup] at hfind
  obtain ⟨H1, H2⟩ := bestFor_eq_some l none e hfind
  rcases H1 with hinit | ⟨_, l₁, l₂, hl, _, hl₁⟩
  · cases hinit
  · exact ⟨l₁, l₂, hl, hl₁, H2⟩

/-! ## Lifting to the table level -/

theorem getA_map {β γ : Type} (f : β → γ) :
    ∀ (m : List (Str × β)) (k : Str),
      getA (m.map fun kv => (kv.1, f kv.2)) k = (getA m k).map f := by
  intro m
  induction m with
  | nil => intro k; rfl
  | cons kv rest ih =>
    intro k
    simp only [List.map_cons, getA]
    by_cases h : kv.1 = k
    · simp [h]
    · simp [h, ih]

theorem leafOf_cleanAndSort (t : Table) (g c e : Str) :
    leafOf (cleanAndSortData t) g c e = (leafOf t g c e).map cleanEntries := by
  unfold leafOf cleanAndSortData
  rw [getA_map (fun cats : CategoryMap =>
    cats.map fun ce => (ce.1, ce.2.map fun ee => (ee.1, cleanEntries ee.2)))]
  cases hg : getA t g with
  | none => rfl
  | some cats =>
    simp only [Option.map_some', Option.some_bind]
    rw [getA_map (fun evs : EventLeaves =>
      evs.map fun ee => (ee.1, cleanEntries ee.2))]
    cases hc : getA cats c with
    | none => rfl
    | some evs =>
      simp only [Option.map_some', Option.some_bind]
      rw [getA_map cleanEntries]

/-! ## Claim C1 -/

/-- C1: after `cleanAndSortData` runs on the aggregated table, every
`(gender, category, event)` leaf satisfies: (1) no two entries share an
equal performance string; (2) for every performance string observed in two
or more pre-pass entries, the retained entry's points equals the maximum
points over those entries (it dominates all of them and is attained by one
of them); (3) adjacent entries are ordered by non-increasing points. -/
theorem C1_clean_and_sort (t : Table) (g c e : Str)
    (pre post : List ScoringEntry)
    (hpre : leafOf t g c e = some pre)
    (hpost : leafOf (cleanAndSortData t) g c e = some post) :
    (post.Pairwise fun a b => a.performance ≠ b.performance) ∧
    (∀ p : Str,
      2 ≤ (pre.filter fun x => decide (x.performance = p)).length →
      ∃ y ∈ post, y.performance = p ∧
        (∀ x ∈ pre, x.performance = p → x.points ≤ y.points) ∧
        (∃ x ∈ pre, x.performance = p ∧ y.points = x.points)) ∧
    (∀ i : Nat, ∀ h : i + 1 < post.length,
      (post.get ⟨i + 1, h⟩).points ≤
        (post.get ⟨i, Nat.lt_of_succ_lt h⟩).points) := by
  have hpc : post = cleanEntries pre := by
    rw [leafOf_cleanAndSort, hpre] at hpost
    exact (Option.some_inj.mp hpost).symm
  subst hpc
  refine ⟨cleanEntries_unique pre, ?_, ?_⟩
  · intro p hcount
    have hne : (pre.filter fun x => decide (x.performance = p)) ≠ [] := by
      intro hnil
      rw [hnil] at hcount
      exact absurd hcount (by simp)
    obtain ⟨x0, hx0⟩ := List.exists_mem_of_ne_nil _ hne
    obtain ⟨hx0m, hx0p⟩ := List.mem_filter.mp hx0
    have hx0p' : x0.performance = p := of_decide_eq_true hx0p
    cases hb : bestFor p pre none with
    | none =>
      obtain ⟨-, hall⟩ := bestFor_eq_none pre none hb
      exact absurd hx0p' (hall x0 hx0m)
    | some y =>
      have hfind : findPerf p (dedupEntries pre) = some y := by
        rw [findPerf_dedup]; exact hb
      obtain ⟨hymem, hyperf⟩ := findPerf_mem hfind
      obtain ⟨H1, H2⟩ := bestFor_eq_some pre none y hb
      rcases H1 with hinit | ⟨-, l₁, l₂, hl, -, -⟩
      · cases hinit
      · refine ⟨y, ?_, hyperf, H2, y, ?_, hyperf, rfl⟩
        · exact (cleanEntries_perm_dedup pre).mem_iff.mpr hymem
        · rw [hl]
          exact List.mem_append_right _ (List.mem_cons_self _ _)
  · intro i h
    have hs := cleanEntries_sorted pre
    exact hs.rel_get_of_lt (by exact Fin.mk_lt_mk.mpr (Nat.lt_succ_self i))

/-- Witness for C1 at a concrete table: one leaf holding two entries with
the same performance `9.46` and points 1400 and 1200. -/
theorem C1_clean_and_sort_witness :
    ((cleanEntries [⟨"9.46".toList, (1400 : Int)⟩, ⟨"9.46".toList, 1200⟩]).Pairwise
        fun a b => a.performance ≠ b.performance) ∧
    (∀ p : Str,
      2 ≤ (([⟨"9.46".toList, (1400 : Int)⟩,
          ⟨"9.46".toList, 1200⟩] : List ScoringEntry).filter
            fun x => decide (x.performance = p)).length →
      ∃ y ∈ cleanEntries [⟨"9.46".toList, (1400 : Int)⟩, ⟨"9.46".toList, 1200⟩],
        y.performance = p ∧
        (∀ x ∈ ([⟨"9.46".toList, (1400 : Int)⟩,
            ⟨"9.46".toList, 1200⟩] : List ScoringEntry),
          x.performance = p → x.points ≤ y.points) ∧
        (∃ x ∈ ([⟨"9.46".toList, (1400 : Int)⟩,
            ⟨"9.46".toList, 1200⟩] : List ScoringEntry),
          x.performance = p ∧ y.points = x.points)) ∧
    (∀ i : Nat,
      ∀ h : i + 1 <
        (cleanEntries [⟨"9.46".toList, (1400 : Int)⟩,
          ⟨"9.46".toList, 1200⟩]).length,
      ((cleanEntries [⟨"9.46".toList, (1400 : Int)⟩,
          ⟨"9.46".toList, 1200⟩]).get ⟨i + 1, h⟩).points ≤
        ((cleanEntries [⟨"9.46".toList, (1400 : Int)⟩,
          ⟨"9.46".toList, 1200⟩]).get ⟨i, Nat.lt_of_succ_lt h⟩).points) :=
  C1_clean_and_sort
    [("men".toList, [("sprints".toList,
      [("100m".toList, [⟨"9.46".toList, (1400 : Int)⟩, ⟨"9.46".toList, 1200⟩])])])]
    "men".toList "sprints".toList "100m".toList
    [⟨"9.46".toList, (1400 : Int)⟩, ⟨"9.46".toList, 1200⟩]
    (cleanEntries [⟨"9.46".toList, (1400 : Int)⟩, ⟨"9.46".toList, 1200⟩])
    (by decide) (by decide)

/-! ## Claim C9 -/

/-- C9: in the clean-and-sort deduplication, the retained entry for a
performance string is the earliest entry of the accumulated list whose
points attain the maximum: every strictly earlier entry with the same
performance has strictly smaller points, so a later entry with equal
points never replaces the stored one. -/
theorem C9_tie_keeps_earlier (l : List ScoringEntry) (p : Str)
    (e : ScoringEntry) (hmem : e ∈ cleanEntries l)
    (hperf : e.performance = p) :
    ∃ l₁ l₂, l = l₁ ++ e :: l₂ ∧
      (∀ x ∈ l₁, x.performance = p → x.points < e.points) ∧
      (∀ x ∈ l, x.performance = p → x.points ≤ e.points) :=
  cleanEntries_retained hmem hperf

/-- Witness for C9: a list with an exact duplicate (an equal-points tie);
the retained entry is characterised as the earliest maximal one. -/
theorem C9_tie_keeps_earlier_witness :
    ∃ l₁ l₂,
      ([⟨"9.46".toList, (1400 : Int)⟩, ⟨"9.46".toList, 1400⟩,
        ⟨"9.47".toList, 1000⟩] : List ScoringEntry) =
        l₁ ++ (⟨"9.46".toList, (1400 : Int)⟩ : ScoringEntry) :: l₂ ∧
      (∀ x ∈ l₁, x.performance = "9.46".toList →
        x.points < (1400 : Int)) ∧
      (∀ x ∈ ([⟨"9.46".toList, (1400 : Int)⟩, ⟨"9.46".toList, 1400⟩,
          ⟨"9.47".toList, 1000⟩] : List ScoringEntry),
        x.performance = "9.46".toList → x.points ≤ (1400 : Int)) :=
  C9_tie_keeps_earlier
    [⟨"9.46".toList, (1400 : Int)⟩, ⟨"9.46".toList, 1400⟩, ⟨"9.47".toList, 1000⟩]
    "9.46".toList ⟨"9.46".toList, (1400 : Int)⟩ (by decide) (by decide)

/-! ## Row tokenisation and reconstruction
(`parseCrossReferencedRow`, index.js lines 269-365)

A data line is split on whitespace runs; each token is then repaired:
tokens that are not already a clean dash or a `\d+[\.:]\d+` literal are
scanned for embedded `\d+[\.:]\d{2}` performance substrings, with dashes
around the matches re-emitted as separate placeholder tokens. -/

/-- State machine for `line.split(/\s+/).filter(col => col.trim())`:
`cur` accumulates the current token's characters in reverse. -/
def splitGo (cur : Str) : Str → List Str
  | [] => if cur.isEmpty then [] else [cur.reverse]
  | c :: rest =>
    if isWsC c then
      if cur.isEmpty then splitGo [] rest
      else cur.reverse :: splitGo [] rest
    else splitGo (c :: cur) rest

/-- `line.split(/\s+/).filter(col => col.trim())`. -/
def splitWs (s : Str) : List Str := splitGo [] s

/-- Full match of `/^\d+[\.:]\d+$/`. -/
def isPerfLit (t : Str) : Bool :=
  let ds := t.takeWhile isDigitC
  let r1 := t.dropWhile isDigitC
  !ds.isEmpty &&
    match r1 with
    | sep :: r2 =>
      (sep = '.' || sep = ':') && !r2.isEmpty && r2.all isDigitC
    | [] => false

/-- Leftmost match of `/\d+[\.:]\d{2}/` at the head of `s`:
returns the matched string and the remainder after it. -/
def matchPerfAt (s : Str) : Option (Str × Str) :=
  let ds := s.takeWhile isDigitC
  if ds.isEmpty then none
  else
    match s.dropWhile isDigitC with
    | sep :: a :: b :: r2 =>
      if (sep = '.' || sep = ':') && isDigitC a && isDigitC b then
        some (ds ++ [sep, a, b], r2)
      else none
    | _ => none

/-- All matches of `/\d+[\.:]\d{2}/g`, fuelled scan (a successful match
consumes at least four characters, so fuel `s.length` never runs out). -/
def perfMatchesF : Nat → Str → List Str
  | 0, _ => []
  | _, [] => []
  | fuel + 1, c :: rest =>
    match matchPerfAt (c :: rest) with
    | some (m, rem) => m :: perfMatchesF fuel rem
    | none => perfMatchesF fuel rest

/-- All matches of `/\d+[\.:]\d{2}/g` over `s`, in order
(`token.match(...)`). -/
def perfMatches (s : Str) : List Str := perfMatchesF s.length s

/-- `s.indexOf(pat)` (`none` when absent). -/
def indexOfAux : Str → Str → Option Nat
  | s, pat =>
    if startsWithStr s pat then some 0
    else
      match s with
      | [] => none
      | _ :: rest => (indexOfAux rest pat).map (· + 1)

/-- `s.indexOf(pat, i)`. -/
def indexOfFrom (s pat : Str) (i : Nat) : Option Nat :=
  (indexOfAux (s.drop i) pat).map (· + i)

/-- Repair one whitespace-split token (the `flatMap` body). -/
def reconstructToken (t : Str) : List Str :=
  if t = ['-'] || t = ['-', '-'] || isPerfLit t then
    if t = ['-', '-'] then [['-'], ['-']] else [t]
  else
    let ms := perfMatches t
    match ms with
    | [] => [t]
    | _ :: _ =>
      let step := fun (acc : List Str × Nat) (m : Str) =>
        match indexOfFrom t m acc.2 with
        | some idx =>
          let before := (t.drop acc.2).take (idx - acc.2)
          (acc.1 ++ ((before.filter fun ch => decide (ch = '-')).map
              fun _ => (['-'] : Str)) ++ [m],
            idx + m.length)
        | none => acc
          -- unreachable: each matched string occurs in `t` at or after the
          -- previous match's end, so `indexOf` always succeeds here
      let fin := ms.foldl step ([], 0)
      let parts := fin.1 ++ (((t.drop fin.2).filter fun ch =>
        decide (ch = '-')).map fun _ => (['-'] : Str))
      match parts with
      | [] => [t]
      | _ :: _ => parts

/-- Token repair over a whole row (`allTokens.flatMap`). -/
def reconstructTokens (ts : List Str) : List Str :=
  ts.flatMap reconstructToken

/-! ## Row mapping (points extraction and positional zipping) -/

/-- Which side of the row holds the points column. -/
inductive Side where
  | left
  | right
deriving DecidableEq

/-- The transient row value: points plus the optional performances,
positionally aligned with the active header's event keys. -/
structure DataRow where
  points : Int
  performances : List (Option Str)
  events : List Str
deriving DecidableEq

/-- `parsePerformanceValue` (index.js lines 371-380): dashes and anything
not matching `/^[\d:.]+$/` become `null`. -/
def parsePerformanceValue (v : Str) : Option Str :=
  if v.isEmpty || v = ['-'] then none
  else if v.all fun c => isDigitC c || c = ':' || c = '.' then some v
  else none

/-- JavaScript `parseInt` with radix unspecified: leading whitespace and
sign, hexadecimal when the digits start with `0x`/`0X`, decimal otherwise,
ignoring trailing garbage; `none` models `NaN`. -/
def parseIntJS (s : Str) : Option Int :=
  let t := s.dropWhile isWsC
  let sign : Int := match t with
    | '-' :: _ => -1
    | _ => 1
  let t1 : Str := match t with
    | '+' :: r => r
    | '-' :: r => r
    | _ => t
  let isHexC : Char → Bool := fun c =>
    isDigitC c || ('a' ≤ c && c ≤ 'f') || ('A' ≤ c && c ≤ 'F')
  let hexDigitVal : Char → Nat := fun c =>
    if isDigitC c then c.toNat - '0'.toNat
    else if 'a' ≤ c && c ≤ 'f' then c.toNat - 'a'.toNat + 10
    else c.toNat - 'A'.toNat + 10
  match t1 with
  | '0' :: x :: r =>
    if x = 'x' || x = 'X' then
      let hs := r.takeWhile isHexC
      if hs.isEmpty then none
      else some (sign * (hs.foldl (fun acc c => acc * 16 + (hexDigitVal c : Int)) 0))
    else
      some (sign * (((('0' :: x :: r) : Str).takeWhile isDigitC).foldl
        (fun acc c => acc * 10 + ((c.toNat - '0'.toNat : Nat) : Int)) 0))
  | _ =>
    let ds := t1.takeWhile isDigitC
    if ds.isEmpty then none
    else some (sign * (ds.foldl
      (fun acc c => acc * 10 + ((c.toNat - '0'.toNat : Nat) : Int)) 0))

/-- The designated points token for a side. -/
def pointsTokenOf (allTokens : List Str) : Side → Str
  | Side.left => allTokens.headD []
  | Side.right => allTokens.getLastD []

/-- Map the repaired tokens of a row against the active header (index.js
lines 324-365): extract and range-check the points token, then zip the
remaining tokens positionally against the event keys. -/
def mapRow (allTokens : List Str) (eventHeaders : List Str) (side : Side) :
    Option DataRow :=
  if allTokens.isEmpty then none
  else
    match parseIntJS (pointsTokenOf allTokens side) with
    | none => none
    | some pts =>
      if pts < 0 || pts > 1500 then none
      else
        let perfToks := match side with
          | Side.left => allTokens.tail
          | Side.right => allTokens.dropLast
        let performances := (List.range eventHeaders.length).map fun i =>
          match perfToks.get? i with
          | some v => parsePerformanceValue v
          | none => none
        some ⟨pts, performances, eventHeaders⟩

/-- The whole of `parseCrossReferencedRow` on a raw line.  When no points
column side is active the source leaves `points` as `null` and the caller
drops the row; that case is fused into `none` here. -/
def parseCrossReferencedRow (line : Str) (eventHeaders : List Str)
    (side : Option Side) : Option DataRow :=
  match side with
  | none => none
  | some sd => mapRow (reconstructTokens (splitWs line)) eventHeaders sd

/-! ## Claim C3 -/

/-- C3: token reconstruction splits concatenated performance tokens on the
pattern "one or more digits, then `.` or `:`, then exactly two digits",
preserving interspersed dashes in order: the single token
`-5.79-9.50-19.42` reconstructs to `["-","5.79","-","9.50","-","19.42"]`,
and `9.5219.03` splits into `9.52` and `19.03` (not `9.521` and `9.03`). -/
theorem C3_token_reconstruction :
    reconstructTokens ["-5.79-9.50-19.42".toList] =
      [['-'], "5.79".toList, ['-'], "9.50".toList, ['-'], "19.42".toList] ∧
    reconstructTokens ["9.5219.03".toList] =
      ["9.52".toList, "19.03".toList] := by
  exact ⟨rfl, rfl⟩

/-! ## Claim C4 -/

/-- C4: whenever row mapping succeeds, the designated points token (first
token for `pointsSide = left`, last token for `right`) parsed as an
integer in `[0, 1500]`, and that integer is the returned row's points;
equivalently the mapper returns `none` unless the designated token parses
into that range. -/
theorem C4_points_token_contract (tokens : List Str) (headers : List Str)
    (side : Side) (row : DataRow)
    (h : mapRow tokens headers side = some row) :
    ∃ n : Int, parseIntJS (pointsTokenOf tokens side) = some n ∧
      0 ≤ n ∧ n ≤ 1500 ∧ row.points = n := by
  unfold mapRow at h
  by_cases he : tokens.isEmpty
  · rw [if_pos he] at h; cases h
  · rw [if_neg he] at h
    cases hp : parseIntJS (pointsTokenOf tokens side) with
    | none => rw [hp] at h; cases h
    | some pts =>
      rw [hp] at h
      dsimp only at h
      split at h
      · cases h
      · rename_i hrange
        simp only [Bool.or_eq_true, decide_eq_true_eq, not_or, not_lt] at hrange
        refine ⟨pts, rfl, hrange.1, hrange.2, ?_⟩
        injection h with h'
        rw [← h']

/-- Witness for C4 at a concrete accepted row. -/
theorem C4_points_token_contract_witness :
    ∃ n : Int,
      parseIntJS (pointsTokenOf ["1400".toList, "9.46".toList] Side.left) =
        some n ∧ 0 ≤ n ∧ n ≤ 1500 ∧
      (DataRow.mk 1400 [some "9.46".toList] ["100m".toList]).points = n :=
  C4_points_token_contract ["1400".toList, "9.46".toList] ["100m".toList]
    Side.left ⟨1400, [some "9.46".toList], ["100m".toList]⟩ (by decide)

/-! ## The event catalog (`events-config.js`, `buildEventMap`)

Only the data reachable through `getCategoryForEvent` / `isKnownEvent`
matters to the extractor: the map from canonical event key to category.
The catalog below is generated following `buildEventMap` exactly; the
numeric base names (`` `${distance}${unit}` ``) are pre-rendered as string
literals.  All generated keys are distinct, so an association list with
first-match lookup coincides with the JavaScript `Map`. -/

/-- One track-event catalog row: pre-rendered base name, category, and the
`allowHurdles` / `allowShortTrack` / `allowSteeplechase` flags. -/
structure TrackEvent where
  base : String
  category : String
  allowH : Bool
  allowSh : Bool
  allowSc : Bool

/-- `eventsConfig.trackEvents` (sprints, middle distance, long distance;
race walks are generated separately, as in the source). -/
def trackEventsList : List TrackEvent :=
  [⟨"50m", "sprints", true, false, false⟩,
   ⟨"55m", "sprints", true, false, false⟩,
   ⟨"60m", "sprints", true, false, false⟩,
   ⟨"100m", "sprints", true, false, false⟩,
   ⟨"110m", "sprints", true, false, false⟩,
   ⟨"150m", "sprints", false, false, false⟩,
   ⟨"200m", "sprints", true, true, false⟩,
   ⟨"300m", "sprints", true, true, false⟩,
   ⟨"400m", "sprints", true, true, false⟩,
   ⟨"500m", "sprints", false, true, false⟩,
   ⟨"600m", "middle_distance", true, true, false⟩,
   ⟨"800m", "middle_distance", true, true, false⟩,
   ⟨"1000m", "middle_distance", true, true, false⟩,
   ⟨"1500m", "middle_distance", false, true, false⟩,
   ⟨"1mile", "middle_distance", false, true, false⟩,
   ⟨"2000m", "middle_distance", false, true, true⟩,
   ⟨"3000m", "long_distance", false, true, true⟩,
   ⟨"5000m", "long_distance", false, true, false⟩,
   ⟨"10000m", "long_distance", false, false, false⟩,
   ⟨"2km", "long_distance", false, true, false⟩,
   ⟨"2mile", "long_distance", false, true, false⟩,
   ⟨"5km", "long_distance", false, true, false⟩,
   ⟨"10km", "long_distance", false, true, false⟩,
   ⟨"10mile", "long_distance", false, true, false⟩,
   ⟨"15km", "long_distance", false, false, false⟩,
   ⟨"20km", "long_distance", false, false, false⟩,
   ⟨"hm", "long_distance", false, false, false⟩,
   ⟨"25km", "long_distance", false, false, false⟩,
   ⟨"30km", "long_distance", false, false, false⟩,
   ⟨"marathon", "long_distance", false, false, false⟩,
   ⟨"100km", "long_distance", false, false, false⟩]

/-- Base event plus `h` / `sh` / `sc` variants, as `buildEventMap` adds
them for non-race-walk track events. -/
def trackVariants (e : TrackEvent) : List (Str × Str) :=
  [(e.base.toList, e.category.toList)] ++
  (if e.allowH then [(e.base.toList ++ " h".toList, e.category.toList)] else []) ++
  (if e.allowSh then [(e.base.toList ++ " sh".toList, e.category.toList)] else []) ++
  (if e.allowSc then [(e.base.toList ++ " sc".toList, e.category.toList)] else [])

/-- Race-walk rows: pre-rendered base name and whether the config row has
an explicit `name` (in which case the bare name is also a key). -/
def raceWalkList : List (String × Bool) :=
  [("3000m", false), ("5000m", false),
   ("10,000mW", true), ("15,000mW", true), ("20,000mW", true),
   ("30,000mW", true), ("35,000mW", true), ("50,000mW", true),
   ("3km", false), ("5km", false), ("10km", false), ("15km", false),
   ("20km", false), ("hmw", true), ("30km", false), ("35km", false),
   ("marw", true), ("50km", false)]

/-- `w`-modifier and `walk`-suffix variants (plus the bare name when the
config row carries one). -/
def walkVariants (e : String × Bool) : List (Str × Str) :=
  (if e.2 then [(e.1.toList, "race_walk".toList)] else []) ++
  [(e.1.toList ++ " w".toList, "race_walk".toList),
   (e.1.toList ++ " walk".toList, "race_walk".toList)]

/-- The full key → category map of `buildEventMap`. -/
def eventCatalog : List (Str × Str) :=
  trackEventsList.flatMap trackVariants ++
  (["hj", "pv", "lj", "tj"].map fun a => (a.toList, "jumps".toList)) ++
  (["sp", "dt", "ht", "jt", "wt"].map fun a => (a.toList, "throws".toList)) ++
  ([("dec", false), ("hept", true), ("pent", true)].flatMap
    fun (a : String × Bool) =>
      [(a.1.toList, "combined".toList)] ++
      (if a.2 then [(a.1.toList ++ " sh".toList, "combined".toList)] else [])) ++
  [("4x100m".toList, "relays".toList),
   ("4x200m".toList, "relays".toList), ("4x200m sh".toList, "relays".toList),
   ("4x400m".toList, "relays".toList), ("4x400m sh".toList, "relays".toList),
   ("4x400mix".toList, "relays".toList), ("4x400mix sh".toList, "relays".toList)] ++
  raceWalkList.flatMap walkVariants

/-- `getCategoryForEvent` (events-config.js lines 1052-1056). -/
def getCategoryForEvent (e : Str) : Option Str := getA eventCatalog e

/-- `isKnownEvent` (events-config.js lines 1063-1066). -/
def isKnownEvent (e : Str) : Bool := (getCategoryForEvent e).isSome

/-! ## The aggregation step
(`storeCrossReferencedData`, index.js lines 401-456) -/

/-- The `(gender, category)` scan context. -/
structure Section where
  gender : Option Str
  category : Option Str
deriving DecidableEq

/-- Append one entry under `t[g][c][e]`, creating the nested containers on
demand, exactly as the chain of `if (!this.tables[...]) ... = {}` /
`push` does. -/
def insertEntry (t : Table) (g c e : Str) (x : ScoringEntry) : Table :=
  updateA t g [] fun cats =>
    updateA cats c [] fun evs =>
      updateA evs e [] fun entries => entries ++ [x]

/-- The event's filing gender: events whose key contains `mix` go under
`mixed` regardless of the section gender. -/
def eventGenderOf (ev : Str) (g : Str) : Str :=
  if containsStr ev "mix".toList then "mixed".toList else g

/-- `storeCrossReferencedData`: guard `!section.gender || !points` (note
`0` is falsy), then for each positional `(performance, event)` pair with
both present, resolve the category (catalog first, section category as
fallback) and append; pairs without a resolvable category are skipped with
a warning. -/
def storeCrossReferencedData (sec : Section) (row : DataRow) (t : Table) :
    Table :=
  match sec.gender with
  | none => t
  | some g =>
    if row.points = 0 then t
    else
      (row.performances.zip row.events).foldl
        (fun tb pe =>
          match pe.1 with
          | none => tb
          | some perf =>
            if perf.isEmpty || pe.2.isEmpty then tb
            else
              match (getCategoryForEvent pe.2).orElse (fun _ => sec.category) with
              | none => tb
              | some cat =>
                insertEntry tb (eventGenderOf pe.2 g) cat pe.2 ⟨perf, row.points⟩)
        t

/-! ## Lemmas about nested-table insertion -/

theorem getA_updateA_self {β : Type} (m : List (Str × β)) (key : Str)
    (d : β) (f : β → β) :
    getA (updateA m key d f) key = some (f ((getA m key).getD d)) := by
  induction m with
  | nil => simp [updateA, getA]
  | cons kv rest ih =>
    obtain ⟨k, v⟩ := kv
    simp only [updateA]
    by_cases hk : k = key
    · simp [getA, hk]
    · simp [getA, hk, ih]

theorem getA_updateA_ne {β : Type} (m : List (Str × β)) {key k' : Str}
    (d : β) (f : β → β) (hne : k' ≠ key) :
    getA (updateA m key d f) k' = getA m k' := by
  have hne' : ¬ key = k' := fun h => hne h.symm
  induction m with
  | nil => simp [updateA, getA, hne']
  | cons kv rest ih =>
    obtain ⟨k, v⟩ := kv
    simp only [updateA]
    by_cases hk : k = key
    · subst hk
      simp [getA, hne']
    · simp only [if_neg hk, getA]
      by_cases hk' : k = k'
      · simp [hk']
      · simp [hk', ih]

/-- Reading back the leaf one just inserted into. -/
theorem leaf_insertEntry_self (t : Table) (g c e : Str) (x : ScoringEntry) :
    leafOf (insertEntry t g c e x) g c e =
      some (((leafOf t g c e).getD []) ++ [x]) := by
  unfold insertEntry leafOf
  rw [getA_updateA_self]
  simp only [Option.some_bind]
  rw [getA_updateA_self]
  simp only [Option.some_bind]
  rw [getA_updateA_self]
  cases hg : getA t g with
  | none => simp [getA]
  | some cats =>
    simp only [Option.some_bind, Option.getD_some]
    cases hc : getA cats c with
    | none => simp [getA]
    | some evs =>
      simp only [Option.some_bind, Option.getD_some]

/-- Entries already filed under any leaf survive an insertion. -/
theorem mem_leaf_insertEntry (t : Table) (g c e g' c' e' : Str)
    (x y : ScoringEntry) (h : y ∈ (leafOf t g c e).getD []) :
    y ∈ (leafOf (insertEntry t g' c' e' x) g c e).getD [] := by
  by_cases hg : g = g'
  · subst hg
    by_cases hc : c = c'
    · subst hc
      by_cases he : e = e'
      · subst he
        rw [leaf_insertEntry_self]
        simp only [Option.getD_some]
        exact List.mem_append_left _ h
      · unfold insertEntry leafOf
        rw [getA_updateA_self]
        simp only [Option.some_bind]
        rw [getA_updateA_self]
        simp only [Option.some_bind]
        rw [getA_updateA_ne _ _ _ he]
        unfold leafOf at h
        cases hg' : getA t g with
        | none =>
          rw [hg'] at h
          simp only [Option.none_bind, Option.getD_none] at h
          cases h
        | some cats =>
          rw [hg'] at h
          simp only [Option.some_bind, Option.getD_some] at h ⊢
          cases hc' : getA cats c with
          | none =>
            rw [hc'] at h
            simp only [Option.none_bind, Option.getD_none] at h
            cases h
          | some evs =>
            rw [hc'] at h
            simpa [hc'] using h
    · unfold insertEntry leafOf
      rw [getA_updateA_self]
      simp only [Option.some_bind]
      rw [getA_updateA_ne _ _ _ hc]
      unfold leafOf at h
      cases hg' : getA t g with
      | none =>
        rw [hg'] at h
        simp only [Option.none_bind, Option.getD_none] at h
        cases h
      | some cats =>
        rw [hg'] at h
        simpa [hg'] using h
  · unfold insertEntry leafOf
    rw [getA_updateA_ne _ _ _ hg]
    unfold leafOf at h
    exact h

/-- The per-pair step of `storeCrossReferencedData`'s loop. -/
def storeStep (sec : Section) (g : Str) (pts : Int)
    (tb : Table) (pe : Option Str × Str) : Table :=
  match pe.1 with
  | none => tb
  | some perf =>
    if perf.isEmpty || pe.2.isEmpty then tb
    else
      match (getCategoryForEvent pe.2).orElse (fun _ => sec.category) with
      | none => tb
      | some cat =>
        insertEntry tb (eventGenderOf pe.2 g) cat pe.2 ⟨perf, pts⟩

theorem store_eq_fold (sec : Section) (row : DataRow) (t : Table) (g : Str)
    (hg : sec.gender = some g) (hp : row.points ≠ 0) :
    storeCrossReferencedData sec row t =
      (row.performances.zip row.events).foldl
        (storeStep sec g row.points) t := by
  unfold storeCrossReferencedData
  rw [hg]
  simp only [if_neg hp]
  rfl

theorem mem_leaf_storeStep (sec : Section) (g : Str) (pts : Int)
    (tb : Table) (pe : Option Str × Str) (gk ck ek : Str) (y : ScoringEntry)
    (h : y ∈ (leafOf tb gk ck ek).getD []) :
    y ∈ (leafOf (storeStep sec g pts tb pe) gk ck ek).getD [] := by
  unfold storeStep
  cases pe.1 with
  | none => exact h
  | some perf =>
    by_cases hpe : perf.isEmpty || pe.2.isEmpty
    · simpa [hpe] using h
    · simp only [hpe, Bool.false_eq_true, if_false]
      cases (getCategoryForEvent pe.2).orElse (fun _ => sec.category) with
      | none => exact h
      | some cat => exact mem_leaf_insertEntry _ _ _ _ _ _ _ _ _ h

theorem mem_leaf_storeFold (sec : Section) (g : Str) (pts : Int)
    (gk ck ek : Str) (y : ScoringEntry) :
    ∀ (ps : List (Option Str × Str)) (tb : Table),
      y ∈ (leafOf tb gk ck ek).getD [] →
      y ∈ (leafOf (ps.foldl (storeStep sec g pts) tb) gk ck ek).getD [] := by
  intro ps
  induction ps with
  | nil => intro tb h; exact h
  | cons pe ps ih =>
    intro tb h
    exact ih _ (mem_leaf_storeStep sec g pts tb pe gk ck ek y h)

/-! ## Claim C5 -/

/-- C5 counterexample: a row whose points value is `0` is inside the
accepted range `[0, 1500]`, the section gender is set, the event `100m` is
in the catalog and the performance is present — the claim therefore
demands that a ScoringEntry be appended — yet `storeCrossReferencedData`
leaves the table empty, because its guard `!section.gender || !points`
treats the points value `0` as falsy and discards the whole row. -/
theorem C5_counterexample :
    (Section.mk (some "men".toList) (some "sprints".toList)).gender ≠ none ∧
    isKnownEvent "100m".toList = true ∧
    (0 : Int) ≤ 0 ∧ (0 : Int) ≤ 1500 ∧
    storeCrossReferencedData
      (Section.mk (some "men".toList) (some "sprints".toList))
      (DataRow.mk 0 [some "9.46".toList] ["100m".toList]) [] = [] := by
  refine ⟨by simp, by decide, le_refl 0, by decide, ?_⟩
  rfl

/-- C5 amended: for a row accepted by the row mapper, a positional
`(performance, event)` pair is discarded when the section gender is unset,
when the row's points value is `0` (falsy), or when the event key is not
in the catalog and the section category is also unset; in every other
case a ScoringEntry with that performance and the row's points is appended
to the table under the event's filing gender and resolved category. -/
theorem C5_store_contract (sec : Section) (row : DataRow) (t : Table) :
    (sec.gender = none → storeCrossReferencedData sec row t = t) ∧
    (row.points = 0 → storeCrossReferencedData sec row t = t) ∧
    (∀ g, sec.gender = some g → row.points ≠ 0 →
      ∀ i perf ev,
        (row.performances.zip row.events).get? i = some (some perf, ev) →
        ¬ perf.isEmpty → ¬ ev.isEmpty →
        ∀ cat, (getCategoryForEvent ev).orElse (fun _ => sec.category) = some cat →
          (ScoringEntry.mk perf row.points) ∈
            (leafOf (storeCrossReferencedData sec row t)
              (eventGenderOf ev g) cat ev).getD []) ∧
    (∀ g perf ev, sec.gender = some g → row.points ≠ 0 →
      row.performances = [some perf] → row.events = [ev] →
      (getCategoryForEvent ev).orElse (fun _ => sec.category) = none →
      storeCrossReferencedData sec row t = t) := by
  refine ⟨?_, ?_, ?_, ?_⟩
  · intro h
    unfold storeCrossReferencedData
    rw [h]
  · intro h
    unfold storeCrossReferencedData
    cases sec.gender with
    | none => rfl
    | some g => simp [h]
  · intro g hg hp i perf ev hpair hperf hev cat hcat
    rw [store_eq_fold sec row t g hg hp]
    -- walk the fold to position `i`, insert, then grow monotonically
    have key : ∀ (ps : List (Option Str × Str)) (i : Nat) (tb : Table),
        ps.get? i = some (some perf, ev) →
        (ScoringEntry.mk perf row.points) ∈
          (leafOf (ps.foldl (storeStep sec g row.points) tb)
            (eventGenderOf ev g) cat ev).getD [] := by
      intro ps
      induction ps with
      | nil => intro i tb h; cases i <;> cases h
      | cons pe ps ih =>
        intro i tb h
        cases i with
        | zero =>
          simp only [List.get?_cons_zero] at h
          injection h with h'
          subst h'
          simp only [List.foldl_cons]
          apply mem_leaf_storeFold
          show (ScoringEntry.mk perf row.points) ∈
            (leafOf (storeStep sec g row.points tb (some perf, ev))
              (eventGenderOf ev g) cat ev).getD []
          unfold storeStep
          simp only
          rw [if_neg (by simp [hperf, hev])]
          rw [hcat]
          rw [leaf_insertEntry_self]
          simp
        | succ j =>
          simp only [List.get?_cons_succ] at h
          simp only [List.foldl_cons]
          exact ih j _ h
    exact key _ i t hpair
  · intro g perf ev hg hp hperfs hevs hcat
    rw [store_eq_fold sec row t g hg hp, hperfs, hevs]
    simp only [List.zip_cons_cons, List.zip_nil_right, List.foldl_cons,
      List.foldl_nil]
    unfold storeStep
    simp only
    split
    · rfl
    · rw [hcat]

/-- Witness for the amended C5 at a concrete accepted pair. -/
theorem C5_store_contract_witness :
    (ScoringEntry.mk "9.46".toList 1400) ∈
      (leafOf (storeCrossReferencedData
          (Section.mk (some "men".toList) (some "sprints".toList))
          (DataRow.mk 1400 [some "9.46".toList] ["100m".toList]) [])
        (eventGenderOf "100m".toList "men".toList)
        "sprints".toList "100m".toList).getD [] :=
  (C5_store_contract
      (Section.mk (some "men".toList) (some "sprints".toList))
      (DataRow.mk 1400 [some "9.46".toList] ["100m".toList]) []).2.2.1
    "men".toList rfl (by decide) 0 "9.46".toList "100m".toList
    (by decide) (by decide) (by decide) "sprints".toList (by decide)

/-! ## Event-name normalisation (`normalizeEventName`, index.js lines 191-263)

Each regular-expression operation of the source is realised as a concrete
scanner with the same semantics for the pattern in question: leftmost
match, ordered alternation, greedy quantifiers and `\b` word boundaries.
Scanners whose matches consume more than one character take an explicit
fuel argument (always instantiated with the string length, which a match
can never exhaust) so that every definition is structurally recursive. -/

/-- `\b` seen from the left: the previous character (if any) is not a word
character.  All the patterns below start with a word character, so a word
boundary before the match means exactly this. -/
def boundaryBefore : Option Char → Bool
  | none => true
  | some c => !isWordC c

/-- `\b` seen from the right: the next character (if any) is not a word
character.  All the patterns below end with a word character. -/
def okAfter : Str → Bool
  | [] => true
  | c :: _ => !isWordC c

/-- Scanner for `replace(/\bmiles\b/g, 'mile')`; `prev` tracks the
character before the current scan position. -/
def r1F : Nat → Option Char → Str → Str
  | 0, _, s => s
  | _, _, [] => []
  | fuel + 1, prev, c :: rest =>
    if boundaryBefore prev &&
        startsWithStr (c :: rest) ['m', 'i', 'l', 'e', 's'] &&
        okAfter ((c :: rest).drop 5) then
      'm' :: 'i' :: 'l' :: 'e' :: r1F fuel (some 's') ((c :: rest).drop 5)
    else c :: r1F fuel (some c) rest

/-- `replace(/\bmiles\b/g, 'mile')`. -/
def replaceMiles (s : Str) : Str := r1F s.length none s

/-- The unit group `(m|km|mile)\b`, alternatives in source order, returning
the consumed unit and the remainder. -/
def unitAt (s : Str) : Option (Str × Str) :=
  match s with
  | 'm' :: r =>
    if okAfter r then some (['m'], r)
    else
      match r with
      | 'i' :: 'l' :: 'e' :: r2 =>
        if okAfter r2 then some (['m', 'i', 'l', 'e'], r2) else none
      | _ => none
  | 'k' :: 'm' :: r => if okAfter r then some (['k', 'm'], r) else none
  | _ => none

/-- The modifier group `(h|sh|sc|w)\b`. -/
def modAt (s : Str) : Option (Str × Str) :=
  match s with
  | 'h' :: r => if okAfter r then some (['h'], r) else none
  | 's' :: 'h' :: r => if okAfter r then some (['s', 'h'], r) else none
  | 's' :: 'c' :: r => if okAfter r then some (['s', 'c'], r) else none
  | 'w' :: r => if okAfter r then some (['w'], r) else none
  | _ => none

/-- The optional fraction `(?:\.\d+)?` (greedy; matches empty when no digit
follows the dot). -/
def fracAt (s : Str) : Str × Str :=
  match s with
  | '.' :: r =>
    if (r.takeWhile isDigitC).isEmpty then ([], s)
    else ('.' :: r.takeWhile isDigitC, r.dropWhile isDigitC)
  | _ => ([], s)

/-- Match of `(\d+(?:\.\d+)?)\s+(m|km|mile)\b` at the head of `s`,
returning the replacement `$1$2` and the remainder. -/
def match3At (s : Str) : Option (Str × Str) :=
  if (s.takeWhile isDigitC).isEmpty then none
  else
    match fracAt (s.dropWhile isDigitC) with
    | (fr, r1) =>
      if (r1.takeWhile isWsC).isEmpty then none
      else
        match unitAt (r1.dropWhile isWsC) with
        | some (u, rem) => some (s.takeWhile isDigitC ++ fr ++ u, rem)
        | none => none

/-- Generic driver of a global regex replace: scan left to right, at each
position either rewrite the leftmost match via `M` (emitting the
replacement and resuming after the consumed region) or emit the
character unchanged. -/
def scanF (M : Str → Option (Str × Str)) : Nat → Str → Str
  | 0, s => s
  | _, [] => []
  | fuel + 1, c :: rest =>
    match M (c :: rest) with
    | some (em, rem) => em ++ scanF M fuel rem
    | none => c :: scanF M fuel rest

/-- `replace(/(\d+(?:\.\d+)?)\s+(m|km|mile)\b/g, '$1$2')`. -/
def joinUnits (s : Str) : Str := scanF match3At s.length s

/-- The sequence `(m|km|mile)(h|sh|sc|w)\b` with the regex engine's
backtracking over the unit alternatives. -/
def unitModAt (s : Str) : Option (Str × Str × Str) :=
  match s with
  | 'm' :: r =>
    (match modAt r with
     | some (md, r2) => some (['m'], md, r2)
     | none =>
       match r with
       | 'i' :: 'l' :: 'e' :: r2 =>
         (match modAt r2 with
          | some (md, r3) => some (['m', 'i', 'l', 'e'], md, r3)
          | none => none)
       | _ => none)
  | 'k' :: 'm' :: r =>
    (match modAt r with
     | some (md, r2) => some (['k', 'm'], md, r2)
     | none => none)
  | _ => none

/-- Match of `(\d+(?:m|km|mile))(h|sh|sc|w)\b` at the head of `s`,
returning the replacement `$1 $2` and the remainder. -/
def match4At (s : Str) : Option (Str × Str) :=
  if (s.takeWhile isDigitC).isEmpty then none
  else
    match unitModAt (s.dropWhile isDigitC) with
    | some (u, md, rem) =>
      some (s.takeWhile isDigitC ++ u ++ ' ' :: md, rem)
    | none => none

/-- `replace(/(\d+(?:m|km|mile))(h|sh|sc|w)\b/g, '$1 $2')`. -/
def attachMod (s : Str) : Str := scanF match4At s.length s

/-- The lookahead body `ix\b`. -/
def lookIx : Str → Bool
  | 'i' :: 'x' :: r => okAfter r
  | _ => false

/-- Match of `(4x\d+m)(?!ix\b)(h|sh|sc|w)\b` at the head of `s`. -/
def match5At (s : Str) : Option (Str × Str) :=
  match s with
  | '4' :: 'x' :: r =>
    if (r.takeWhile isDigitC).isEmpty then none
    else
      match r.dropWhile isDigitC with
      | 'm' :: r2 =>
        if lookIx r2 then none
        else
          match modAt r2 with
          | some (md, rem) =>
            some ('4' :: 'x' :: (r.takeWhile isDigitC ++ 'm' :: ' ' :: md), rem)
          | none => none
      | _ => none
  | _ => none

/-- `replace(/(4x\d+m)(?!ix\b)(h|sh|sc|w)\b/g, '$1 $2')`. -/
def relayMod (s : Str) : Str := scanF match5At s.length s

/-- Full match of `/^\d{1,2},\d{3}mw$/i`. -/
def isCommaWalk (s : Str) : Bool :=
  match s with
  | a :: ',' :: b :: c :: d :: m :: w :: [] =>
    isDigitC a && isDigitC b && isDigitC c && isDigitC d &&
      (m = 'm' || m = 'M') && (w = 'w' || w = 'W')
  | a1 :: a2 :: ',' :: b :: c :: d :: m :: w :: [] =>
    isDigitC a1 && isDigitC a2 && isDigitC b && isDigitC c && isDigitC d &&
      (m = 'm' || m = 'M') && (w = 'w' || w = 'W')
  | _ => false

/-- `replace(/mw$/i, 'mW')`. -/
def replaceMwEnd (s : Str) : Str :=
  match s.reverse with
  | w :: m :: rest =>
    if (m = 'm' || m = 'M') && (w = 'w' || w = 'W') then
      rest.reverse ++ ['m', 'W']
    else s
  | _ => s

/-- Full match of `/^mile\s+(h|sh|sc|w)$/`. -/
def isMileMod (s : Str) : Bool :=
  match s with
  | 'm' :: 'i' :: 'l' :: 'e' :: r =>
    if (r.takeWhile isWsC).isEmpty then false
    else
      match r.dropWhile isWsC with
      | ['h'] => true
      | ['s', 'h'] => true
      | ['s', 'c'] => true
      | ['w'] => true
      | _ => false
  | _ => false

/-- The optional trailing modifier `(\s+(h|sh|sc|w))?$`. -/
def optModEnd (s : Str) : Bool :=
  match s with
  | [] => true
  | _ =>
    if (s.takeWhile isWsC).isEmpty then false
    else
      match s.dropWhile isWsC with
      | ['h'] => true
      | ['s', 'h'] => true
      | ['s', 'c'] => true
      | ['w'] => true
      | _ => false

/-- Full match of `/^4x\d+m(ix)?(\s+(h|sh|sc|w))?$/`. -/
def relayTest (s : Str) : Bool :=
  match s with
  | '4' :: 'x' :: r =>
    if (r.takeWhile isDigitC).isEmpty then false
    else
      match r.dropWhile isDigitC with
      | 'm' :: r2 =>
        (match r2 with
         | 'i' :: 'x' :: r3 => optModEnd r3
         | _ => optModEnd r2)
      | _ => false
  | _ => false

/-- Full match of the alternative `^\d+(?:\.\d+)?m?(\s+(h|sh|sc|w))?$`. -/
def alt1Test (s : Str) : Bool :=
  if (s.takeWhile isDigitC).isEmpty then false
  else
    match fracAt (s.dropWhile isDigitC) with
    | (_, r1) =>
      match r1 with
      | 'm' :: r2 => optModEnd r2
      | _ => optModEnd r1

/-- Full match of the alternative `^\d+(?:\.\d+)?km(\s+(h|sh|sc|w))?$`. -/
def alt2Test (s : Str) : Bool :=
  if (s.takeWhile isDigitC).isEmpty then false
  else
    match fracAt (s.dropWhile isDigitC) with
    | (_, r1) =>
      match r1 with
      | 'k' :: 'm' :: r2 => optModEnd r2
      | _ => false

/-- Full match of the alternative `^\d+(?:\.\d+)?mile(\s+(h|sh|sc|w))?$`. -/
def alt3Test (s : Str) : Bool :=
  if (s.takeWhile isDigitC).isEmpty then false
  else
    match fracAt (s.dropWhile isDigitC) with
    | (_, r1) =>
      match r1 with
      | 'm' :: 'i' :: 'l' :: 'e' :: r2 => optModEnd r2
      | _ => false

/-- The validation regex (index.js line 243): three anchored timed-event
alternatives plus the unanchored substrings `marathon` and `walk`. -/
def validationTest (s : Str) : Bool :=
  alt1Test s || alt2Test s || alt3Test s ||
    containsStr s "marathon".toList || containsStr s "walk".toList

/-- Full match of `/^(hm|hmw|marw)$/`. -/
def hmTest (s : Str) : Bool :=
  s = "hm".toList || s = "hmw".toList || s = "marw".toList

/-- Full match of `/^(hj|pv|lj|tj|sp|dt|ht|jt)$/`. -/
def fieldTest (s : Str) : Bool :=
  s = "hj".toList || s = "pv".toList || s = "lj".toList || s = "tj".toList ||
  s = "sp".toList || s = "dt".toList || s = "ht".toList || s = "jt".toList

/-- Tail of `hept`/`pent`: `\.?\s*sh$` or `\.?$`. -/
def shTail (r : Str) : Bool :=
  match r.dropWhile isWsC with
  | ['s', 'h'] => true
  | _ => false

def heptPentTail (r : Str) : Bool :=
  match r with
  | [] => true
  | '.' :: r2 => shTail r2 || r2.isEmpty
  | _ => shTail r

/-- Full match of
`/^(hept\.?\s*sh|hept\.?|pent\.?\s*sh|pent\.?|dec\.?|decathlon|heptathlon|pentathlon)$/`. -/
def combinedTest (s : Str) : Bool :=
  (match s with
   | 'h' :: 'e' :: 'p' :: 't' :: r => heptPentTail r
   | 'p' :: 'e' :: 'n' :: 't' :: r => heptPentTail r
   | 'd' :: 'e' :: 'c' :: r => r.isEmpty || r = ['.']
   | _ => false) ||
  s = "decathlon".toList || s = "heptathlon".toList || s = "pentathlon".toList

/-- `replace(/\./g, '')`. -/
def removeDots (s : Str) : Str := s.filter fun c => decide (c ≠ '.')

/-- The bare-`mile` promotion (index.js lines 215-220): `mile` becomes
`1mile`, `mile <modifier>` becomes `1mile <modifier>`. -/
def mileAdjust (s : Str) : Str :=
  if s = "mile".toList then '1' :: s
  else if isMileMod s then '1' :: s
  else s

/-- `normalizeEventName` (index.js lines 191-263), the ordered rule chain:
collapse whitespace; the comma-grouped walk special case; lowercase;
`miles`→`mile`; bare-`mile` promotion; unit joining; modifier
reattachment; relay modifier reattachment; then the terminal recognisers
in source order. -/
def normalizeEventName (s : Str) : Option Str :=
  if s.isEmpty then none
  else
    let n0 := collapseWs (trimStr s)
    if isCommaWalk n0 then some (replaceMwEnd n0)
    else
      let n1 := lowerStr n0
      let n2 := replaceMiles n1
      let n3 := mileAdjust n2
      let n4 := joinUnits n3
      let n5 := attachMod n4
      let n6 := relayMod n5
      if relayTest n6 then some n6
      else if validationTest n6 then some n6
      else if hmTest n6 then some n6
      else if fieldTest n6 then some n6
      else if combinedTest n6 then some (removeDots n6)
      else none

/-- `normalizeEventName` lifted to the nullable strings JavaScript passes
around (`if (!eventStr) return null`). -/
def normalizeOpt (s : Option Str) : Option Str :=
  match s with
  | none => none
  | some str => normalizeEventName str

/-! ## Substring occurrences -/

/-- `pat` occurs contiguously somewhere in `s`. -/
def containsOcc (s pat : Str) : Prop := ∃ a b, s = a ++ pat ++ b

theorem startsWithStr_iff {s pat : Str} :
    startsWithStr s pat = true ↔ ∃ b, s = pat ++ b := by
  induction pat generalizing s with
  | nil => simp [startsWithStr]
  | cons p ps ih =>
    cases s with
    | nil =>
      simp only [startsWithStr]
      constructor
      · intro h; cases h
      · rintro ⟨b, hb⟩; cases hb
    | cons c s' =>
      simp only [startsWithStr, Bool.and_eq_true, decide_eq_true_eq]
      constructor
      · rintro ⟨rfl, h⟩
        obtain ⟨b, rfl⟩ := ih.mp h
        exact ⟨b, rfl⟩
      · rintro ⟨b, hb⟩
        injection hb with h1 h2
        exact ⟨h1, ih.mpr ⟨b, h2⟩⟩

theorem containsStr_iff {s pat : Str} :
    containsStr s pat = true ↔ containsOcc s pat := by
  induction s with
  | nil =>
    rw [containsStr]
    cases pat with
    | nil => simp [startsWithStr, containsOcc]
    | cons p ps =>
      simp only [startsWithStr, Bool.or_false]
      constructor
      · intro h; cases h
      · rintro ⟨a, b, hab⟩
        exact absurd hab.symm (by simp)
  | cons c rest ih =>
    rw [containsStr]
    simp only [Bool.or_eq_true]
    constructor
    · rintro (h | h)
      · obtain ⟨b, hb⟩ := startsWithStr_iff.mp h
        exact ⟨[], b, by simpa using hb⟩
      · obtain ⟨a, b, hab⟩ := ih.mp h
        exact ⟨c :: a, b, by rw [hab]; rfl⟩
    · rintro ⟨a, b, hab⟩
      cases a with
      | nil =>
        left
        exact startsWithStr_iff.mpr ⟨b, by simpa using hab⟩
      | cons a0 a' =>
        right
        injection hab with h1 h2
        exact ih.mpr ⟨a', b, h2⟩

theorem containsOcc_cons {s pat : Str} (c : Char) (h : containsOcc s pat) :
    containsOcc (c :: s) pat := by
  obtain ⟨a, b, rfl⟩ := h
  exact ⟨c :: a, b, rfl⟩

theorem containsOcc_append_left {s pat : Str} (x : Str)
    (h : containsOcc s pat) : containsOcc (x ++ s) pat := by
  obtain ⟨a, b, rfl⟩ := h
  exact ⟨x ++ a, b, by simp⟩

/-! ## Generic facts about the replace driver `scanF` -/

/-- A run of characters none of which can start a match is emitted
verbatim by the scanner. -/
theorem scanF_verbatim (M : Str → Option (Str × Str)) (startOK : Char → Bool)
    (hhead : ∀ c t x, M (c :: t) = some x → startOK c = true) :
    ∀ (u : Str), (∀ c ∈ u, startOK c = false) →
    ∀ (fuel : Nat) (b : Str),
      scanF M (u.length + fuel) (u ++ b) = u ++ scanF M fuel b := by
  intro u
  induction u with
  | nil => intro _ fuel b; simp
  | cons c u' ih =>
    intro hu fuel b
    have hlen : (c :: u').length + fuel = (u'.length + fuel) + 1 := by
      simp [List.length_cons]; omega
    rw [hlen]
    show scanF M ((u'.length + fuel) + 1) (c :: (u' ++ b)) = _
    rw [scanF]
    cases hM : M (c :: (u' ++ b)) with
    | some x =>
      exact absurd (hhead c _ x hM)
        (by simp [hu c (List.mem_cons_self _ _)])
    | none =>
      rw [ih (fun d hd => hu d (List.mem_cons_of_mem _ hd)) fuel b]
      rfl

/-- Occurrence preservation for the replace driver: if every match
consists of characters from an alphabet `allowed`, ends at a `\b`
boundary, and can start only on a `startOK` character, then any
occurrence of a pattern `p0 :: p1 :: pr` with `p1` a word character
outside the alphabet and with no `startOK` characters in its tail
survives the replace. -/
theorem scanF_preserves (M : Str → Option (Str × Str))
    (allowed startOK : Char → Bool)
    (hcon : ∀ s em rem, M s = some (em, rem) →
      ∃ con, s = con ++ rem ∧ con ≠ [] ∧ (∀ c ∈ con, allowed c = true) ∧
        okAfter rem = true)
    (hhead : ∀ c t x, M (c :: t) = some x → startOK c = true)
    (p0 p1 : Char) (pr : Str)
    (hp1a : allowed p1 = false) (hp1w : isWordC p1 = true)
    (htail : ∀ c ∈ p1 :: pr, startOK c = false) :
    ∀ (fuel : Nat) (s : Str), s.length ≤ fuel →
      containsOcc s (p0 :: p1 :: pr) →
      containsOcc (scanF M fuel s) (p0 :: p1 :: pr) := by
  intro fuel
  induction fuel with
  | zero =>
    intro s hlen hocc
    have hs : s = [] := List.length_eq_zero.mp (Nat.le_zero.mp hlen)
    subst hs
    obtain ⟨a, b, hab⟩ := hocc
    exact absurd hab.symm (by simp)
  | succ f ih =>
    intro s hlen hocc
    cases s with
    | nil =>
      obtain ⟨a, b, hab⟩ := hocc
      exact absurd hab.symm (by simp)
    | cons c rest =>
      obtain ⟨a, b, hab⟩ := hocc
      rw [scanF]
      cases hM : M (c :: rest) with
      | none =>
        dsimp only
        cases a with
        | nil =>
          -- occurrence at the head: the pattern's tail is emitted verbatim
          simp only [List.nil_append] at hab
          injection hab with hc hrest
          subst hc
          simp only [List.append_eq] at hrest
          have hlen2 : (p1 :: pr).length ≤ f := by
            have hl := congrArg List.length hrest
            simp only [List.length_cons, List.length_append] at hl hlen ⊢
            omega
          have hf : f = (p1 :: pr).length + (f - (p1 :: pr).length) :=
            (Nat.add_sub_cancel' hlen2).symm
          rw [hrest, hf, scanF_verbatim M startOK hhead (p1 :: pr) htail]
          exact ⟨[], scanF M (f - (p1 :: pr).length) b, by simp⟩
        | cons a0 a' =>
          injection hab with hc hrest
          exact containsOcc_cons c
            (ih rest (by simpa using hlen) ⟨a', b, hrest⟩)
      | some x =>
        obtain ⟨em, rem⟩ := x
        dsimp only
        obtain ⟨con, hsplit, hconne, hallow, hafter⟩ := hcon _ _ _ hM
        by_cases hK : con.length ≤ a.length
        · -- the match lies entirely before the occurrence
          have hrem : rem = a.drop con.length ++ ((p0 :: p1 :: pr) ++ b) := by
            have h1 : (c :: rest).drop con.length = rem := by
              rw [hsplit, List.drop_left]
            rw [← h1, hab, List.append_assoc,
              List.drop_append_of_le_length hK]
          have hlenrem : rem.length ≤ f := by
            have h2 := congrArg List.length hsplit
            simp only [List.length_append, List.length_cons] at h2 hlen
            have h3 : 1 ≤ con.length := by
              cases con with
              | nil => exact absurd rfl hconne
              | cons _ _ => simp
            omega
          refine containsOcc_append_left em (ih rem hlenrem ?_)
          exact ⟨a.drop con.length, b, by rw [hrem]; simp⟩
        · -- the match would overlap the occurrence: impossible
          exfalso
          push_neg at hK
          have hdropA : (c :: rest).drop (a.length + 1) = p1 :: (pr ++ b) := by
            rw [hab]
            have : a ++ (p0 :: p1 :: pr) ++ b =
                (a ++ [p0]) ++ (p1 :: (pr ++ b)) := by simp
            rw [this]
            have hl : (a ++ [p0]).length = a.length + 1 := by simp
            rw [← hl, List.drop_left]
          rcases Nat.lt_or_ge (a.length + 1) con.length with hlt | hge
          · -- `p1` would be inside the match
            have hdrop2 : (c :: rest).drop (a.length + 1) =
                con.drop (a.length + 1) ++ rem := by
              rw [hsplit, List.drop_append_of_le_length (Nat.le_of_lt hlt)]
            have hmem : p1 ∈ con := by
              have hne : con.drop (a.length + 1) ≠ [] := by
                intro hnil
                have := congrArg List.length hnil
                simp only [List.length_drop, List.length_nil] at this
                omega
              cases hcd : con.drop (a.length + 1) with
              | nil => exact absurd hcd hne
              | cons q qs =>
                have : q :: (qs ++ rem) = p1 :: (pr ++ b) := by
                  rw [← List.cons_append, ← hcd, ← hdrop2, hdropA]
                injection this with hq
                subst hq
                exact List.drop_subset _ _ (by rw [hcd]; exact List.mem_cons_self _ _)
            rw [hallow p1 hmem] at hp1a
            cases hp1a
          · -- `p1` would be the first character after the match
            have hKA : con.length = a.length + 1 := Nat.le_antisymm hge hK
            have hremP : rem = p1 :: (pr ++ b) := by
              have : (c :: rest).drop con.length = rem := by
                rw [hsplit, List.drop_left]
              rw [← this, hKA, hdropA]
            rw [hremP] at hafter
            simp only [okAfter, hp1w] at hafter
            cases hafter

/-! ## Character alphabets of the three replace patterns -/

/-- Characters a `(\d+(?:\.\d+)?)\s+(m|km|mile)\b` match can consume. -/
def allowed3 (c : Char) : Bool :=
  isDigitC c || c = '.' || isWsC c ||
    c = 'm' || c = 'k' || c = 'i' || c = 'l' || c = 'e'

/-- Characters a `(\d+(?:m|km|mile))(h|sh|sc|w)\b` match can consume. -/
def allowed4 (c : Char) : Bool :=
  isDigitC c || c = 'm' || c = 'k' || c = 'i' || c = 'l' || c = 'e' ||
    c = 'h' || c = 's' || c = 'c' || c = 'w'

/-- Characters a `(4x\d+m)(?!ix\b)(h|sh|sc|w)\b` match can consume. -/
def allowed5 (c : Char) : Bool :=
  c = '4' || c = 'x' || isDigitC c ||
    c = 'm' || c = 'h' || c = 's' || c = 'c' || c = 'w'

theorem fracAt_decomp {t fr r1 : Str} (h : fracAt t = (fr, r1)) :
    t = fr ++ r1 ∧ ∀ c ∈ fr, c = '.' ∨ isDigitC c = true := by
  unfold fracAt at h
  split at h
  · -- t = '.' :: r
    rename_i r
    by_cases hd : (r.takeWhile isDigitC).isEmpty
    · rw [if_pos hd] at h
      injection h with h1 h2
      subst h1; subst h2
      exact ⟨rfl, by simp⟩
    · rw [if_neg hd] at h
      injection h with h1 h2
      subst h1; subst h2
      constructor
      · rw [List.cons_append, List.takeWhile_append_dropWhile]
      · intro c hc
        rcases List.mem_cons.mp hc with rfl | hmem
        · exact Or.inl rfl
        · exact Or.inr (List.mem_takeWhile_imp hmem)
  · -- no leading dot
    injection h with h1 h2
    subst h1; subst h2
    exact ⟨rfl, by simp⟩

theorem unitAt_decomp {t u rem : Str} (h : unitAt t = some (u, rem)) :
    t = u ++ rem ∧
      (∀ c ∈ u, c = 'm' ∨ c = 'k' ∨ c = 'i' ∨ c = 'l' ∨ c = 'e') ∧
      okAfter rem = true := by
  unfold unitAt at h
  split at h
  · -- t = 'm' :: r
    rename_i r
    by_cases ha : okAfter r = true
    · rw [if_pos ha] at h
      injection h with h'
      injection h' with h1 h2
      subst h1; subst h2
      exact ⟨rfl, by simp, ha⟩
    · rw [if_neg ha] at h
      split at h
      · rename_i r2
        by_cases ha2 : okAfter r2 = true
        · rw [if_pos ha2] at h
          injection h with h'
          injection h' with h1 h2
          subst h1; subst h2
          exact ⟨rfl, by intro c hc; simp at hc; rcases hc with rfl | rfl | rfl | rfl <;> simp, ha2⟩
        · rw [if_neg ha2] at h; cases h
      · cases h
  · -- t = 'k' :: 'm' :: r
    rename_i r
    by_cases ha : okAfter r = true
    · rw [if_pos ha] at h
      injection h with h'
      injection h' with h1 h2
      subst h1; subst h2
      exact ⟨rfl, by intro c hc; simp at hc; rcases hc with rfl | rfl <;> simp, ha⟩
    · rw [if_neg ha] at h; cases h
  · cases h

theorem modAt_decomp {t md rem : Str} (h : modAt t = some (md, rem)) :
    t = md ++ rem ∧
      (∀ c ∈ md, c = 'h' ∨ c = 's' ∨ c = 'c' ∨ c = 'w') ∧
      okAfter rem = true := by
  unfold modAt at h
  split at h
  · rename_i r
    by_cases ha : okAfter r = true
    · rw [if_pos ha] at h
      injection h with h'
      injection h' with h1 h2
      subst h1; subst h2
      refine ⟨rfl, ?_, ha⟩
      intro c hc
      simp only [List.mem_singleton] at hc
      subst hc; simp
    · rw [if_neg ha] at h; cases h
  · rename_i r
    by_cases ha : okAfter r = true
    · rw [if_pos ha] at h
      injection h with h'
      injection h' with h1 h2
      subst h1; subst h2
      refine ⟨rfl, ?_, ha⟩
      intro c hc
      rcases List.mem_cons.mp hc with rfl | hc2
      · simp
      · simp only [List.mem_singleton] at hc2
        subst hc2; simp
    · rw [if_neg ha] at h; cases h
  · rename_i r
    by_cases ha : okAfter r = true
    · rw [if_pos ha] at h
      injection h with h'
      injection h' with h1 h2
      subst h1; subst h2
      refine ⟨rfl, ?_, ha⟩
      intro c hc
      rcases List.mem_cons.mp hc with rfl | hc2
      · simp
      · simp only [List.mem_singleton] at hc2
        subst hc2; simp
    · rw [if_neg ha] at h; cases h
  · rename_i r
    by_cases ha : okAfter r = true
    · rw [if_pos ha] at h
      injection h with h'
      injection h' with h1 h2
      subst h1; subst h2
      refine ⟨rfl, ?_, ha⟩
      intro c hc
      simp only [List.mem_singleton] at hc
      subst hc; simp
    · rw [if_neg ha] at h; cases h
  · cases h

theorem unitModAt_decomp {t u md rem : Str}
    (h : unitModAt t = some (u, md, rem)) :
    t = u ++ md ++ rem ∧
      (∀ c ∈ u, c = 'm' ∨ c = 'k' ∨ c = 'i' ∨ c = 'l' ∨ c = 'e') ∧
      (∀ c ∈ md, c = 'h' ∨ c = 's' ∨ c = 'c' ∨ c = 'w') ∧
      okAfter rem = true := by
  unfold unitModAt at h
  split at h
  · -- t = 'm' :: r
    rename_i r
    cases hm : modAt r with
    | some p =>
      obtain ⟨md0, r2⟩ := p
      rw [hm] at h
      dsimp only at h
      injection h with h'
      injection h' with h1 h'
      injection h' with h2 h3
      subst h1; subst h2; subst h3
      obtain ⟨hr, hmd, hok⟩ := modAt_decomp hm
      refine ⟨by rw [hr]; rfl, ?_, hmd, hok⟩
      intro c hc
      rcases List.mem_cons.mp hc with rfl | hc2
      · simp
      · exact absurd hc2 (List.not_mem_nil c)
    | none =>
      rw [hm] at h
      dsimp only at h
      split at h
      · rename_i r2
        cases hm2 : modAt r2 with
        | some p =>
          obtain ⟨md0, r3⟩ := p
          rw [hm2] at h
          dsimp only at h
          injection h with h'
          injection h' with h1 h'
          injection h' with h2 h3
          subst h1; subst h2; subst h3
          obtain ⟨hr, hmd, hok⟩ := modAt_decomp hm2
          refine ⟨by rw [hr]; rfl, ?_, hmd, hok⟩
          intro c hc
          simp only [List.mem_cons] at hc
          rcases hc with rfl | rfl | rfl | rfl | hc2
          · simp
          · simp
          · simp
          · simp
          · exact absurd hc2 (List.not_mem_nil c)
        | none => rw [hm2] at h; cases h
      · cases h
  · -- t = 'k' :: 'm' :: r
    rename_i r
    cases hm : modAt r with
    | some p =>
      obtain ⟨md0, r2⟩ := p
      rw [hm] at h
      dsimp only at h
      injection h with h'
      injection h' with h1 h'
      injection h' with h2 h3
      subst h1; subst h2; subst h3
      obtain ⟨hr, hmd, hok⟩ := modAt_decomp hm
      refine ⟨by rw [hr]; rfl, ?_, hmd, hok⟩
      intro c hc
      simp only [List.mem_cons] at hc
      rcases hc with rfl | rfl | hc2
      · simp
      · simp
      · exact absurd hc2 (List.not_mem_nil c)
    | none => rw [hm] at h; cases h
  · cases h

theorem match3At_consumed :
    ∀ (s em rem : Str), match3At s = some (em, rem) →
      ∃ con, s = con ++ rem ∧ con ≠ [] ∧
        (∀ c ∈ con, allowed3 c = true) ∧ okAfter rem = true := by
  intro s em rem h
  unfold match3At at h
  by_cases hds : (s.takeWhile isDigitC).isEmpty
  · rw [if_pos hds] at h; cases h
  · rw [if_neg hds] at h
    cases hfr : fracAt (s.dropWhile isDigitC) with
    | mk fr r1 =>
      rw [hfr] at h
      dsimp only at h
      by_cases hws : (r1.takeWhile isWsC).isEmpty
      · rw [if_pos hws] at h; cases h
      · rw [if_neg hws] at h
        cases hu : unitAt (r1.dropWhile isWsC) with
        | none => rw [hu] at h; cases h
        | some ur =>
          obtain ⟨u, rem'⟩ := ur
          rw [hu] at h
          injection h with h'
          injection h' with h1 h2
          subst h2
          obtain ⟨hfr1, hfrc⟩ := fracAt_decomp hfr
          obtain ⟨hu1, huc, hok⟩ := unitAt_decomp hu
          refine ⟨s.takeWhile isDigitC ++ fr ++ r1.takeWhile isWsC ++ u,
            ?_, ?_, ?_, hok⟩
          · conv_lhs => rw [← List.takeWhile_append_dropWhile (p := isDigitC) (l := s)]
            rw [hfr1]
            conv_lhs =>
              rw [← List.takeWhile_append_dropWhile (p := isWsC) (l := r1)]
            rw [hu1]
            simp [List.append_assoc]
          · intro hnil
            rw [List.append_assoc, List.append_assoc] at hnil
            have := List.append_eq_nil.mp hnil
            exact absurd this.1 (by simpa [List.isEmpty_iff] using hds)
          · intro c hc
            simp only [List.append_assoc, List.mem_append] at hc
            rcases hc with hc | hc | hc | hc
            · have := List.mem_takeWhile_imp hc
              simp [allowed3, this]
            · rcases hfrc c hc with rfl | hd
              · simp [allowed3]
              · simp [allowed3, hd]
            · have := List.mem_takeWhile_imp hc
              simp [allowed3, this]
            · rcases huc c hc with rfl | rfl | rfl | rfl | rfl <;> simp [allowed3]

theorem match4At_consumed :
    ∀ (s em rem : Str), match4At s = some (em, rem) →
      ∃ con, s = con ++ rem ∧ con ≠ [] ∧
        (∀ c ∈ con, allowed4 c = true) ∧ okAfter rem = true := by
  intro s em rem h
  unfold match4At at h
  by_cases hds : (s.takeWhile isDigitC).isEmpty
  · rw [if_pos hds] at h; cases h
  · rw [if_neg hds] at h
    cases hu : unitModAt (s.dropWhile isDigitC) with
    | none => rw [hu] at h; cases h
    | some p =>
      obtain ⟨u, md, rem'⟩ := p
      rw [hu] at h
      injection h with h'
      injection h' with h1 h2
      subst h2
      obtain ⟨hu1, huc, hmd, hok⟩ := unitModAt_decomp hu
      refine ⟨s.takeWhile isDigitC ++ u ++ md, ?_, ?_, ?_, hok⟩
      · conv_lhs => rw [← List.takeWhile_append_dropWhile (p := isDigitC) (l := s)]
        rw [hu1]
        simp [List.append_assoc]
      · intro hnil
        rw [List.append_assoc] at hnil
        have := List.append_eq_nil.mp hnil
        exact absurd this.1 (by simpa [List.isEmpty_iff] using hds)
      · intro c hc
        simp only [List.append_assoc, List.mem_append] at hc
        rcases hc with hc | hc | hc
        · have := List.mem_takeWhile_imp hc
          simp [allowed4, this]
        · rcases huc c hc with rfl | rfl | rfl | rfl | rfl <;> simp [allowed4]
        · rcases hmd c hc with rfl | rfl | rfl | rfl <;> simp [allowed4]

theorem match5At_consumed :
    ∀ (s em rem : Str), match5At s = some (em, rem) →
      ∃ con, s = con ++ rem ∧ con ≠ [] ∧
        (∀ c ∈ con, allowed5 c = true) ∧ okAfter rem = true := by
  intro s em rem h
  unfold match5At at h
  split at h
  · rename_i r
    by_cases hds : (r.takeWhile isDigitC).isEmpty
    · rw [if_pos hds] at h; cases h
    · rw [if_neg hds] at h
      split at h
      · rename_i r2 hdw
        by_cases hix : lookIx r2 = true
        · rw [if_pos hix] at h; cases h
        · rw [if_neg hix] at h
          cases hm : modAt r2 with
          | none => rw [hm] at h; cases h
          | some p =>
            obtain ⟨md, rem'⟩ := p
            rw [hm] at h
            dsimp only at h
            injection h with h'
            injection h' with h1 h2
            subst h2
            obtain ⟨hr2, hmd, hok⟩ := modAt_decomp hm
            refine ⟨'4' :: 'x' :: (r.takeWhile isDigitC ++ 'm' :: md),
              ?_, by simp, ?_, hok⟩
            · have hsplit : r = r.takeWhile isDigitC ++ ('m' :: r2) := by
                conv_lhs =>
                  rw [← List.takeWhile_append_dropWhile (p := isDigitC) (l := r)]
                rw [hdw]
              conv_lhs => rw [hsplit]
              rw [hr2]
              simp
            · intro c hc
              simp only [List.mem_cons, List.mem_append] at hc
              rcases hc with rfl | rfl | hc | rfl | hc
              · simp [allowed5]
              · simp [allowed5]
              · have := List.mem_takeWhile_imp hc
                simp [allowed5, this]
              · simp [allowed5]
              · rcases hmd c hc with rfl | rfl | rfl | rfl <;> simp [allowed5]
      · cases h
  · cases h

theorem match3At_head {c : Char} {t : Str} {x : Str × Str}
    (h : match3At (c :: t) = some x) : isDigitC c = true := by
  unfold match3At at h
  by_cases hds : ((c :: t).takeWhile isDigitC).isEmpty
  · rw [if_pos hds] at h; cases h
  · by_cases hd : isDigitC c = true
    · exact hd
    · exfalso
      apply hds
      rw [List.takeWhile_cons]
      simp [hd]

theorem match4At_head {c : Char} {t : Str} {x : Str × Str}
    (h : match4At (c :: t) = some x) : isDigitC c = true := by
  unfold match4At at h
  by_cases hds : ((c :: t).takeWhile isDigitC).isEmpty
  · rw [if_pos hds] at h; cases h
  · by_cases hd : isDigitC c = true
    · exact hd
    · exfalso
      apply hds
      rw [List.takeWhile_cons]
      simp [hd]

theorem match5At_head {c : Char} {t : Str} {x : Str × Str}
    (h : match5At (c :: t) = some x) : (c = '4' : Bool) = true := by
  unfold match5At at h
  split at h
  · rename_i heq
    injection heq with h1 _
    subst h1
    simp
  · cases h

/-! ## Occurrence preservation for `replaceMiles` -/

/-- The previous-character state after emitting `u` verbatim. -/
def lastOr (prev : Option Char) : Str → Option Char
  | [] => prev
  | c :: rest => lastOr (some c) rest

theorem r1F_verbatim :
    ∀ (u : Str), (∀ c ∈ u, (decide (c = 'm')) = false) →
    ∀ (fuel : Nat) (prev : Option Char) (b : Str),
      r1F (u.length + fuel) prev (u ++ b) =
        u ++ r1F fuel (lastOr prev u) b := by
  intro u
  induction u with
  | nil => intro _ fuel prev b; simp [lastOr]
  | cons c u' ih =>
    intro hu fuel prev b
    have hlen : (c :: u').length + fuel = (u'.length + fuel) + 1 := by
      simp [List.length_cons]; omega
    rw [hlen]
    show r1F ((u'.length + fuel) + 1) prev (c :: (u' ++ b)) = _
    rw [r1F]
    have hsw : startsWithStr (c :: (u' ++ b)) ['m', 'i', 'l', 'e', 's'] = false := by
      simp only [startsWithStr, Bool.and_eq_true, Bool.and_eq_false_iff]
      exact Or.inl (hu c (List.mem_cons_self _ _))
    rw [hsw]
    simp only [Bool.and_false, Bool.false_and, if_false]
    rw [ih (fun d hd => hu d (List.mem_cons_of_mem _ hd)) fuel (some c) b]
    rfl

/-- Occurrence preservation for the `\bmiles\b` replace: any occurrence of
a pattern `p0 :: p1 :: pr` whose second character is a word character
outside `{m,i,l,e,s}` and whose tail contains no `m` survives. -/
theorem r1F_preserves (p0 p1 : Char) (pr : Str)
    (hp1a : (p1 = 'm' ∨ p1 = 'i' ∨ p1 = 'l' ∨ p1 = 'e' ∨ p1 = 's') → False)
    (hp1w : isWordC p1 = true)
    (htail : ∀ c ∈ p1 :: pr, (decide (c = 'm')) = false) :
    ∀ (fuel : Nat) (prev : Option Char) (s : Str), s.length ≤ fuel →
      containsOcc s (p0 :: p1 :: pr) →
      containsOcc (r1F fuel prev s) (p0 :: p1 :: pr) := by
  intro fuel
  induction fuel with
  | zero =>
    intro prev s hlen hocc
    have hs : s = [] := List.length_eq_zero.mp (Nat.le_zero.mp hlen)
    subst hs
    obtain ⟨a, b, hab⟩ := hocc
    exact absurd hab.symm (by simp)
  | succ f ih =>
    intro prev s hlen hocc
    cases s with
    | nil =>
      obtain ⟨a, b, hab⟩ := hocc
      exact absurd hab.symm (by simp)
    | cons c rest =>
      obtain ⟨a, b, hab⟩ := hocc
      rw [r1F]
      by_cases hM : (boundaryBefore prev &&
          startsWithStr (c :: rest) ['m', 'i', 'l', 'e', 's'] &&
            okAfter ((c :: rest).drop 5)) = true
      · rw [if_pos hM]
        simp only [Bool.and_eq_true] at hM
        obtain ⟨⟨-, hsw⟩, hafter⟩ := hM
        obtain ⟨rem, hsplit⟩ := startsWithStr_iff.mp hsw
        -- the match consumes exactly `miles`
        by_cases hK : (5 : Nat) ≤ a.length
        · have hrem : rem = a.drop 5 ++ ((p0 :: p1 :: pr) ++ b) := by
            have h1 : (c :: rest).drop 5 = rem := by
              rw [hsplit]
              exact List.drop_left' (by simp)
            rw [← h1, hab, List.append_assoc,
              List.drop_append_of_le_length hK]
          have hlenrem : rem.length ≤ f := by
            have h2 := congrArg List.length hsplit
            simp at h2 hlen
            omega
          have hocc' : containsOcc rem (p0 :: p1 :: pr) :=
            ⟨a.drop 5, b, by rw [hrem]; simp⟩
          have := ih (some 's') rem hlenrem hocc'
          have hdrop : (c :: rest).drop 5 = rem := by
            rw [hsplit]
            exact List.drop_left' (by simp)
          rw [hdrop]
          exact containsOcc_append_left (['m', 'i', 'l', 'e'] : Str) this
        · exfalso
          push_neg at hK
          have hdropA : (c :: rest).drop (a.length + 1) = p1 :: (pr ++ b) := by
            rw [hab]
            have h5 : a ++ (p0 :: p1 :: pr) ++ b =
                (a ++ [p0]) ++ (p1 :: (pr ++ b)) := by simp
            rw [h5]
            have hl : (a ++ [p0]).length = a.length + 1 := by simp
            rw [← hl, List.drop_left]
          rcases Nat.lt_or_ge (a.length + 1) 5 with hlt | hge
          · -- `p1` would be inside the consumed `miles`
            have hmem : p1 ∈ (['m', 'i', 'l', 'e', 's'] : Str) := by
              have hd2 : (c :: rest).drop (a.length + 1) =
                  (['m', 'i', 'l', 'e', 's'] : Str).drop (a.length + 1) ++ rem := by
                rw [hsplit, List.drop_append_of_le_length (by simpa using Nat.le_of_lt hlt)]
              have hne : (['m', 'i', 'l', 'e', 's'] : Str).drop (a.length + 1) ≠ [] := by
                intro hnil
                have := congrArg List.length hnil
                simp at this
                omega
              cases hcd : (['m', 'i', 'l', 'e', 's'] : Str).drop (a.length + 1) with
              | nil => exact absurd hcd hne
              | cons q qs =>
                have heq2 : q :: (qs ++ rem) = p1 :: (pr ++ b) := by
                  rw [← List.cons_append, ← hcd, ← hd2, hdropA]
                injection heq2 with hq
                subst hq
                exact List.drop_subset _ _ (by rw [hcd]; exact List.mem_cons_self _ _)
              -- (q is p1 by the equation above)
            simp only [List.mem_cons] at hmem
            rcases hmem with rfl | rfl | rfl | rfl | rfl | hmem
            · exact hp1a (Or.inl rfl)
            · exact hp1a (Or.inr (Or.inl rfl))
            · exact hp1a (Or.inr (Or.inr (Or.inl rfl)))
            · exact hp1a (Or.inr (Or.inr (Or.inr (Or.inl rfl))))
            · exact hp1a (Or.inr (Or.inr (Or.inr (Or.inr rfl))))
            · exact absurd hmem (List.not_mem_nil p1)
          · -- `p1` would be the first character after the consumed `miles`
            have hKA : a.length + 1 = 5 := Nat.le_antisymm hK hge
            have hremP : rem = p1 :: (pr ++ b) := by
              have h1 : (c :: rest).drop 5 = rem := by
                rw [hsplit]
                exact List.drop_left' (by simp)
              rw [← h1, ← hKA, hdropA]
            rw [hsplit, List.drop_left' (by simp : (['m','i','l','e','s'] : Str).length = 5),
              hremP] at hafter
            simp only [okAfter, hp1w] at hafter
            cases hafter
      · rw [if_neg hM]
        cases a with
        | nil =>
          simp only [List.nil_append] at hab
          injection hab with hc hrest
          subst hc
          simp only [List.append_eq] at hrest
          have hlen2 : (p1 :: pr).length ≤ f := by
            have hl := congrArg List.length hrest
            simp only [List.length_cons, List.length_append] at hl hlen ⊢
            omega
          have hf : f = (p1 :: pr).length + (f - (p1 :: pr).length) :=
            (Nat.add_sub_cancel' hlen2).symm
          rw [hrest, hf, r1F_verbatim (p1 :: pr) htail]
          exact ⟨[], r1F (f - (p1 :: pr).length) (lastOr (some c) (p1 :: pr)) b,
            by simp⟩
        | cons a0 a' =>
          injection hab with hc hrest
          exact containsOcc_cons c
            (ih (some c) rest (by simpa using hlen) ⟨a', b, hrest⟩)

/-- Occurrence preservation along the whole replace pipeline of
`normalizeEventName`, for a pattern `p0 :: p1 :: pr` satisfying all the
per-replace side conditions. -/
theorem pipelineOcc (p0 p1 : Char) (pr : Str)
    (h1a : (p1 = 'm' ∨ p1 = 'i' ∨ p1 = 'l' ∨ p1 = 'e' ∨ p1 = 's') → False)
    (ht1 : ∀ c ∈ p1 :: pr, (decide (c = 'm')) = false)
    (h3a : allowed3 p1 = false) (h4a : allowed4 p1 = false)
    (h5a : allowed5 p1 = false) (hw : isWordC p1 = true)
    (htd : ∀ c ∈ p1 :: pr, isDigitC c = false)
    (ht5 : ∀ c ∈ p1 :: pr, (decide (c = '4')) = false)
    (s : Str) (hocc : containsOcc s (p0 :: p1 :: pr)) :
    containsOcc (relayMod (attachMod (joinUnits (mileAdjust (replaceMiles s)))))
      (p0 :: p1 :: pr) := by
  have h2 : containsOcc (replaceMiles s) (p0 :: p1 :: pr) :=
    r1F_preserves p0 p1 pr h1a hw ht1 s.length none s (le_refl _) hocc
  have h3 : containsOcc (mileAdjust (replaceMiles s)) (p0 :: p1 :: pr) := by
    unfold mileAdjust
    split
    · exact containsOcc_cons _ h2
    · split
      · exact containsOcc_cons _ h2
      · exact h2
  have h4 : containsOcc (joinUnits (mileAdjust (replaceMiles s)))
      (p0 :: p1 :: pr) :=
    scanF_preserves match3At allowed3 isDigitC match3At_consumed
      (fun c t x h => match3At_head h) p0 p1 pr h3a hw htd _ _ (le_refl _) h3
  have h5 : containsOcc (attachMod (joinUnits (mileAdjust (replaceMiles s))))
      (p0 :: p1 :: pr) :=
    scanF_preserves match4At allowed4 isDigitC match4At_consumed
      (fun c t x h => match4At_head h) p0 p1 pr h4a hw htd _ _ (le_refl _) h4
  exact
    scanF_preserves match5At allowed5 (fun c => decide (c = '4'))
      match5At_consumed (fun c t x h => match5At_head h) p0 p1 pr h5a hw ht5
      _ _ (le_refl _) h5

/-! ## Claim C10 -/

/-- C10: any non-empty descriptor whose whitespace-collapsed, lowercased
form contains `marathon` or `walk` as a substring is accepted by
`normalizeEventName` (a non-null key is returned), because the final
validation pattern matches those two substrings unanchored. -/
theorem C10_walk_marathon_accepted (s : Str) (hne : s ≠ [])
    (hc : containsStr (lowerStr (collapseWs (trimStr s))) "marathon".toList = true ∨
          containsStr (lowerStr (collapseWs (trimStr s))) "walk".toList = true) :
    (normalizeEventName s).isSome = true := by
  unfold normalizeEventName
  rw [if_neg (by simp [List.isEmpty_iff, hne])]
  by_cases hcw : isCommaWalk (collapseWs (trimStr s)) = true
  · rw [if_pos hcw]
    rfl
  · rw [if_neg hcw]
    dsimp only
    set n6 := relayMod (attachMod (joinUnits (mileAdjust
      (replaceMiles (lowerStr (collapseWs (trimStr s))))))) with hn6
    have hkeep : containsStr n6 "marathon".toList = true ∨
        containsStr n6 "walk".toList = true := by
      rcases hc with hc | hc
      · left
        rw [containsStr_iff]
        have hp : "marathon".toList =
            'm' :: 'a' :: ['r', 'a', 't', 'h', 'o', 'n'] := rfl
        rw [hp]
        rw [hp, containsStr_iff] at hc
        exact pipelineOcc 'm' 'a' ['r', 'a', 't', 'h', 'o', 'n']
          (by decide) (by decide) (by decide) (by decide) (by decide)
          (by decide) (by decide) (by decide) _ hc
      · right
        rw [containsStr_iff]
        have hp : "walk".toList = 'w' :: 'a' :: ['l', 'k'] := rfl
        rw [hp]
        rw [hp, containsStr_iff] at hc
        exact pipelineOcc 'w' 'a' ['l', 'k']
          (by decide) (by decide) (by decide) (by decide) (by decide)
          (by decide) (by decide) (by decide) _ hc
    have hv : validationTest n6 = true := by
      unfold validationTest
      rcases hkeep with hk | hk <;> rw [hk] <;> simp
    by_cases hr : relayTest n6 = true
    · rw [if_pos hr]; rfl
    · rw [if_neg hr, if_pos hv]; rfl

/-- Witness for C10 at the concrete descriptor `sidewalk` named in the
claim. -/
theorem C10_walk_marathon_accepted_witness :
    (normalizeEventName "sidewalk".toList).isSome = true :=
  C10_walk_marathon_accepted "sidewalk".toList (by decide)
    (Or.inr (by decide))

/-! ## Section detection (`detectSection`, index.js lines 95-121) -/

/-- `eventsConfig.categoryKeywords`, in object insertion order. -/
def categoryKeywords : List (Str × List Str) :=
  [("sprints".toList, ["sprint".toList]),
   ("hurdles".toList, ["hurdle".toList, "haie".toList]),
   ("middle_distance".toList, ["demi-fond".toList, "middle".toList]),
   ("long_distance".toList, ["long distance".toList, "fond".toList]),
   ("jumps".toList, ["jump".toList, "saut".toList]),
   ("throws".toList, ["throw".toList, "lancer".toList]),
   ("combined".toList, ["combined".toList, "combinée".toList]),
   ("relays".toList, ["relay".toList, "relai".toList]),
   ("race_walk".toList, ["walk".toList, "marche".toList])]

/-- First category one of whose keywords occurs in the lowercased line. -/
def findCategory : List (Str × List Str) → Str → Option Str
  | [], _ => none
  | (cat, kws) :: rest, l =>
    if kws.any fun kw => containsStr l kw then some cat
    else findCategory rest l

/-- `detectSection`: bilingual gender keywords (women before men before
mixed, with the `men`-inside-`women` guard) plus the first matching
category; `none` when the line mentions neither. -/
def detectSection (line : Str) : Option (Option Str × Option Str) :=
  let lower := lowerStr line
  let gender : Option Str :=
    if containsStr lower "women".toList || containsStr lower "femmes".toList then
      some "women".toList
    else if (containsStr lower "men".toList || containsStr lower "hommes".toList) &&
        !containsStr lower "women".toList then
      some "men".toList
    else if containsStr lower "mixed".toList || containsStr lower "mixte".toList then
      some "mixed".toList
    else none
  let category := findCategory categoryKeywords lower
  if gender.isSome || category.isSome then some (gender, category) else none

/-! ## Header detection (`detectTableHeaders`, index.js lines 127-185) -/

/-- `/^\d+(?:\.\d+)?$/`. -/
def isNumTok (t : Str) : Bool :=
  !(t.takeWhile isDigitC).isEmpty &&
    (match t.dropWhile isDigitC with
     | [] => true
     | '.' :: ds => !ds.isEmpty && ds.all isDigitC
     | _ => false)

/-- `/^(m|km|miles?)$/i`. -/
def isUnitTok (t : Str) : Bool :=
  let l := lowerStr t
  l = "m".toList || l = "km".toList || l = "mile".toList || l = "miles".toList

/-- `/^(h|sh|sc|w)$/i`. -/
def isModTok (t : Str) : Bool :=
  let l := lowerStr t
  l = "h".toList || l = "sh".toList || l = "sc".toList || l = "w".toList

/-- The header token loop with its two-token lookahead joins
("35"+"km" and then an optional "h"/"sh"/"sc"/"w"); fuelled since a step
may consume up to three tokens. -/
def joinTokensF : Nat → List Str → List Str
  | 0, ts => ts
  | _, [] => []
  | fuel + 1, t :: rest =>
    let p1 : Str × List Str :=
      match rest with
      | u :: rest' =>
        if isNumTok t && isUnitTok u then (t ++ ' ' :: u, rest') else (t, rest)
      | [] => (t, rest)
    let p2 : Str × List Str :=
      match p1.2 with
      | m :: rest' =>
        if isModTok m then (p1.1 ++ ' ' :: m, rest') else (p1.1, p1.2)
      | [] => (p1.1, p1.2)
    p2.1 :: joinTokensF fuel p2.2

def joinTokens (ts : List Str) : List Str := joinTokensF ts.length ts

/-- `detectTableHeaders`: the line must mention "point(s)", the points
column is identified by an (unanchored, case-insensitive) `points?` test
on the first or last whitespace token, the remaining tokens are joined and
normalised, and unrecognised descriptors are dropped. -/
def detectTableHeaders (line : Str) : Option (List Str × Side) :=
  let lower := lowerStr line
  if !(containsStr lower "points".toList || containsStr lower "point".toList) then
    none
  else
    let columns := splitWs line
    if columns.length < 2 then none
    else
      let mkEvents : List Str → List Str := fun toks =>
        (joinTokens toks).filterMap normalizeEventName
      if containsStr (lowerStr (columns.headD [])) "point".toList then
        let events := mkEvents columns.tail
        if events.isEmpty then none else some (events, Side.left)
      else if containsStr (lowerStr (columns.getLastD [])) "point".toList then
        let events := mkEvents columns.dropLast
        if events.isEmpty then none else some (events, Side.right)
      else none

/-- `isTableEnd` (index.js lines 385-388). -/
def isTableEnd (line : Str) : Bool :=
  (line = ['©'] ||
    (startsWithStr (lowerStr line) "world".toList &&
      ((lowerStr line).drop 5).dropWhile isWsC = "athletics".toList) ||
    (startsWithStr (lowerStr line) "page".toList &&
      (let r := ((lowerStr line).drop 4).dropWhile isWsC
       !r.isEmpty && r.all isDigitC))) ||
  (line.length = 1 && line.all isDigitC)

/-! ## The scan loop (`parseContentEnhanced`, index.js lines 42-90) -/

/-- The mutable scan state of the line loop. -/
structure ScanState where
  sec : Section
  eventHeaders : List Str
  side : Option Side
  inTable : Bool
  tables : Table

/-- One iteration of the line loop: section headings first (ending any
open table), then header detection, then (inside a table) end markers and
data rows. -/
def processLine (st : ScanState) (rawLine : Str) : ScanState :=
  let line := trimStr rawLine
  if line.isEmpty then st
  else
    match detectSection line with
    | some gc =>
      { st with
          sec := ⟨gc.1.orElse fun _ => st.sec.gender,
                  gc.2.orElse fun _ => st.sec.category⟩,
          inTable := false }
    | none =>
      match detectTableHeaders line with
      | some es => { st with eventHeaders := es.1, side := some es.2, inTable := true }
      | none =>
        if st.inTable && !st.eventHeaders.isEmpty then
          if isTableEnd line then { st with inTable := false, eventHeaders := [] }
          else
            match parseCrossReferencedRow line st.eventHeaders st.side with
            | some row =>
              { st with tables := storeCrossReferencedData st.sec row st.tables }
            | none => st
        else st

/-- `text.split('\n')`. -/
def splitNl : Str → List Str
  | [] => [[]]
  | c :: rest =>
    if c = '\n' then [] :: splitNl rest
    else
      match splitNl rest with
      | [] => [[c]]
      | l :: ls => (c :: l) :: ls

/-- `parseContentEnhanced`: fold the line loop over the text stream. -/
def parseContentEnhanced (text : Str) : Table :=
  ((splitNl text).foldl processLine ⟨⟨none, none⟩, [], none, false, []⟩).tables

/-! ## Claim C6 -/

/-- C6 counterexample: an input stream whose two tables file two distinct
performances with equal points under the same event.  After the
clean-and-sort pass the leaf holds two adjacent entries with equal points,
so the claimed strictly-descending order fails (non-strict order still
holds). -/
theorem C6_strict_counterexample :
    ∃ post,
      leafOf (cleanAndSortData (parseContentEnhanced
          ("Men sprint\nPoints 100m\n1400 9.46\n1400 9.47").toList))
        "men".toList "sprints".toList "100m".toList = some post ∧
      ∃ h : 1 < post.length,
        ¬ ((post.get ⟨1, h⟩).points < (post.get ⟨0, Nat.lt_of_succ_lt h⟩).points) := by
  refine ⟨[ScoringEntry.mk "9.46".toList 1400, ScoringEntry.mk "9.47".toList 1400],
    by decide, by decide, by decide⟩

/-- C6 amended: after the clean-and-sort pass, every event leaf produced
from any input text stream is sorted by points in non-increasing (rather
than strictly decreasing) order. -/
theorem C6_sorted_nonstrict (text : Str) (g c e : Str)
    (post : List ScoringEntry)
    (hpost : leafOf (cleanAndSortData (parseContentEnhanced text)) g c e =
      some post) :
    ∀ i : Nat, ∀ h : i + 1 < post.length,
      (post.get ⟨i + 1, h⟩).points ≤
        (post.get ⟨i, Nat.lt_of_succ_lt h⟩).points := by
  rw [leafOf_cleanAndSort] at hpost
  cases hpre : leafOf (parseContentEnhanced text) g c e with
  | none => rw [hpre] at hpost; cases hpost
  | some pre =>
    rw [hpre] at hpost
    simp only [Option.map_some'] at hpost
    have hpc : post = cleanEntries pre := (Option.some_inj.mp hpost).symm
    subst hpc
    intro i h
    have hs := cleanEntries_sorted pre
    exact hs.rel_get_of_lt (Fin.mk_lt_mk.mpr (Nat.lt_succ_self i))

/-- Witness for the amended C6 at the concrete stream of the
counterexample. -/
theorem C6_sorted_nonstrict_witness :
    (([ScoringEntry.mk "9.46".toList 1400,
        ScoringEntry.mk "9.47".toList 1400] : List ScoringEntry).get
        ⟨1, by decide⟩).points ≤
      (([ScoringEntry.mk "9.46".toList 1400,
        ScoringEntry.mk "9.47".toList 1400] : List ScoringEntry).get
        ⟨0, by decide⟩).points :=
  C6_sorted_nonstrict
    ("Men sprint\nPoints 100m\n1400 9.46\n1400 9.47").toList
    "men".toList "sprints".toList "100m".toList
    [ScoringEntry.mk "9.46".toList 1400, ScoringEntry.mk "9.47".toList 1400]
    (by decide) 0 (by decide)

/-! ## A JSON model (for `JSON.parse` / `JSON.stringify`)

`JSON.parse` is modelled by a token scanner plus a stack automaton.  The
model covers the fragment actually exercised by the tool: numerals are
(optionally signed) integers without fraction or exponent, and `\u`
escapes are not interpreted — contents using either simply fail to parse
in the model.  Object fields keep insertion order (JS `Object.entries`
reorders integer-like keys first; no key in play here is integer-like),
and a duplicated key keeps its first position with its last value, as in
JS. -/

inductive Json where
  | null : Json
  | bool (b : Bool) : Json
  | num (n : Int) : Json
  | str (s : Str) : Json
  | arr (l : List Json) : Json
  | obj (l : List (Str × Json)) : Json

def quoteC : Char := Char.ofNat 34
def backslashC : Char := Char.ofNat 92
def lbraceC : Char := Char.ofNat 123
def rbraceC : Char := Char.ofNat 125

inductive JTok where
  | lbrace | rbrace | lbrack | rbrack | colon | comma
  | tnull | ttrue | tfalse
  | tstr (s : Str) : JTok
  | tnum (n : Int) : JTok
deriving DecidableEq

def unesc (c : Char) : Option Char :=
  if c = quoteC then some quoteC
  else if c = backslashC then some backslashC
  else if c = '/' then some '/'
  else if c = 'b' then some (Char.ofNat 8)
  else if c = 'f' then some (Char.ofNat 12)
  else if c = 'n' then some '\n'
  else if c = 'r' then some '\r'
  else if c = 't' then some '\t'
  else none

def natOfDigits (ds : Str) : Nat :=
  ds.foldl (fun a c => 10 * a + (c.toNat - 48)) 0

def isJsonWs (c : Char) : Bool :=
  c = ' ' || c = '\t' || c = '\n' || c = '\r'

/-- Lexer states: top level, inside a string (collected body), after a
backslash inside a string, inside a number (sign, digits so far), inside
a `null`/`true`/`false` keyword (remaining expected characters). -/
inductive LexSt where
  | stTop : LexSt
  | stStr (acc : Str) : LexSt
  | stStrEsc (acc : Str) : LexSt
  | stNum (neg : Bool) (ds : Str) : LexSt
  | stKw (expected : Str) (tok : JTok) : LexSt

/-- A number token is complete: at least one digit, no superfluous
leading zero (as in `JSON.parse`). -/
def flushNum (neg : Bool) (ds : Str) : Option JTok :=
  if ds.isEmpty then none
  else if ds.headD '0' = '0' && 1 < ds.length then none
  else
    let n : Int := Int.ofNat (natOfDigits ds)
    some (JTok.tnum (if neg then -n else n))

/-- The top-level transition on one character. -/
def topTrans (c : Char) : Option (List JTok × LexSt) :=
  if isJsonWs c then some ([], LexSt.stTop)
  else if c = lbraceC then some ([JTok.lbrace], LexSt.stTop)
  else if c = rbraceC then some ([JTok.rbrace], LexSt.stTop)
  else if c = '[' then some ([JTok.lbrack], LexSt.stTop)
  else if c = ']' then some ([JTok.rbrack], LexSt.stTop)
  else if c = ':' then some ([JTok.colon], LexSt.stTop)
  else if c = ',' then some ([JTok.comma], LexSt.stTop)
  else if c = quoteC then some ([], LexSt.stStr [])
  else if c = '-' then some ([], LexSt.stNum true [])
  else if isDigitC c then some ([], LexSt.stNum false [c])
  else if c = 'n' then some ([], LexSt.stKw "ull".toList JTok.tnull)
  else if c = 't' then some ([], LexSt.stKw "rue".toList JTok.ttrue)
  else if c = 'f' then some ([], LexSt.stKw "alse".toList JTok.tfalse)
  else none

/-- One lexer step: emitted tokens and the successor state, `none` on a
syntax error.  Fractions and exponents are outside the model (rejected),
as are `\u` escapes. -/
def lstep : LexSt → Char → Option (List JTok × LexSt)
  | LexSt.stTop, c => topTrans c
  | LexSt.stStr acc, c =>
    if c = quoteC then some ([JTok.tstr acc], LexSt.stTop)
    else if c = backslashC then some ([], LexSt.stStrEsc acc)
    else if c.toNat < 32 then none
    else some ([], LexSt.stStr (acc ++ [c]))
  | LexSt.stStrEsc acc, c =>
    match unesc c with
    | none => none
    | some ch => some ([], LexSt.stStr (acc ++ [ch]))
  | LexSt.stNum neg ds, c =>
    if isDigitC c then some ([], LexSt.stNum neg (ds ++ [c]))
    else if c = '.' || c = 'e' || c = 'E' then none
    else
      match flushNum neg ds with
      | none => none
      | some tok =>
        match topTrans c with
        | none => none
        | some p => some (tok :: p.1, p.2)
  | LexSt.stKw expected tok, c =>
    match expected with
    | [] => none
    | e :: es =>
      if c = e then
        if es.isEmpty then some ([tok], LexSt.stTop)
        else some ([], LexSt.stKw es tok)
      else none

/-- End of input: only the top state or a complete number may remain. -/
def lexFlush : LexSt → Option (List JTok)
  | LexSt.stTop => some []
  | LexSt.stNum neg ds =>
    match flushNum neg ds with
    | none => none
    | some tok => some [tok]
  | _ => none

/-- The token stream of a JSON text (character-driven state machine). -/
def lexGo : LexSt → Str → Option (List JTok)
  | st, [] => lexFlush st
  | st, c :: rest =>
    match lstep st c with
    | none => none
    | some p => (lexGo p.2 rest).map (p.1 ++ ·)

/-- Duplicate object key: first position, last value (JS semantics). -/
def upsertField : List (Str × Json) → Str → Json → List (Str × Json)
  | [], k, v => [(k, v)]
  | (k', v') :: rest, k, v =>
    if k' = k then (k', v) :: rest else (k', v') :: upsertField rest k v

/-- Parser stack frames: an array being filled, an object between
entries, an object waiting for the value of `key`. -/
inductive Fr where
  | arrF (acc : List Json) : Fr
  | objF0 (acc : List (Str × Json)) : Fr
  | objF1 (acc : List (Str × Json)) (key : Str) : Fr

/-- Parser modes: expecting a value, a first array item or `]`, a first
object key or `\x7d`, a further object key, a colon, or a separator. -/
inductive PM where
  | pmVal | pmArrFirst | pmObjFirst | pmObjKey | pmColon | pmAfter

/-- Deliver a completed value to the enclosing frame. -/
def attachV (v : Json) : List Fr → Option (Sum Json (PM × List Fr))
  | [] => some (Sum.inl v)
  | Fr.arrF acc :: st => some (Sum.inr (PM.pmAfter, Fr.arrF (acc ++ [v]) :: st))
  | Fr.objF1 acc k :: st =>
    some (Sum.inr (PM.pmAfter, Fr.objF0 (upsertField acc k v) :: st))
  | Fr.objF0 _ :: _ => none

def valStep : JTok → List Fr → Option (Sum Json (PM × List Fr))
  | JTok.tnull, st => attachV Json.null st
  | JTok.ttrue, st => attachV (Json.bool true) st
  | JTok.tfalse, st => attachV (Json.bool false) st
  | JTok.tnum n, st => attachV (Json.num n) st
  | JTok.tstr s, st => attachV (Json.str s) st
  | JTok.lbrack, st => some (Sum.inr (PM.pmArrFirst, Fr.arrF [] :: st))
  | JTok.lbrace, st => some (Sum.inr (PM.pmObjFirst, Fr.objF0 [] :: st))
  | _, _ => none

def pstep : PM → JTok → List Fr → Option (Sum Json (PM × List Fr))
  | PM.pmVal, t, st => valStep t st
  | PM.pmArrFirst, JTok.rbrack, st =>
    (match st with
     | Fr.arrF acc :: st' => attachV (Json.arr acc) st'
     | _ => none)
  | PM.pmArrFirst, t, st => valStep t st
  | PM.pmObjFirst, JTok.rbrace, st =>
    (match st with
     | Fr.objF0 acc :: st' => attachV (Json.obj acc) st'
     | _ => none)
  | PM.pmObjFirst, JTok.tstr s, st =>
    (match st with
     | Fr.objF0 acc :: st' => some (Sum.inr (PM.pmColon, Fr.objF1 acc s :: st'))
     | _ => none)
  | PM.pmObjFirst, _, _ => none
  | PM.pmObjKey, JTok.tstr s, st =>
    (match st with
     | Fr.objF0 acc :: st' => some (Sum.inr (PM.pmColon, Fr.objF1 acc s :: st'))
     | _ => none)
  | PM.pmObjKey, _, _ => none
  | PM.pmColon, JTok.colon, st => some (Sum.inr (PM.pmVal, st))
  | PM.pmColon, _, _ => none
  | PM.pmAfter, JTok.comma, st =>
    (match st with
     | Fr.arrF _ :: _ => some (Sum.inr (PM.pmVal, st))
     | Fr.objF0 _ :: _ => some (Sum.inr (PM.pmObjKey, st))
     | _ => none)
  | PM.pmAfter, JTok.rbrack, st =>
    (match st with
     | Fr.arrF acc :: st' => attachV (Json.arr acc) st'
     | _ => none)
  | PM.pmAfter, JTok.rbrace, st =>
    (match st with
     | Fr.objF0 acc :: st' => attachV (Json.obj acc) st'
     | _ => none)
  | PM.pmAfter, _, _ => none

def runP : List JTok → PM → List Fr → Option Json
  | [], _, _ => none
  | t :: ts, m, st =>
    match pstep m t st with
    | none => none
    | some (Sum.inl v) => if ts.isEmpty then some v else none
    | some (Sum.inr p) => runP ts p.1 p.2

/-- `JSON.parse` on the modelled fragment. -/
def parseJson (s : Str) : Option Json :=
  match lexGo LexSt.stTop s with
  | none => none
  | some ts => runP ts PM.pmVal []

/-! ## `loadAndMerge` (index.js lines 461-495)

The in-memory `this.tables` is modelled as nested association lists whose
leaves are the lists receiving `push(...entries)`; the pushed elements
are raw JSON values.  `Object.entries(null)` throws, `Object.entries` of
a number or boolean is empty, of an array or string it is the
index-keyed elements or characters.  A thrown `TypeError` lands in the
`catch` which only warns — but everything mutated before the throw stays
mutated. -/

abbrev EvMapJ := List (Str × List Json)
abbrev CatMapJ := List (Str × EvMapJ)
abbrev JsTable := List (Str × CatMapJ)

/-- Index-keyed entries of an array or string. -/
def jsIndexed {α : Type} (f : α → Json) : Nat → List α → List (Str × Json)
  | _, [] => []
  | i, x :: xs => ((Nat.repr i).toList, f x) :: jsIndexed f (i + 1) xs

/-- `Object.entries`, `none` = throws (on `null`). -/
def jsEntries : Json → Option (List (Str × Json))
  | Json.null => none
  | Json.obj l => some l
  | Json.arr l => some (jsIndexed (fun v => v) 0 l)
  | Json.str s => some (jsIndexed (fun c => Json.str [c]) 0 s)
  | _ => some []

/-- `push(...v)`: arrays spread their elements, strings their characters,
anything else throws (`none`). -/
def pushVals : Json → Option (List Json)
  | Json.arr l => some l
  | Json.str s => some (s.map fun c => Json.str [c])
  | _ => none

/-- `if (!obj[key]) obj[key] = d` for object/array slots (always truthy
once present). -/
def ensureA {β : Type} (m : List (Str × β)) (key : Str) (d : β) :
    List (Str × β) :=
  if (getA m key).isSome then m else m ++ [(key, d)]

def mergeEvents : List (Str × Json) → EvMapJ → EvMapJ × Bool
  | [], evs => (evs, false)
  | (e, v) :: rest, evs =>
    let evs1 := ensureA evs e []
    match pushVals v with
    | none => (evs1, true)
    | some vs => mergeEvents rest (updateA evs1 e [] (fun l => l ++ vs))

def mergeCats : List (Str × Json) → CatMapJ → CatMapJ × Bool
  | [], cats => (cats, false)
  | (c, ev) :: rest, cats =>
    let cats1 := ensureA cats c []
    match jsEntries ev with
    | none => (cats1, true)
    | some evEntries =>
      let p := mergeEvents evEntries ((getA cats1 c).getD [])
      let cats2 := updateA cats1 c [] (fun _ => p.1)
      if p.2 then (cats2, true) else mergeCats rest cats2

def mergeGenders : List (Str × Json) → JsTable → JsTable × Bool
  | [], t => (t, false)
  | (g, cv) :: rest, t =>
    let t1 := ensureA t g []
    match jsEntries cv with
    | none => (t1, true)
    | some catEntries =>
      let p := mergeCats catEntries ((getA t1 g).getD [])
      let t2 := updateA t1 g [] (fun _ => p.1)
      if p.2 then (t2, true) else mergeGenders rest t2

/-- `loadAndMerge` applied to the contents of an existing file: result
table plus whether the warning path (parse error or caught `TypeError`)
was taken. -/
def loadAndMerge (cs : Str) (t : JsTable) : JsTable × Bool :=
  match parseJson cs with
  | none => (t, true)
  | some j =>
    match jsEntries j with
    | none => (t, true)
    | some gs => mergeGenders gs t

/-! ## Claim C7 -/

def jquote (s : Str) : Str := quoteC :: (s ++ [quoteC])

/-- The file contents `\x7b"men":\x7b"sprints":\x7b"100m":0\x7d\x7d\x7d` —
valid JSON, invalid schema. -/
def badSchemaJson : Str :=
  lbraceC :: jquote "men".toList ++ ':' :: lbraceC :: jquote "sprints".toList ++
    ':' :: lbraceC :: jquote "100m".toList ++ ':' :: '0' ::
    [rbraceC, rbraceC, rbraceC]

/-- C7 counterexample: contents that parse as JSON but do not hold valid
structured data (`0` where an entry list is expected).  The merge creates
the gender/category objects and an empty event list before
`push(...0)` throws, so the warning is emitted but the table is *not*
left unchanged. -/
theorem C7_counterexample :
    loadAndMerge badSchemaJson [] =
      ([("men".toList,
          [("sprints".toList, [("100m".toList, ([] : List Json))])])], true) ∧
    ([("men".toList,
        [("sprints".toList, [("100m".toList, ([] : List Json))])])] : JsTable) ≠
      ([] : JsTable) :=
  ⟨rfl, fun h => List.noConfusion h⟩

/-- C7 amended: when the contents fail to parse as JSON (a `SyntaxError`
from `JSON.parse`), the table really is left unchanged and only the
warning path is taken; but contents that parse and merely violate the
expected schema may leave a partially mutated table behind the same
warning. -/
theorem C7_parse_failure_no_mutation (cs : Str) (t : JsTable)
    (h : parseJson cs = none) :
    loadAndMerge cs t = (t, true) := by
  unfold loadAndMerge
  rw [h]

/-- Witness: non-JSON contents leave a table unchanged. -/
theorem C7_parse_failure_no_mutation_witness :
    loadAndMerge "nope".toList
        [("men".toList, [("sprints".toList, [("100m".toList, [])])])] =
      ([("men".toList, [("sprints".toList, [("100m".toList, [])])])], true) :=
  C7_parse_failure_no_mutation "nope".toList
    [("men".toList, [("sprints".toList, [("100m".toList, [])])])] (by rfl)

/-! ## The exporter (`exportToJSON`, index.js lines 500-542)

`JSON.stringify` is modelled by printers specialised to the fixed shape
of `compactData` (three nested objects holding arrays of
`[points, performance]` pairs) — the only shape the source ever prints.
`JSON.stringify(x, null, 2)` puts each item of a non-empty container on
its own line indented two deeper, separates keys from values with a
colon and a space, and prints empty containers without any whitespace. -/

/-- Decimal digits of a natural number (the fuel is the number itself). -/
def natDigsF : Nat → Nat → Str
  | 0, _ => []
  | fuel + 1, n =>
    if n < 10 then [Char.ofNat (48 + n)]
    else natDigsF fuel (n / 10) ++ [Char.ofNat (48 + n % 10)]

def natDigs (n : Nat) : Str := natDigsF (n + 1) n

/-- JS number-to-string on integers. -/
def intDigs (n : Int) : Str :=
  if n < 0 then '-' :: natDigs (-n).toNat else natDigs n.toNat

def hexDig (n : Nat) : Char :=
  if n < 10 then Char.ofNat (48 + n) else Char.ofNat (87 + n)

/-- `JSON.stringify` string escaping. -/
def escC (c : Char) : Str :=
  if c = quoteC then [backslashC, quoteC]
  else if c = backslashC then [backslashC, backslashC]
  else if c = '\n' then [backslashC, 'n']
  else if c = '\r' then [backslashC, 'r']
  else if c = '\t' then [backslashC, 't']
  else if c = Char.ofNat 8 then [backslashC, 'b']
  else if c = Char.ofNat 12 then [backslashC, 'f']
  else if c.toNat < 32 then
    [backslashC, 'u', '0', '0', hexDig (c.toNat / 16), hexDig (c.toNat % 16)]
  else [c]

def jstr (s : Str) : Str := quoteC :: s.foldr (fun c a => escC c ++ a) [quoteC]

def sepJoin {α : Type} (sep : List α) : List (List α) → List α
  | [] => []
  | [x] => x
  | x :: y :: rest => x ++ sep ++ sepJoin sep (y :: rest)

/-- `compactData`: the table with each entry turned into a
`[points, performance]` pair. -/
abbrev PairT := Int × Str
abbrev CompactT := List (Str × List (Str × List (Str × List PairT)))

def compactOf (t : Table) : CompactT :=
  t.map fun gc =>
    (gc.1, gc.2.map fun ce =>
      (ce.1, ce.2.map fun ee =>
        (ee.1, ee.2.map fun e => (e.points, e.performance))))

/-- The `Json` value denoted by the compact table. -/
def jsonOfPair (p : PairT) : Json := Json.arr [Json.num p.1, Json.str p.2]

def jsonOfCompact (ct : CompactT) : Json :=
  Json.obj (ct.map fun g =>
    (g.1, Json.obj (g.2.map fun c =>
      (c.1, Json.obj (c.2.map fun e =>
        (e.1, Json.arr (e.2.map jsonOfPair)))))))

/-! ### The minified printer (`JSON.stringify(compactData)`) -/

def minPair (p : PairT) : Str :=
  '[' :: intDigs p.1 ++ ',' :: jstr p.2 ++ [']']

def minArr (l : List PairT) : Str :=
  '[' :: sepJoin [','] (l.map minPair) ++ [']']

def minFields {α : Type} (pv : α → Str) (l : List (Str × α)) : Str :=
  lbraceC :: sepJoin [','] (l.map fun kv => jstr kv.1 ++ ':' :: pv kv.2) ++
    [rbraceC]

def minExport (ct : CompactT) : Str :=
  minFields (minFields (minFields minArr)) ct

/-! ### The pretty printer (`JSON.stringify(compactData, null, 2)`) -/

def ind (k : Nat) : Str := List.replicate k ' '

def prettyPair (i : Nat) (p : PairT) : Str :=
  '[' :: '\n' :: ind (i + 2) ++ intDigs p.1 ++ ',' :: '\n' :: ind (i + 2) ++
    jstr p.2 ++ '\n' :: ind i ++ [']']

def prettyArr (i : Nat) (l : List PairT) : Str :=
  match l with
  | [] => ['[', ']']
  | _ =>
    '[' :: '\n' ::
      sepJoin (',' :: ['\n']) (l.map fun p => ind (i + 2) ++ prettyPair (i + 2) p) ++
      '\n' :: ind i ++ [']']

def prettyFields {α : Type} (pv : Nat → α → Str) (i : Nat)
    (l : List (Str × α)) : Str :=
  match l with
  | [] => [lbraceC, rbraceC]
  | _ =>
    lbraceC :: '\n' ::
      sepJoin (',' :: ['\n']) (l.map fun kv =>
        ind (i + 2) ++ jstr kv.1 ++ ':' :: ' ' :: pv (i + 2) kv.2) ++
      '\n' :: ind i ++ [rbraceC]

def prettyExport (ct : CompactT) : Str :=
  prettyFields (prettyFields (prettyFields prettyArr)) 0 ct

/-! ### The collapse rewrite

`prettyJson.replace(/\[\s+(\d+),\s+"([^"]+)"\s+\]/g, ...)` replaces each
multi-line pair by its one-line form.  All quantifiers are over disjoint
character classes, so maximal munch is exact. -/

def collapseAt (s : Str) : Option (Str × Str) :=
  match s with
  | [] => none
  | c0 :: r1 =>
    if c0 = '[' then
      let w1 := r1.takeWhile isWsC
      let r2 := r1.dropWhile isWsC
      if w1.isEmpty then none
      else
        let ds := r2.takeWhile isDigitC
        let r3 := r2.dropWhile isDigitC
        if ds.isEmpty then none
        else
          match r3 with
          | [] => none
          | c3 :: r4 =>
            if c3 = ',' then
              let w2 := r4.takeWhile isWsC
              let r5 := r4.dropWhile isWsC
              if w2.isEmpty then none
              else
                match r5 with
                | [] => none
                | q :: r6 =>
                  if q = quoteC then
                    let p := r6.takeWhile fun c => !(c = quoteC)
                    let r7 := r6.dropWhile fun c => !(c = quoteC)
                    if p.isEmpty then none
                    else
                      match r7 with
                      | [] => none
                      | q2 :: r8 =>
                        if q2 = quoteC then
                          let w3 := r8.takeWhile isWsC
                          let r9 := r8.dropWhile isWsC
                          if w3.isEmpty then none
                          else
                            match r9 with
                            | [] => none
                            | c9 :: r10 =>
                              if c9 = ']' then
                                some ('[' :: ds ++ ',' :: ' ' :: quoteC :: p ++
                                  quoteC :: [']'], r10)
                              else none
                        else none
                  else none
            else none
    else none

def collapseAll (s : Str) : Str := scanF collapseAt s.length s

/-- The pretty text after the collapse: identical except that each pair
is printed on one line as `[n, "p"]`. -/
def pcPair (p : PairT) : Str :=
  '[' :: intDigs p.1 ++ ',' :: ' ' :: jstr p.2 ++ [']']

def pcArr (i : Nat) (l : List PairT) : Str :=
  match l with
  | [] => ['[', ']']
  | _ =>
    '[' :: '\n' ::
      sepJoin (',' :: ['\n']) (l.map fun p => ind (i + 2) ++ pcPair p) ++
      '\n' :: ind i ++ [']']

def pcExport (ct : CompactT) : Str :=
  prettyFields (prettyFields (prettyFields pcArr)) 0 ct

/-! ### Token streams of the printed texts -/

def pairToks (p : PairT) : List JTok :=
  [JTok.lbrack, JTok.tnum p.1, JTok.comma, JTok.tstr p.2, JTok.rbrack]

def arrToksOf (l : List PairT) : List JTok :=
  JTok.lbrack :: sepJoin [JTok.comma] (l.map pairToks) ++ [JTok.rbrack]

def objToksOf {α : Type} (vt : α → List JTok) (l : List (Str × α)) :
    List JTok :=
  JTok.lbrace ::
    sepJoin [JTok.comma] (l.map fun kv => JTok.tstr kv.1 :: JTok.colon :: vt kv.2) ++
    [JTok.rbrace]

def tableToks (ct : CompactT) : List JTok :=
  objToksOf (objToksOf (objToksOf arrToksOf)) ct

/-! ### Well-formed compact tables -/

/-- Characters allowed in keys: enough for every key the tool produces,
and disjoint from quotes, backslashes, control characters and brackets. -/
def safeC (c : Char) : Bool :=
  isWordC c || c = ' ' || c = ',' || c = '.' || c = ':' || c = '-'

/-- Characters of a performance string. -/
def perfC (c : Char) : Bool := isDigitC c || c = '.' || c = ':'

def WFpair (p : PairT) : Prop :=
  0 ≤ p.1 ∧ p.2 ≠ [] ∧ p.2.all perfC = true

def WFct (ct : CompactT) : Prop :=
  (ct.map Prod.fst).Nodup ∧ ∀ g ∈ ct, g.1.all safeC = true ∧
    ((g.2.map Prod.fst).Nodup ∧ ∀ c ∈ g.2, c.1.all safeC = true ∧
      ((c.2.map Prod.fst).Nodup ∧ ∀ e ∈ c.2, e.1.all safeC = true ∧
        ∀ p ∈ e.2, WFpair p))

/-! ### Character facts for the round-trip proof -/

theorem safeC_toNat (c : Char) (h : safeC c = true) :
    32 ≤ c.toNat ∧ c.toNat ≠ 34 ∧ c.toNat ≠ 92 ∧ c.toNat ≠ 91 ∧
      c.toNat ≠ 93 ∧ 32 ≤ c.toNat := by
  simp only [safeC, isWordC, isDigitC, Bool.or_eq_true, Bool.and_eq_true,
    decide_eq_true_eq] at h
  rcases h with ((((((((⟨h1, h2⟩ | ⟨h1, h2⟩) | ⟨h1, h2⟩) | h1) | h1) | h1) | h1) | h1) | h1)
  · rw [Char.le_def] at h1 h2
    have a1 : 97 ≤ c.toNat := h1
    have a2 : c.toNat ≤ 122 := h2
    omega
  · rw [Char.le_def] at h1 h2
    have a1 : 65 ≤ c.toNat := h1
    have a2 : c.toNat ≤ 90 := h2
    omega
  · rw [Char.le_def] at h1 h2
    have a1 : 48 ≤ c.toNat := h1
    have a2 : c.toNat ≤ 57 := h2
    omega
  · subst h1; refine ⟨by decide, by decide, by decide, by decide, by decide, by decide⟩
  · subst h1; refine ⟨by decide, by decide, by decide, by decide, by decide, by decide⟩
  · subst h1; refine ⟨by decide, by decide, by decide, by decide, by decide, by decide⟩
  · subst h1; refine ⟨by decide, by decide, by decide, by decide, by decide, by decide⟩
  · subst h1; refine ⟨by decide, by decide, by decide, by decide, by decide, by decide⟩
  · subst h1; refine ⟨by decide, by decide, by decide, by decide, by decide, by decide⟩

theorem char_ne_of_toNat {c d : Char} (h : c.toNat ≠ d.toNat) : c ≠ d :=
  fun he => h (congrArg Char.toNat he)

theorem escC_eq_self (c : Char) (h32 : 32 ≤ c.toNat) (hq : c ≠ quoteC)
    (hb : c ≠ backslashC) : escC c = [c] := by
  unfold escC
  rw [if_neg hq, if_neg hb,
    if_neg (fun he => absurd (he ▸ h32) (by decide)),
    if_neg (fun he => absurd (he ▸ h32) (by decide)),
    if_neg (fun he => absurd (he ▸ h32) (by decide)),
    if_neg (fun he => absurd (he ▸ h32) (by decide)),
    if_neg (fun he => absurd (he ▸ h32) (by decide)),
    if_neg (by omega)]

theorem safeC_ne (c : Char) (h : safeC c = true) :
    c ≠ quoteC ∧ c ≠ backslashC ∧ c ≠ '[' ∧ ¬ c.toNat < 32 ∧ escC c = [c] := by
  obtain ⟨h32, h34, h92, h91, h93, -⟩ := safeC_toNat c h
  have hq : c ≠ quoteC := char_ne_of_toNat (by rw [(by decide : quoteC.toNat = 34)]; exact h34)
  have hb : c ≠ backslashC := char_ne_of_toNat (by rw [(by decide : backslashC.toNat = 92)]; exact h92)
  exact ⟨hq, hb,
    char_ne_of_toNat (by rw [(by decide : Char.toNat '[' = 91)]; exact h91),
    by omega, escC_eq_self c h32 hq hb⟩

theorem digit_toNat (c : Char) (h : isDigitC c = true) :
    48 ≤ c.toNat ∧ c.toNat ≤ 57 := by
  simp only [isDigitC, Bool.and_eq_true, decide_eq_true_eq] at h
  obtain ⟨h1, h2⟩ := h
  rw [Char.le_def] at h1 h2
  exact ⟨h1, h2⟩

theorem perfC_safe (c : Char) (h : perfC c = true) : safeC c = true := by
  simp only [perfC, Bool.or_eq_true, decide_eq_true_eq] at h
  rcases h with (h1 | h1) | h1
  · simp [safeC, isWordC, h1]
  · subst h1; decide
  · subst h1; decide

theorem perfC_toNat (c : Char) (h : perfC c = true) :
    44 ≤ c.toNat ∧ c.toNat ≤ 58 := by
  simp only [perfC, Bool.or_eq_true, decide_eq_true_eq] at h
  rcases h with (h1 | h1) | h1
  · obtain ⟨a1, a2⟩ := digit_toNat c h1; omega
  · subst h1; decide
  · subst h1; decide

theorem not_ws_of_toNat (c : Char) (h : 34 ≤ c.toNat) : isWsC c = false := by
  cases hw : isWsC c with
  | false => rfl
  | true =>
    exfalso
    simp only [isWsC, Bool.or_eq_true, decide_eq_true_eq] at hw
    rcases hw with ((((h1 | h1) | h1) | h1) | h1) | h1 <;>
      (subst h1; revert h; decide)

theorem not_jsonWs_of_toNat (c : Char) (h : 34 ≤ c.toNat) : isJsonWs c = false := by
  cases hw : isJsonWs c with
  | false => rfl
  | true =>
    exfalso
    simp only [isJsonWs, Bool.or_eq_true, decide_eq_true_eq] at hw
    rcases hw with ((h1 | h1) | h1) | h1 <;> (subst h1; revert h; decide)

/-! ### Decimal rendering -/

theorem digit_char (m : Nat) (h : m < 10) :
    isDigitC (Char.ofNat (48 + m)) = true ∧ (Char.ofNat (48 + m)).toNat = 48 + m ∧
      (m ≠ 0 → Char.ofNat (48 + m) ≠ '0') := by
  interval_cases m <;> exact ⟨by decide, by decide, by decide⟩

theorem natOfDigits_append_single (a : Str) (c : Char) :
    natOfDigits (a ++ [c]) = 10 * natOfDigits a + (c.toNat - 48) := by
  simp [natOfDigits, List.foldl_append]

theorem headD_append_of_ne_nil {a : Str} (h : a ≠ []) (b : Str) (d : Char) :
    (a ++ b).headD d = a.headD d := by
  cases a with
  | nil => exact absurd rfl h
  | cons x xs => rfl

theorem natDigsF_spec : ∀ (fuel n : Nat), n < fuel →
    natDigsF fuel n ≠ [] ∧ (∀ c ∈ natDigsF fuel n, isDigitC c = true) ∧
      natOfDigits (natDigsF fuel n) = n ∧
      (1 ≤ n → ¬ (natDigsF fuel n).headD '0' = '0') := by
  intro fuel
  induction fuel with
  | zero => intro n h; omega
  | succ f ih =>
    intro n h
    by_cases h10 : n < 10
    · have hd := digit_char n h10
      simp only [natDigsF, if_pos h10]
      refine ⟨by simp, ?_, ?_, ?_⟩
      · intro c hc
        simp only [List.mem_singleton] at hc
        subst hc; exact hd.1
      · simp only [natOfDigits, List.foldl_cons, List.foldl_nil]
        rw [hd.2.1]; omega
      · intro h1
        simp only [List.headD_cons]
        exact hd.2.2 (by omega)
    · have hn10 : 10 ≤ n := by omega
      simp only [natDigsF, if_neg h10]
      have hdivlt : n / 10 < f := by
        have : n / 10 < n := Nat.div_lt_self (by omega) (by omega)
        omega
      obtain ⟨hne, hall, hval, hhead⟩ := ih (n / 10) hdivlt
      have hm : n % 10 < 10 := Nat.mod_lt _ (by omega)
      have hd := digit_char (n % 10) hm
      refine ⟨by simp, ?_, ?_, ?_⟩
      · intro c hc
        rcases List.mem_append.mp hc with hcm | hcm
        · exact hall c hcm
        · simp only [List.mem_singleton] at hcm
          subst hcm; exact hd.1
      · rw [natOfDigits_append_single, hval, hd.2.1]
        omega
      · intro _
        rw [headD_append_of_ne_nil hne]
        exact hhead (by omega)

theorem natDigs_spec (n : Nat) :
    natDigs n ≠ [] ∧ (∀ c ∈ natDigs n, isDigitC c = true) ∧
      natOfDigits (natDigs n) = n ∧
      (1 ≤ n → ¬ (natDigs n).headD '0' = '0') :=
  natDigsF_spec (n + 1) n (Nat.lt_succ_self n)

theorem flushNum_natDigs (n : Nat) :
    flushNum false (natDigs n) = some (JTok.tnum (Int.ofNat n)) := by
  by_cases h0 : n = 0
  · subst h0; decide
  · obtain ⟨hne, -, hval, hhead⟩ := natDigs_spec n
    unfold flushNum
    rw [if_neg (by simpa [List.isEmpty_iff] using hne),
      if_neg (by
        simp only [Bool.and_eq_true, decide_eq_true_eq]
        rintro ⟨hh, -⟩
        exact hhead (by omega) hh)]
    simp [hval]

/-! ### Lexing the printed fragments -/

theorem lexGo_nil_top : lexGo LexSt.stTop [] = some [] := rfl

theorem lexGo_step (st : LexSt) (c : Char) (rest : Str) (ts : List JTok)
    (st' : LexSt) (h : lstep st c = some (ts, st')) :
    lexGo st (c :: rest) = (lexGo st' rest).map (ts ++ ·) := by
  simp only [lexGo, h]

theorem lstep_top (c : Char) : lstep LexSt.stTop c = topTrans c := rfl

theorem lexGo_ws (w : Str) (hw : ∀ c ∈ w, isJsonWs c = true) (B : Str) :
    lexGo LexSt.stTop (w ++ B) = lexGo LexSt.stTop B := by
  induction w with
  | nil => rfl
  | cons c w' ih =>
    have hc : isJsonWs c = true := hw c (by simp)
    have hstep : lstep LexSt.stTop c = some ([], LexSt.stTop) := by
      rw [lstep_top, topTrans, if_pos hc]
    show lexGo LexSt.stTop (c :: (w' ++ B)) = _
    rw [lexGo_step _ _ _ _ _ hstep, ih fun c hc => hw c (by simp [hc])]
    simp

theorem lexGo_tok1 (c : Char) (tok : JTok)
    (h : topTrans c = some ([tok], LexSt.stTop)) (B : Str) :
    lexGo LexSt.stTop (c :: B) = (lexGo LexSt.stTop B).map (tok :: ·) := by
  rw [lexGo_step _ _ _ _ _ ((lstep_top c).trans h)]
  simp only [List.singleton_append]

theorem lexGo_strBody (s : Str) (hs : ∀ c ∈ s, safeC c = true) :
    ∀ (acc B : Str),
    lexGo (LexSt.stStr acc) (s ++ quoteC :: B) =
      (lexGo LexSt.stTop B).map (JTok.tstr (acc ++ s) :: ·) := by
  induction s with
  | nil =>
    intro acc B
    have hstep : lstep (LexSt.stStr acc) quoteC =
        some ([JTok.tstr acc], LexSt.stTop) := by
      simp [lstep]
    show lexGo (LexSt.stStr acc) (quoteC :: B) = _
    rw [lexGo_step _ _ _ _ _ hstep]
    cases lexGo LexSt.stTop B <;> simp
  | cons c s' ih =>
    intro acc B
    obtain ⟨hq, hb, -, h32, -⟩ := safeC_ne c (hs c (by simp))
    have hstep : lstep (LexSt.stStr acc) c =
        some ([], LexSt.stStr (acc ++ [c])) := by
      simp only [lstep]
      rw [if_neg hq, if_neg hb, if_neg h32]
    show lexGo (LexSt.stStr acc) (c :: (s' ++ quoteC :: B)) = _
    rw [lexGo_step _ _ _ _ _ hstep,
      ih (fun c hc => hs c (by simp [hc])) (acc ++ [c]) B]
    cases lexGo LexSt.stTop B <;> simp

theorem jstr_safe (s : Str) (hs : ∀ c ∈ s, safeC c = true) :
    jstr s = quoteC :: (s ++ [quoteC]) := by
  unfold jstr
  congr 1
  induction s with
  | nil => rfl
  | cons c s' ih =>
    simp only [List.foldr_cons, List.cons_append]
    rw [ih fun c hc => hs c (by simp [hc]), (safeC_ne c (hs c (by simp))).2.2.2.2]
    rfl

theorem lexGo_jstr (s : Str) (hs : ∀ c ∈ s, safeC c = true) (B : Str) :
    lexGo LexSt.stTop (jstr s ++ B) =
      (lexGo LexSt.stTop B).map (JTok.tstr s :: ·) := by
  rw [jstr_safe s hs]
  show lexGo LexSt.stTop (quoteC :: ((s ++ [quoteC]) ++ B)) = _
  rw [lexGo_step _ _ _ _ _
    ((lstep_top quoteC).trans (by rfl : topTrans quoteC = some ([], LexSt.stStr []))),
    List.append_assoc, List.singleton_append, lexGo_strBody s hs [] B]
  cases lexGo LexSt.stTop B <;> simp

theorem lexGo_digitsTail (more : Str) (hm : ∀ c ∈ more, isDigitC c = true) :
    ∀ (acc : Str) (neg : Bool) (B : Str),
    lexGo (LexSt.stNum neg acc) (more ++ ',' :: B) =
      (match flushNum neg (acc ++ more) with
       | none => none
       | some tok => (lexGo LexSt.stTop B).map fun ts => tok :: JTok.comma :: ts) := by
  induction more with
  | nil =>
    intro acc neg B
    show lexGo (LexSt.stNum neg acc) (',' :: B) = _
    simp only [List.append_nil]
    have hbase : lstep (LexSt.stNum neg acc) ',' =
        match flushNum neg acc with
        | none => none
        | some tok => some ([tok, JTok.comma], LexSt.stTop) := by
      simp only [lstep]
      rw [if_neg (by decide), if_neg (by decide)]
      cases flushNum neg acc with
      | none => rfl
      | some tok => rfl
    cases hf : flushNum neg acc with
    | none =>
      rw [hf] at hbase
      simp only [lexGo, hbase]
    | some tok =>
      rw [hf] at hbase
      rw [lexGo_step _ _ _ _ _ hbase]
      cases lexGo LexSt.stTop B <;> simp
  | cons d more' ih =>
    intro acc neg B
    have hd : isDigitC d = true := hm d (by simp)
    have hstep : lstep (LexSt.stNum neg acc) d =
        some ([], LexSt.stNum neg (acc ++ [d])) := by
      simp only [lstep]
      rw [if_pos hd]
    show lexGo (LexSt.stNum neg acc) (d :: (more' ++ ',' :: B)) = _
    rw [lexGo_step _ _ _ _ _ hstep,
      ih (fun c hc => hm c (by simp [hc])) (acc ++ [d]) neg B]
    simp only [List.append_assoc, List.singleton_append]
    cases flushNum neg (acc ++ d :: more') <;> [rfl; (cases lexGo LexSt.stTop B <;> simp)]

theorem topTrans_digit (d : Char) (hd : isDigitC d = true) :
    topTrans d = some ([], LexSt.stNum false [d]) := by
  obtain ⟨h48, h57⟩ := digit_toNat d hd
  unfold topTrans
  rw [(not_jsonWs_of_toNat d (by omega) : isJsonWs d = false)]
  rw [if_neg (Bool.false_ne_true),
    if_neg (char_ne_of_toNat (by rw [(by decide : lbraceC.toNat = 123)]; omega)),
    if_neg (char_ne_of_toNat (by rw [(by decide : rbraceC.toNat = 125)]; omega)),
    if_neg (char_ne_of_toNat (by rw [(by decide : Char.toNat '[' = 91)]; omega)),
    if_neg (char_ne_of_toNat (by rw [(by decide : Char.toNat ']' = 93)]; omega)),
    if_neg (char_ne_of_toNat (by rw [(by decide : Char.toNat ':' = 58)]; omega)),
    if_neg (char_ne_of_toNat (by rw [(by decide : Char.toNat ',' = 44)]; omega)),
    if_neg (char_ne_of_toNat (by rw [(by decide : quoteC.toNat = 34)]; omega)),
    if_neg (char_ne_of_toNat (by rw [(by decide : Char.toNat '-' = 45)]; omega)),
    if_pos hd]

theorem lexGo_natNum (n : Nat) (B : Str) :
    lexGo LexSt.stTop (natDigs n ++ ',' :: B) =
      (lexGo LexSt.stTop B).map fun ts => JTok.tnum (Int.ofNat n) :: JTok.comma :: ts := by
  obtain ⟨hne, hall, -, -⟩ := natDigs_spec n
  cases hnd : natDigs n with
  | nil => exact absurd hnd hne
  | cons d ds =>
    have hd : isDigitC d = true := hall d (by rw [hnd]; simp)
    rw [List.cons_append]
    rw [lexGo_step _ _ _ _ _ ((lstep_top d).trans (topTrans_digit d hd)),
      lexGo_digitsTail ds (fun c hc => hall c (by rw [hnd]; simp [hc])) [d] false B]
    have hds : ([d] ++ ds : Str) = natDigs n := by rw [hnd]; rfl
    rw [hds, flushNum_natDigs n]
    cases lexGo LexSt.stTop B <;> simp

/-! ### Running the parser over the printed token streams -/

def disp : Option (Sum Json (PM × List Fr)) → List JTok → Option Json
  | none, _ => none
  | some (Sum.inl v), ts => if ts.isEmpty then some v else none
  | some (Sum.inr p), ts => runP ts p.1 p.2

theorem runP_cons (t : JTok) (ts : List JTok) (m : PM) (st : List Fr) :
    runP (t :: ts) m st = disp (pstep m t st) ts := by
  simp only [runP]
  cases pstep m t st with
  | none => rfl
  | some r =>
    cases r with
    | inl v => rfl
    | inr p => rfl

/-- The parser consumes the token list `vt` as the single value `v` and
delivers it to the surrounding frame. -/
def ValueOK (vt : List JTok) (v : Json) : Prop :=
  ∀ ts st, runP (vt ++ ts) PM.pmVal st = disp (attachV v st) ts

theorem runP_num_val (n : Int) (X : List JTok) (st : List Fr) :
    runP (JTok.tnum n :: X) PM.pmVal st = disp (attachV (Json.num n) st) X := by
  rw [runP_cons]; rfl

theorem runP_str_val (s : Str) (X : List JTok) (st : List Fr) :
    runP (JTok.tstr s :: X) PM.pmVal st = disp (attachV (Json.str s) st) X := by
  rw [runP_cons]; rfl

theorem runP_lbrack_val (X : List JTok) (st : List Fr) :
    runP (JTok.lbrack :: X) PM.pmVal st =
      runP X PM.pmArrFirst (Fr.arrF [] :: st) := by
  rw [runP_cons]; rfl

theorem runP_lbrace_val (X : List JTok) (st : List Fr) :
    runP (JTok.lbrace :: X) PM.pmVal st =
      runP X PM.pmObjFirst (Fr.objF0 [] :: st) := by
  rw [runP_cons]; rfl

theorem runP_rbrack_arrFirst (X : List JTok) (acc : List Json) (st : List Fr) :
    runP (JTok.rbrack :: X) PM.pmArrFirst (Fr.arrF acc :: st) =
      disp (attachV (Json.arr acc) st) X := by
  rw [runP_cons]; rfl

theorem runP_rbrace_objFirst (X : List JTok) (acc : List (Str × Json))
    (st : List Fr) :
    runP (JTok.rbrace :: X) PM.pmObjFirst (Fr.objF0 acc :: st) =
      disp (attachV (Json.obj acc) st) X := by
  rw [runP_cons]; rfl

theorem runP_after_comma_arr (X : List JTok) (acc : List Json) (st : List Fr) :
    runP (JTok.comma :: X) PM.pmAfter (Fr.arrF acc :: st) =
      runP X PM.pmVal (Fr.arrF acc :: st) := by
  rw [runP_cons]; rfl

theorem runP_after_rbrack (X : List JTok) (acc : List Json) (st : List Fr) :
    runP (JTok.rbrack :: X) PM.pmAfter (Fr.arrF acc :: st) =
      disp (attachV (Json.arr acc) st) X := by
  rw [runP_cons]; rfl

theorem runP_after_comma_obj (X : List JTok) (acc : List (Str × Json))
    (st : List Fr) :
    runP (JTok.comma :: X) PM.pmAfter (Fr.objF0 acc :: st) =
      runP X PM.pmObjKey (Fr.objF0 acc :: st) := by
  rw [runP_cons]; rfl

theorem runP_after_rbrace (X : List JTok) (acc : List (Str × Json))
    (st : List Fr) :
    runP (JTok.rbrace :: X) PM.pmAfter (Fr.objF0 acc :: st) =
      disp (attachV (Json.obj acc) st) X := by
  rw [runP_cons]; rfl

theorem runP_objKey_str (s : Str) (X : List JTok) (acc : List (Str × Json))
    (st : List Fr) :
    runP (JTok.tstr s :: X) PM.pmObjKey (Fr.objF0 acc :: st) =
      runP X PM.pmColon (Fr.objF1 acc s :: st) := by
  rw [runP_cons]; rfl

theorem runP_objFirst_str (s : Str) (X : List JTok) (acc : List (Str × Json))
    (st : List Fr) :
    runP (JTok.tstr s :: X) PM.pmObjFirst (Fr.objF0 acc :: st) =
      runP X PM.pmColon (Fr.objF1 acc s :: st) := by
  rw [runP_cons]; rfl

theorem runP_colon (X : List JTok) (st : List Fr) :
    runP (JTok.colon :: X) PM.pmColon st = runP X PM.pmVal st := by
  rw [runP_cons]; rfl

theorem disp_attach_arr (v : Json) (acc : List Json) (st : List Fr)
    (X : List JTok) :
    disp (attachV v (Fr.arrF acc :: st)) X =
      runP X PM.pmAfter (Fr.arrF (acc ++ [v]) :: st) := rfl

theorem disp_attach_obj (v : Json) (acc : List (Str × Json)) (k : Str)
    (st : List Fr) (X : List JTok) :
    disp (attachV v (Fr.objF1 acc k :: st)) X =
      runP X PM.pmAfter (Fr.objF0 (upsertField acc k v) :: st) := rfl

theorem valueOK_pair (p : PairT) : ValueOK (pairToks p) (jsonOfPair p) := by
  intro ts st
  show runP (JTok.lbrack :: JTok.tnum p.1 :: JTok.comma :: JTok.tstr p.2 ::
    JTok.rbrack :: ts) PM.pmVal st = _
  rw [runP_lbrack_val]
  rw [(rfl : runP (JTok.tnum p.1 :: JTok.comma :: JTok.tstr p.2 ::
      JTok.rbrack :: ts) PM.pmArrFirst (Fr.arrF [] :: st) =
    disp (pstep PM.pmArrFirst (JTok.tnum p.1) (Fr.arrF [] :: st))
      (JTok.comma :: JTok.tstr p.2 :: JTok.rbrack :: ts))]
  show runP (JTok.comma :: JTok.tstr p.2 :: JTok.rbrack :: ts) PM.pmAfter
    (Fr.arrF ([] ++ [Json.num p.1]) :: st) = _
  rw [runP_after_comma_arr, runP_str_val, disp_attach_arr, runP_after_rbrack]
  rfl

theorem upsertField_fresh (acc : List (Str × Json)) (k : Str) (v : Json)
    (h : ∀ kv ∈ acc, kv.1 ≠ k) : upsertField acc k v = acc ++ [(k, v)] := by
  induction acc with
  | nil => rfl
  | cons x xs ih =>
    simp only [upsertField]
    rw [if_neg (h x (by simp))]
    rw [ih fun kv hkv => h kv (by simp [hkv])]
    rfl

theorem runP_arrItems (l : List PairT) :
    ∀ (acc : List Json) (ts : List JTok) (st : List Fr), l ≠ [] →
    runP (sepJoin [JTok.comma] (l.map pairToks) ++ JTok.rbrack :: ts)
        PM.pmVal (Fr.arrF acc :: st) =
      disp (attachV (Json.arr (acc ++ l.map jsonOfPair)) st) ts := by
  induction l with
  | nil => intro _ _ _ h; exact absurd rfl h
  | cons p l' ih =>
    intro acc ts st _
    cases l' with
    | nil =>
      show runP (pairToks p ++ JTok.rbrack :: ts) PM.pmVal (Fr.arrF acc :: st) = _
      rw [valueOK_pair p (JTok.rbrack :: ts) (Fr.arrF acc :: st),
        disp_attach_arr, runP_after_rbrack]
      simp
    | cons q l'' =>
      show runP ((pairToks p ++ [JTok.comma] ++
          sepJoin [JTok.comma] ((q :: l'').map pairToks)) ++ JTok.rbrack :: ts)
        PM.pmVal (Fr.arrF acc :: st) = _
      simp only [List.append_assoc, List.cons_append, List.singleton_append,
        List.nil_append]
      rw [valueOK_pair p _ _, disp_attach_arr, runP_after_comma_arr]
      rw [ih (acc ++ [jsonOfPair p]) ts st (by simp)]
      simp [List.append_assoc]

theorem valueOK_arr (l : List PairT) :
    ValueOK (arrToksOf l) (Json.arr (l.map jsonOfPair)) := by
  intro ts st
  cases l with
  | nil =>
    show runP (JTok.lbrack :: JTok.rbrack :: ts) PM.pmVal st = _
    rw [runP_lbrack_val, runP_rbrack_arrFirst]
    rfl
  | cons p l' =>
    show runP ((JTok.lbrack :: (sepJoin [JTok.comma] ((p :: l').map pairToks) ++
      [JTok.rbrack])) ++ ts) PM.pmVal st = _
    rw [List.cons_append, runP_lbrack_val, List.append_assoc,
      List.singleton_append]
    have hsw : runP (sepJoin [JTok.comma] ((p :: l').map pairToks) ++
        JTok.rbrack :: ts) PM.pmArrFirst (Fr.arrF [] :: st) =
        runP (sepJoin [JTok.comma] ((p :: l').map pairToks) ++
          JTok.rbrack :: ts) PM.pmVal (Fr.arrF [] :: st) := by
      cases l' with
      | nil =>
        simp only [List.map_cons, List.map_nil, sepJoin, pairToks,
          List.cons_append]
        rw [runP_cons, runP_cons]; rfl
      | cons q l'' =>
        simp only [List.map_cons, sepJoin, pairToks, List.append_assoc,
          List.cons_append, List.singleton_append, List.nil_append]
        rw [runP_cons, runP_cons]; rfl
    rw [hsw, runP_arrItems (p :: l') [] ts st (by simp)]
    simp

theorem runP_objItems {α : Type} (vt : α → List JTok) (jv : α → Json) :
    ∀ (l : List (Str × α)), l ≠ [] →
    ∀ (acc : List (Str × Json)) (ts : List JTok) (st : List Fr),
      (∀ kv ∈ l, ValueOK (vt kv.2) (jv kv.2)) →
      (∀ kv ∈ l, ∀ av ∈ acc, av.1 ≠ kv.1) →
      (l.map Prod.fst).Nodup →
      runP (sepJoin [JTok.comma]
          (l.map fun kv => JTok.tstr kv.1 :: JTok.colon :: vt kv.2) ++
          JTok.rbrace :: ts)
        PM.pmObjKey (Fr.objF0 acc :: st) =
        disp (attachV (Json.obj (acc ++ l.map fun kv => (kv.1, jv kv.2))) st)
          ts := by
  intro l
  induction l with
  | nil => intro h; exact absurd rfl h
  | cons kv l' ih =>
    intro _ acc ts st hv hfresh hnd
    have hvk : ValueOK (vt kv.2) (jv kv.2) := hv kv (by simp)
    have hups : upsertField acc kv.1 (jv kv.2) = acc ++ [(kv.1, jv kv.2)] :=
      upsertField_fresh acc kv.1 (jv kv.2)
        (fun av hav => hfresh kv (by simp) av hav)
    cases l' with
    | nil =>
      show runP ((JTok.tstr kv.1 :: JTok.colon :: vt kv.2) ++ JTok.rbrace :: ts)
        PM.pmObjKey (Fr.objF0 acc :: st) = _
      rw [List.cons_append, List.cons_append, runP_objKey_str, runP_colon,
        hvk (JTok.rbrace :: ts) (Fr.objF1 acc kv.1 :: st), disp_attach_obj,
        hups, runP_after_rbrace]
      simp
    | cons kw l'' =>
      rw [List.map_cons] at hnd
      obtain ⟨hnotin, hnd'⟩ := List.nodup_cons.mp hnd
      have hfresh' : ∀ kx ∈ kw :: l'',
          ∀ av ∈ acc ++ [(kv.1, jv kv.2)], av.1 ≠ kx.1 := by
        intro kx hkx av hav
        rcases List.mem_append.mp hav with hav | hav
        · exact hfresh kx (by simp [hkx]) av hav
        · simp only [List.mem_singleton] at hav
          subst hav
          simp only [List.mem_map] at hnotin
          intro he
          exact hnotin ⟨kx, hkx, he.symm⟩
      show runP (((JTok.tstr kv.1 :: JTok.colon :: vt kv.2) ++ [JTok.comma] ++
          sepJoin [JTok.comma]
            ((kw :: l'').map fun kv => JTok.tstr kv.1 :: JTok.colon :: vt kv.2)) ++
          JTok.rbrace :: ts)
        PM.pmObjKey (Fr.objF0 acc :: st) = _
      simp only [List.append_assoc, List.singleton_append, List.cons_append]
      rw [runP_objKey_str, runP_colon,
        hvk _ (Fr.objF1 acc kv.1 :: st), disp_attach_obj, hups,
        runP_after_comma_obj]
      simp only [List.nil_append]
      rw [ih (by simp) (acc ++ [(kv.1, jv kv.2)]) ts st
        (fun kx hkx => hv kx (by simp [hkx])) hfresh' hnd']
      simp [List.append_assoc]

theorem valueOK_obj {α : Type} (vt : α → List JTok) (jv : α → Json)
    (l : List (Str × α)) (hnd : (l.map Prod.fst).Nodup)
    (hv : ∀ kv ∈ l, ValueOK (vt kv.2) (jv kv.2)) :
    ValueOK (objToksOf vt l) (Json.obj (l.map fun kv => (kv.1, jv kv.2))) := by
  intro ts st
  cases l with
  | nil =>
    show runP (JTok.lbrace :: JTok.rbrace :: ts) PM.pmVal st = _
    rw [runP_lbrace_val, runP_rbrace_objFirst]
    rfl
  | cons kv l' =>
    show runP ((JTok.lbrace :: (sepJoin [JTok.comma]
        ((kv :: l').map fun kv => JTok.tstr kv.1 :: JTok.colon :: vt kv.2) ++
        [JTok.rbrace])) ++ ts) PM.pmVal st = _
    rw [List.cons_append, runP_lbrace_val, List.append_assoc,
      List.singleton_append]
    have hsw : runP (sepJoin [JTok.comma]
        ((kv :: l').map fun kv => JTok.tstr kv.1 :: JTok.colon :: vt kv.2) ++
        JTok.rbrace :: ts) PM.pmObjFirst (Fr.objF0 [] :: st) =
        runP (sepJoin [JTok.comma]
          ((kv :: l').map fun kv => JTok.tstr kv.1 :: JTok.colon :: vt kv.2) ++
          JTok.rbrace :: ts) PM.pmObjKey (Fr.objF0 [] :: st) := by
      cases l' with
      | nil =>
        simp only [List.map_cons, List.map_nil, sepJoin, List.cons_append]
        rw [runP_cons, runP_cons]; rfl
      | cons kw l'' =>
        simp only [sepJoin, List.map_cons, List.append_assoc,
          List.cons_append, List.singleton_append, List.nil_append]
        rw [runP_cons, runP_cons]; rfl
    rw [hsw, runP_objItems vt jv (kv :: l') (by simp) [] ts st hv (by simp) hnd]
    simp


/-! ### Lexing the minified output -/

theorem intDigs_nonneg (n : Int) (h : 0 ≤ n) : intDigs n = natDigs n.toNat := by
  unfold intDigs
  rw [if_neg (by omega)]

theorem lexMin_pair (p : PairT) (hp : WFpair p) (B : Str) :
    lexGo LexSt.stTop (minPair p ++ B) =
      (lexGo LexSt.stTop B).map (pairToks p ++ ·) := by
  obtain ⟨hnn, hne, hall⟩ := hp
  have hsafe : ∀ c ∈ p.2, safeC c = true := fun c hc =>
    perfC_safe c (by simpa using List.all_eq_true.mp hall c hc)
  show lexGo LexSt.stTop (('[' :: (intDigs p.1 ++ ',' :: jstr p.2 ++ [']'])) ++ B) = _
  rw [List.cons_append,
    lexGo_tok1 '[' JTok.lbrack (by rfl)]
  simp only [List.append_assoc, List.cons_append, List.singleton_append,
    List.nil_append]
  rw [intDigs_nonneg p.1 hnn, lexGo_natNum p.1.toNat (jstr p.2 ++ ']' :: B),
    lexGo_jstr p.2 hsafe (']' :: B),
    lexGo_tok1 ']' JTok.rbrack (by rfl)]
  cases lexGo LexSt.stTop B <;> simp [pairToks, Int.toNat_of_nonneg hnn]

theorem lexMin_arrItems (l : List PairT) :
    ∀ (_ : ∀ p ∈ l, WFpair p) (B : Str), l ≠ [] →
    lexGo LexSt.stTop (sepJoin [','] (l.map minPair) ++ ']' :: B) =
      (lexGo LexSt.stTop B).map
        (fun ts => sepJoin [JTok.comma] (l.map pairToks) ++ JTok.rbrack :: ts) := by
  induction l with
  | nil => intro _ _ h; exact absurd rfl h
  | cons p l' ih =>
    intro hl B _
    cases l' with
    | nil =>
      show lexGo LexSt.stTop (minPair p ++ (']' :: B)) = _
      rw [lexMin_pair p (hl p (by simp)) (']' :: B),
        lexGo_tok1 ']' JTok.rbrack (by rfl)]
      cases lexGo LexSt.stTop B <;> simp [sepJoin]
    | cons q l'' =>
      show lexGo LexSt.stTop ((minPair p ++ [','] ++
        sepJoin [','] ((q :: l'').map minPair)) ++ ']' :: B) = _
      simp only [List.append_assoc, List.cons_append, List.singleton_append,
        List.nil_append]
      rw [lexMin_pair p (hl p (by simp)) _,
        lexGo_tok1 ',' JTok.comma (by rfl),
        ih (fun p hp => hl p (by simp [hp])) B (by simp)]
      cases lexGo LexSt.stTop B <;> simp [sepJoin, List.append_assoc]

theorem lexMin_arr (l : List PairT) (hl : ∀ p ∈ l, WFpair p) (B : Str) :
    lexGo LexSt.stTop (minArr l ++ B) =
      (lexGo LexSt.stTop B).map (arrToksOf l ++ ·) := by
  cases l with
  | nil =>
    show lexGo LexSt.stTop ('[' :: ']' :: B) = _
    rw [lexGo_tok1 '[' JTok.lbrack (by rfl), lexGo_tok1 ']' JTok.rbrack (by rfl)]
    cases lexGo LexSt.stTop B <;> simp [arrToksOf, sepJoin]
  | cons p l' =>
    show lexGo LexSt.stTop (('[' :: (sepJoin [','] ((p :: l').map minPair) ++
      [']'])) ++ B) = _
    rw [List.cons_append, lexGo_tok1 '[' JTok.lbrack (by rfl),
      List.append_assoc, List.singleton_append,
      lexMin_arrItems (p :: l') hl B (by simp)]
    cases lexGo LexSt.stTop B <;> simp [arrToksOf, List.append_assoc]

theorem lexMin_fieldItems {α : Type} (pv : α → Str) (vt : α → List JTok) :
    ∀ (l : List (Str × α)),
      (∀ kv ∈ l, (∀ c ∈ kv.1, safeC c = true) ∧
        ∀ B, lexGo LexSt.stTop (pv kv.2 ++ B) =
          (lexGo LexSt.stTop B).map (vt kv.2 ++ ·)) →
      ∀ (B : Str), l ≠ [] →
      lexGo LexSt.stTop
          (sepJoin [','] (l.map fun kv => jstr kv.1 ++ ':' :: pv kv.2) ++
            rbraceC :: B) =
        (lexGo LexSt.stTop B).map (fun ts =>
          sepJoin [JTok.comma]
            (l.map fun kv => JTok.tstr kv.1 :: JTok.colon :: vt kv.2) ++
            JTok.rbrace :: ts) := by
  intro l
  induction l with
  | nil => intro _ _ h; exact absurd rfl h
  | cons kv l' ih =>
    intro hl B _
    obtain ⟨hkey, hval⟩ := hl kv (by simp)
    cases l' with
    | nil =>
      show lexGo LexSt.stTop ((jstr kv.1 ++ ':' :: pv kv.2) ++ (rbraceC :: B)) = _
      simp only [List.append_assoc, List.cons_append]
      rw [lexGo_jstr kv.1 hkey _, lexGo_tok1 ':' JTok.colon (by rfl),
        hval (rbraceC :: B), lexGo_tok1 rbraceC JTok.rbrace (by rfl)]
      cases lexGo LexSt.stTop B <;> simp [sepJoin]
    | cons kw l'' =>
      show lexGo LexSt.stTop (((jstr kv.1 ++ ':' :: pv kv.2) ++ [','] ++
        sepJoin [',']
          ((kw :: l'').map fun kv => jstr kv.1 ++ ':' :: pv kv.2)) ++
        rbraceC :: B) = _
      simp only [List.append_assoc, List.cons_append, List.singleton_append,
        List.nil_append]
      rw [lexGo_jstr kv.1 hkey _, lexGo_tok1 ':' JTok.colon (by rfl),
        hval _, lexGo_tok1 ',' JTok.comma (by rfl),
        ih (fun kv hkv => hl kv (by simp [hkv])) B (by simp)]
      cases lexGo LexSt.stTop B <;> simp [sepJoin, List.append_assoc]

theorem lexMin_fields {α : Type} (pv : α → Str) (vt : α → List JTok)
    (l : List (Str × α))
    (hl : ∀ kv ∈ l, (∀ c ∈ kv.1, safeC c = true) ∧
      ∀ B, lexGo LexSt.stTop (pv kv.2 ++ B) =
        (lexGo LexSt.stTop B).map (vt kv.2 ++ ·))
    (B : Str) :
    lexGo LexSt.stTop (minFields pv l ++ B) =
      (lexGo LexSt.stTop B).map (objToksOf vt l ++ ·) := by
  cases l with
  | nil =>
    show lexGo LexSt.stTop (lbraceC :: rbraceC :: B) = _
    rw [lexGo_tok1 lbraceC JTok.lbrace (by rfl),
      lexGo_tok1 rbraceC JTok.rbrace (by rfl)]
    cases lexGo LexSt.stTop B <;> simp [objToksOf, sepJoin]
  | cons kv l' =>
    show lexGo LexSt.stTop ((lbraceC :: (sepJoin [',']
      ((kv :: l').map fun kv => jstr kv.1 ++ ':' :: pv kv.2) ++ [rbraceC])) ++ B) = _
    rw [List.cons_append, lexGo_tok1 lbraceC JTok.lbrace (by rfl),
      List.append_assoc, List.singleton_append,
      lexMin_fieldItems pv vt (kv :: l') hl B (by simp)]
    cases lexGo LexSt.stTop B <;> simp [objToksOf, List.append_assoc]

theorem lex_minExport (ct : CompactT) (hWF : WFct ct) :
    lexGo LexSt.stTop (minExport ct) = some (tableToks ct) := by
  obtain ⟨-, hg⟩ := hWF
  have h := lexMin_fields (minFields (minFields minArr))
    (objToksOf (objToksOf arrToksOf)) ct ?hval []
  case hval =>
    intro g hgm
    obtain ⟨hgkey, -, hcat⟩ := hg g hgm
    refine ⟨by simpa using hgkey, ?_⟩
    intro B
    refine lexMin_fields (minFields minArr) (objToksOf arrToksOf) g.2 ?_ B
    intro c hcm
    obtain ⟨hckey, -, hev⟩ := hcat c hcm
    refine ⟨by simpa using hckey, ?_⟩
    intro B
    refine lexMin_fields minArr arrToksOf c.2 ?_ B
    intro e hem
    obtain ⟨hekey, hp⟩ := hev e hem
    exact ⟨by simpa using hekey, fun B => lexMin_arr e.2 hp B⟩
  rw [List.append_nil] at h
  unfold minExport
  rw [h, lexGo_nil_top]
  simp [tableToks]

theorem runP_tableToks (ct : CompactT) (hWF : WFct ct) :
    runP (tableToks ct) PM.pmVal [] = some (jsonOfCompact ct) := by
  obtain ⟨hnd, hg⟩ := hWF
  have h := valueOK_obj (objToksOf (objToksOf arrToksOf))
    (fun cats => Json.obj (cats.map fun c =>
      (c.1, Json.obj (c.2.map fun e => (e.1, Json.arr (e.2.map jsonOfPair))))))
    ct hnd ?hv [] []
  case hv =>
    intro g hgm
    obtain ⟨-, hcnd, hcat⟩ := hg g hgm
    refine valueOK_obj (objToksOf arrToksOf)
      (fun evs => Json.obj (evs.map fun e => (e.1, Json.arr (e.2.map jsonOfPair))))
      g.2 hcnd ?_
    intro c hcm
    obtain ⟨-, hend, hev⟩ := hcat c hcm
    refine valueOK_obj arrToksOf
      (fun pairs => Json.arr (pairs.map jsonOfPair)) c.2 hend ?_
    intro e hem
    exact valueOK_arr e.2
  rw [List.append_nil] at h
  unfold tableToks
  rw [h]
  rfl

theorem parse_minExport (ct : CompactT) (hWF : WFct ct) :
    parseJson (minExport ct) = some (jsonOfCompact ct) := by
  unfold parseJson
  rw [lex_minExport ct hWF]
  exact runP_tableToks ct hWF

/-! ### The collapse pass on the pretty output -/

theorem takeWhile_all_append {p : Char → Bool} :
    ∀ (a b : Str), (∀ c ∈ a, p c = true) →
    (a ++ b).takeWhile p = a ++ b.takeWhile p ∧
      (a ++ b).dropWhile p = b.dropWhile p := by
  intro a
  induction a with
  | nil => intro b _; simp
  | cons c a' ih =>
    intro b ha
    have hc : p c = true := ha c (by simp)
    obtain ⟨h1, h2⟩ := ih b fun c hc => ha c (by simp [hc])
    refine ⟨?_, ?_⟩
    · rw [List.cons_append, List.takeWhile_cons_of_pos hc, h1]; rfl
    · rw [List.cons_append, List.dropWhile_cons_of_pos hc, h2]

theorem collapseAt_nil : collapseAt [] = none := rfl

theorem collapseAt_not_lbrack (c : Char) (r1 : Str) (hc : ¬ c = '[') :
    collapseAt (c :: r1) = none := by
  unfold collapseAt
  dsimp only
  rw [if_neg hc]

theorem collapseAt_head (c : Char) (t : Str) (x : Str × Str)
    (h : collapseAt (c :: t) = some x) : (c = '[') = true := by
  by_cases hc : c = '['
  · simp [hc]
  · rw [collapseAt_not_lbrack c t hc] at h
    cases h

theorem collapseAt_consumed :
    ∀ (s em rem : Str), collapseAt s = some (em, rem) →
      ∃ con, s = con ++ rem ∧ con ≠ [] := by
  intro s em rem h
  cases s with
  | nil => rw [collapseAt_nil] at h; cases h
  | cons c r1 =>
    have hc : c = '[' := by
      have := collapseAt_head c r1 _ h
      simpa using this
    subst hc
    unfold collapseAt at h
    dsimp only at h
    rw [if_pos rfl] at h
    by_cases h1 : ((r1.takeWhile isWsC).isEmpty : Bool) = true
    · rw [if_pos h1] at h; cases h
    · rw [if_neg h1] at h
      by_cases h2 : (((r1.dropWhile isWsC).takeWhile isDigitC).isEmpty : Bool) = true
      · rw [if_pos h2] at h; cases h
      · rw [if_neg h2] at h
        cases hr3 : (r1.dropWhile isWsC).dropWhile isDigitC with
        | nil => rw [hr3] at h; cases h
        | cons c3 r4 =>
          rw [hr3] at h
          dsimp only at h
          by_cases hc3 : c3 = ','
          · rw [if_pos hc3] at h
            subst hc3
            by_cases h4 : ((r4.takeWhile isWsC).isEmpty : Bool) = true
            · rw [if_pos h4] at h; cases h
            · rw [if_neg h4] at h
              cases hr5 : r4.dropWhile isWsC with
              | nil => rw [hr5] at h; cases h
              | cons q r6 =>
                rw [hr5] at h
                dsimp only at h
                by_cases hq : q = quoteC
                · rw [if_pos hq] at h
                  subst hq
                  by_cases h6 : ((r6.takeWhile fun c => !(c = quoteC)).isEmpty : Bool) = true
                  · rw [if_pos h6] at h; cases h
                  · rw [if_neg h6] at h
                    cases hr7 : r6.dropWhile (fun c => !(c = quoteC)) with
                    | nil => rw [hr7] at h; cases h
                    | cons q2 r8 =>
                      rw [hr7] at h
                      dsimp only at h
                      by_cases hq2 : q2 = quoteC
                      · rw [if_pos hq2] at h
                        subst hq2
                        by_cases h8 : ((r8.takeWhile isWsC).isEmpty : Bool) = true
                        · rw [if_pos h8] at h; cases h
                        · rw [if_neg h8] at h
                          cases hr9 : r8.dropWhile isWsC with
                          | nil => rw [hr9] at h; cases h
                          | cons c9 r10 =>
                            rw [hr9] at h
                            dsimp only at h
                            by_cases hc9 : c9 = ']'
                            · rw [if_pos hc9] at h
                              subst hc9
                              injection h with h'
                              injection h' with hem hrem
                              subst hrem
                              refine ⟨'[' :: (r1.takeWhile isWsC ++
                                ((r1.dropWhile isWsC).takeWhile isDigitC ++
                                (',' :: (r4.takeWhile isWsC ++
                                (quoteC :: ((r6.takeWhile fun c => !(c = quoteC)) ++
                                (quoteC :: (r8.takeWhile isWsC ++ [']']))))))))
                                , ?_, by simp⟩
                              simp only [List.cons_append, List.append_assoc,
                                List.cons.injEq, true_and]
                              conv_lhs => rw [← List.takeWhile_append_dropWhile
                                (p := isWsC) (l := r1)]
                              congr 1
                              conv_lhs => rw [← List.takeWhile_append_dropWhile
                                (p := isDigitC) (l := r1.dropWhile isWsC), hr3]
                              congr 1
                              simp only [List.cons_append, List.cons.injEq, true_and]
                              conv_lhs => rw [← List.takeWhile_append_dropWhile
                                (p := isWsC) (l := r4), hr5]
                              congr 1
                              simp only [List.cons_append, List.cons.injEq, true_and]
                              conv_lhs => rw [← List.takeWhile_append_dropWhile
                                (p := fun c => !(c = quoteC)) (l := r6), hr7]
                              congr 1
                              simp only [List.cons_append, List.cons.injEq, true_and]
                              conv_lhs => rw [← List.takeWhile_append_dropWhile
                                (p := isWsC) (l := r8), hr9]
                              simp
                            · rw [if_neg hc9] at h; cases h
                      · rw [if_neg hq2] at h; cases h
                · rw [if_neg hq] at h; cases h
          · rw [if_neg hc3] at h; cases h

theorem scanF_nil (M : Str → Option (Str × Str)) :
    ∀ f, scanF M f [] = [] := by
  intro f; cases f <;> rfl

theorem scanF_fuel_le (M : Str → Option (Str × Str))
    (hcon : ∀ s em rem, M s = some (em, rem) → ∃ con, s = con ++ rem ∧ con ≠ []) :
    ∀ (n f : Nat) (s : Str), s.length ≤ f → f ≤ n →
      scanF M f s = scanF M s.length s := by
  intro n
  induction n with
  | zero =>
    intro f s hlen hfn
    have hf : f = 0 := by omega
    subst hf
    have hs : s = [] := by
      cases s with
      | nil => rfl
      | cons c t => simp at hlen
    subst hs; rfl
  | succ n ih =>
    intro f s hlen hfn
    cases s with
    | nil => rw [scanF_nil, scanF_nil]
    | cons c rest =>
      cases f with
      | zero => simp at hlen
      | succ f' =>
        have hr : rest.length ≤ f' := by simp at hlen; omega
        have hrn : rest.length ≤ n := by omega
        show scanF M (f' + 1) (c :: rest) = scanF M (rest.length + 1) (c :: rest)
        cases hM : M (c :: rest) with
        | none =>
          simp only [scanF, hM]
          rw [ih f' rest hr (by omega), ih rest.length rest le_rfl hrn]
        | some er =>
          obtain ⟨em, rem⟩ := er
          obtain ⟨con, hs, hcne⟩ := hcon _ _ _ hM
          have hrem : rem.length ≤ rest.length := by
            have hlen2 : rest.length + 1 = con.length + rem.length := by
              have := congrArg List.length hs
              simpa using this
            have hc1 : 1 ≤ con.length := by
              cases con with
              | nil => exact absurd rfl hcne
              | cons _ _ => simp
            omega
          simp only [scanF, hM]
          rw [ih f' rem (by omega) (by omega),
            ih rest.length rem hrem hrn]

theorem scanF_fuel_eq (M : Str → Option (Str × Str))
    (hcon : ∀ s em rem, M s = some (em, rem) → ∃ con, s = con ++ rem ∧ con ≠ [])
    (f : Nat) (s : Str) (h : s.length ≤ f) :
    scanF M f s = scanF M s.length s :=
  scanF_fuel_le M hcon f f s h le_rfl

theorem collapseAll_verbatim (u : Str)
    (hu : ∀ c ∈ u, (decide (c = '[') : Bool) = false) (B : Str) :
    collapseAll (u ++ B) = u ++ collapseAll B := by
  unfold collapseAll
  have h := scanF_verbatim collapseAt (fun c => decide (c = '['))
    (fun c t x hx => by simpa using collapseAt_head c t x hx) u hu B.length B
  rw [List.length_append]
  exact h

theorem collapseAll_consFail (c : Char) (B : Str)
    (hM : collapseAt (c :: B) = none) :
    collapseAll (c :: B) = c :: collapseAll B := by
  unfold collapseAll
  show scanF collapseAt (B.length + 1) (c :: B) = _
  simp only [scanF, hM]

theorem collapseAll_match (con em B : Str) (hcne : con ≠ [])
    (hM : collapseAt (con ++ B) = some (em, B)) :
    collapseAll (con ++ B) = em ++ collapseAll B := by
  unfold collapseAll
  cases con with
  | nil => exact absurd rfl hcne
  | cons c cr =>
    rw [List.cons_append] at hM ⊢
    show scanF collapseAt ((c :: (cr ++ B)).length) (c :: (cr ++ B)) = _
    have hlen : (c :: (cr ++ B)).length = (cr ++ B).length + 1 := rfl
    rw [hlen]
    simp only [scanF, hM]
    congr 1
    exact scanF_fuel_eq collapseAt collapseAt_consumed _ B (by simp)

theorem collapseAll_nil : collapseAll [] = [] := rfl

theorem ind_ws (k : Nat) : ∀ ch ∈ ind k, isWsC ch = true := by
  intro ch hch
  have := List.eq_of_mem_replicate hch
  subst this; decide

theorem collapseAt_fail_ds (r1 : Str)
    (h : (r1.dropWhile isWsC).takeWhile isDigitC = []) :
    collapseAt ('[' :: r1) = none := by
  unfold collapseAt
  dsimp only
  rw [if_pos rfl]
  by_cases h1 : ((r1.takeWhile isWsC).isEmpty : Bool) = true
  · rw [if_pos h1]
  · rw [if_neg h1, if_pos (by simp [h])]

theorem perfC_not_quote (ch : Char) (h : perfC ch = true) :
    (!(ch = quoteC) : Bool) = true := by
  obtain ⟨h1, h2⟩ := perfC_toNat ch h
  simp only [Bool.not_eq_true']
  by_cases he : ch = quoteC
  · rw [he] at h1
    exact absurd h1 (by decide)
  · simp [he]

theorem dropWhile_of_takeWhile_nil {p : Char → Bool} {l : Str}
    (h : l.takeWhile p = []) : l.dropWhile p = l := by
  cases l with
  | nil => rfl
  | cons c t =>
    by_cases hc : p c = true
    · rw [List.takeWhile_cons_of_pos hc] at h; cases h
    · exact List.dropWhile_cons_of_neg hc

theorem collapseAt_pair (a b k : Nat) (n : Nat) (p2 : Str) (hne : p2 ≠ [])
    (hp2 : ∀ ch ∈ p2, perfC ch = true) (B : Str) :
    collapseAt ('[' :: ('\n' :: ind a ++ (natDigs n ++ (',' ::
      ('\n' :: ind b ++ (quoteC :: (p2 ++ (quoteC ::
      ('\n' :: ind k ++ (']' :: B)))))))))) =
      some ('[' :: natDigs n ++ ',' :: ' ' :: quoteC :: p2 ++
        quoteC :: [']'], B) := by
  obtain ⟨hdne, hdall, -, -⟩ := natDigs_spec n
  have hd0 : ∀ dd ∈ natDigs n, isWsC dd = false := fun dd hdd =>
    not_ws_of_toNat dd (by have := digit_toNat dd (hdall dd hdd); omega)
  have hwchunk : ∀ (m : Nat), ∀ ch ∈ ('\n' :: ind m : Str), isWsC ch = true := by
    intro m ch hch
    rcases List.mem_cons.mp hch with rfl | hch
    · decide
    · exact ind_ws m ch hch
  -- stage 1: leading whitespace then the digits
  have hrest1 : (natDigs n ++ (',' :: ('\n' :: ind b ++ (quoteC :: (p2 ++
      (quoteC :: ('\n' :: ind k ++ (']' :: B)))))))).takeWhile isWsC = [] := by
    cases hnd : natDigs n with
    | nil => exact absurd hnd hdne
    | cons d ds =>
      rw [List.cons_append, List.takeWhile_cons_of_neg]
      rw [Bool.not_eq_true]
      exact hd0 d (by rw [hnd]; simp)
  obtain ⟨hw1, hr2⟩ := takeWhile_all_append (p := isWsC) ('\n' :: ind a) _
    (hwchunk a)
  unfold collapseAt
  dsimp only
  rw [if_pos rfl, hw1, hrest1, List.append_nil, hr2,
    dropWhile_of_takeWhile_nil hrest1]
  rw [if_neg (by simp)]
  -- stage 2: the digits then the comma
  have hds2 : ((natDigs n ++ (',' :: ('\n' :: ind b ++ (quoteC :: (p2 ++
      (quoteC :: ('\n' :: ind k ++ (']' :: B)))))))).takeWhile isDigitC =
      natDigs n) ∧
      ((natDigs n ++ (',' :: ('\n' :: ind b ++ (quoteC :: (p2 ++
      (quoteC :: ('\n' :: ind k ++ (']' :: B)))))))).dropWhile isDigitC =
      ',' :: ('\n' :: ind b ++ (quoteC :: (p2 ++
      (quoteC :: ('\n' :: ind k ++ (']' :: B))))))) := by
    obtain ⟨ht, hd⟩ := takeWhile_all_append (p := isDigitC) (natDigs n) _ hdall
    constructor
    · rw [ht, List.takeWhile_cons_of_neg (by decide), List.append_nil]
    · rw [hd, List.dropWhile_cons_of_neg (by decide)]
  rw [hds2.1, hds2.2]
  rw [if_neg (by simpa [List.isEmpty_iff] using hdne)]
  dsimp only
  rw [if_pos rfl]
  -- stage 3: whitespace then the opening quote
  obtain ⟨hw2, hr5⟩ := takeWhile_all_append (p := isWsC) ('\n' :: ind b) _
    (hwchunk b)
  rw [hw2, hr5]
  rw [(List.takeWhile_cons_of_neg (by decide) :
    (quoteC :: (p2 ++ (quoteC :: ('\n' :: ind k ++ (']' :: B))))).takeWhile
      isWsC = [])]
  rw [List.append_nil]
  rw [List.dropWhile_cons_of_neg (by decide)]
  rw [if_neg (by simp)]
  dsimp only
  rw [if_pos rfl]
  -- stage 4: the performance string then the closing quote
  have hpq : ∀ ch ∈ p2, (fun c => !(c = quoteC)) ch = true := fun ch hch =>
    perfC_not_quote ch (hp2 ch hch)
  obtain ⟨hp, hr7⟩ := takeWhile_all_append (p := fun c => !(c = quoteC)) p2 _ hpq
  rw [hp, hr7]
  rw [List.takeWhile_cons_of_neg (by simp), List.append_nil,
    List.dropWhile_cons_of_neg (by simp)]
  rw [if_neg (by simpa [List.isEmpty_iff] using hne)]
  dsimp only
  rw [if_pos rfl]
  -- stage 5: whitespace then the closing bracket
  obtain ⟨hw3, hr9⟩ := takeWhile_all_append (p := isWsC) ('\n' :: ind k) _
    (hwchunk k)
  rw [hw3, hr9]
  rw [List.takeWhile_cons_of_neg (by decide), List.append_nil,
    List.dropWhile_cons_of_neg (by decide)]
  rw [if_neg (by simp)]
  dsimp only
  rw [if_pos rfl]

theorem not_brk_of_safe (c : Char) (h : safeC c = true) :
    (decide (c = '[') : Bool) = false := by
  simp only [decide_eq_false_iff_not]
  exact (safeC_ne c h).2.2.1

theorem not_brk_of_ws (c : Char) (h : isWsC c = true) :
    (decide (c = '[') : Bool) = false := by
  simp only [isWsC, Bool.or_eq_true, decide_eq_true_eq] at h
  rcases h with ((((h1 | h1) | h1) | h1) | h1) | h1 <;> (subst h1; decide)

theorem walk_pair (i : Nat) (p : PairT) (hWFp : WFpair p) (REST : Str) :
    collapseAll (prettyPair i p ++ REST) = pcPair p ++ collapseAll REST := by
  obtain ⟨hnn, hne, hall⟩ := hWFp
  have hperf : ∀ c ∈ p.2, perfC c = true := fun c hc =>
    by simpa using List.all_eq_true.mp hall c hc
  have hsafe : ∀ c ∈ p.2, safeC c = true := fun c hc =>
    perfC_safe c (hperf c hc)
  have hM := collapseAt_pair (i + 2) (i + 2) i p.1.toNat p.2 hne hperf REST
  have hstr : prettyPair i p ++ REST =
      '[' :: ('\n' :: ind (i + 2) ++ (natDigs p.1.toNat ++ (',' ::
        ('\n' :: ind (i + 2) ++ (quoteC :: (p.2 ++ (quoteC ::
        ('\n' :: ind i ++ (']' :: REST))))))))) := by
    unfold prettyPair
    rw [intDigs_nonneg p.1 hnn, jstr_safe p.2 hsafe]
    simp [List.append_assoc]
  have hpc : pcPair p = '[' :: natDigs p.1.toNat ++ ',' :: ' ' :: quoteC ::
      p.2 ++ quoteC :: [']'] := by
    unfold pcPair
    rw [intDigs_nonneg p.1 hnn, jstr_safe p.2 hsafe]
    simp [List.append_assoc]
  have hM' : collapseAt (prettyPair i p ++ REST) = some (pcPair p, REST) := by
    rw [hstr, hM, hpc]
  exact collapseAll_match (prettyPair i p) (pcPair p) REST
    (by unfold prettyPair; simp) hM'

theorem collapseAt_fail_open (m : Nat) (X : Str) (hX : ∀ c, X.head? = some c →
    isDigitC c = false ∧ isWsC c = false) :
    collapseAt ('[' :: ('\n' :: ind m ++ X)) = none := by
  apply collapseAt_fail_ds
  obtain ⟨-, hdrop⟩ := takeWhile_all_append (p := isWsC) ('\n' :: ind m) X
    (by
      intro ch hch
      rcases List.mem_cons.mp hch with rfl | hch
      · decide
      · exact ind_ws m ch hch)
  rw [hdrop]
  cases X with
  | nil => rfl
  | cons c t =>
    obtain ⟨hd, hw⟩ := hX c rfl
    rw [List.dropWhile_cons_of_neg (by simp [hw]),
      List.takeWhile_cons_of_neg (by simp [hd])]

theorem collapseAll_consChar (c : Char) (hc : ¬ c = '[') (B : Str) :
    collapseAll (c :: B) = c :: collapseAll B :=
  collapseAll_consFail c B (collapseAt_not_lbrack c B hc)

theorem walk_arrItems (i : Nat) :
    ∀ (l : List PairT), l ≠ [] → (∀ p ∈ l, WFpair p) → ∀ (B : Str),
    collapseAll (sepJoin (',' :: ['\n'])
        (l.map fun p => ind (i + 2) ++ prettyPair (i + 2) p) ++
        ('\n' :: (ind i ++ (']' :: B)))) =
      sepJoin (',' :: ['\n']) (l.map fun p => ind (i + 2) ++ pcPair p) ++
        ('\n' :: (ind i ++ (']' :: collapseAll B))) := by
  intro l
  induction l with
  | nil => intro h; exact absurd rfl h
  | cons p l' ih =>
    intro _ hl B
    have hindOK : ∀ c ∈ ind (i + 2), (decide (c = '[') : Bool) = false :=
      fun c hc => not_brk_of_ws c (ind_ws _ c hc)
    have htail : collapseAll ('\n' :: (ind i ++ (']' :: B))) =
        '\n' :: (ind i ++ (']' :: collapseAll B)) := by
      rw [collapseAll_consChar '\n' (by decide),
        collapseAll_verbatim (ind i)
          (fun c hc => not_brk_of_ws c (ind_ws i c hc)),
        collapseAll_consChar ']' (by decide)]
    cases l' with
    | nil =>
      show collapseAll ((ind (i + 2) ++ prettyPair (i + 2) p) ++
        ('\n' :: (ind i ++ (']' :: B)))) = _
      rw [List.append_assoc, collapseAll_verbatim (ind (i + 2)) hindOK,
        walk_pair (i + 2) p (hl p (by simp)), htail]
      simp [sepJoin, List.append_assoc]
    | cons q l'' =>
      show collapseAll ((ind (i + 2) ++ prettyPair (i + 2) p ++
        (',' :: ['\n'])) ++ (sepJoin (',' :: ['\n'])
          ((q :: l'').map fun p => ind (i + 2) ++ prettyPair (i + 2) p)) ++
        ('\n' :: (ind i ++ (']' :: B)))) = _
      simp only [List.append_assoc, List.cons_append, List.nil_append]
      rw [collapseAll_verbatim (ind (i + 2)) hindOK,
        walk_pair (i + 2) p (hl p (by simp)),
        collapseAll_consChar ',' (by decide),
        collapseAll_consChar '\n' (by decide),
        ih (by simp) (fun p hp => hl p (by simp [hp])) B]
      simp [sepJoin, List.append_assoc]

theorem walk_arr (i : Nat) (l : List PairT) (hl : ∀ p ∈ l, WFpair p) (B : Str) :
    collapseAll (prettyArr i l ++ B) = pcArr i l ++ collapseAll B := by
  cases l with
  | nil =>
    show collapseAll ('[' :: (']' :: B)) = '[' :: ']' :: collapseAll B
    rw [collapseAll_consFail '[' (']' :: B) (collapseAt_fail_ds _ (by
        rw [List.dropWhile_cons_of_neg (by decide),
          List.takeWhile_cons_of_neg (by decide)])),
      collapseAll_consChar ']' (by decide)]
  | cons p l' =>
    show collapseAll (('[' :: '\n' :: sepJoin (',' :: ['\n'])
      ((p :: l').map fun q => ind (i + 2) ++ prettyPair (i + 2) q) ++
      '\n' :: ind i ++ [']']) ++ B) = _
    have hfirstPair : ∃ T, sepJoin (',' :: ['\n'])
        ((p :: l').map fun q => ind (i + 2) ++ prettyPair (i + 2) q) =
        ind (i + 2) ++ (prettyPair (i + 2) p ++ T) := by
      cases l' with
      | nil => exact ⟨[], by simp [sepJoin]⟩
      | cons q l'' =>
        refine ⟨(',' :: ['\n']) ++ sepJoin (',' :: ['\n'])
          ((q :: l'').map fun r => ind (i + 2) ++ prettyPair (i + 2) r), ?_⟩
        show (ind (i + 2) ++ prettyPair (i + 2) p) ++ (',' :: ['\n']) ++ _ = _
        simp [List.append_assoc]
    obtain ⟨T, hT⟩ := hfirstPair
    simp only [List.append_assoc, List.cons_append, List.nil_append]
    have harg : ('\n' :: (sepJoin (',' :: ['\n'])
        ((p :: l').map fun q => ind (i + 2) ++ prettyPair (i + 2) q) ++
        ('\n' :: (ind i ++ (']' :: B)))) : Str) =
        '\n' :: ind (i + 2) ++ (prettyPair (i + 2) p ++
          (T ++ ('\n' :: (ind i ++ (']' :: B))))) := by
      rw [hT]
      simp [List.append_assoc]
    have hfail : collapseAt ('[' :: ('\n' :: (sepJoin (',' :: ['\n'])
        ((p :: l').map fun q => ind (i + 2) ++ prettyPair (i + 2) q) ++
        ('\n' :: (ind i ++ (']' :: B)))))) = none := by
      rw [harg]
      apply collapseAt_fail_open
      intro c hc
      unfold prettyPair at hc
      simp only [List.cons_append, List.head?_cons, Option.some_inj] at hc
      subst hc
      exact ⟨by decide, by decide⟩
    rw [collapseAll_consFail '[' _ hfail,
      collapseAll_consChar '\n' (by decide),
      walk_arrItems i (p :: l') (by simp) hl B]
    unfold pcArr
    simp [List.append_assoc]


theorem jstr_no_brk (k : Str) (hk : ∀ c ∈ k, safeC c = true) :
    ∀ c ∈ jstr k, (decide (c = '[') : Bool) = false := by
  rw [jstr_safe k hk]
  intro c hc
  rcases List.mem_cons.mp hc with rfl | hc
  · decide
  rcases List.mem_append.mp hc with hc | hc
  · exact not_brk_of_safe c (hk c hc)
  · simp only [List.mem_singleton] at hc
    subst hc; decide

theorem walk_fieldItems {α : Type} (pv pcv : Nat → α → Str) (i : Nat) :
    ∀ (l : List (Str × α)), l ≠ [] →
      (∀ kv ∈ l, (∀ c ∈ kv.1, safeC c = true) ∧
        ∀ B, collapseAll (pv (i + 2) kv.2 ++ B) =
          pcv (i + 2) kv.2 ++ collapseAll B) →
      ∀ (B : Str),
    collapseAll (sepJoin (',' :: ['\n'])
        (l.map fun kv =>
          ind (i + 2) ++ (jstr kv.1 ++ ':' :: ' ' :: pv (i + 2) kv.2)) ++
        ('\n' :: (ind i ++ (rbraceC :: B)))) =
      sepJoin (',' :: ['\n'])
        (l.map fun kv =>
          ind (i + 2) ++ (jstr kv.1 ++ ':' :: ' ' :: pcv (i + 2) kv.2)) ++
        ('\n' :: (ind i ++ (rbraceC :: collapseAll B))) := by
  intro l
  induction l with
  | nil => intro h; exact absurd rfl h
  | cons kv l' ih =>
    intro _ hl B
    obtain ⟨hkey, hval⟩ := hl kv (by simp)
    have hindOK : ∀ c ∈ ind (i + 2), (decide (c = '[') : Bool) = false :=
      fun c hc => not_brk_of_ws c (ind_ws _ c hc)
    have htail : collapseAll ('\n' :: (ind i ++ (rbraceC :: B))) =
        '\n' :: (ind i ++ (rbraceC :: collapseAll B)) := by
      rw [collapseAll_consChar '\n' (by decide),
        collapseAll_verbatim (ind i)
          (fun c hc => not_brk_of_ws c (ind_ws i c hc)),
        collapseAll_consChar rbraceC (by decide)]
    cases l' with
    | nil =>
      show collapseAll ((ind (i + 2) ++ (jstr kv.1 ++ ':' :: ' ' :: pv (i + 2) kv.2)) ++
        ('\n' :: (ind i ++ (rbraceC :: B)))) = _
      simp only [List.append_assoc, List.cons_append]
      rw [collapseAll_verbatim (ind (i + 2)) hindOK,
        collapseAll_verbatim (jstr kv.1) (jstr_no_brk kv.1 hkey),
        collapseAll_consChar ':' (by decide),
        collapseAll_consChar ' ' (by decide),
        hval _, htail]
      simp [sepJoin, List.append_assoc]
    | cons kw l'' =>
      show collapseAll ((ind (i + 2) ++ (jstr kv.1 ++ ':' :: ' ' :: pv (i + 2) kv.2) ++
        (',' :: ['\n'])) ++ (sepJoin (',' :: ['\n'])
          ((kw :: l'').map fun kv =>
            ind (i + 2) ++ (jstr kv.1 ++ ':' :: ' ' :: pv (i + 2) kv.2))) ++
        ('\n' :: (ind i ++ (rbraceC :: B)))) = _
      simp only [List.append_assoc, List.cons_append, List.nil_append]
      rw [collapseAll_verbatim (ind (i + 2)) hindOK,
        collapseAll_verbatim (jstr kv.1) (jstr_no_brk kv.1 hkey),
        collapseAll_consChar ':' (by decide),
        collapseAll_consChar ' ' (by decide),
        hval _,
        collapseAll_consChar ',' (by decide),
        collapseAll_consChar '\n' (by decide),
        ih (by simp) (fun kv hkv => hl kv (by simp [hkv])) B]
      simp [sepJoin, List.append_assoc]

theorem walk_fields {α : Type} (pv pcv : Nat → α → Str)
    (l : List (Str × α)) (i : Nat)
    (hl : ∀ kv ∈ l, (∀ c ∈ kv.1, safeC c = true) ∧
      ∀ B, collapseAll (pv (i + 2) kv.2 ++ B) =
        pcv (i + 2) kv.2 ++ collapseAll B)
    (B : Str) :
    collapseAll (prettyFields pv i l ++ B) =
      prettyFields pcv i l ++ collapseAll B := by
  cases l with
  | nil =>
    show collapseAll (lbraceC :: (rbraceC :: B)) = _
    rw [collapseAll_consChar lbraceC (by decide),
      collapseAll_consChar rbraceC (by decide)]
    rfl
  | cons kv l' =>
    show collapseAll ((lbraceC :: '\n' :: sepJoin (',' :: ['\n'])
      ((kv :: l').map fun kv =>
        ind (i + 2) ++ jstr kv.1 ++ ':' :: ' ' :: pv (i + 2) kv.2) ++
      '\n' :: ind i ++ [rbraceC]) ++ B) = _
    simp only [List.append_assoc, List.cons_append, List.nil_append]
    rw [collapseAll_consChar lbraceC (by decide),
      collapseAll_consChar '\n' (by decide),
      walk_fieldItems pv pcv i (kv :: l') (by simp) hl B]
    show _ = (lbraceC :: '\n' :: sepJoin (',' :: ['\n'])
      ((kv :: l').map fun kv =>
        ind (i + 2) ++ jstr kv.1 ++ ':' :: ' ' :: pcv (i + 2) kv.2) ++
      '\n' :: ind i ++ [rbraceC]) ++ collapseAll B
    simp [List.append_assoc]

theorem walk_export (ct : CompactT) (hWF : WFct ct) :
    collapseAll (prettyExport ct) = pcExport ct := by
  obtain ⟨-, hg⟩ := hWF
  have h := walk_fields (prettyFields (prettyFields prettyArr))
    (prettyFields (prettyFields pcArr)) ct 0 ?hv []
  case hv =>
    intro g hgm
    obtain ⟨hgkey, -, hcat⟩ := hg g hgm
    refine ⟨by simpa using hgkey, ?_⟩
    intro B
    refine walk_fields (prettyFields prettyArr) (prettyFields pcArr) g.2 2 ?_ B
    intro c hcm
    obtain ⟨hckey, -, hev⟩ := hcat c hcm
    refine ⟨by simpa using hckey, ?_⟩
    intro B
    refine walk_fields prettyArr pcArr c.2 4 ?_ B
    intro e hem
    obtain ⟨hekey, hp⟩ := hev e hem
    exact ⟨by simpa using hekey, fun B => walk_arr 6 e.2 hp B⟩
  rw [List.append_nil, collapseAll_nil, List.append_nil] at h
  exact h

/-! ### Lexing the collapsed pretty output -/

theorem nlind_jsonWs (k : Nat) : ∀ ch ∈ ('\n' :: ind k : Str), isJsonWs ch = true := by
  intro ch hch
  rcases List.mem_cons.mp hch with rfl | hch
  · decide
  · have := List.eq_of_mem_replicate hch
    subst this; decide

theorem lexPc_pair (p : PairT) (hp : WFpair p) (B : Str) :
    lexGo LexSt.stTop (pcPair p ++ B) =
      (lexGo LexSt.stTop B).map (pairToks p ++ ·) := by
  obtain ⟨hnn, hne, hall⟩ := hp
  have hsafe : ∀ c ∈ p.2, safeC c = true := fun c hc =>
    perfC_safe c (by simpa using List.all_eq_true.mp hall c hc)
  show lexGo LexSt.stTop
    (('[' :: (intDigs p.1 ++ ',' :: ' ' :: jstr p.2 ++ [']'])) ++ B) = _
  rw [List.cons_append, lexGo_tok1 '[' JTok.lbrack (by rfl)]
  simp only [List.append_assoc, List.cons_append, List.singleton_append,
    List.nil_append]
  rw [intDigs_nonneg p.1 hnn,
    lexGo_natNum p.1.toNat (' ' :: (jstr p.2 ++ ']' :: B))]
  have hws : lexGo LexSt.stTop (' ' :: (jstr p.2 ++ ']' :: B)) =
      lexGo LexSt.stTop (jstr p.2 ++ ']' :: B) :=
    lexGo_ws [' '] (by intro c hc; simp at hc; subst hc; decide) _
  rw [hws, lexGo_jstr p.2 hsafe (']' :: B),
    lexGo_tok1 ']' JTok.rbrack (by rfl)]
  cases lexGo LexSt.stTop B <;> simp [pairToks, Int.toNat_of_nonneg hnn]

theorem lexPc_arrItems (i : Nat) :
    ∀ (l : List PairT), l ≠ [] → (∀ p ∈ l, WFpair p) → ∀ (B : Str),
    lexGo LexSt.stTop (sepJoin (',' :: ['\n'])
        (l.map fun p => ind (i + 2) ++ pcPair p) ++
        ('\n' :: (ind i ++ (']' :: B)))) =
      (lexGo LexSt.stTop B).map
        (fun ts => sepJoin [JTok.comma] (l.map pairToks) ++ JTok.rbrack :: ts) := by
  intro l
  induction l with
  | nil => intro h; exact absurd rfl h
  | cons p l' ih =>
    intro _ hl B
    have hind : ∀ (m : Nat), ∀ c ∈ ind m, isJsonWs c = true := by
      intro m c hc
      have := List.eq_of_mem_replicate hc
      subst this; decide
    have htail : lexGo LexSt.stTop ('\n' :: (ind i ++ (']' :: B))) =
        (lexGo LexSt.stTop B).map (JTok.rbrack :: ·) := by
      have h1 := lexGo_ws ('\n' :: ind i) (nlind_jsonWs i) (']' :: B)
      have h2 : ('\n' :: ind i : Str) ++ (']' :: B) =
          '\n' :: (ind i ++ (']' :: B)) := by simp
      rw [h2] at h1
      rw [h1, lexGo_tok1 ']' JTok.rbrack (by rfl)]
    cases l' with
    | nil =>
      show lexGo LexSt.stTop ((ind (i + 2) ++ pcPair p) ++
        ('\n' :: (ind i ++ (']' :: B)))) = _
      rw [List.append_assoc, lexGo_ws (ind (i + 2)) (hind _) _,
        lexPc_pair p (hl p (by simp)) _, htail]
      cases lexGo LexSt.stTop B <;> simp [sepJoin]
    | cons q l'' =>
      show lexGo LexSt.stTop ((ind (i + 2) ++ pcPair p ++ (',' :: ['\n'])) ++
        (sepJoin (',' :: ['\n'])
          ((q :: l'').map fun p => ind (i + 2) ++ pcPair p)) ++
        ('\n' :: (ind i ++ (']' :: B)))) = _
      simp only [List.append_assoc, List.cons_append, List.nil_append]
      rw [lexGo_ws (ind (i + 2)) (hind _) _,
        lexPc_pair p (hl p (by simp)) _,
        lexGo_tok1 ',' JTok.comma (by rfl)]
      have hnl : lexGo LexSt.stTop ('\n' :: (sepJoin (',' :: ['\n'])
          ((q :: l'').map fun p => ind (i + 2) ++ pcPair p) ++
          ('\n' :: (ind i ++ (']' :: B))))) =
          lexGo LexSt.stTop (sepJoin (',' :: ['\n'])
          ((q :: l'').map fun p => ind (i + 2) ++ pcPair p) ++
          ('\n' :: (ind i ++ (']' :: B)))) :=
        lexGo_ws ['\n'] (by intro c hc; simp at hc; subst hc; decide) _
      rw [hnl, ih (by simp) (fun p hp => hl p (by simp [hp])) B]
      cases lexGo LexSt.stTop B <;> simp [sepJoin, List.append_assoc]

theorem lexPc_arr (i : Nat) (l : List PairT) (hl : ∀ p ∈ l, WFpair p) (B : Str) :
    lexGo LexSt.stTop (pcArr i l ++ B) =
      (lexGo LexSt.stTop B).map (arrToksOf l ++ ·) := by
  cases l with
  | nil =>
    show lexGo LexSt.stTop ('[' :: ']' :: B) = _
    rw [lexGo_tok1 '[' JTok.lbrack (by rfl), lexGo_tok1 ']' JTok.rbrack (by rfl)]
    cases lexGo LexSt.stTop B <;> simp [arrToksOf, sepJoin]
  | cons p l' =>
    show lexGo LexSt.stTop (('[' :: '\n' :: sepJoin (',' :: ['\n'])
      ((p :: l').map fun q => ind (i + 2) ++ pcPair q) ++
      '\n' :: ind i ++ [']']) ++ B) = _
    simp only [List.append_assoc, List.cons_append, List.nil_append,
      List.singleton_append]
    rw [lexGo_tok1 '[' JTok.lbrack (by rfl)]
    have hnl : lexGo LexSt.stTop ('\n' :: (sepJoin (',' :: ['\n'])
        ((p :: l').map fun q => ind (i + 2) ++ pcPair q) ++
        ('\n' :: (ind i ++ (']' :: B))))) =
        lexGo LexSt.stTop (sepJoin (',' :: ['\n'])
        ((p :: l').map fun q => ind (i + 2) ++ pcPair q) ++
        ('\n' :: (ind i ++ (']' :: B)))) :=
      lexGo_ws ['\n'] (by intro c hc; simp at hc; subst hc; decide) _
    rw [hnl, lexPc_arrItems i (p :: l') (by simp) hl B]
    cases lexGo LexSt.stTop B <;> simp [arrToksOf, List.append_assoc]

theorem lexPc_fieldItems {α : Type} (pv : Nat → α → Str) (vt : α → List JTok)
    (i : Nat) :
    ∀ (l : List (Str × α)), l ≠ [] →
      (∀ kv ∈ l, (∀ c ∈ kv.1, safeC c = true) ∧
        ∀ B, lexGo LexSt.stTop (pv (i + 2) kv.2 ++ B) =
          (lexGo LexSt.stTop B).map (vt kv.2 ++ ·)) →
      ∀ (B : Str),
    lexGo LexSt.stTop (sepJoin (',' :: ['\n'])
        (l.map fun kv =>
          ind (i + 2) ++ (jstr kv.1 ++ ':' :: ' ' :: pv (i + 2) kv.2)) ++
        ('\n' :: (ind i ++ (rbraceC :: B)))) =
      (lexGo LexSt.stTop B).map (fun ts =>
        sepJoin [JTok.comma]
          (l.map fun kv => JTok.tstr kv.1 :: JTok.colon :: vt kv.2) ++
          JTok.rbrace :: ts) := by
  intro l
  induction l with
  | nil => intro h; exact absurd rfl h
  | cons kv l' ih =>
    intro _ hl B
    obtain ⟨hkey, hval⟩ := hl kv (by simp)
    have hind : ∀ (m : Nat), ∀ c ∈ ind m, isJsonWs c = true := by
      intro m c hc
      have := List.eq_of_mem_replicate hc
      subst this; decide
    have htail : lexGo LexSt.stTop ('\n' :: (ind i ++ (rbraceC :: B))) =
        (lexGo LexSt.stTop B).map (JTok.rbrace :: ·) := by
      have h1 := lexGo_ws ('\n' :: ind i) (nlind_jsonWs i) (rbraceC :: B)
      have h2 : ('\n' :: ind i : Str) ++ (rbraceC :: B) =
          '\n' :: (ind i ++ (rbraceC :: B)) := by simp
      rw [h2] at h1
      rw [h1, lexGo_tok1 rbraceC JTok.rbrace (by rfl)]
    have hsp : ∀ (X : Str), lexGo LexSt.stTop (' ' :: X) = lexGo LexSt.stTop X :=
      fun X => lexGo_ws [' '] (by intro c hc; simp at hc; subst hc; decide) X
    cases l' with
    | nil =>
      show lexGo LexSt.stTop ((ind (i + 2) ++ (jstr kv.1 ++ ':' :: ' ' ::
        pv (i + 2) kv.2)) ++ ('\n' :: (ind i ++ (rbraceC :: B)))) = _
      simp only [List.append_assoc, List.cons_append]
      rw [lexGo_ws (ind (i + 2)) (hind _) _, lexGo_jstr kv.1 hkey _,
        lexGo_tok1 ':' JTok.colon (by rfl), hsp _, hval _, htail]
      cases lexGo LexSt.stTop B <;> simp [sepJoin]
    | cons kw l'' =>
      show lexGo LexSt.stTop ((ind (i + 2) ++ (jstr kv.1 ++ ':' :: ' ' ::
        pv (i + 2) kv.2) ++ (',' :: ['\n'])) ++ (sepJoin (',' :: ['\n'])
          ((kw :: l'').map fun kv =>
            ind (i + 2) ++ (jstr kv.1 ++ ':' :: ' ' :: pv (i + 2) kv.2))) ++
        ('\n' :: (ind i ++ (rbraceC :: B)))) = _
      simp only [List.append_assoc, List.cons_append, List.nil_append]
      rw [lexGo_ws (ind (i + 2)) (hind _) _, lexGo_jstr kv.1 hkey _,
        lexGo_tok1 ':' JTok.colon (by rfl), hsp _, hval _,
        lexGo_tok1 ',' JTok.comma (by rfl)]
      have hnl : lexGo LexSt.stTop ('\n' :: (sepJoin (',' :: ['\n'])
          ((kw :: l'').map fun kv =>
            ind (i + 2) ++ (jstr kv.1 ++ ':' :: ' ' :: pv (i + 2) kv.2)) ++
          ('\n' :: (ind i ++ (rbraceC :: B))))) =
          lexGo LexSt.stTop (sepJoin (',' :: ['\n'])
          ((kw :: l'').map fun kv =>
            ind (i + 2) ++ (jstr kv.1 ++ ':' :: ' ' :: pv (i + 2) kv.2)) ++
          ('\n' :: (ind i ++ (rbraceC :: B)))) :=
        lexGo_ws ['\n'] (by intro c hc; simp at hc; subst hc; decide) _
      rw [hnl, ih (by simp) (fun kv hkv => hl kv (by simp [hkv])) B]
      cases lexGo LexSt.stTop B <;> simp [sepJoin, List.append_assoc]

theorem lexPc_fields {α : Type} (pv : Nat → α → Str) (vt : α → List JTok)
    (l : List (Str × α)) (i : Nat)
    (hl : ∀ kv ∈ l, (∀ c ∈ kv.1, safeC c = true) ∧
      ∀ B, lexGo LexSt.stTop (pv (i + 2) kv.2 ++ B) =
        (lexGo LexSt.stTop B).map (vt kv.2 ++ ·))
    (B : Str) :
    lexGo LexSt.stTop (prettyFields pv i l ++ B) =
      (lexGo LexSt.stTop B).map (objToksOf vt l ++ ·) := by
  cases l with
  | nil =>
    show lexGo LexSt.stTop (lbraceC :: rbraceC :: B) = _
    rw [lexGo_tok1 lbraceC JTok.lbrace (by rfl),
      lexGo_tok1 rbraceC JTok.rbrace (by rfl)]
    cases lexGo LexSt.stTop B <;> simp [objToksOf, sepJoin]
  | cons kv l' =>
    show lexGo LexSt.stTop ((lbraceC :: '\n' :: sepJoin (',' :: ['\n'])
      ((kv :: l').map fun kv =>
        ind (i + 2) ++ jstr kv.1 ++ ':' :: ' ' :: pv (i + 2) kv.2) ++
      '\n' :: ind i ++ [rbraceC]) ++ B) = _
    simp only [List.append_assoc, List.cons_append, List.nil_append,
      List.singleton_append]
    rw [lexGo_tok1 lbraceC JTok.lbrace (by rfl)]
    have hnl : lexGo LexSt.stTop ('\n' :: (sepJoin (',' :: ['\n'])
        ((kv :: l').map fun kv =>
          ind (i + 2) ++ (jstr kv.1 ++ ':' :: ' ' :: pv (i + 2) kv.2)) ++
        ('\n' :: (ind i ++ (rbraceC :: B))))) =
        lexGo LexSt.stTop (sepJoin (',' :: ['\n'])
        ((kv :: l').map fun kv =>
          ind (i + 2) ++ (jstr kv.1 ++ ':' :: ' ' :: pv (i + 2) kv.2)) ++
        ('\n' :: (ind i ++ (rbraceC :: B)))) :=
      lexGo_ws ['\n'] (by intro c hc; simp at hc; subst hc; decide) _
    rw [hnl, lexPc_fieldItems pv vt i (kv :: l') (by simp) hl B]
    cases lexGo LexSt.stTop B <;> simp [objToksOf, List.append_assoc]

theorem lex_pcExport (ct : CompactT) (hWF : WFct ct) :
    lexGo LexSt.stTop (pcExport ct) = some (tableToks ct) := by
  obtain ⟨-, hg⟩ := hWF
  have h := lexPc_fields (prettyFields (prettyFields pcArr))
    (objToksOf (objToksOf arrToksOf)) ct 0 ?hval []
  case hval =>
    intro g hgm
    obtain ⟨hgkey, -, hcat⟩ := hg g hgm
    refine ⟨by simpa using hgkey, ?_⟩
    intro B
    refine lexPc_fields (prettyFields pcArr) (objToksOf arrToksOf) g.2 2 ?_ B
    intro c hcm
    obtain ⟨hckey, -, hev⟩ := hcat c hcm
    refine ⟨by simpa using hckey, ?_⟩
    intro B
    refine lexPc_fields pcArr arrToksOf c.2 4 ?_ B
    intro e hem
    obtain ⟨hekey, hp⟩ := hev e hem
    exact ⟨by simpa using hekey, fun B => lexPc_arr 6 e.2 hp B⟩
  rw [List.append_nil] at h
  unfold pcExport
  rw [h, lexGo_nil_top]
  simp [tableToks]

theorem parse_prettyCollapsed (ct : CompactT) (hWF : WFct ct) :
    parseJson (collapseAll (prettyExport ct)) = some (jsonOfCompact ct) := by
  rw [walk_export ct hWF]
  unfold parseJson
  rw [lex_pcExport ct hWF]
  exact runP_tableToks ct hWF

/-! ## Claim C8 -/

/-- C8: for every aggregated table (well-formed keys, non-empty
digit/colon/dot performance strings, non-negative points, no duplicate
keys per level), the two encodings written by `exportToJSON` decode to
the same nested structure: parsing the minified `JSON.stringify` output
and parsing the pretty-printed output after the pair-collapsing regex
rewrite both yield exactly the JSON value of the compact
`[points, performance]` table. -/
theorem C8_export_roundtrip (t : Table) (hWF : WFct (compactOf t)) :
    parseJson (minExport (compactOf t)) = some (jsonOfCompact (compactOf t)) ∧
    parseJson (collapseAll (prettyExport (compactOf t))) =
      some (jsonOfCompact (compactOf t)) :=
  ⟨parse_minExport (compactOf t) hWF, parse_prettyCollapsed (compactOf t) hWF⟩

/-- Witness: the round trip at a concrete two-entry table. -/
theorem C8_export_roundtrip_witness :
    parseJson (minExport (compactOf
      [("men".toList, [("sprints".toList, [("100m".toList,
        [ScoringEntry.mk "9.46".toList 1400,
         ScoringEntry.mk "9.47".toList 1395])])])])) =
      some (jsonOfCompact (compactOf
        [("men".toList, [("sprints".toList, [("100m".toList,
          [ScoringEntry.mk "9.46".toList 1400,
           ScoringEntry.mk "9.47".toList 1395])])])])) ∧
    parseJson (collapseAll (prettyExport (compactOf
      [("men".toList, [("sprints".toList, [("100m".toList,
        [ScoringEntry.mk "9.46".toList 1400,
         ScoringEntry.mk "9.47".toList 1395])])])]))) =
      some (jsonOfCompact (compactOf
        [("men".toList, [("sprints".toList, [("100m".toList,
          [ScoringEntry.mk "9.46".toList 1400,
           ScoringEntry.mk "9.47".toList 1395])])])])) :=
  C8_export_roundtrip
    [("men".toList, [("sprints".toList, [("100m".toList,
      [ScoringEntry.mk "9.46".toList 1400,
       ScoringEntry.mk "9.47".toList 1395])])])]
    (by unfold WFct WFpair; decide)

/-! ## Claim C2: idempotence of `normalizeEventName`

The proof shows that every key produced by `normalizeEventName` is a
fixed point of the whole rule chain: a produced key is tidy (trimmed,
with single-space whitespace runs), lower-case, and residual-free for
each of the three replace patterns and for the `\bmiles\b` replace, and
the recogniser that accepted it in the first pass accepts it again. -/

/-- No suffix of `s` matches `M`: a global replace driven by `M` leaves
`s` unchanged. -/
def NoM (M : Str → Option (Str × Str)) (s : Str) : Prop :=
  ∀ a b, s = a ++ b → M b = none

theorem NoM_tail {M : Str → Option (Str × Str)} {c : Char} {s : Str}
    (h : NoM M (c :: s)) : NoM M s :=
  fun a b hab => h (c :: a) b (by rw [hab]; rfl)

theorem NoM_head {M : Str → Option (Str × Str)} {c : Char} {s : Str}
    (h : NoM M (c :: s)) : M (c :: s) = none :=
  h [] (c :: s) rfl

theorem scanF_id (M : Str → Option (Str × Str)) :
    ∀ (f : Nat) (s : Str), NoM M s → scanF M f s = s := by
  intro f
  induction f with
  | zero => intro s _; cases s <;> rfl
  | succ f ih =>
    intro s hs
    cases s with
    | nil => rfl
    | cons c rest =>
      have hM := NoM_head hs
      simp only [scanF, hM]
      exact congrArg (c :: ·) (ih rest (NoM_tail hs))

/-- The consumed-region facts in the weak form taken by the fuel lemmas. -/
theorem match3At_con : ∀ s em rem, match3At s = some (em, rem) →
    ∃ con, s = con ++ rem ∧ con ≠ [] := by
  intro s em rem h
  obtain ⟨con, h1, h2, -, -⟩ := match3At_consumed s em rem h
  exact ⟨con, h1, h2⟩

theorem match4At_con : ∀ s em rem, match4At s = some (em, rem) →
    ∃ con, s = con ++ rem ∧ con ≠ [] := by
  intro s em rem h
  obtain ⟨con, h1, h2, -, -⟩ := match4At_consumed s em rem h
  exact ⟨con, h1, h2⟩

theorem match5At_con : ∀ s em rem, match5At s = some (em, rem) →
    ∃ con, s = con ++ rem ∧ con ≠ [] := by
  intro s em rem h
  obtain ⟨con, h1, h2, -, -⟩ := match5At_consumed s em rem h
  exact ⟨con, h1, h2⟩

/-- One verbatim step of the canonically fuelled scan. -/
theorem scanC_cons_none (M : Str → Option (Str × Str)) {c : Char} {rest : Str}
    (h : M (c :: rest) = none) :
    scanF M (c :: rest).length (c :: rest) = c :: scanF M rest.length rest := by
  simp only [List.length_cons, scanF, h]

/-- One match step of the canonically fuelled scan. -/
theorem scanC_cons_some (M : Str → Option (Str × Str))
    (hcon : ∀ s em rem, M s = some (em, rem) → ∃ con, s = con ++ rem ∧ con ≠ [])
    {c : Char} {rest em rem : Str} (h : M (c :: rest) = some (em, rem)) :
    scanF M (c :: rest).length (c :: rest) = em ++ scanF M rem.length rem := by
  simp only [List.length_cons, scanF, h]
  congr 1
  obtain ⟨con, hs, hne⟩ := hcon _ _ _ h
  have hlen : rem.length ≤ rest.length := by
    have hl := congrArg List.length hs
    simp only [List.length_cons, List.length_append] at hl
    cases con with
    | nil => exact absurd rfl hne
    | cons _ _ => simp only [List.length_cons] at hl; omega
  exact scanF_fuel_eq M hcon rest.length rem hlen

/-- When every emission starts with the character it replaced, the scan
preserves the head character. -/
theorem scan_head (M : Str → Option (Str × Str))
    (hem : ∀ c t em rem, M (c :: t) = some (em, rem) → ∃ em2, em = c :: em2) :
    ∀ (f : Nat) (c : Char) (rest : Str), ∃ t, scanF M f (c :: rest) = c :: t := by
  intro f c rest
  cases f with
  | zero => exact ⟨rest, rfl⟩
  | succ f =>
    cases hM : M (c :: rest) with
    | none => exact ⟨scanF M f rest, by simp only [scanF, hM]⟩
    | some er =>
      obtain ⟨em, rem⟩ := er
      obtain ⟨em2, rfl⟩ := hem _ _ _ _ hM
      exact ⟨em2 ++ scanF M f rem, by simp only [scanF, hM]; rfl⟩

/-- The scan preserves the word-boundary status of the string's head. -/
theorem scan_okAfter (M : Str → Option (Str × Str))
    (hem : ∀ c t em rem, M (c :: t) = some (em, rem) → ∃ em2, em = c :: em2)
    (f : Nat) (s : Str) : okAfter (scanF M f s) = okAfter s := by
  cases s with
  | nil => rw [scanF_nil]
  | cons c rest =>
    obtain ⟨t, ht⟩ := scan_head M hem f c rest
    rw [ht]; rfl

/-- A run of non-start characters at the head of the scan's output came
verbatim from the head of its input. -/
theorem scan_peel (M : Str → Option (Str × Str)) (startOK : Char → Bool)
    (hhead : ∀ c t x, M (c :: t) = some x → startOK c = true)
    (hem : ∀ c t em rem, M (c :: t) = some (em, rem) → ∃ em2, em = c :: em2) :
    ∀ (u : Str), (∀ c ∈ u, startOK c = false) →
    ∀ (s R : Str), scanF M s.length s = u ++ R →
      ∃ s2, s = u ++ s2 ∧ scanF M s2.length s2 = R := by
  intro u
  induction u with
  | nil => intro _ s R h; exact ⟨s, rfl, by simpa using h⟩
  | cons u0 u2 ih =>
    intro hu s R h
    cases s with
    | nil => rw [scanF_nil] at h; exact absurd h.symm (by simp)
    | cons c rest =>
      cases hM : M (c :: rest) with
      | some er =>
        obtain ⟨em, rem⟩ := er
        obtain ⟨em2, rfl⟩ := hem _ _ _ _ hM
        exfalso
        simp only [List.length_cons, scanF, hM, List.cons_append] at h
        injection h with h1 _
        subst h1
        have := hhead _ _ _ hM
        rw [hu c (List.mem_cons_self _ _)] at this
        cases this
      | none =>
        rw [scanC_cons_none M hM] at h
        injection h with h1 h2
        subst h1
        obtain ⟨s2, hs2, hR⟩ :=
          ih (fun d hd => hu d (List.mem_cons_of_mem _ hd)) rest R h2
        exact ⟨s2, by rw [hs2]; rfl, hR⟩

/-- Emissions of the unit-joining pattern begin with the matched digit. -/
theorem match3At_em_head {c : Char} {t em rem : Str}
    (h : match3At (c :: t) = some (em, rem)) : ∃ em2, em = c :: em2 := by
  have hd := match3At_head h
  unfold match3At at h
  by_cases hds : ((c :: t).takeWhile isDigitC).isEmpty
  · rw [if_pos hds] at h; cases h
  · rw [if_neg hds] at h
    cases hfr : fracAt ((c :: t).dropWhile isDigitC) with
    | mk fr r1 =>
      rw [hfr] at h
      dsimp only at h
      by_cases hws : (r1.takeWhile isWsC).isEmpty
      · rw [if_pos hws] at h; cases h
      · rw [if_neg hws] at h
        cases hu : unitAt (r1.dropWhile isWsC) with
        | none => rw [hu] at h; cases h
        | some ur =>
          obtain ⟨u, rem2⟩ := ur
          rw [hu] at h
          injection h with h2
          injection h2 with h3 h4
          refine ⟨t.takeWhile isDigitC ++ fr ++ u, ?_⟩
          rw [← h3, List.takeWhile_cons_of_pos (by simpa using hd)]
          simp

/-- Emissions of the modifier-attaching pattern begin with the matched
digit. -/
theorem match4At_em_head {c : Char} {t em rem : Str}
    (h : match4At (c :: t) = some (em, rem)) : ∃ em2, em = c :: em2 := by
  have hd := match4At_head h
  unfold match4At at h
  by_cases hds : ((c :: t).takeWhile isDigitC).isEmpty
  · rw [if_pos hds] at h; cases h
  · rw [if_neg hds] at h
    cases hu : unitModAt ((c :: t).dropWhile isDigitC) with
    | none => rw [hu] at h; cases h
    | some p =>
      obtain ⟨u, md, rem2⟩ := p
      rw [hu] at h
      injection h with h2
      injection h2 with h3 h4
      refine ⟨t.takeWhile isDigitC ++ u ++ ' ' :: md, ?_⟩
      rw [← h3, List.takeWhile_cons_of_pos (by simpa using hd)]
      simp

/-- Emissions of the relay pattern begin with the matched `4`. -/
theorem match5At_em_head {c : Char} {t em rem : Str}
    (h : match5At (c :: t) = some (em, rem)) : ∃ em2, em = c :: em2 := by
  unfold match5At at h
  split at h
  · rename_i r heq
    injection heq with h1 h2
    subst h1
    by_cases hds : (r.takeWhile isDigitC).isEmpty
    · rw [if_pos hds] at h; cases h
    · rw [if_neg hds] at h
      split at h
      · rename_i r2 hdw
        by_cases hix : lookIx r2 = true
        · rw [if_pos hix] at h; cases h
        · rw [if_neg hix] at h
          cases hm : modAt r2 with
          | none => rw [hm] at h; cases h
          | some p =>
            obtain ⟨md, rem2⟩ := p
            rw [hm] at h
            dsimp only at h
            injection h with h2
            injection h2 with h3 h4
            exact ⟨'x' :: (r.takeWhile isDigitC ++ 'm' :: ' ' :: md), h3.symm⟩
      · cases h
  · cases h

/-! ### The `\bmiles\b` replace leaves boundary-protected strings alone -/

theorem lastOr_append :
    ∀ (a : Str) (prev : Option Char) (b : Str),
      lastOr prev (a ++ b) = lastOr (lastOr prev a) b := by
  intro a
  induction a with
  | nil => intro prev b; rfl
  | cons x a2 ih => intro prev b; exact ih (some x) b

/-- Every occurrence of `miles` in `s` (read with `prev` as the character
before `s`) fails one of the two word boundaries. -/
def CtxNoMiles (prev : Option Char) (s : Str) : Prop :=
  ∀ a b, s = a ++ ('m' :: 'i' :: 'l' :: 'e' :: 's' :: b) →
    boundaryBefore (lastOr prev a) = false ∨ okAfter b = false

theorem r1F_id : ∀ (f : Nat) (prev : Option Char) (s : Str),
    CtxNoMiles prev s → r1F f prev s = s := by
  intro f
  induction f with
  | zero => intro prev s _; cases s <;> rfl
  | succ f ih =>
    intro prev s hs
    cases s with
    | nil => rfl
    | cons c rest =>
      rw [r1F]
      have hcond : (boundaryBefore prev &&
          startsWithStr (c :: rest) ['m', 'i', 'l', 'e', 's'] &&
          okAfter ((c :: rest).drop 5)) = false := by
        by_cases hsw :
            startsWithStr (c :: rest) ['m', 'i', 'l', 'e', 's'] = true
        · obtain ⟨b, hb⟩ := startsWithStr_iff.mp hsw
          rcases hs [] b (by simpa using hb) with h1 | h1
          · simp only [lastOr] at h1
            simp [h1]
          · have hdrop : (c :: rest).drop 5 = b := by
              rw [hb]; exact List.drop_left' (by simp)
            simp [hdrop, h1]
        · simp [Bool.eq_false_iff.mpr hsw]
      have hcond' : ¬((boundaryBefore prev &&
          startsWithStr (c :: rest) ['m', 'i', 'l', 'e', 's'] &&
          okAfter ((c :: rest).drop 5)) = true) := by
        rw [hcond]; exact Bool.false_ne_true
      rw [if_neg hcond']
      refine congrArg (c :: ·) (ih (some c) rest ?_)
      intro a b hab
      have := hs (c :: a) b (by rw [hab]; rfl)
      simpa [lastOr] using this

theorem replaceMiles_id {s : Str} (h : CtxNoMiles none s) :
    replaceMiles s = s :=
  r1F_id s.length none s h

/-! ### Character facts for the normaliser's alphabets -/

theorem ws_toNat (c : Char) (h : isWsC c = true) : c.toNat ≤ 32 := by
  simp only [isWsC, Bool.or_eq_true, decide_eq_true_eq] at h
  rcases h with ((((h1 | h1) | h1) | h1) | h1) | h1 <;> (subst h1; decide)

theorem ws_not_digit (c : Char) (h : isWsC c = true) : isDigitC c = false := by
  cases hd : isDigitC c with
  | false => rfl
  | true =>
    exfalso
    have h1 := digit_toNat c hd
    have h2 := ws_toNat c h
    omega

theorem ws_not_word (c : Char) (h : isWsC c = true) : isWordC c = false := by
  cases hw : isWordC c with
  | false => rfl
  | true =>
    exfalso
    have h2 := ws_toNat c h
    simp only [isWordC, Bool.or_eq_true, Bool.and_eq_true, decide_eq_true_eq] at hw
    rcases hw with ((⟨a1, a2⟩ | ⟨a1, a2⟩) | hd) | he
    · rw [Char.le_def] at a1
      have a3 : Char.toNat 'a' ≤ c.toNat := a1
      have e1 : Char.toNat 'a' = 97 := by decide
      omega
    · rw [Char.le_def] at a1
      have a3 : Char.toNat 'A' ≤ c.toNat := a1
      have e1 : Char.toNat 'A' = 65 := by decide
      omega
    · have h1 := digit_toNat c hd
      omega
    · subst he
      exact absurd h2 (by decide)

theorem digit_not_ws (c : Char) (h : isDigitC c = true) : isWsC c = false := by
  have h1 := digit_toNat c h
  exact not_ws_of_toNat c (by omega)

theorem digit_word (c : Char) (h : isDigitC c = true) : isWordC c = true := by
  simp [isWordC, h]

/-! ### Tidiness: trimmed strings with single-space whitespace runs -/

/-- No two adjacent whitespace characters. -/
def noWW (a b : Char) : Prop := isWsC a = false ∨ isWsC b = false

/-- `tidy s`: every whitespace character is a plain space, no two
whitespace characters are adjacent, and neither end is whitespace —
exactly the invariant that `collapseWs (trimStr s) = s`. -/
def tidy (s : Str) : Prop :=
  (∀ c ∈ s, isWsC c = true → c = ' ') ∧
  List.Chain' noWW s ∧
  (∀ c, s.head? = some c → isWsC c = false) ∧
  (∀ c, s.getLast? = some c → isWsC c = false)

theorem collapseGo_cons_ws_t {d : Char} {rest : Str} (hd : isWsC d = true) :
    collapseGo true (d :: rest) = collapseGo true rest := by
  simp [collapseGo, hd]

theorem collapseGo_cons_ws_f {d : Char} {rest : Str} (hd : isWsC d = true) :
    collapseGo false (d :: rest) = ' ' :: collapseGo true rest := by
  simp [collapseGo, hd]

theorem collapseGo_cons_nws (p : Bool) {d : Char} {rest : Str}
    (hd : isWsC d = false) :
    collapseGo p (d :: rest) = d :: collapseGo false rest := by
  simp [collapseGo, hd]

theorem collapseGo_ws_space :
    ∀ (s : Str) (p : Bool) (c : Char), c ∈ collapseGo p s →
      isWsC c = true → c = ' ' := by
  intro s
  induction s with
  | nil =>
    intro p c hc
    rw [show collapseGo p [] = [] from rfl] at hc
    exact absurd hc (List.not_mem_nil c)
  | cons d rest ih =>
    intro p c hc hws
    by_cases hd : isWsC d = true
    · cases p with
      | true =>
        rw [collapseGo_cons_ws_t hd] at hc
        exact ih true c hc hws
      | false =>
        rw [collapseGo_cons_ws_f hd] at hc
        rcases List.mem_cons.mp hc with rfl | hc2
        · rfl
        · exact ih true c hc2 hws
    · rw [collapseGo_cons_nws p (Bool.eq_false_iff.mpr hd)] at hc
      rcases List.mem_cons.mp hc with rfl | hc2
      · exact absurd hws hd
      · exact ih false c hc2 hws

theorem collapseGo_head_t :
    ∀ (s : Str) (c : Char), (collapseGo true s).head? = some c →
      isWsC c = false := by
  intro s
  induction s with
  | nil =>
    intro c h
    rw [show collapseGo true [] = [] from rfl] at h
    cases h
  | cons d rest ih =>
    intro c h
    by_cases hd : isWsC d = true
    · rw [collapseGo_cons_ws_t hd] at h
      exact ih c h
    · rw [collapseGo_cons_nws true (Bool.eq_false_iff.mpr hd),
        List.head?_cons] at h
      injection h with h1
      subst h1
      exact Bool.eq_false_iff.mpr hd

theorem collapseGo_chain :
    ∀ (s : Str) (p : Bool), List.Chain' noWW (collapseGo p s) := by
  intro s
  induction s with
  | nil =>
    intro p
    rw [show collapseGo p [] = [] from rfl]
    exact List.chain'_nil
  | cons d rest ih =>
    intro p
    by_cases hd : isWsC d = true
    · cases p with
      | true => rw [collapseGo_cons_ws_t hd]; exact ih true
      | false =>
        rw [collapseGo_cons_ws_f hd]
        refine List.chain'_cons'.mpr ⟨?_, ih true⟩
        intro b hb
        exact Or.inr (collapseGo_head_t rest b (Option.mem_def.mp hb))
    · rw [collapseGo_cons_nws p (Bool.eq_false_iff.mpr hd)]
      refine List.chain'_cons'.mpr ⟨?_, ih false⟩
      intro b _
      exact Or.inl (Bool.eq_false_iff.mpr hd)

theorem getLast?_cons_ne {a : Char} {l : Str} (h : l ≠ []) :
    (a :: l).getLast? = l.getLast? := by
  cases l with
  | nil => exact absurd rfl h
  | cons b l2 => exact List.getLast?_cons_cons

theorem ne_nil_of_getLast {l : Str} {c : Char} (h : l.getLast? = some c) :
    l ≠ [] := by
  intro hl
  subst hl
  cases h

theorem getLast?_cons_some (d : Char) (rest : Str) :
    ∃ x, (d :: rest).getLast? = some x := by
  induction rest generalizing d with
  | nil => exact ⟨d, rfl⟩
  | cons e r ih =>
    obtain ⟨x, hx⟩ := ih e
    exact ⟨x, by rw [List.getLast?_cons_cons]; exact hx⟩

theorem collapseGo_last :
    ∀ (s : Str) (p : Bool) (c : Char), s.getLast? = some c →
      isWsC c = false → (collapseGo p s).getLast? = some c := by
  intro s
  induction s with
  | nil => intro p c h; cases h
  | cons d rest ih =>
    intro p c h hcw
    cases hrest : rest with
    | nil =>
      subst hrest
      have hd : d = c := by simpa using h
      subst hd
      rw [collapseGo_cons_nws p hcw, show collapseGo false [] = [] from rfl]
      rfl
    | cons e rest2 =>
      subst hrest
      have hlast : (e :: rest2).getLast? = some c := by
        rw [← List.getLast?_cons_cons (a := d)]
        exact h
      by_cases hd : isWsC d = true
      · cases p with
        | true =>
          rw [collapseGo_cons_ws_t hd]
          exact ih true c hlast hcw
        | false =>
          rw [collapseGo_cons_ws_f hd]
          have h2 := ih true c hlast hcw
          rw [getLast?_cons_ne (ne_nil_of_getLast h2)]
          exact h2
      · rw [collapseGo_cons_nws p (Bool.eq_false_iff.mpr hd)]
        have h2 := ih false c hlast hcw
        rw [getLast?_cons_ne (ne_nil_of_getLast h2)]
        exact h2

theorem dropWhile_head_not {p : Char → Bool} :
    ∀ (l : Str) (c : Char), (l.dropWhile p).head? = some c → p c = false := by
  intro l
  induction l with
  | nil => intro c h; cases h
  | cons a l2 ih =>
    intro c h
    by_cases hp : p a = true
    · rw [List.dropWhile_cons_of_pos hp] at h
      exact ih c h
    · rw [List.dropWhile_cons_of_neg hp, List.head?_cons] at h
      injection h with h1
      subst h1
      exact Bool.eq_false_iff.mpr hp

theorem getLast?_append_right :
    ∀ (l1 l2 : Str), l2 ≠ [] → (l1 ++ l2).getLast? = l2.getLast? := by
  intro l1
  induction l1 with
  | nil => intro l2 _; rfl
  | cons a l1 ih =>
    intro l2 h
    rw [List.cons_append, getLast?_cons_ne (by simp [h]), ih l2 h]

theorem trimStr_head {s : Str} :
    ∀ c, (trimStr s).head? = some c → isWsC c = false := by
  intro c h
  unfold trimStr at h
  rw [List.head?_reverse] at h
  have hsplit : (s.dropWhile isWsC).reverse =
      (s.dropWhile isWsC).reverse.takeWhile isWsC ++
        (s.dropWhile isWsC).reverse.dropWhile isWsC :=
    (List.takeWhile_append_dropWhile (p := isWsC)
      (l := (s.dropWhile isWsC).reverse)).symm
  have hne : (s.dropWhile isWsC).reverse.dropWhile isWsC ≠ [] :=
    ne_nil_of_getLast h
  have h2 : (s.dropWhile isWsC).reverse.getLast? = some c := by
    conv_lhs => rw [hsplit]
    rw [getLast?_append_right _ _ hne]
    exact h
  rw [List.getLast?_reverse] at h2
  exact dropWhile_head_not s c h2

theorem trimStr_last {s : Str} :
    ∀ c, (trimStr s).getLast? = some c → isWsC c = false := by
  intro c h
  unfold trimStr at h
  rw [List.getLast?_reverse] at h
  exact dropWhile_head_not _ c h

/-- The whitespace-collapsed trim of any string is tidy. -/
theorem tidy_canon (s : Str) : tidy (collapseWs (trimStr s)) := by
  refine ⟨fun c hc hws => collapseGo_ws_space (trimStr s) false c hc hws,
    collapseGo_chain (trimStr s) false, ?_, ?_⟩
  · intro c h
    unfold collapseWs at h
    cases ht : trimStr s with
    | nil =>
      rw [ht, show collapseGo false [] = [] from rfl] at h
      cases h
    | cons d rest =>
      have hd : isWsC d = false := trimStr_head d (by rw [ht]; rfl)
      rw [ht, collapseGo_cons_nws false hd, List.head?_cons] at h
      injection h with h1
      subst h1
      exact hd
  · intro c h
    unfold collapseWs at h
    cases htr : trimStr s with
    | nil =>
      rw [htr, show collapseGo false [] = [] from rfl] at h
      cases h
    | cons d rest =>
      obtain ⟨x, hx⟩ := getLast?_cons_some d rest
      have hxw : isWsC x = false := trimStr_last x (by rw [htr]; exact hx)
      have h2 := collapseGo_last (d :: rest) false x hx hxw
      rw [htr, h2] at h
      injection h with h1
      subst h1
      exact hxw

theorem collapseGo_true_eq {s : Str}
    (h : ∀ c, s.head? = some c → isWsC c = false) :
    collapseGo true s = collapseGo false s := by
  cases s with
  | nil => rfl
  | cons d rest =>
    have hd := h d rfl
    rw [collapseGo_cons_nws true hd, collapseGo_cons_nws false hd]

theorem collapseGo_id :
    ∀ (s : Str), (∀ c ∈ s, isWsC c = true → c = ' ') →
      List.Chain' noWW s → collapseGo false s = s := by
  intro s
  induction s with
  | nil => intro _ _; rfl
  | cons d rest ih =>
    intro h1 h2
    obtain ⟨hpair, htail⟩ := List.chain'_cons'.mp h2
    by_cases hd : isWsC d = true
    · have hdsp : d = ' ' := h1 d (List.mem_cons_self _ _) hd
      rw [collapseGo_cons_ws_f hd]
      have hheadr : ∀ c, rest.head? = some c → isWsC c = false := by
        intro c hc
        rcases hpair c (Option.mem_def.mpr hc) with hl | hr
        · simp [hd] at hl
        · exact hr
      rw [collapseGo_true_eq hheadr,
        ih (fun c hc hw => h1 c (List.mem_cons_of_mem _ hc) hw) htail, hdsp]
    · rw [collapseGo_cons_nws false (Bool.eq_false_iff.mpr hd),
        ih (fun c hc hw => h1 c (List.mem_cons_of_mem _ hc) hw) htail]

theorem dropWhile_id_of_head {p : Char → Bool} {l : Str}
    (h : ∀ c, l.head? = some c → p c = false) : l.dropWhile p = l := by
  cases l with
  | nil => rfl
  | cons a l2 => exact List.dropWhile_cons_of_neg (by simp [h a rfl])

/-- A tidy string is its own whitespace-collapsed trim. -/
theorem tidy_fix {s : Str} (h : tidy s) : collapseWs (trimStr s) = s := by
  obtain ⟨h1, h2, h3, h4⟩ := h
  have htrim : trimStr s = s := by
    unfold trimStr
    rw [dropWhile_id_of_head h3,
      dropWhile_id_of_head
        (fun c hc => h4 c (by rw [← List.head?_reverse]; exact hc))]
    exact List.reverse_reverse s
  rw [htrim]
  unfold collapseWs
  exact collapseGo_id s h1 h2

/-! ### Lower-casing preserves tidiness; pipeline outputs are lower-case -/

theorem toLowerC_eq_self {c : Char} (h : ¬(65 ≤ c.toNat ∧ c.toNat ≤ 90)) :
    toLowerC c = c := by
  have hcond : ¬(('A' ≤ c && c ≤ 'Z') = true) := by
    simp only [Bool.and_eq_true, decide_eq_true_eq]
    rintro ⟨p1, p2⟩
    rw [Char.le_def] at p1 p2
    have p3 : Char.toNat 'A' ≤ c.toNat := p1
    have p4 : c.toNat ≤ Char.toNat 'Z' := p2
    have e1 : Char.toNat 'A' = 65 := by decide
    have e2 : Char.toNat 'Z' = 90 := by decide
    exact h ⟨by omega, by omega⟩
  unfold toLowerC
  exact if_neg hcond

theorem toLowerC_upper {c : Char} (h : 65 ≤ c.toNat ∧ c.toNat ≤ 90) :
    (toLowerC c).toNat = c.toNat + 32 := by
  have hcond : ('A' ≤ c && c ≤ 'Z') = true := by
    simp only [Bool.and_eq_true, decide_eq_true_eq]
    constructor
    · rw [Char.le_def]
      have e1 : Char.toNat 'A' = 65 := by decide
      exact (by omega : Char.toNat 'A' ≤ c.toNat)
    · rw [Char.le_def]
      have e2 : Char.toNat 'Z' = 90 := by decide
      exact (by omega : c.toNat ≤ Char.toNat 'Z')
  unfold toLowerC
  rw [if_pos hcond]
  unfold Char.ofNat
  rw [dif_pos (Or.inl (by omega : c.toNat + 32 < 55296))]
  rfl

theorem toLowerC_ws (c : Char) : isWsC (toLowerC c) = isWsC c := by
  by_cases h : 65 ≤ c.toNat ∧ c.toNat ≤ 90
  · have ht := toLowerC_upper h
    rw [not_ws_of_toNat c (by omega), not_ws_of_toNat (toLowerC c) (by omega)]
  · rw [toLowerC_eq_self h]

theorem toLowerC_idem (c : Char) : toLowerC (toLowerC c) = toLowerC c := by
  by_cases h : 65 ≤ c.toNat ∧ c.toNat ≤ 90
  · have h1 := toLowerC_upper h
    exact toLowerC_eq_self (by omega)
  · rw [toLowerC_eq_self h]
    exact toLowerC_eq_self h

theorem tidy_lower {s : Str} (h : tidy s) : tidy (lowerStr s) := by
  obtain ⟨h1, h2, h3, h4⟩ := h
  refine ⟨?_, ?_, ?_, ?_⟩
  · intro c hc hw
    obtain ⟨d, hd, rfl⟩ := List.mem_map.mp hc
    rw [toLowerC_ws] at hw
    rw [h1 d hd hw]
    decide
  · unfold lowerStr
    rw [List.chain'_map]
    refine h2.imp ?_
    intro a b hab
    rcases hab with ha | hb
    · exact Or.inl (by rw [toLowerC_ws]; exact ha)
    · exact Or.inr (by rw [toLowerC_ws]; exact hb)
  · intro c hc
    unfold lowerStr at hc
    rw [List.head?_map] at hc
    cases hh : s.head? with
    | none => rw [hh] at hc; cases hc
    | some d =>
      rw [hh] at hc
      simp only [Option.map_some'] at hc
      injection hc with h5
      subst h5
      rw [toLowerC_ws]
      exact h3 d hh
  · intro c hc
    unfold lowerStr at hc
    rw [List.getLast?_map] at hc
    cases hh : s.getLast? with
    | none => rw [hh] at hc; cases hc
    | some d =>
      rw [hh] at hc
      simp only [Option.map_some'] at hc
      injection hc with h5
      subst h5
      rw [toLowerC_ws]
      exact h4 d hh

/-- `s` only holds characters the ASCII lower-casing fixes. -/
def noUpper (s : Str) : Prop := ∀ c ∈ s, toLowerC c = c

theorem noUpper_lowerStr (s : Str) : noUpper (lowerStr s) := by
  intro c hc
  obtain ⟨d, _, rfl⟩ := List.mem_map.mp hc
  exact toLowerC_idem d

theorem lowerStr_id : ∀ {s : Str}, noUpper s → lowerStr s = s := by
  intro s
  induction s with
  | nil => intro _; rfl
  | cons c rest ih =>
    intro h
    unfold lowerStr at ih ⊢
    rw [List.map_cons, h c (List.mem_cons_self _ _),
      ih (fun d hd => h d (List.mem_cons_of_mem _ hd))]

/-! ### Exact inversion and introduction lemmas for the three patterns -/

theorem takeWhile_nil_of_head {p : Char → Bool} {l : Str}
    (h : ∀ c, l.head? = some c → p c = false) : l.takeWhile p = [] := by
  cases l with
  | nil => rfl
  | cons a l2 => exact List.takeWhile_cons_of_neg (by simp [h a rfl])

theorem takeWhile_all_head {p : Char → Bool} (D t : Str)
    (hD : ∀ c ∈ D, p c = true) (h : ∀ c, t.head? = some c → p c = false) :
    (D ++ t).takeWhile p = D ∧ (D ++ t).dropWhile p = t := by
  obtain ⟨h1, h2⟩ := takeWhile_all_append D t hD
  rw [takeWhile_nil_of_head h] at h1
  rw [dropWhile_id_of_head h] at h2
  exact ⟨by rw [h1, List.append_nil], h2⟩

theorem okAfter_cons (c : Char) (t : Str) : okAfter (c :: t) = !isWordC c := rfl

theorem fracAt_not_dot {t : Str}
    (h : ∀ c, t.head? = some c → ¬(c = '.')) : fracAt t = ([], t) := by
  unfold fracAt
  split
  · rename_i r
    exact absurd rfl (h '.' rfl)
  · rfl

theorem fracAt_inv {t fr r1 : Str} (h : fracAt t = (fr, r1)) :
    t = fr ++ r1 ∧
      (fr = [] ∨ ∃ fd, fr = '.' :: fd ∧ fd ≠ [] ∧
        ∀ c ∈ fd, isDigitC c = true) := by
  unfold fracAt at h
  split at h
  · rename_i r
    by_cases hd : (r.takeWhile isDigitC).isEmpty
    · rw [if_pos hd] at h
      injection h with h1 h2
      subst h1; subst h2
      exact ⟨rfl, Or.inl rfl⟩
    · rw [if_neg hd] at h
      injection h with h1 h2
      subst h1; subst h2
      refine ⟨?_, Or.inr ⟨r.takeWhile isDigitC, rfl,
        by simpa [List.isEmpty_iff] using hd,
        fun c hc => List.mem_takeWhile_imp hc⟩⟩
      rw [List.cons_append, List.takeWhile_append_dropWhile]
  · injection h with h1 h2
    subst h1; subst h2
    exact ⟨rfl, Or.inl rfl⟩

theorem unitAt_inv {t u rem : Str} (h : unitAt t = some (u, rem)) :
    t = u ++ rem ∧ (u = ['m'] ∨ u = ['k', 'm'] ∨ u = ['m', 'i', 'l', 'e']) ∧
      okAfter rem = true := by
  unfold unitAt at h
  split at h
  · rename_i r
    by_cases ha : okAfter r = true
    · rw [if_pos ha] at h
      injection h with h2
      injection h2 with h3 h4
      subst h3; subst h4
      exact ⟨rfl, Or.inl rfl, ha⟩
    · rw [if_neg ha] at h
      split at h
      · rename_i r2
        by_cases ha2 : okAfter r2 = true
        · rw [if_pos ha2] at h
          injection h with h2
          injection h2 with h3 h4
          subst h3; subst h4
          exact ⟨rfl, Or.inr (Or.inr rfl), ha2⟩
        · rw [if_neg ha2] at h; cases h
      · cases h
  · rename_i r
    by_cases ha : okAfter r = true
    · rw [if_pos ha] at h
      injection h with h2
      injection h2 with h3 h4
      subst h3; subst h4
      exact ⟨rfl, Or.inr (Or.inl rfl), ha⟩
    · rw [if_neg ha] at h; cases h
  · cases h

theorem modAt_inv {t md rem : Str} (h : modAt t = some (md, rem)) :
    t = md ++ rem ∧
      (md = ['h'] ∨ md = ['s', 'h'] ∨ md = ['s', 'c'] ∨ md = ['w']) ∧
      okAfter rem = true := by
  unfold modAt at h
  split at h
  · rename_i r
    by_cases ha : okAfter r = true
    · rw [if_pos ha] at h
      injection h with h2
      injection h2 with h3 h4
      subst h3; subst h4
      exact ⟨rfl, Or.inl rfl, ha⟩
    · rw [if_neg ha] at h; cases h
  · rename_i r
    by_cases ha : okAfter r = true
    · rw [if_pos ha] at h
      injection h with h2
      injection h2 with h3 h4
      subst h3; subst h4
      exact ⟨rfl, Or.inr (Or.inl rfl), ha⟩
    · rw [if_neg ha] at h; cases h
  · rename_i r
    by_cases ha : okAfter r = true
    · rw [if_pos ha] at h
      injection h with h2
      injection h2 with h3 h4
      subst h3; subst h4
      exact ⟨rfl, Or.inr (Or.inr (Or.inl rfl)), ha⟩
    · rw [if_neg ha] at h; cases h
  · rename_i r
    by_cases ha : okAfter r = true
    · rw [if_pos ha] at h
      injection h with h2
      injection h2 with h3 h4
      subst h3; subst h4
      exact ⟨rfl, Or.inr (Or.inr (Or.inr rfl)), ha⟩
    · rw [if_neg ha] at h; cases h
  · cases h

theorem unitModAt_inv {t u md rem : Str}
    (h : unitModAt t = some (u, md, rem)) :
    t = u ++ md ++ rem ∧
      (u = ['m'] ∨ u = ['k', 'm'] ∨ u = ['m', 'i', 'l', 'e']) ∧
      (md = ['h'] ∨ md = ['s', 'h'] ∨ md = ['s', 'c'] ∨ md = ['w']) ∧
      okAfter rem = true := by
  unfold unitModAt at h
  split at h
  · rename_i r
    cases hm : modAt r with
    | some p =>
      obtain ⟨md0, r2⟩ := p
      rw [hm] at h
      dsimp only at h
      injection h with h2
      injection h2 with h3 h4
      injection h4 with h5 h6
      subst h3; subst h5; subst h6
      obtain ⟨hr, hmd, hok⟩ := modAt_inv hm
      exact ⟨by rw [hr]; rfl, Or.inl rfl, hmd, hok⟩
    | none =>
      rw [hm] at h
      dsimp only at h
      split at h
      · rename_i r2
        cases hm2 : modAt r2 with
        | some p =>
          obtain ⟨md0, r3⟩ := p
          rw [hm2] at h
          dsimp only at h
          injection h with h2
          injection h2 with h3 h4
          injection h4 with h5 h6
          subst h3; subst h5; subst h6
          obtain ⟨hr, hmd, hok⟩ := modAt_inv hm2
          exact ⟨by rw [hr]; rfl, Or.inr (Or.inr rfl), hmd, hok⟩
        | none => rw [hm2] at h; cases h
      · cases h
  · rename_i r
    cases hm : modAt r with
    | some p =>
      obtain ⟨md0, r2⟩ := p
      rw [hm] at h
      dsimp only at h
      injection h with h2
      injection h2 with h3 h4
      injection h4 with h5 h6
      subst h3; subst h5; subst h6
      obtain ⟨hr, hmd, hok⟩ := modAt_inv hm
      exact ⟨by rw [hr]; rfl, Or.inr (Or.inl rfl), hmd, hok⟩
    | none => rw [hm] at h; cases h
  · cases h

theorem unitAt_intro {u rem : Str}
    (hu : u = ['m'] ∨ u = ['k', 'm'] ∨ u = ['m', 'i', 'l', 'e'])
    (hok : okAfter rem = true) : unitAt (u ++ rem) = some (u, rem) := by
  rcases hu with rfl | rfl | rfl
  · show unitAt ('m' :: rem) = _
    simp only [unitAt]
    rw [if_pos hok]
  · show unitAt ('k' :: 'm' :: rem) = _
    simp only [unitAt]
    rw [if_pos hok]
  · show unitAt ('m' :: 'i' :: 'l' :: 'e' :: rem) = _
    simp only [unitAt]
    rw [if_neg (by rw [okAfter_cons]; decide :
      ¬(okAfter ('i' :: 'l' :: 'e' :: rem) = true))]
    rw [if_pos hok]

theorem modAt_intro {md rem : Str}
    (hmd : md = ['h'] ∨ md = ['s', 'h'] ∨ md = ['s', 'c'] ∨ md = ['w'])
    (hok : okAfter rem = true) : modAt (md ++ rem) = some (md, rem) := by
  rcases hmd with rfl | rfl | rfl | rfl
  · show modAt ('h' :: rem) = _
    simp only [modAt]
    rw [if_pos hok]
  · show modAt ('s' :: 'h' :: rem) = _
    simp only [modAt]
    rw [if_pos hok]
  · show modAt ('s' :: 'c' :: rem) = _
    simp only [modAt]
    rw [if_pos hok]
  · show modAt ('w' :: rem) = _
    simp only [modAt]
    rw [if_pos hok]

theorem unitModAt_intro {u md rem : Str}
    (hu : u = ['m'] ∨ u = ['k', 'm'] ∨ u = ['m', 'i', 'l', 'e'])
    (hmd : md = ['h'] ∨ md = ['s', 'h'] ∨ md = ['s', 'c'] ∨ md = ['w'])
    (hok : okAfter rem = true) :
    unitModAt (u ++ md ++ rem) = some (u, md, rem) := by
  have hmod := modAt_intro hmd hok
  rcases hu with rfl | rfl | rfl
  · show unitModAt ('m' :: (md ++ rem)) = _
    simp only [unitModAt]
    rw [hmod]
  · show unitModAt ('k' :: 'm' :: (md ++ rem)) = _
    simp only [unitModAt]
    rw [hmod]
  · show unitModAt ('m' :: 'i' :: 'l' :: 'e' :: (md ++ rem)) = _
    simp only [unitModAt]
    have hmil : modAt ('i' :: 'l' :: 'e' :: (md ++ rem)) = none := rfl
    rw [hmil]
    dsimp only
    rw [hmod]

theorem match3At_inv {s em rem : Str} (h : match3At s = some (em, rem)) :
    ∃ D fr W u, s = D ++ (fr ++ (W ++ (u ++ rem))) ∧ em = D ++ fr ++ u ∧
      D ≠ [] ∧ (∀ c ∈ D, isDigitC c = true) ∧
      (fr = [] ∨ ∃ fd, fr = '.' :: fd ∧ fd ≠ [] ∧
        ∀ c ∈ fd, isDigitC c = true) ∧
      W ≠ [] ∧ (∀ c ∈ W, isWsC c = true) ∧
      (u = ['m'] ∨ u = ['k', 'm'] ∨ u = ['m', 'i', 'l', 'e']) ∧
      okAfter rem = true := by
  unfold match3At at h
  by_cases hds : (s.takeWhile isDigitC).isEmpty
  · rw [if_pos hds] at h; cases h
  · rw [if_neg hds] at h
    cases hfr : fracAt (s.dropWhile isDigitC) with
    | mk fr r1 =>
      rw [hfr] at h
      dsimp only at h
      by_cases hws : (r1.takeWhile isWsC).isEmpty
      · rw [if_pos hws] at h; cases h
      · rw [if_neg hws] at h
        cases hu : unitAt (r1.dropWhile isWsC) with
        | none => rw [hu] at h; cases h
        | some ur =>
          obtain ⟨u, rem2⟩ := ur
          rw [hu] at h
          injection h with h2
          injection h2 with h3 h4
          subst h4
          obtain ⟨hfr1, hfrS⟩ := fracAt_inv hfr
          obtain ⟨hu1, huS, hok⟩ := unitAt_inv hu
          refine ⟨s.takeWhile isDigitC, fr, r1.takeWhile isWsC, u, ?_,
            h3.symm, by simpa [List.isEmpty_iff] using hds,
            fun c hc => List.mem_takeWhile_imp hc, hfrS,
            by simpa [List.isEmpty_iff] using hws,
            fun c hc => List.mem_takeWhile_imp hc, huS, hok⟩
          conv_lhs =>
            rw [← List.takeWhile_append_dropWhile (p := isDigitC) (l := s)]
          rw [hfr1]
          conv_lhs =>
            rw [← List.takeWhile_append_dropWhile (p := isWsC) (l := r1)]
          rw [hu1]

theorem match4At_inv {s em rem : Str} (h : match4At s = some (em, rem)) :
    ∃ D u md, s = D ++ (u ++ (md ++ rem)) ∧ em = D ++ u ++ ' ' :: md ∧
      D ≠ [] ∧ (∀ c ∈ D, isDigitC c = true) ∧
      (u = ['m'] ∨ u = ['k', 'm'] ∨ u = ['m', 'i', 'l', 'e']) ∧
      (md = ['h'] ∨ md = ['s', 'h'] ∨ md = ['s', 'c'] ∨ md = ['w']) ∧
      okAfter rem = true := by
  unfold match4At at h
  by_cases hds : (s.takeWhile isDigitC).isEmpty
  · rw [if_pos hds] at h; cases h
  · rw [if_neg hds] at h
    cases hu : unitModAt (s.dropWhile isDigitC) with
    | none => rw [hu] at h; cases h
    | some p =>
      obtain ⟨u, md, rem2⟩ := p
      rw [hu] at h
      injection h with h2
      injection h2 with h3 h4
      subst h4
      obtain ⟨hu1, huS, hmdS, hok⟩ := unitModAt_inv hu
      refine ⟨s.takeWhile isDigitC, u, md, ?_, h3.symm,
        by simpa [List.isEmpty_iff] using hds,
        fun c hc => List.mem_takeWhile_imp hc, huS, hmdS, hok⟩
      conv_lhs =>
        rw [← List.takeWhile_append_dropWhile (p := isDigitC) (l := s)]
      rw [hu1]
      simp [List.append_assoc]

theorem match5At_inv {s em rem : Str} (h : match5At s = some (em, rem)) :
    ∃ D md, s = '4' :: 'x' :: (D ++ 'm' :: (md ++ rem)) ∧
      em = '4' :: 'x' :: (D ++ 'm' :: ' ' :: md) ∧
      D ≠ [] ∧ (∀ c ∈ D, isDigitC c = true) ∧
      (md = ['h'] ∨ md = ['s', 'h'] ∨ md = ['s', 'c'] ∨ md = ['w']) ∧
      okAfter rem = true := by
  unfold match5At at h
  split at h
  · rename_i r
    by_cases hds : (r.takeWhile isDigitC).isEmpty
    · rw [if_pos hds] at h; cases h
    · rw [if_neg hds] at h
      split at h
      · rename_i r2 hdw
        by_cases hix : lookIx r2 = true
        · rw [if_pos hix] at h; cases h
        · rw [if_neg hix] at h
          cases hm : modAt r2 with
          | none => rw [hm] at h; cases h
          | some p =>
            obtain ⟨md, rem2⟩ := p
            rw [hm] at h
            dsimp only at h
            injection h with h2
            injection h2 with h3 h4
            subst h4
            obtain ⟨hr2, hmdS, hok⟩ := modAt_inv hm
            refine ⟨r.takeWhile isDigitC, md, ?_, h3.symm,
              by simpa [List.isEmpty_iff] using hds,
              fun c hc => List.mem_takeWhile_imp hc, hmdS, hok⟩
            have hsplit : r = r.takeWhile isDigitC ++ ('m' :: r2) := by
              conv_lhs =>
                rw [← List.takeWhile_append_dropWhile (p := isDigitC) (l := r)]
              rw [hdw]
            conv_lhs => rw [hsplit, hr2]
      · cases h
  · cases h

theorem match3At_intro {D fr W u rem : Str}
    (hD : D ≠ []) (hDd : ∀ c ∈ D, isDigitC c = true)
    (hfr : fr = [] ∨ ∃ fd, fr = '.' :: fd ∧ fd ≠ [] ∧
      ∀ c ∈ fd, isDigitC c = true)
    (hW : W ≠ []) (hWs : ∀ c ∈ W, isWsC c = true)
    (hu : u = ['m'] ∨ u = ['k', 'm'] ∨ u = ['m', 'i', 'l', 'e'])
    (hok : okAfter rem = true) :
    match3At (D ++ (fr ++ (W ++ (u ++ rem)))) = some (D ++ fr ++ u, rem) := by
  have huh : ∀ c, (u ++ rem).head? = some c → isWsC c = false := by
    rcases hu with rfl | rfl | rfl <;>
      (intro c hc;
       simp only [List.cons_append, List.nil_append, List.head?_cons] at hc;
       injection hc with h1; subst h1; decide)
  have hWU := takeWhile_all_head W (u ++ rem) hWs huh
  have hWhead : ∀ c, (W ++ (u ++ rem)).head? = some c → isWsC c = true := by
    intro c hc
    cases W with
    | nil => exact absurd rfl hW
    | cons w W2 =>
      rw [List.cons_append, List.head?_cons] at hc
      injection hc with h1
      subst h1
      exact hWs w (List.mem_cons_self _ _)
  have hafterD : ∀ c, (fr ++ (W ++ (u ++ rem))).head? = some c →
      isDigitC c = false := by
    rcases hfr with rfl | ⟨fd, rfl, hfdne, hfdd⟩
    · intro c hc
      rw [List.nil_append] at hc
      exact ws_not_digit c (hWhead c hc)
    · intro c hc
      rw [List.cons_append, List.head?_cons] at hc
      injection hc with h1
      subst h1
      decide
  have hDsplit := takeWhile_all_head D (fr ++ (W ++ (u ++ rem))) hDd hafterD
  have hfrac : fracAt (fr ++ (W ++ (u ++ rem))) = (fr, W ++ (u ++ rem)) := by
    rcases hfr with rfl | ⟨fd, rfl, hfdne, hfdd⟩
    · rw [List.nil_append]
      apply fracAt_not_dot
      intro c hc hcd
      subst hcd
      exact absurd (hWhead '.' hc) (by decide)
    · have hfd2 := takeWhile_all_head fd (W ++ (u ++ rem)) hfdd
        (fun c hc => ws_not_digit c (hWhead c hc))
      show fracAt ('.' :: (fd ++ (W ++ (u ++ rem)))) = _
      simp only [fracAt]
      rw [hfd2.1, hfd2.2, if_neg (by simp [List.isEmpty_iff, hfdne])]
  unfold match3At
  rw [hDsplit.1, hDsplit.2, if_neg (by simp [List.isEmpty_iff, hD]), hfrac]
  dsimp only
  rw [hWU.1, hWU.2, if_neg (by simp [List.isEmpty_iff, hW]),
    unitAt_intro hu hok]

theorem match4At_intro {D u md rem : Str}
    (hD : D ≠ []) (hDd : ∀ c ∈ D, isDigitC c = true)
    (hu : u = ['m'] ∨ u = ['k', 'm'] ∨ u = ['m', 'i', 'l', 'e'])
    (hmd : md = ['h'] ∨ md = ['s', 'h'] ∨ md = ['s', 'c'] ∨ md = ['w'])
    (hok : okAfter rem = true) :
    match4At (D ++ (u ++ (md ++ rem))) = some (D ++ u ++ ' ' :: md, rem) := by
  have hafterD : ∀ c, (u ++ (md ++ rem)).head? = some c →
      isDigitC c = false := by
    rcases hu with rfl | rfl | rfl <;>
      (intro c hc;
       simp only [List.cons_append, List.nil_append, List.head?_cons] at hc;
       injection hc with h1; subst h1; decide)
  have hDsplit := takeWhile_all_head D (u ++ (md ++ rem)) hDd hafterD
  have hum : unitModAt (u ++ (md ++ rem)) = some (u, md, rem) := by
    rw [show u ++ (md ++ rem) = u ++ md ++ rem by simp [List.append_assoc]]
    exact unitModAt_intro hu hmd hok
  unfold match4At
  rw [hDsplit.1, hDsplit.2, if_neg (by simp [List.isEmpty_iff, hD]), hum]

theorem match5At_intro {D md rem : Str}
    (hD : D ≠ []) (hDd : ∀ c ∈ D, isDigitC c = true)
    (hmd : md = ['h'] ∨ md = ['s', 'h'] ∨ md = ['s', 'c'] ∨ md = ['w'])
    (hok : okAfter rem = true) :
    match5At ('4' :: 'x' :: (D ++ 'm' :: (md ++ rem))) =
      some ('4' :: 'x' :: (D ++ 'm' :: ' ' :: md), rem) := by
  have hsplit := takeWhile_all_head D ('m' :: (md ++ rem)) hDd
    (fun c hc => by
      rw [List.head?_cons] at hc
      injection hc with h1
      subst h1
      decide)
  have hix : lookIx (md ++ rem) = false := by
    rcases hmd with rfl | rfl | rfl | rfl <;> rfl
  have hmod : modAt (md ++ rem) = some (md, rem) := modAt_intro hmd hok
  simp only [match5At]
  rw [hsplit.1, hsplit.2, if_neg (by simp [List.isEmpty_iff, hD])]
  split
  · rename_i r2 heq
    injection heq with h1 h2
    subst h2
    rw [hix, hmod]
    simp
  · rename_i hne
    exact (hne (md ++ rem) rfl).elim

/-! ### Negative characterisations: where the three patterns cannot match -/

theorem match3At_none_head {t : Str}
    (ht : ∀ c, t.head? = some c → isDigitC c = false) : match3At t = none := by
  unfold match3At
  rw [if_pos (by rw [takeWhile_nil_of_head ht]; rfl)]

theorem match4At_none_head {t : Str}
    (ht : ∀ c, t.head? = some c → isDigitC c = false) : match4At t = none := by
  unfold match4At
  rw [if_pos (by rw [takeWhile_nil_of_head ht]; rfl)]

theorem match3At_blocked {G t : Str} (hG : ∀ c ∈ G, isDigitC c = true)
    (ht : ∀ c, t.head? = some c →
      isDigitC c = false ∧ ¬(c = '.') ∧ isWsC c = false) :
    match3At (G ++ t) = none := by
  cases G with
  | nil =>
    rw [List.nil_append]
    exact match3At_none_head (fun c hc => (ht c hc).1)
  | cons g G2 =>
    unfold match3At
    have hsp := takeWhile_all_head (g :: G2) t hG (fun c hc => (ht c hc).1)
    rw [hsp.1, hsp.2, if_neg (by simp [List.isEmpty_iff]),
      fracAt_not_dot (fun c hc => (ht c hc).2.1)]
    dsimp only
    rw [takeWhile_nil_of_head (fun c hc => (ht c hc).2.2)]
    rfl

theorem match3At_fracblocked {G fd t : Str} (hGne : G ≠ [])
    (hG : ∀ c ∈ G, isDigitC c = true) (hfd : fd ≠ [])
    (hfdd : ∀ c ∈ fd, isDigitC c = true)
    (ht : ∀ c, t.head? = some c → isDigitC c = false ∧ isWsC c = false) :
    match3At (G ++ ('.' :: (fd ++ t))) = none := by
  unfold match3At
  have hsp := takeWhile_all_head G ('.' :: (fd ++ t)) hG
    (fun c hc => by
      rw [List.head?_cons] at hc
      injection hc with h1
      subst h1
      decide)
  rw [hsp.1, hsp.2, if_neg (by simp [List.isEmpty_iff, hGne])]
  have hfr : fracAt ('.' :: (fd ++ t)) = ('.' :: fd, t) := by
    simp only [fracAt]
    have hsp2 := takeWhile_all_head fd t hfdd (fun c hc => (ht c hc).1)
    rw [hsp2.1, hsp2.2, if_neg (by simp [List.isEmpty_iff, hfd])]
  rw [hfr]
  dsimp only
  rw [takeWhile_nil_of_head (fun c hc => (ht c hc).2)]
  rfl

theorem modAt_none_head {t : Str}
    (ht : ∀ c, t.head? = some c → ¬(c = 'h') ∧ ¬(c = 's') ∧ ¬(c = 'w')) :
    modAt t = none := by
  unfold modAt
  split
  · rename_i r
    exact absurd rfl (ht 'h' rfl).1
  · rename_i r
    exact absurd rfl (ht 's' rfl).2.1
  · rename_i r
    exact absurd rfl (ht 's' rfl).2.1
  · rename_i r
    exact absurd rfl (ht 'w' rfl).2.2
  · rfl

theorem modAt_none_notword {t : Str}
    (ht : ∀ c, t.head? = some c → isWordC c = false) : modAt t = none := by
  apply modAt_none_head
  intro c hc
  have hw := ht c hc
  refine ⟨?_, ?_, ?_⟩ <;> (rintro rfl; exact absurd hw (by decide))

theorem unitModAt_none_head {t : Str}
    (ht : ∀ c, t.head? = some c → ¬(c = 'm') ∧ ¬(c = 'k')) :
    unitModAt t = none := by
  unfold unitModAt
  split
  · rename_i r
    exact absurd rfl (ht 'm' rfl).1
  · rename_i r
    exact absurd rfl (ht 'k' rfl).2
  · rfl

theorem unitModAt_blocked {u t : Str}
    (hu : u = ['m'] ∨ u = ['k', 'm'] ∨ u = ['m', 'i', 'l', 'e'])
    (ht : ∀ c, t.head? = some c → isWordC c = false) :
    unitModAt (u ++ t) = none := by
  have hmod : modAt t = none := modAt_none_notword ht
  rcases hu with rfl | rfl | rfl
  · show unitModAt ('m' :: t) = none
    simp only [unitModAt]
    rw [hmod]
    dsimp only
    split
    · have hi : isWordC 'i' = false := ht 'i' rfl
      exact absurd hi (by decide)
    · rfl
  · show unitModAt ('k' :: 'm' :: t) = none
    simp only [unitModAt]
    rw [hmod]
  · show unitModAt ('m' :: 'i' :: 'l' :: 'e' :: t) = none
    simp only [unitModAt]
    rw [show modAt ('i' :: 'l' :: 'e' :: t) = none from rfl]
    dsimp only
    rw [hmod]

theorem match4At_blocked {G u t : Str} (hGne : G ≠ [])
    (hG : ∀ c ∈ G, isDigitC c = true)
    (hu : u = ['m'] ∨ u = ['k', 'm'] ∨ u = ['m', 'i', 'l', 'e'])
    (ht : ∀ c, t.head? = some c → isWordC c = false) :
    match4At (G ++ (u ++ t)) = none := by
  unfold match4At
  have hsp := takeWhile_all_head G (u ++ t) hG
    (by
      rcases hu with rfl | rfl | rfl <;>
        (intro c hc;
         simp only [List.cons_append, List.nil_append, List.head?_cons] at hc;
         injection hc with h1; subst h1; decide))
  rw [hsp.1, hsp.2, if_neg (by simp [List.isEmpty_iff, hGne]),
    unitModAt_blocked hu ht]

theorem match4At_blocked2 {G t : Str} (hGne : G ≠ [])
    (hG : ∀ c ∈ G, isDigitC c = true)
    (ht : ∀ c, t.head? = some c →
      ¬(c = 'm') ∧ ¬(c = 'k') ∧ isDigitC c = false) :
    match4At (G ++ t) = none := by
  unfold match4At
  have hsp := takeWhile_all_head G t hG (fun c hc => (ht c hc).2.2)
  rw [hsp.1, hsp.2, if_neg (by simp [List.isEmpty_iff, hGne]),
    unitModAt_none_head (fun c hc => ⟨(ht c hc).1, (ht c hc).2.1⟩)]

theorem match5At_none_shape {t : Str} (h : ∀ Z, t ≠ '4' :: 'x' :: Z) :
    match5At t = none := by
  unfold match5At
  split
  · rename_i r
    exact absurd rfl (h r)
  · rfl

theorem match5At_ws_after_m {D Z : Str} (hD : D ≠ [])
    (hDd : ∀ c ∈ D, isDigitC c = true) :
    match5At ('4' :: 'x' :: (D ++ 'm' :: ' ' :: Z)) = none := by
  simp only [match5At]
  have hsp := takeWhile_all_head D ('m' :: ' ' :: Z) hDd
    (fun c hc => by
      rw [List.head?_cons] at hc
      injection hc with h1
      subst h1
      decide)
  rw [hsp.1, hsp.2, if_neg (by simp [List.isEmpty_iff, hD])]
  split
  · rename_i x r2 heq
    injection heq with h1 h2
    subst h2
    rw [if_neg (show ¬(lookIx (' ' :: Z) = true) from by
      rw [show lookIx (' ' :: Z) = false from rfl]
      exact Bool.false_ne_true)]
    rw [show modAt (' ' :: Z) = none from rfl]
  · rfl

/-! ### Combinators for residual-freedom of scan outputs -/

theorem NoM_drop {M : Str → Option (Str × Str)} {s a b : Str}
    (h : NoM M s) (hab : s = a ++ b) : NoM M b :=
  fun a2 b2 h2 => h (a ++ a2) b2 (by rw [hab, h2, List.append_assoc])

theorem NoM_nil (M : Str → Option (Str × Str)) (hnil : M [] = none) :
    NoM M [] := by
  intro a b hab
  have hb : b = [] := (List.append_eq_nil.mp hab.symm).2
  rw [hb]
  exact hnil

theorem NoM_cons {M : Str → Option (Str × Str)} {c : Char} {X : Str}
    (hc : M (c :: X) = none) (hX : NoM M X) : NoM M (c :: X) := by
  intro a b hab
  cases a with
  | nil =>
    rw [List.nil_append] at hab
    rw [← hab]
    exact hc
  | cons a0 a2 =>
    injection hab with h1 h2
    exact hX a2 b h2

theorem NoM_append {M : Str → Option (Str × Str)} {em X : Str}
    (hemS : ∀ e2, (∃ a, em = a ++ e2) → e2 ≠ [] → M (e2 ++ X) = none)
    (hX : NoM M X) : NoM M (em ++ X) := by
  intro a b hab
  rcases List.append_eq_append_iff.mp hab.symm with ⟨a2, ha2, hb⟩ | ⟨c2, ha, hX2⟩
  · by_cases he : a2 = []
    · subst he
      rw [List.nil_append] at hb
      subst hb
      exact hX [] _ rfl
    · rw [hb]
      exact hemS a2 ⟨a, ha2⟩ he
  · exact hX c2 b hX2

theorem head_cons_eq {c d : Char} {t : Str} (h : (c :: t).head? = some d) :
    c = d := by
  rw [List.head?_cons] at h
  injection h

theorem okAfter_head {X : Str} (h : okAfter X = true) :
    ∀ c, X.head? = some c → isWordC c = false := by
  intro c hc
  cases X with
  | nil => cases hc
  | cons d t =>
    rw [okAfter_cons, Bool.not_eq_true'] at h
    rw [← head_cons_eq hc]
    exact h

/-! ### Classifying the suffixes of each pattern's emission -/

theorem em3_suffix_classify {D fr u e2 a : Str}
    (hsplit : a ++ e2 = D ++ fr ++ u) (hne : e2 ≠ []) :
    (∃ u2 a2, u = a2 ++ u2 ∧ u2 ≠ [] ∧ e2 = u2) ∨
    (e2 = fr ++ u) ∨
    (∃ f0 fd fd2 a2, fr = f0 :: fd ∧ fd = a2 ++ fd2 ∧ fd2 ≠ [] ∧
      e2 = fd2 ++ u) ∨
    (∃ g2 a2, D = a2 ++ g2 ∧ g2 ≠ [] ∧ e2 = g2 ++ (fr ++ u)) := by
  rcases List.append_eq_append_iff.mp hsplit with ⟨g, hg1, hg2⟩ | ⟨a2, ha2, hu2⟩
  · -- hg1 : D ++ fr = a ++ g, hg2 : e2 = g ++ u
    rcases List.append_eq_append_iff.mp hg1 with ⟨a3, ha3, hfr2⟩ | ⟨g2, hg3, hg4⟩
    · -- ha3 : a = D ++ a3, hfr2 : fr = a3 ++ g
      cases fr with
      | nil =>
        have hg0 : g = [] := (List.append_eq_nil.mp hfr2.symm).2
        subst hg0
        rw [List.nil_append] at hg2
        refine Or.inl ⟨u, [], (List.nil_append u).symm, ?_, hg2⟩
        rw [← hg2]
        exact hne
      | cons f0 fd =>
        cases a3 with
        | nil =>
          rw [List.nil_append] at hfr2
          subst hfr2
          exact Or.inr (Or.inl (hg2.trans (List.cons_append f0 fd u)))
        | cons b0 a4 =>
          rw [List.cons_append] at hfr2
          injection hfr2 with h1 h2
          by_cases hge : g = []
          · subst hge
            rw [List.nil_append] at hg2
            refine Or.inl ⟨u, [], (List.nil_append u).symm, ?_, hg2⟩
            rw [← hg2]
            exact hne
          · exact Or.inr (Or.inr (Or.inl ⟨f0, fd, g, a4, rfl, h2, hge, hg2⟩))
    · -- hg3 : D = a ++ g2, hg4 : g = g2 ++ fr
      by_cases hg2e : g2 = []
      · subst hg2e
        rw [List.nil_append] at hg4
        rw [hg4] at hg2
        exact Or.inr (Or.inl hg2)
      · refine Or.inr (Or.inr (Or.inr ⟨g2, a, hg3, hg2e, ?_⟩))
        rw [hg2, hg4, List.append_assoc]
  · -- ha2 : a = (D ++ fr) ++ a2, hu2 : u = a2 ++ e2
    exact Or.inl ⟨e2, a2, hu2, hne, rfl⟩

theorem em4_suffix_classify {D u md e2 a : Str}
    (hsplit : a ++ e2 = D ++ u ++ ' ' :: md) (hne : e2 ≠ []) :
    (∃ m2 a2, (' ' :: md) = a2 ++ m2 ∧ m2 ≠ [] ∧ e2 = m2) ∨
    (∃ u2 a2, u = a2 ++ u2 ∧ u2 ≠ [] ∧ e2 = u2 ++ ' ' :: md) ∨
    (∃ g2 a2, D = a2 ++ g2 ∧ g2 ≠ [] ∧ e2 = g2 ++ (u ++ ' ' :: md)) := by
  rcases List.append_eq_append_iff.mp hsplit with ⟨g, hg1, hg2⟩ | ⟨a2, ha2, hm2⟩
  · -- hg1 : D ++ u = a ++ g, hg2 : e2 = g ++ ' '::md
    rcases List.append_eq_append_iff.mp hg1 with ⟨a3, ha3, hu2⟩ | ⟨g2, hg3, hg4⟩
    · -- hu2 : u = a3 ++ g
      by_cases hge : g = []
      · subst hge
        rw [List.nil_append] at hg2
        exact Or.inl ⟨e2, [], hg2.symm, hne, rfl⟩
      · exact Or.inr (Or.inl ⟨g, a3, hu2, hge, hg2⟩)
    · -- hg3 : D = a ++ g2, hg4 : g = g2 ++ u
      by_cases hg2e : g2 = []
      · subst hg2e
        rw [List.nil_append] at hg4
        rw [hg4] at hg2
        cases u with
        | nil =>
          rw [List.nil_append] at hg2
          exact Or.inl ⟨e2, [], hg2.symm, hne, rfl⟩
        | cons c u3 =>
          exact Or.inr (Or.inl ⟨c :: u3, [], (List.nil_append _).symm,
            by simp, hg2⟩)
      · refine Or.inr (Or.inr ⟨g2, a, hg3, hg2e, ?_⟩)
        rw [hg2, hg4, List.append_assoc]
  · exact Or.inl ⟨e2, a2, hm2, hne, rfl⟩

theorem em5_suffix_classify {D md e2 a : Str}
    (hsplit : a ++ e2 = '4' :: 'x' :: (D ++ 'm' :: ' ' :: md)) (hne : e2 ≠ []) :
    (e2 = '4' :: 'x' :: (D ++ 'm' :: ' ' :: md)) ∨
    (e2 = 'x' :: (D ++ 'm' :: ' ' :: md)) ∨
    (∃ g2 a2, D = a2 ++ g2 ∧ g2 ≠ [] ∧ e2 = g2 ++ 'm' :: ' ' :: md) ∨
    (e2 = 'm' :: ' ' :: md) ∨
    (∃ m2 a2, ('m' :: ' ' :: md) = a2 ++ m2 ∧ m2 ≠ [] ∧ e2 = m2) := by
  cases a with
  | nil =>
    rw [List.nil_append] at hsplit
    exact Or.inl hsplit
  | cons c0 a2 =>
    injection hsplit with h1 h2
    cases a2 with
    | nil =>
      exact Or.inr (Or.inl h2)
    | cons c1 a3 =>
      injection h2 with h3 h4
      have h5 : a3 ++ e2 = D ++ 'm' :: ' ' :: md := h4
      rcases List.append_eq_append_iff.mp h5 with ⟨g, hg1, hg2⟩ | ⟨a4, ha4, hm2⟩
      · -- hg1 : D = a3 ++ g, hg2 : e2 = g ++ 'm'::' '::md
        by_cases hge : g = []
        · subst hge
          rw [List.nil_append] at hg2
          exact Or.inr (Or.inr (Or.inr (Or.inl hg2)))
        · exact Or.inr (Or.inr (Or.inl ⟨g, a3, hg1, hge, hg2⟩))
      · -- hm2 : 'm'::' '::md = a4 ++ e2
        exact Or.inr (Or.inr (Or.inr (Or.inr ⟨e2, a4, hm2, hne, rfl⟩)))

theorem match5At_none_headc {c : Char} {t : Str} (hc : ¬(c = '4')) :
    match5At (c :: t) = none :=
  match5At_none_shape (fun Z heq => by injection heq with h1 _; exact hc h1)

theorem match5At_none_second {c d : Char} {t : Str} (hd : ¬(d = 'x')) :
    match5At (c :: d :: t) = none :=
  match5At_none_shape (fun Z heq => by
    injection heq with h1 h2
    injection h2 with h3 h4
    exact hd h3)

theorem digit_not_x {d : Char} (h : isDigitC d = true) : ¬(d = 'x') := by
  intro hx
  subst hx
  exact absurd h (by decide)

/-- Head facts for a unit followed by anything. -/
theorem unit_head_facts {u : Str}
    (hu : u = ['m'] ∨ u = ['k', 'm'] ∨ u = ['m', 'i', 'l', 'e']) (Y : Str) :
    ∀ c, (u ++ Y).head? = some c → isDigitC c = false ∧ ¬(c = '.') ∧
      isWsC c = false ∧ ¬(c = '4') ∧ ¬(c = 'x') ∧ isWordC c = true := by
  rcases hu with rfl | rfl | rfl <;>
    (intro c hc;
     simp only [List.cons_append, List.head?_cons] at hc;
     injection hc with h1; subst h1;
     exact ⟨by decide, by decide, by decide, by decide, by decide, by decide⟩)

/-! ### No suffix of an emission starts a new unit-join match -/

theorem suffix3_no3 {D fr u e2 a : Str} (X : Str)
    (hDd : ∀ c ∈ D, isDigitC c = true)
    (hfr : fr = [] ∨ ∃ fd, fr = '.' :: fd ∧ fd ≠ [] ∧
      ∀ c ∈ fd, isDigitC c = true)
    (hu : u = ['m'] ∨ u = ['k', 'm'] ∨ u = ['m', 'i', 'l', 'e'])
    (hsplit : a ++ e2 = D ++ fr ++ u) (hne : e2 ≠ []) :
    match3At (e2 ++ X) = none := by
  have hud : ∀ c ∈ u, isDigitC c = false := by
    rcases hu with rfl | rfl | rfl <;> decide
  have huhead := unit_head_facts hu X
  rcases em3_suffix_classify hsplit hne with
    ⟨u2, a2, hu2, hu2ne, rfl⟩ | rfl |
    ⟨f0, fd, fd2, a2, hfr0, hfd2, hfd2ne, rfl⟩ | ⟨g2, a2, hD2, hg2ne, rfl⟩
  · cases e2 with
    | nil => exact absurd rfl hu2ne
    | cons c e3 =>
      apply match3At_none_head
      intro d hd
      rw [List.cons_append, List.head?_cons] at hd
      injection hd with h1
      rw [← h1]
      exact hud c (by
        rw [hu2]; exact List.mem_append_right a2 (List.mem_cons_self _ _))
  · rcases hfr with rfl | ⟨fd, rfl, hfdne, hfdd⟩
    · rw [List.nil_append]
      exact match3At_none_head (fun c hc => (huhead c hc).1)
    · apply match3At_none_head
      intro d hd
      simp only [List.cons_append, List.head?_cons] at hd
      injection hd with h1
      subst h1
      decide
  · rcases hfr with hfr | ⟨fd', hfr', hfdne', hfdd'⟩
    · rw [hfr] at hfr0; cases hfr0
    · rw [hfr'] at hfr0
      injection hfr0 with h1 h2
      have hfdd2 : ∀ c ∈ fd2, isDigitC c = true := by
        intro c hc
        apply hfdd'
        rw [h2, hfd2]
        exact List.mem_append_right a2 hc
      rw [List.append_assoc]
      exact match3At_blocked hfdd2 (fun c hc => ⟨(huhead c hc).1,
        (huhead c hc).2.1, (huhead c hc).2.2.1⟩)
  · have hg2d : ∀ c ∈ g2, isDigitC c = true := by
      intro c hc
      have : c ∈ D := by rw [hD2]; exact List.mem_append_right a2 hc
      exact hDd c this
    rcases hfr with rfl | ⟨fd, rfl, hfdne, hfdd⟩
    · simp only [List.nil_append, List.append_assoc]
      exact match3At_blocked hg2d (fun c hc => ⟨(huhead c hc).1,
        (huhead c hc).2.1, (huhead c hc).2.2.1⟩)
    · simp only [List.cons_append, List.append_assoc]
      exact match3At_fracblocked hg2ne hg2d hfdne hfdd
        (fun c hc => ⟨(huhead c hc).1, (huhead c hc).2.2.1⟩)

theorem suffix4_no3 {D u md e2 a : Str} (X : Str)
    (hu : u = ['m'] ∨ u = ['k', 'm'] ∨ u = ['m', 'i', 'l', 'e'])
    (hmd : md = ['h'] ∨ md = ['s', 'h'] ∨ md = ['s', 'c'] ∨ md = ['w'])
    (hDd : ∀ c ∈ D, isDigitC c = true)
    (hsplit : a ++ e2 = D ++ u ++ ' ' :: md) (hne : e2 ≠ []) :
    match3At (e2 ++ X) = none := by
  have hmdd : ∀ c ∈ (' ' :: md), isDigitC c = false := by
    rcases hmd with rfl | rfl | rfl | rfl <;> decide
  have hud : ∀ c ∈ u, isDigitC c = false := by
    rcases hu with rfl | rfl | rfl <;> decide
  rcases em4_suffix_classify hsplit hne with
    ⟨m2, a2, hm2, hm2ne, rfl⟩ | ⟨u2, a2, hu2, hu2ne, rfl⟩ |
    ⟨g2, a2, hD2, hg2ne, rfl⟩
  · cases e2 with
    | nil => exact absurd rfl hm2ne
    | cons c e3 =>
      apply match3At_none_head
      intro d hd
      rw [List.cons_append, List.head?_cons] at hd
      injection hd with h1
      rw [← h1]
      exact hmdd c (by
        rw [hm2]; exact List.mem_append_right a2 (List.mem_cons_self _ _))
  · cases u2 with
    | nil => exact absurd rfl hu2ne
    | cons c u3 =>
      apply match3At_none_head
      intro d hd
      simp only [List.cons_append, List.head?_cons] at hd
      injection hd with h1
      rw [← h1]
      exact hud c (by
        rw [hu2]; exact List.mem_append_right a2 (List.mem_cons_self _ _))
  · have hg2d : ∀ c ∈ g2, isDigitC c = true := by
      intro c hc
      have : c ∈ D := by rw [hD2]; exact List.mem_append_right a2 hc
      exact hDd c this
    have huhead := unit_head_facts hu (' ' :: md ++ X)
    simp only [List.append_assoc]
    exact match3At_blocked hg2d (fun c hc => ⟨(huhead c hc).1,
      (huhead c hc).2.1, (huhead c hc).2.2.1⟩)

theorem suffix5_no3 {D md e2 a : Str} (X : Str)
    (hmd : md = ['h'] ∨ md = ['s', 'h'] ∨ md = ['s', 'c'] ∨ md = ['w'])
    (hDd : ∀ c ∈ D, isDigitC c = true)
    (hsplit : a ++ e2 = '4' :: 'x' :: (D ++ 'm' :: ' ' :: md)) (hne : e2 ≠ []) :
    match3At (e2 ++ X) = none := by
  have hmdd : ∀ c ∈ ('m' :: ' ' :: md), isDigitC c = false := by
    rcases hmd with rfl | rfl | rfl | rfl <;> decide
  rcases em5_suffix_classify hsplit hne with
    rfl | rfl | ⟨g2, a2, hD2, hg2ne, rfl⟩ | rfl | ⟨m2, a2, hm2, hm2ne, rfl⟩
  · show match3At (('4' :: 'x' :: (D ++ 'm' :: ' ' :: md)) ++ X) = none
    have : ('4' :: 'x' :: (D ++ 'm' :: ' ' :: md)) ++ X =
        ['4'] ++ ('x' :: ((D ++ 'm' :: ' ' :: md) ++ X)) := by simp
    rw [this]
    exact match3At_blocked (by decide) (fun c hc => by
      rw [List.head?_cons] at hc
      injection hc with h1
      subst h1
      exact ⟨by decide, by decide, by decide⟩)
  · apply match3At_none_head
    intro d hd
    rw [List.cons_append, List.head?_cons] at hd
    injection hd with h1
    subst h1
    decide
  · have hg2d : ∀ c ∈ g2, isDigitC c = true := by
      intro c hc
      have : c ∈ D := by rw [hD2]; exact List.mem_append_right a2 hc
      exact hDd c this
    simp only [List.cons_append, List.append_assoc]
    exact match3At_blocked hg2d (fun c hc => by
      rw [List.head?_cons] at hc
      injection hc with h1
      subst h1
      exact ⟨by decide, by decide, by decide⟩)
  · apply match3At_none_head
    intro d hd
    rw [List.cons_append, List.head?_cons] at hd
    injection hd with h1
    subst h1
    decide
  · cases e2 with
    | nil => exact absurd rfl hm2ne
    | cons c e3 =>
      apply match3At_none_head
      intro d hd
      rw [List.cons_append, List.head?_cons] at hd
      injection hd with h1
      rw [← h1]
      exact hmdd c (by
        rw [hm2]; exact List.mem_append_right a2 (List.mem_cons_self _ _))

/-! ### No suffix of an emission starts a new modifier-attach match -/

theorem suffix3_no4 {D fr u e2 a : Str} {X : Str}
    (hX : okAfter X = true)
    (hfr : fr = [] ∨ ∃ fd, fr = '.' :: fd ∧ fd ≠ [] ∧
      ∀ c ∈ fd, isDigitC c = true)
    (hu : u = ['m'] ∨ u = ['k', 'm'] ∨ u = ['m', 'i', 'l', 'e'])
    (hDd : ∀ c ∈ D, isDigitC c = true)
    (hsplit : a ++ e2 = D ++ fr ++ u) (hne : e2 ≠ []) :
    match4At (e2 ++ X) = none := by
  have hud : ∀ c ∈ u, isDigitC c = false := by
    rcases hu with rfl | rfl | rfl <;> decide
  have hXw := okAfter_head hX
  rcases em3_suffix_classify hsplit hne with
    ⟨u2, a2, hu2, hu2ne, rfl⟩ | rfl |
    ⟨f0, fd, fd2, a2, hfr0, hfd2, hfd2ne, rfl⟩ | ⟨g2, a2, hD2, hg2ne, rfl⟩
  · cases e2 with
    | nil => exact absurd rfl hu2ne
    | cons c e3 =>
      apply match4At_none_head
      intro d hd
      rw [List.cons_append, List.head?_cons] at hd
      injection hd with h1
      rw [← h1]
      exact hud c (by
        rw [hu2]; exact List.mem_append_right a2 (List.mem_cons_self _ _))
  · rcases hfr with rfl | ⟨fd, rfl, hfdne, hfdd⟩
    · rw [List.nil_append]
      exact match4At_none_head (fun c hc => (unit_head_facts hu X c hc).1)
    · apply match4At_none_head
      intro d hd
      simp only [List.cons_append, List.head?_cons] at hd
      injection hd with h1
      subst h1
      decide
  · rcases hfr with hfr | ⟨fd', hfr', hfdne', hfdd'⟩
    · rw [hfr] at hfr0; cases hfr0
    · rw [hfr'] at hfr0
      injection hfr0 with h1 h2
      have hfdd2 : ∀ c ∈ fd2, isDigitC c = true := by
        intro c hc
        apply hfdd'
        rw [h2, hfd2]
        exact List.mem_append_right a2 hc
      rw [List.append_assoc]
      exact match4At_blocked hfd2ne hfdd2 hu hXw
  · have hg2d : ∀ c ∈ g2, isDigitC c = true := by
      intro c hc
      have : c ∈ D := by rw [hD2]; exact List.mem_append_right a2 hc
      exact hDd c this
    rcases hfr with rfl | ⟨fd, rfl, hfdne, hfdd⟩
    · simp only [List.nil_append, List.append_assoc]
      exact match4At_blocked hg2ne hg2d hu hXw
    · simp only [List.cons_append, List.append_assoc]
      exact match4At_blocked2 hg2ne hg2d (fun c hc => by
        rw [List.head?_cons] at hc
        injection hc with h1
        subst h1
        exact ⟨by decide, by decide, by decide⟩)

theorem suffix4_no4 {D u md e2 a : Str} (X : Str)
    (hu : u = ['m'] ∨ u = ['k', 'm'] ∨ u = ['m', 'i', 'l', 'e'])
    (hmd : md = ['h'] ∨ md = ['s', 'h'] ∨ md = ['s', 'c'] ∨ md = ['w'])
    (hDd : ∀ c ∈ D, isDigitC c = true)
    (hsplit : a ++ e2 = D ++ u ++ ' ' :: md) (hne : e2 ≠ []) :
    match4At (e2 ++ X) = none := by
  have hmdd : ∀ c ∈ (' ' :: md), isDigitC c = false := by
    rcases hmd with rfl | rfl | rfl | rfl <;> decide
  have hud : ∀ c ∈ u, isDigitC c = false := by
    rcases hu with rfl | rfl | rfl <;> decide
  rcases em4_suffix_classify hsplit hne with
    ⟨m2, a2, hm2, hm2ne, rfl⟩ | ⟨u2, a2, hu2, hu2ne, rfl⟩ |
    ⟨g2, a2, hD2, hg2ne, rfl⟩
  · cases e2 with
    | nil => exact absurd rfl hm2ne
    | cons c e3 =>
      apply match4At_none_head
      intro d hd
      rw [List.cons_append, List.head?_cons] at hd
      injection hd with h1
      rw [← h1]
      exact hmdd c (by
        rw [hm2]; exact List.mem_append_right a2 (List.mem_cons_self _ _))
  · cases u2 with
    | nil => exact absurd rfl hu2ne
    | cons c u3 =>
      apply match4At_none_head
      intro d hd
      simp only [List.cons_append, List.head?_cons] at hd
      injection hd with h1
      rw [← h1]
      exact hud c (by
        rw [hu2]; exact List.mem_append_right a2 (List.mem_cons_self _ _))
  · have hg2d : ∀ c ∈ g2, isDigitC c = true := by
      intro c hc
      have : c ∈ D := by rw [hD2]; exact List.mem_append_right a2 hc
      exact hDd c this
    simp only [List.append_assoc, List.cons_append]
    exact match4At_blocked hg2ne hg2d hu (fun c hc => by
      rw [List.head?_cons] at hc
      injection hc with h1
      subst h1
      decide)

theorem suffix5_no4 {D md e2 a : Str} (X : Str)
    (hmd : md = ['h'] ∨ md = ['s', 'h'] ∨ md = ['s', 'c'] ∨ md = ['w'])
    (hDd : ∀ c ∈ D, isDigitC c = true)
    (hsplit : a ++ e2 = '4' :: 'x' :: (D ++ 'm' :: ' ' :: md)) (hne : e2 ≠ []) :
    match4At (e2 ++ X) = none := by
  have hmdd : ∀ c ∈ ('m' :: ' ' :: md), isDigitC c = false ∧ ¬(c = 'm') ∨
      c = 'm' := by
    rcases hmd with rfl | rfl | rfl | rfl <;> decide
  rcases em5_suffix_classify hsplit hne with
    rfl | rfl | ⟨g2, a2, hD2, hg2ne, rfl⟩ | rfl | ⟨m2, a2, hm2, hm2ne, rfl⟩
  · show match4At (('4' :: 'x' :: (D ++ 'm' :: ' ' :: md)) ++ X) = none
    have heq : ('4' :: 'x' :: (D ++ 'm' :: ' ' :: md)) ++ X =
        ['4'] ++ ('x' :: ((D ++ 'm' :: ' ' :: md) ++ X)) := by simp
    rw [heq]
    exact match4At_blocked2 (by simp) (by decide) (fun c hc => by
      rw [List.head?_cons] at hc
      injection hc with h1
      subst h1
      exact ⟨by decide, by decide, by decide⟩)
  · apply match4At_none_head
    intro d hd
    rw [List.cons_append, List.head?_cons] at hd
    injection hd with h1
    subst h1
    decide
  · have hg2d : ∀ c ∈ g2, isDigitC c = true := by
      intro c hc
      have : c ∈ D := by rw [hD2]; exact List.mem_append_right a2 hc
      exact hDd c this
    have heq : (g2 ++ 'm' :: ' ' :: md) ++ X =
        g2 ++ (['m'] ++ (' ' :: (md ++ X))) := by simp
    rw [heq]
    exact match4At_blocked hg2ne hg2d (Or.inl rfl) (fun c hc => by
      rw [List.head?_cons] at hc
      injection hc with h1
      subst h1
      decide)
  · apply match4At_none_head
    intro d hd
    rw [List.cons_append, List.head?_cons] at hd
    injection hd with h1
    subst h1
    decide
  · cases e2 with
    | nil => exact absurd rfl hm2ne
    | cons c e3 =>
      have hcm : c ∈ ('m' :: ' ' :: md) := by
        rw [hm2]
        exact List.mem_append_right a2 (List.mem_cons_self _ _)
      by_cases hcmm : c = 'm'
      · subst hcmm
        -- e2 = 'm' :: e3 where e3 ++ X is ' ' :: md ++ X or shorter
        apply match4At_none_head
        intro d hd
        rw [List.cons_append, List.head?_cons] at hd
        injection hd with h1
        subst h1
        decide
      · apply match4At_none_head
        intro d hd
        rw [List.cons_append, List.head?_cons] at hd
        injection hd with h1
        rw [← h1]
        rcases hmdd c hcm with ⟨hcd, -⟩ | hcm2
        · exact hcd
        · exact absurd hcm2 hcmm

/-! ### No suffix of an emission starts a new relay match -/

theorem suffix3_no5 {D fr u e2 a : Str} (X : Str)
    (hfr : fr = [] ∨ ∃ fd, fr = '.' :: fd ∧ fd ≠ [] ∧
      ∀ c ∈ fd, isDigitC c = true)
    (hu : u = ['m'] ∨ u = ['k', 'm'] ∨ u = ['m', 'i', 'l', 'e'])
    (hDd : ∀ c ∈ D, isDigitC c = true)
    (hsplit : a ++ e2 = D ++ fr ++ u) (hne : e2 ≠ []) :
    match5At (e2 ++ X) = none := by
  have hu4 : ∀ c ∈ u, ¬(c = '4') := by
    rcases hu with rfl | rfl | rfl <;> decide
  rcases em3_suffix_classify hsplit hne with
    ⟨u2, a2, hu2, hu2ne, rfl⟩ | rfl |
    ⟨f0, fd, fd2, a2, hfr0, hfd2, hfd2ne, rfl⟩ | ⟨g2, a2, hD2, hg2ne, rfl⟩
  · cases e2 with
    | nil => exact absurd rfl hu2ne
    | cons c e3 =>
      rw [List.cons_append]
      exact match5At_none_headc (hu4 c (by
        rw [hu2]; exact List.mem_append_right a2 (List.mem_cons_self _ _)))
  · rcases hfr with rfl | ⟨fd, rfl, hfdne, hfdd⟩
    · rw [List.nil_append]
      cases hu0 : u with
      | nil => rw [hu0] at hu; rcases hu with h | h | h <;> cases h
      | cons c u3 =>
        exact match5At_none_headc (hu4 c (by
          rw [hu0]; exact List.mem_cons_self _ _))
    · rw [List.cons_append, List.cons_append]
      exact match5At_none_headc (by decide)
  · rcases hfr with hfr | ⟨fd2a, hfr2, hfdne2, hfdd2⟩
    · rw [hfr] at hfr0; cases hfr0
    · rw [hfr2] at hfr0
      injection hfr0 with h1 h2
      have hfddX : ∀ c ∈ fd2, isDigitC c = true := by
        intro c hc
        apply hfdd2
        rw [h2, hfd2]
        exact List.mem_append_right a2 hc
      cases fd2 with
      | nil => exact absurd rfl hfd2ne
      | cons c f3 =>
        cases f3 with
        | nil =>
          rcases hu with rfl | rfl | rfl <;>
            exact match5At_none_second (by decide)
        | cons d f4 =>
          rw [List.cons_append, List.cons_append, List.cons_append]
          exact match5At_none_second
            (digit_not_x (hfddX d
              (List.mem_cons_of_mem _ (List.mem_cons_self _ _))))
  · have hg2d : ∀ c ∈ g2, isDigitC c = true := by
      intro c hc
      have : c ∈ D := by rw [hD2]; exact List.mem_append_right a2 hc
      exact hDd c this
    cases g2 with
    | nil => exact absurd rfl hg2ne
    | cons c g3 =>
      cases g3 with
      | nil =>
        rcases hfr with rfl | ⟨fd, rfl, hfdne, hfdd⟩
        · rcases hu with rfl | rfl | rfl <;>
            exact match5At_none_second (by decide)
        · exact match5At_none_second (by decide)
      | cons d g4 =>
        rw [List.cons_append, List.cons_append, List.cons_append]
        exact match5At_none_second
          (digit_not_x (hg2d d
            (List.mem_cons_of_mem _ (List.mem_cons_self _ _))))

theorem suffix4_no5 {D u md e2 a : Str} (X : Str)
    (hu : u = ['m'] ∨ u = ['k', 'm'] ∨ u = ['m', 'i', 'l', 'e'])
    (hmd : md = ['h'] ∨ md = ['s', 'h'] ∨ md = ['s', 'c'] ∨ md = ['w'])
    (hDd : ∀ c ∈ D, isDigitC c = true)
    (hsplit : a ++ e2 = D ++ u ++ ' ' :: md) (hne : e2 ≠ []) :
    match5At (e2 ++ X) = none := by
  have hmd4 : ∀ c ∈ (' ' :: md), ¬(c = '4') := by
    rcases hmd with rfl | rfl | rfl | rfl <;> decide
  have hu4 : ∀ c ∈ u, ¬(c = '4') := by
    rcases hu with rfl | rfl | rfl <;> decide
  rcases em4_suffix_classify hsplit hne with
    ⟨m2, a2, hm2, hm2ne, rfl⟩ | ⟨u2, a2, hu2, hu2ne, rfl⟩ |
    ⟨g2, a2, hD2, hg2ne, rfl⟩
  · cases e2 with
    | nil => exact absurd rfl hm2ne
    | cons c e3 =>
      rw [List.cons_append]
      exact match5At_none_headc (hmd4 c (by
        rw [hm2]; exact List.mem_append_right a2 (List.mem_cons_self _ _)))
  · cases u2 with
    | nil => exact absurd rfl hu2ne
    | cons c u3 =>
      rw [List.cons_append]
      exact match5At_none_headc (hu4 c (by
        rw [hu2]; exact List.mem_append_right a2 (List.mem_cons_self _ _)))
  · have hg2d : ∀ c ∈ g2, isDigitC c = true := by
      intro c hc
      have : c ∈ D := by rw [hD2]; exact List.mem_append_right a2 hc
      exact hDd c this
    cases g2 with
    | nil => exact absurd rfl hg2ne
    | cons c g3 =>
      cases g3 with
      | nil =>
        rcases hu with rfl | rfl | rfl <;>
          exact match5At_none_second (by decide)
      | cons d g4 =>
        rw [List.cons_append, List.cons_append, List.cons_append]
        exact match5At_none_second
          (digit_not_x (hg2d d
            (List.mem_cons_of_mem _ (List.mem_cons_self _ _))))

theorem suffix5_no5 {D md e2 a : Str} (X : Str)
    (hD : D ≠ [])
    (hmd : md = ['h'] ∨ md = ['s', 'h'] ∨ md = ['s', 'c'] ∨ md = ['w'])
    (hDd : ∀ c ∈ D, isDigitC c = true)
    (hsplit : a ++ e2 = '4' :: 'x' :: (D ++ 'm' :: ' ' :: md)) (hne : e2 ≠ []) :
    match5At (e2 ++ X) = none := by
  have hmd4 : ∀ c ∈ ('m' :: ' ' :: md), ¬(c = '4') := by
    rcases hmd with rfl | rfl | rfl | rfl <;> decide
  rcases em5_suffix_classify hsplit hne with
    rfl | rfl | ⟨g2, a2, hD2, hg2ne, rfl⟩ | rfl | ⟨m2, a2, hm2, hm2ne, rfl⟩
  · show match5At (('4' :: 'x' :: (D ++ 'm' :: ' ' :: md)) ++ X) = none
    have heq : ('4' :: 'x' :: (D ++ 'm' :: ' ' :: md)) ++ X =
        '4' :: 'x' :: (D ++ 'm' :: ' ' :: (md ++ X)) := by simp
    rw [heq]
    exact match5At_ws_after_m hD hDd
  · rw [List.cons_append]
    exact match5At_none_headc (by decide)
  · have hg2d : ∀ c ∈ g2, isDigitC c = true := by
      intro c hc
      have : c ∈ D := by rw [hD2]; exact List.mem_append_right a2 hc
      exact hDd c this
    cases g2 with
    | nil => exact absurd rfl hg2ne
    | cons c g3 =>
      cases g3 with
      | nil => exact match5At_none_second (by decide)
      | cons d g4 =>
        rw [List.cons_append, List.cons_append, List.cons_append]
        exact match5At_none_second
          (digit_not_x (hg2d d
            (List.mem_cons_of_mem _ (List.mem_cons_self _ _))))
  · rw [List.cons_append]
    exact match5At_none_headc (by decide)
  · cases e2 with
    | nil => exact absurd rfl hm2ne
    | cons c e3 =>
      rw [List.cons_append]
      exact match5At_none_headc (hmd4 c (by
        rw [hm2]; exact List.mem_append_right a2 (List.mem_cons_self _ _)))

/-! ### Pushing a digits-`m`-modifier region of a scan's output back to its
input: the region survives each of the three scans verbatim -/

theorem pushback3 : ∀ (D t : Str) (w : Char) (Z : Str),
    (∀ c ∈ D, isDigitC c = true) → (w = 'h' ∨ w = 's' ∨ w = 'w') →
    scanF match3At t.length t = D ++ 'm' :: w :: Z →
    ∃ Z0, t = D ++ 'm' :: Z0 ∧ scanF match3At Z0.length Z0 = w :: Z := by
  intro D
  induction D with
  | nil =>
    intro t w Z _ hw hscan
    rw [List.nil_append] at hscan
    cases t with
    | nil => rw [scanF_nil] at hscan; cases hscan
    | cons c rest =>
      cases hM : match3At (c :: rest) with
      | some er =>
        obtain ⟨em, rem⟩ := er
        exfalso
        obtain ⟨em2, rfl⟩ := match3At_em_head hM
        rw [scanC_cons_some match3At match3At_con hM, List.cons_append]
          at hscan
        injection hscan with h1 _
        subst h1
        exact absurd (match3At_head hM) (by decide)
      | none =>
        rw [scanC_cons_none match3At hM] at hscan
        injection hscan with h1 h2
        subst h1
        exact ⟨rest, rfl, h2⟩
  | cons d D2 ih =>
    intro t w Z hDd hw hscan
    cases t with
    | nil => rw [scanF_nil] at hscan; cases hscan
    | cons c rest =>
      cases hM : match3At (c :: rest) with
      | none =>
        rw [scanC_cons_none match3At hM, List.cons_append] at hscan
        injection hscan with h1 h2
        subst h1
        obtain ⟨Z0, hZ0, hZs⟩ := ih rest w Z
          (fun x hx => hDd x (List.mem_cons_of_mem _ hx)) hw h2
        exact ⟨Z0, by rw [hZ0]; rfl, hZs⟩
      | some er =>
        obtain ⟨em, rem⟩ := er
        exfalso
        rw [scanC_cons_some match3At match3At_con hM] at hscan
        obtain ⟨D3, fr, W, u, hs, hem, hD3ne, hD3d, hfrS, hWne, hWs, huS, hok⟩ :=
          match3At_inv hM
        have hXok : okAfter (scanF match3At rem.length rem) = okAfter rem :=
          scan_okAfter match3At (fun c t em rem h => match3At_em_head h)
            rem.length rem
        have hfu : ∀ c,
            ((fr ++ u) ++ scanF match3At rem.length rem).head? = some c →
            isDigitC c = false := by
          rcases hfrS with rfl | ⟨fd, rfl, hfdne, hfdd⟩
          · rw [List.nil_append]
            exact fun c hc =>
              (unit_head_facts huS (scanF match3At rem.length rem) c hc).1
          · intro c hc
            simp only [List.cons_append, List.head?_cons] at hc
            injection hc with h1
            subst h1
            decide
        have ht1 : (em ++ scanF match3At rem.length rem).takeWhile isDigitC =
              D3 ∧
            (em ++ scanF match3At rem.length rem).dropWhile isDigitC =
              (fr ++ u) ++ scanF match3At rem.length rem := by
          rw [hem]
          rw [show (D3 ++ fr ++ u) ++ scanF match3At rem.length rem =
            D3 ++ ((fr ++ u) ++ scanF match3At rem.length rem) by simp]
          exact takeWhile_all_head D3 _ hD3d hfu
        have ht2 : ((d :: D2) ++ ('m' :: w :: Z)).takeWhile isDigitC =
              d :: D2 ∧
            ((d :: D2) ++ ('m' :: w :: Z)).dropWhile isDigitC =
              'm' :: w :: Z :=
          takeWhile_all_head (d :: D2) _ hDd (fun c hc => by
            rw [List.head?_cons] at hc
            injection hc with h1
            subst h1
            decide)
        have hdrop : (fr ++ u) ++ scanF match3At rem.length rem =
            'm' :: w :: Z := by
          rw [← ht1.2, hscan]
          exact ht2.2
        rcases hfrS with rfl | ⟨fd, rfl, hfdne, hfdd⟩
        · rw [List.nil_append] at hdrop
          rcases huS with rfl | rfl | rfl
          · simp only [List.cons_append, List.nil_append] at hdrop
            injection hdrop with h1 h2
            rw [h2, hok] at hXok
            rcases hw with rfl | rfl | rfl <;>
              exact absurd hXok (by rw [okAfter_cons]; decide)
          · simp only [List.cons_append] at hdrop
            injection hdrop with h1 _
            exact absurd h1 (by decide)
          · simp only [List.cons_append] at hdrop
            injection hdrop with h1 h2
            injection h2 with h3 _
            rcases hw with rfl | rfl | rfl <;> exact absurd h3 (by decide)
        · simp only [List.cons_append] at hdrop
          injection hdrop with h1 _
          exact absurd h1 (by decide)

theorem pushback4 : ∀ (D t : Str) (w : Char) (Z : Str),
    (∀ c ∈ D, isDigitC c = true) → (w = 'h' ∨ w = 's' ∨ w = 'w') →
    scanF match4At t.length t = D ++ 'm' :: w :: Z →
    ∃ Z0, t = D ++ 'm' :: Z0 ∧ scanF match4At Z0.length Z0 = w :: Z := by
  intro D
  induction D with
  | nil =>
    intro t w Z _ hw hscan
    rw [List.nil_append] at hscan
    cases t with
    | nil => rw [scanF_nil] at hscan; cases hscan
    | cons c rest =>
      cases hM : match4At (c :: rest) with
      | some er =>
        obtain ⟨em, rem⟩ := er
        exfalso
        obtain ⟨em2, rfl⟩ := match4At_em_head hM
        rw [scanC_cons_some match4At match4At_con hM, List.cons_append]
          at hscan
        injection hscan with h1 _
        subst h1
        exact absurd (match4At_head hM) (by decide)
      | none =>
        rw [scanC_cons_none match4At hM] at hscan
        injection hscan with h1 h2
        subst h1
        exact ⟨rest, rfl, h2⟩
  | cons d D2 ih =>
    intro t w Z hDd hw hscan
    cases t with
    | nil => rw [scanF_nil] at hscan; cases hscan
    | cons c rest =>
      cases hM : match4At (c :: rest) with
      | none =>
        rw [scanC_cons_none match4At hM, List.cons_append] at hscan
        injection hscan with h1 h2
        subst h1
        obtain ⟨Z0, hZ0, hZs⟩ := ih rest w Z
          (fun x hx => hDd x (List.mem_cons_of_mem _ hx)) hw h2
        exact ⟨Z0, by rw [hZ0]; rfl, hZs⟩
      | some er =>
        obtain ⟨em, rem⟩ := er
        exfalso
        rw [scanC_cons_some match4At match4At_con hM] at hscan
        obtain ⟨D3, u, md, hs, hem, hD3ne, hD3d, huS, hmdS, hok⟩ :=
          match4At_inv hM
        have hfu : ∀ c,
            (u ++ (' ' :: md ++ scanF match4At rem.length rem)).head? =
              some c → isDigitC c = false :=
          fun c hc => (unit_head_facts huS _ c hc).1
        have ht1 : (em ++ scanF match4At rem.length rem).takeWhile isDigitC =
              D3 ∧
            (em ++ scanF match4At rem.length rem).dropWhile isDigitC =
              u ++ (' ' :: md ++ scanF match4At rem.length rem) := by
          rw [hem]
          rw [show (D3 ++ u ++ ' ' :: md) ++ scanF match4At rem.length rem =
            D3 ++ (u ++ (' ' :: md ++ scanF match4At rem.length rem)) by simp]
          exact takeWhile_all_head D3 _ hD3d hfu
        have ht2 : ((d :: D2) ++ ('m' :: w :: Z)).takeWhile isDigitC =
              d :: D2 ∧
            ((d :: D2) ++ ('m' :: w :: Z)).dropWhile isDigitC =
              'm' :: w :: Z :=
          takeWhile_all_head (d :: D2) _ hDd (fun c hc => by
            rw [List.head?_cons] at hc
            injection hc with h1
            subst h1
            decide)
        have hdrop : u ++ (' ' :: md ++ scanF match4At rem.length rem) =
            'm' :: w :: Z := by
          rw [← ht1.2, hscan]
          exact ht2.2
        rcases huS with rfl | rfl | rfl
        · simp only [List.cons_append, List.nil_append] at hdrop
          injection hdrop with h1 h2
          injection h2 with h3 _
          rcases hw with rfl | rfl | rfl <;> exact absurd h3 (by decide)
        · simp only [List.cons_append] at hdrop
          injection hdrop with h1 _
          exact absurd h1 (by decide)
        · simp only [List.cons_append] at hdrop
          injection hdrop with h1 h2
          injection h2 with h3 _
          rcases hw with rfl | rfl | rfl <;> exact absurd h3 (by decide)

theorem pushback5 : ∀ (D t : Str) (w : Char) (Z : Str),
    (∀ c ∈ D, isDigitC c = true) → (w = 'h' ∨ w = 's' ∨ w = 'w') →
    scanF match5At t.length t = D ++ 'm' :: w :: Z →
    ∃ Z0, t = D ++ 'm' :: Z0 ∧ scanF match5At Z0.length Z0 = w :: Z := by
  intro D
  induction D with
  | nil =>
    intro t w Z _ hw hscan
    rw [List.nil_append] at hscan
    cases t with
    | nil => rw [scanF_nil] at hscan; cases hscan
    | cons c rest =>
      cases hM : match5At (c :: rest) with
      | some er =>
        obtain ⟨em, rem⟩ := er
        exfalso
        obtain ⟨em2, rfl⟩ := match5At_em_head hM
        rw [scanC_cons_some match5At match5At_con hM, List.cons_append]
          at hscan
        injection hscan with h1 _
        subst h1
        have h4 := match5At_head hM
        simp only [decide_eq_true_eq] at h4
        exact absurd h4 (by decide)
      | none =>
        rw [scanC_cons_none match5At hM] at hscan
        injection hscan with h1 h2
        subst h1
        exact ⟨rest, rfl, h2⟩
  | cons d D2 ih =>
    intro t w Z hDd hw hscan
    cases t with
    | nil => rw [scanF_nil] at hscan; cases hscan
    | cons c rest =>
      cases hM : match5At (c :: rest) with
      | none =>
        rw [scanC_cons_none match5At hM, List.cons_append] at hscan
        injection hscan with h1 h2
        subst h1
        obtain ⟨Z0, hZ0, hZs⟩ := ih rest w Z
          (fun x hx => hDd x (List.mem_cons_of_mem _ hx)) hw h2
        exact ⟨Z0, by rw [hZ0]; rfl, hZs⟩
      | some er =>
        obtain ⟨em, rem⟩ := er
        exfalso
        rw [scanC_cons_some match5At match5At_con hM] at hscan
        obtain ⟨D3, md, hs, hem, hD3ne, hD3d, hmdS, hok⟩ := match5At_inv hM
        rw [hem] at hscan
        simp only [List.cons_append] at hscan
        injection hscan with h1 h2
        cases D2 with
        | nil =>
          rw [List.nil_append] at h2
          injection h2 with h3 _
          exact absurd h3 (by decide)
        | cons c2 D4 =>
          rw [List.cons_append] at h2
          injection h2 with h3 _
          have hc2 := hDd c2 (List.mem_cons_of_mem _ (List.mem_cons_self _ _))
          rw [← h3] at hc2
          exact absurd hc2 (by decide)

/-! ### Transfer: a fresh match after the scan implies a match before it -/

theorem startOK3_no (c : Char)
    (h : isWsC c = true ∨ c = 'm' ∨ c = 'k' ∨ c = 'i' ∨ c = 'l' ∨
      c = 'e' ∨ c = 'h' ∨ c = 's' ∨ c = 'c' ∨ c = 'w' ∨ c = 'x') :
    isDigitC c = false := by
  rcases h with h | h
  · exact ws_not_digit c h
  · rcases h with rfl | rfl | rfl | rfl | rfl | rfl | rfl | rfl | rfl | rfl <;>
      decide

theorem startOK5_no (c : Char)
    (h : isWsC c = true ∨ c = 'm' ∨ c = 'k' ∨ c = 'i' ∨ c = 'l' ∨
      c = 'e' ∨ c = 'h' ∨ c = 's' ∨ c = 'c' ∨ c = 'w' ∨ c = 'x') :
    (decide (c = '4') : Bool) = false := by
  rcases h with h | h
  · have h2 := ws_toNat c h
    apply decide_eq_false
    intro hc
    subst hc
    exact absurd h2 (by decide)
  · rcases h with rfl | rfl | rfl | rfl | rfl | rfl | rfl | rfl | rfl | rfl <;>
      decide

theorem transfer3 (M : Str → Option (Str × Str)) (startOK : Char → Bool)
    (hhead : ∀ c t x, M (c :: t) = some x → startOK c = true)
    (hem : ∀ c t em rem, M (c :: t) = some (em, rem) → ∃ em2, em = c :: em2)
    (hnost : ∀ c, (isWsC c = true ∨ c = 'm' ∨ c = 'k' ∨ c = 'i' ∨ c = 'l' ∨
      c = 'e' ∨ c = 'h' ∨ c = 's' ∨ c = 'c' ∨ c = 'w' ∨ c = 'x') →
      startOK c = false)
    {c : Char} {rest : Str}
    (hc : match3At (c :: rest) = none)
    (hX : NoM match3At (scanF M rest.length rest)) :
    match3At (c :: scanF M rest.length rest) = none := by
  cases hMX : match3At (c :: scanF M rest.length rest) with
  | none => rfl
  | some er =>
    exfalso
    obtain ⟨em, rem2⟩ := er
    obtain ⟨D, fr, W, u, hs, hem3, hDne, hDd, hfrS, hWne, hWs, huS, hok⟩ :=
      match3At_inv hMX
    cases D with
    | nil => exact absurd rfl hDne
    | cons d0 D2 =>
      rw [List.cons_append] at hs
      injection hs with h1 h2
      subst h1
      by_cases hD2 : D2 = []
      · subst hD2
        rw [List.nil_append] at h2
        rcases hfrS with rfl | ⟨fd, rfl, hfdne, hfdd⟩
        · rw [List.nil_append] at h2
          have h2' : scanF M rest.length rest = (W ++ u) ++ rem2 := by
            rw [h2, List.append_assoc]
          obtain ⟨s2, hs2, hscan2⟩ := scan_peel M startOK hhead hem (W ++ u)
            (fun x hx => by
              rcases List.mem_append.mp hx with hxa | hxb
              · exact hnost x (Or.inl (hWs x hxa))
              · apply hnost
                rcases huS with rfl | rfl | rfl <;>
                  simp only [List.mem_cons, List.not_mem_nil, or_false] at hxb
                · subst hxb; exact Or.inr (Or.inl rfl)
                · rcases hxb with rfl | rfl
                  · exact Or.inr (Or.inr (Or.inl rfl))
                  · exact Or.inr (Or.inl rfl)
                · rcases hxb with rfl | rfl | rfl | rfl
                  · exact Or.inr (Or.inl rfl)
                  · exact Or.inr (Or.inr (Or.inr (Or.inl rfl)))
                  · exact Or.inr (Or.inr (Or.inr (Or.inr (Or.inl rfl))))
                  · exact Or.inr (Or.inr (Or.inr (Or.inr (Or.inr (Or.inl rfl))))))
            rest rem2 h2'
          have hok2 : okAfter s2 = true := by
            have := scan_okAfter M hem s2.length s2
            rw [hscan2] at this
            rw [← this]
            exact hok
          have hintro := @match3At_intro [c] [] W u s2 (by simp)
            (fun x hx => by
              simp only [List.mem_singleton] at hx
              rw [hx]
              exact hDd c (List.mem_cons_self _ _))
            (Or.inl rfl) hWne hWs huS hok2
          rw [hs2] at hc
          rw [show (c :: ((W ++ u) ++ s2) : Str) =
            [c] ++ ([] ++ (W ++ (u ++ s2))) by simp] at hc
          rw [hintro] at hc
          cases hc
        · -- internal match inside the scan output, after the dot
          have hint := @match3At_intro fd [] W u rem2
            hfdne hfdd (Or.inl rfl) hWne hWs huS hok
          have hnone := hX ['.'] (fd ++ ([] ++ (W ++ (u ++ rem2))))
            (by rw [h2]; simp)
          rw [hint] at hnone
          cases hnone
      · -- internal match inside the scan output, at the digit tail
        have hint := @match3At_intro D2 fr W u rem2 hD2
          (fun x hx => hDd x (List.mem_cons_of_mem _ hx)) hfrS hWne hWs huS hok
        have hnone := hX [] (D2 ++ (fr ++ (W ++ (u ++ rem2))))
          (by rw [List.nil_append]; exact h2)
        rw [hint] at hnone
        cases hnone

theorem transfer4 (M : Str → Option (Str × Str)) (startOK : Char → Bool)
    (hhead : ∀ c t x, M (c :: t) = some x → startOK c = true)
    (hem : ∀ c t em rem, M (c :: t) = some (em, rem) → ∃ em2, em = c :: em2)
    (hnost : ∀ c, (isWsC c = true ∨ c = 'm' ∨ c = 'k' ∨ c = 'i' ∨ c = 'l' ∨
      c = 'e' ∨ c = 'h' ∨ c = 's' ∨ c = 'c' ∨ c = 'w' ∨ c = 'x') →
      startOK c = false)
    {c : Char} {rest : Str}
    (hc : match4At (c :: rest) = none)
    (hX : NoM match4At (scanF M rest.length rest)) :
    match4At (c :: scanF M rest.length rest) = none := by
  cases hMX : match4At (c :: scanF M rest.length rest) with
  | none => rfl
  | some er =>
    exfalso
    obtain ⟨em, rem2⟩ := er
    obtain ⟨D, u, md, hs, hem4, hDne, hDd, huS, hmdS, hok⟩ := match4At_inv hMX
    cases D with
    | nil => exact absurd rfl hDne
    | cons d0 D2 =>
      rw [List.cons_append] at hs
      injection hs with h1 h2
      subst h1
      by_cases hD2 : D2 = []
      · subst hD2
        rw [List.nil_append] at h2
        have h2' : scanF M rest.length rest = (u ++ md) ++ rem2 := by
          rw [h2, List.append_assoc]
        obtain ⟨s2, hs2, hscan2⟩ := scan_peel M startOK hhead hem (u ++ md)
          (fun x hx => by
            apply hnost
            rcases List.mem_append.mp hx with hxb | hxc
            · rcases huS with rfl | rfl | rfl <;>
                simp only [List.mem_cons, List.not_mem_nil, or_false] at hxb
              · subst hxb; exact Or.inr (Or.inl rfl)
              · rcases hxb with rfl | rfl
                · exact Or.inr (Or.inr (Or.inl rfl))
                · exact Or.inr (Or.inl rfl)
              · rcases hxb with rfl | rfl | rfl | rfl
                · exact Or.inr (Or.inl rfl)
                · exact Or.inr (Or.inr (Or.inr (Or.inl rfl)))
                · exact Or.inr (Or.inr (Or.inr (Or.inr (Or.inl rfl))))
                · exact Or.inr (Or.inr (Or.inr (Or.inr (Or.inr (Or.inl rfl)))))
            · rcases hmdS with rfl | rfl | rfl | rfl <;>
                simp only [List.mem_cons, List.not_mem_nil, or_false] at hxc
              · subst hxc
                exact Or.inr (Or.inr (Or.inr (Or.inr (Or.inr (Or.inr
                  (Or.inl rfl))))))
              · rcases hxc with rfl | rfl
                · exact Or.inr (Or.inr (Or.inr (Or.inr (Or.inr (Or.inr
                    (Or.inr (Or.inl rfl)))))))
                · exact Or.inr (Or.inr (Or.inr (Or.inr (Or.inr (Or.inr
                    (Or.inl rfl))))))
              · rcases hxc with rfl | rfl
                · exact Or.inr (Or.inr (Or.inr (Or.inr (Or.inr (Or.inr
                    (Or.inr (Or.inl rfl)))))))
                · exact Or.inr (Or.inr (Or.inr (Or.inr (Or.inr (Or.inr
                    (Or.inr (Or.inr (Or.inl rfl))))))))
              · subst hxc
                exact Or.inr (Or.inr (Or.inr (Or.inr (Or.inr (Or.inr
                  (Or.inr (Or.inr (Or.inr (Or.inl rfl))))))))))
          rest rem2 h2'
        have hok2 : okAfter s2 = true := by
          have := scan_okAfter M hem s2.length s2
          rw [hscan2] at this
          rw [← this]
          exact hok
        have hintro := @match4At_intro [c] u md s2 (by simp)
          (fun x hx => by
            simp only [List.mem_singleton] at hx
            rw [hx]
            exact hDd c (List.mem_cons_self _ _)) huS hmdS hok2
        rw [hs2] at hc
        rw [show (c :: ((u ++ md) ++ s2) : Str) =
          [c] ++ (u ++ (md ++ s2)) by simp] at hc
        rw [hintro] at hc
        cases hc
      · have hint := @match4At_intro D2 u md rem2 hD2
          (fun x hx => hDd x (List.mem_cons_of_mem _ hx)) huS hmdS hok
        have hnone := hX [] (D2 ++ (u ++ (md ++ rem2)))
          (by rw [List.nil_append]; exact h2)
        rw [hint] at hnone
        cases hnone

theorem transfer5 (M : Str → Option (Str × Str)) (startOK : Char → Bool)
    (hhead : ∀ c t x, M (c :: t) = some x → startOK c = true)
    (hem : ∀ c t em rem, M (c :: t) = some (em, rem) → ∃ em2, em = c :: em2)
    (hnost : ∀ c, (isWsC c = true ∨ c = 'm' ∨ c = 'k' ∨ c = 'i' ∨ c = 'l' ∨
      c = 'e' ∨ c = 'h' ∨ c = 's' ∨ c = 'c' ∨ c = 'w' ∨ c = 'x') →
      startOK c = false)
    (hpb : ∀ (D t : Str) (w : Char) (Z : Str),
      (∀ x ∈ D, isDigitC x = true) → (w = 'h' ∨ w = 's' ∨ w = 'w') →
      scanF M t.length t = D ++ 'm' :: w :: Z →
      ∃ Z0, t = D ++ 'm' :: Z0 ∧ scanF M Z0.length Z0 = w :: Z)
    {c : Char} {rest : Str}
    (hc : match5At (c :: rest) = none)
    (_hX : NoM match5At (scanF M rest.length rest)) :
    match5At (c :: scanF M rest.length rest) = none := by
  cases hMX : match5At (c :: scanF M rest.length rest) with
  | none => rfl
  | some er =>
    exfalso
    obtain ⟨em, rem2⟩ := er
    obtain ⟨D, md, hs, hem5, hDne, hDd, hmdS, hok⟩ := match5At_inv hMX
    injection hs with h1 h2
    subst h1
    -- the scan's output starts with x, so does its input
    have h2' : scanF M rest.length rest =
        ['x'] ++ (D ++ 'm' :: (md ++ rem2)) := h2
    obtain ⟨s2, hs2, hscan2⟩ := scan_peel M startOK hhead hem ['x']
      (fun x hx => by
        simp only [List.mem_singleton] at hx
        subst hx
        exact hnost 'x' (Or.inr (Or.inr (Or.inr (Or.inr (Or.inr (Or.inr
          (Or.inr (Or.inr (Or.inr (Or.inr rfl)))))))))))
      rest (D ++ 'm' :: (md ++ rem2)) h2'
    obtain ⟨mw, mdt, hmdw, hmw⟩ :
        ∃ mw mdt, md = mw :: mdt ∧ (mw = 'h' ∨ mw = 's' ∨ mw = 'w') := by
      rcases hmdS with rfl | rfl | rfl | rfl
      · exact ⟨'h', [], rfl, Or.inl rfl⟩
      · exact ⟨'s', ['h'], rfl, Or.inr (Or.inl rfl)⟩
      · exact ⟨'s', ['c'], rfl, Or.inr (Or.inl rfl)⟩
      · exact ⟨'w', [], rfl, Or.inr (Or.inr rfl)⟩
    have hscan2' : scanF M s2.length s2 = D ++ 'm' :: mw :: (mdt ++ rem2) := by
      rw [hscan2, hmdw, List.cons_append]
    obtain ⟨Z0, hZ0, hZ0s⟩ := hpb D s2 mw (mdt ++ rem2) hDd hmw hscan2'
    have hZ0s' : scanF M Z0.length Z0 = md ++ rem2 := by
      rw [hZ0s, hmdw, List.cons_append]
    obtain ⟨Z2, hZ2, hZ2s⟩ := scan_peel M startOK hhead hem md
      (fun x hx => by
        apply hnost
        rcases hmdS with rfl | rfl | rfl | rfl <;>
          simp only [List.mem_cons, List.not_mem_nil, or_false] at hx
        · subst hx
          exact Or.inr (Or.inr (Or.inr (Or.inr (Or.inr (Or.inr
            (Or.inl rfl))))))
        · rcases hx with rfl | rfl
          · exact Or.inr (Or.inr (Or.inr (Or.inr (Or.inr (Or.inr
              (Or.inr (Or.inl rfl)))))))
          · exact Or.inr (Or.inr (Or.inr (Or.inr (Or.inr (Or.inr
              (Or.inl rfl))))))
        · rcases hx with rfl | rfl
          · exact Or.inr (Or.inr (Or.inr (Or.inr (Or.inr (Or.inr
              (Or.inr (Or.inl rfl)))))))
          · exact Or.inr (Or.inr (Or.inr (Or.inr (Or.inr (Or.inr
              (Or.inr (Or.inr (Or.inl rfl))))))))
        · subst hx
          exact Or.inr (Or.inr (Or.inr (Or.inr (Or.inr (Or.inr
            (Or.inr (Or.inr (Or.inr (Or.inl rfl))))))))))
      Z0 rem2 hZ0s'
    have hok2 : okAfter Z2 = true := by
      have := scan_okAfter M hem Z2.length Z2
      rw [hZ2s] at this
      rw [← this]
      exact hok
    have hintro := @match5At_intro D md Z2 hDne hDd hmdS hok2
    rw [hs2, hZ0, hZ2] at hc
    rw [show ('4' :: (['x'] ++ (D ++ 'm' :: (md ++ Z2))) : Str) =
      '4' :: 'x' :: (D ++ 'm' :: (md ++ Z2)) by simp] at hc
    rw [hintro] at hc
    cases hc

/-! ### The scan outputs are residual-free -/

theorem scan3_no3 : ∀ (n : Nat) (s : Str), s.length ≤ n →
    NoM match3At (scanF match3At s.length s) := by
  intro n
  induction n with
  | zero =>
    intro s hlen
    have hs : s = [] := List.length_eq_zero.mp (Nat.le_zero.mp hlen)
    subst hs
    rw [scanF_nil]
    exact NoM_nil match3At (match3At_none_head (fun c hc => by cases hc))
  | succ n ih =>
    intro s hlen
    cases s with
    | nil =>
      rw [scanF_nil]
      exact NoM_nil match3At (match3At_none_head (fun c hc => by cases hc))
    | cons c rest =>
      have hrl : rest.length ≤ n := by
        simp only [List.length_cons] at hlen; omega
      cases hM : match3At (c :: rest) with
      | some er =>
        obtain ⟨em, rem⟩ := er
        rw [scanC_cons_some match3At match3At_con hM]
        obtain ⟨con, hcon, hconne⟩ := match3At_con _ _ _ hM
        have hreml : rem.length ≤ n := by
          have hl := congrArg List.length hcon
          simp only [List.length_cons, List.length_append] at hl
          cases con with
          | nil => exact absurd rfl hconne
          | cons _ _ => simp only [List.length_cons] at hl; omega
        obtain ⟨D, fr, W, u, hs, hem3, hDne, hDd, hfrS, hWne, hWs, huS, hok⟩ :=
          match3At_inv hM
        apply NoM_append
        · rintro e2 ⟨a, ha⟩ hne
          exact suffix3_no3 _ hDd hfrS huS
            (by rw [← ha]; exact hem3) hne
        · exact ih rem hreml
      | none =>
        rw [scanC_cons_none match3At hM]
        exact NoM_cons
          (transfer3 match3At isDigitC (fun c t x h => match3At_head h)
            (fun c t em rem h => match3At_em_head h) startOK3_no
            hM (ih rest hrl))
          (ih rest hrl)

theorem scan4_no4 : ∀ (n : Nat) (s : Str), s.length ≤ n →
    NoM match4At (scanF match4At s.length s) := by
  intro n
  induction n with
  | zero =>
    intro s hlen
    have hs : s = [] := List.length_eq_zero.mp (Nat.le_zero.mp hlen)
    subst hs
    rw [scanF_nil]
    exact NoM_nil match4At (match4At_none_head (fun c hc => by cases hc))
  | succ n ih =>
    intro s hlen
    cases s with
    | nil =>
      rw [scanF_nil]
      exact NoM_nil match4At (match4At_none_head (fun c hc => by cases hc))
    | cons c rest =>
      have hrl : rest.length ≤ n := by
        simp only [List.length_cons] at hlen; omega
      cases hM : match4At (c :: rest) with
      | some er =>
        obtain ⟨em, rem⟩ := er
        rw [scanC_cons_some match4At match4At_con hM]
        obtain ⟨con, hcon, hconne⟩ := match4At_con _ _ _ hM
        have hreml : rem.length ≤ n := by
          have hl := congrArg List.length hcon
          simp only [List.length_cons, List.length_append] at hl
          cases con with
          | nil => exact absurd rfl hconne
          | cons _ _ => simp only [List.length_cons] at hl; omega
        obtain ⟨D, u, md, hs, hem4, hDne, hDd, huS, hmdS, hok⟩ :=
          match4At_inv hM
        apply NoM_append
        · rintro e2 ⟨a, ha⟩ hne
          exact suffix4_no4 _ huS hmdS hDd (by rw [← ha]; exact hem4) hne
        · exact ih rem hreml
      | none =>
        rw [scanC_cons_none match4At hM]
        exact NoM_cons
          (transfer4 match4At isDigitC (fun c t x h => match4At_head h)
            (fun c t em rem h => match4At_em_head h) startOK3_no
            hM (ih rest hrl))
          (ih rest hrl)

theorem scan5_no5 : ∀ (n : Nat) (s : Str), s.length ≤ n →
    NoM match5At (scanF match5At s.length s) := by
  intro n
  induction n with
  | zero =>
    intro s hlen
    have hs : s = [] := List.length_eq_zero.mp (Nat.le_zero.mp hlen)
    subst hs
    rw [scanF_nil]
    exact NoM_nil match5At (match5At_none_shape (fun Z h => by cases h))
  | succ n ih =>
    intro s hlen
    cases s with
    | nil =>
      rw [scanF_nil]
      exact NoM_nil match5At (match5At_none_shape (fun Z h => by cases h))
    | cons c rest =>
      have hrl : rest.length ≤ n := by
        simp only [List.length_cons] at hlen; omega
      cases hM : match5At (c :: rest) with
      | some er =>
        obtain ⟨em, rem⟩ := er
        rw [scanC_cons_some match5At match5At_con hM]
        obtain ⟨con, hcon, hconne⟩ := match5At_con _ _ _ hM
        have hreml : rem.length ≤ n := by
          have hl := congrArg List.length hcon
          simp only [List.length_cons, List.length_append] at hl
          cases con with
          | nil => exact absurd rfl hconne
          | cons _ _ => simp only [List.length_cons] at hl; omega
        obtain ⟨D, md, hs, hem5, hDne, hDd, hmdS, hok⟩ := match5At_inv hM
        apply NoM_append
        · rintro e2 ⟨a, ha⟩ hne
          exact suffix5_no5 _ hDne hmdS hDd (by rw [← ha]; exact hem5) hne
        · exact ih rem hreml
      | none =>
        rw [scanC_cons_none match5At hM]
        exact NoM_cons
          (transfer5 match5At (fun c => decide (c = '4'))
            (fun c t x h => match5At_head h)
            (fun c t em rem h => match5At_em_head h) startOK5_no
            pushback5 hM (ih rest hrl))
          (ih rest hrl)

theorem scan4_no3 : ∀ (n : Nat) (s : Str), s.length ≤ n →
    NoM match3At s → NoM match3At (scanF match4At s.length s) := by
  intro n
  induction n with
  | zero =>
    intro s hlen h3
    have hs : s = [] := List.length_eq_zero.mp (Nat.le_zero.mp hlen)
    subst hs
    rw [scanF_nil]
    exact h3
  | succ n ih =>
    intro s hlen h3
    cases s with
    | nil => rw [scanF_nil]; exact h3
    | cons c rest =>
      have hrl : rest.length ≤ n := by
        simp only [List.length_cons] at hlen; omega
      cases hM : match4At (c :: rest) with
      | some er =>
        obtain ⟨em, rem⟩ := er
        rw [scanC_cons_some match4At match4At_con hM]
        obtain ⟨con, hcon, hconne⟩ := match4At_con _ _ _ hM
        have hreml : rem.length ≤ n := by
          have hl := congrArg List.length hcon
          simp only [List.length_cons, List.length_append] at hl
          cases con with
          | nil => exact absurd rfl hconne
          | cons _ _ => simp only [List.length_cons] at hl; omega
        obtain ⟨D, u, md, hs, hem4, hDne, hDd, huS, hmdS, hok⟩ :=
          match4At_inv hM
        apply NoM_append
        · rintro e2 ⟨a, ha⟩ hne
          exact suffix4_no3 _ huS hmdS hDd (by rw [← ha]; exact hem4) hne
        · exact ih rem hreml (NoM_drop h3 hcon)
      | none =>
        rw [scanC_cons_none match4At hM]
        exact NoM_cons
          (transfer3 match4At isDigitC (fun c t x h => match4At_head h)
            (fun c t em rem h => match4At_em_head h) startOK3_no
            (NoM_head h3) (ih rest hrl (NoM_tail h3)))
          (ih rest hrl (NoM_tail h3))

theorem scan5_no3 : ∀ (n : Nat) (s : Str), s.length ≤ n →
    NoM match3At s → NoM match3At (scanF match5At s.length s) := by
  intro n
  induction n with
  | zero =>
    intro s hlen h3
    have hs : s = [] := List.length_eq_zero.mp (Nat.le_zero.mp hlen)
    subst hs
    rw [scanF_nil]
    exact h3
  | succ n ih =>
    intro s hlen h3
    cases s with
    | nil => rw [scanF_nil]; exact h3
    | cons c rest =>
      have hrl : rest.length ≤ n := by
        simp only [List.length_cons] at hlen; omega
      cases hM : match5At (c :: rest) with
      | some er =>
        obtain ⟨em, rem⟩ := er
        rw [scanC_cons_some match5At match5At_con hM]
        obtain ⟨con, hcon, hconne⟩ := match5At_con _ _ _ hM
        have hreml : rem.length ≤ n := by
          have hl := congrArg List.length hcon
          simp only [List.length_cons, List.length_append] at hl
          cases con with
          | nil => exact absurd rfl hconne
          | cons _ _ => simp only [List.length_cons] at hl; omega
        obtain ⟨D, md, hs, hem5, hDne, hDd, hmdS, hok⟩ := match5At_inv hM
        apply NoM_append
        · rintro e2 ⟨a, ha⟩ hne
          exact suffix5_no3 _ hmdS hDd (by rw [← ha]; exact hem5) hne
        · exact ih rem hreml (NoM_drop h3 hcon)
      | none =>
        rw [scanC_cons_none match5At hM]
        exact NoM_cons
          (transfer3 match5At (fun c => decide (c = '4'))
            (fun c t x h => match5At_head h)
            (fun c t em rem h => match5At_em_head h) startOK5_no
            (NoM_head h3) (ih rest hrl (NoM_tail h3)))
          (ih rest hrl (NoM_tail h3))

theorem scan5_no4 : ∀ (n : Nat) (s : Str), s.length ≤ n →
    NoM match4At s → NoM match4At (scanF match5At s.length s) := by
  intro n
  induction n with
  | zero =>
    intro s hlen h4
    have hs : s = [] := List.length_eq_zero.mp (Nat.le_zero.mp hlen)
    subst hs
    rw [scanF_nil]
    exact h4
  | succ n ih =>
    intro s hlen h4
    cases s with
    | nil => rw [scanF_nil]; exact h4
    | cons c rest =>
      have hrl : rest.length ≤ n := by
        simp only [List.length_cons] at hlen; omega
      cases hM : match5At (c :: rest) with
      | some er =>
        obtain ⟨em, rem⟩ := er
        rw [scanC_cons_some match5At match5At_con hM]
        obtain ⟨con, hcon, hconne⟩ := match5At_con _ _ _ hM
        have hreml : rem.length ≤ n := by
          have hl := congrArg List.length hcon
          simp only [List.length_cons, List.length_append] at hl
          cases con with
          | nil => exact absurd rfl hconne
          | cons _ _ => simp only [List.length_cons] at hl; omega
        obtain ⟨D, md, hs, hem5, hDne, hDd, hmdS, hok⟩ := match5At_inv hM
        apply NoM_append
        · rintro e2 ⟨a, ha⟩ hne
          exact suffix5_no4 _ hmdS hDd (by rw [← ha]; exact hem5) hne
        · exact ih rem hreml (NoM_drop h4 hcon)
      | none =>
        rw [scanC_cons_none match5At hM]
        exact NoM_cons
          (transfer4 match5At (fun c => decide (c = '4'))
            (fun c t x h => match5At_head h)
            (fun c t em rem h => match5At_em_head h) startOK5_no
            (NoM_head h4) (ih rest hrl (NoM_tail h4)))
          (ih rest hrl (NoM_tail h4))

/-! ### Canonical-fuel structure of the `miles` replace -/

theorem r1F_nil : ∀ (f : Nat) (prev : Option Char), r1F f prev [] = [] := by
  intro f prev
  cases f <;> rfl

theorem r1F_fuel_le :
    ∀ (n f : Nat) (prev : Option Char) (s : Str), s.length ≤ f → f ≤ n →
      r1F f prev s = r1F s.length prev s := by
  intro n
  induction n with
  | zero =>
    intro f prev s hsf hfn
    have hf : f = 0 := Nat.le_zero.mp hfn
    subst hf
    have hs : s = [] := List.length_eq_zero.mp (Nat.le_zero.mp hsf)
    subst hs
    rfl
  | succ n ih =>
    intro f prev s hsf hfn
    cases s with
    | nil => rw [r1F_nil, r1F_nil]
    | cons c rest =>
      cases f with
      | zero => exact absurd hsf (by simp)
      | succ f =>
        simp only [List.length_cons] at hsf ⊢
        rw [r1F, r1F]
        by_cases hcond : (boundaryBefore prev &&
            startsWithStr (c :: rest) ['m', 'i', 'l', 'e', 's'] &&
            okAfter ((c :: rest).drop 5)) = true
        · rw [if_pos hcond, if_pos hcond]
          have h5 : ((c :: rest).drop 5).length ≤ rest.length := by
            rw [List.length_drop]
            simp only [List.length_cons]
            omega
          rw [ih f (some 's') _ (by omega) (by omega),
            ih rest.length (some 's') _ h5 (by omega)]
        · rw [if_neg hcond, if_neg hcond]
          rw [ih f (some c) rest (by omega) (by omega)]

theorem r1F_fuel {f : Nat} {prev : Option Char} {s : Str} (h : s.length ≤ f) :
    r1F f prev s = r1F s.length prev s :=
  r1F_fuel_le f f prev s h le_rfl

theorem r1C_cons_no {prev : Option Char} {c : Char} {rest : Str}
    (h : (boundaryBefore prev &&
      startsWithStr (c :: rest) ['m', 'i', 'l', 'e', 's'] &&
      okAfter ((c :: rest).drop 5)) = false) :
    r1F (c :: rest).length prev (c :: rest) =
      c :: r1F rest.length (some c) rest := by
  simp only [List.length_cons]
  rw [r1F, if_neg (by rw [h]; exact Bool.false_ne_true)]

theorem r1C_cons_yes {prev : Option Char} {c : Char} {rest : Str}
    (h : (boundaryBefore prev &&
      startsWithStr (c :: rest) ['m', 'i', 'l', 'e', 's'] &&
      okAfter ((c :: rest).drop 5)) = true) :
    r1F (c :: rest).length prev (c :: rest) =
      'm' :: 'i' :: 'l' :: 'e' ::
        r1F ((c :: rest).drop 5).length (some 's') ((c :: rest).drop 5) := by
  simp only [List.length_cons]
  rw [r1F, if_pos h,
    r1F_fuel (by rw [List.length_drop]; simp only [List.length_cons]; omega)]

theorem r1F_head : ∀ (f : Nat) (prev : Option Char) (c : Char) (rest : Str),
    ∃ t, r1F f prev (c :: rest) = c :: t := by
  intro f prev c rest
  cases f with
  | zero => exact ⟨rest, rfl⟩
  | succ f =>
    rw [r1F]
    by_cases hcond : (boundaryBefore prev &&
        startsWithStr (c :: rest) ['m', 'i', 'l', 'e', 's'] &&
        okAfter ((c :: rest).drop 5)) = true
    · rw [if_pos hcond]
      have hsw : startsWithStr (c :: rest) ['m', 'i', 'l', 'e', 's'] = true := by
        simp only [Bool.and_eq_true] at hcond
        exact hcond.1.2
      obtain ⟨b, hb⟩ := startsWithStr_iff.mp hsw
      simp only [List.cons_append, List.nil_append] at hb
      injection hb with h1 _
      exact ⟨'i' :: 'l' :: 'e' ::
        r1F f (some 's') ((c :: rest).drop 5), by rw [h1]⟩
    · rw [if_neg hcond]
      exact ⟨r1F f (some c) rest, rfl⟩

theorem r1F_okAfter (f : Nat) (prev : Option Char) (s : Str) :
    okAfter (r1F f prev s) = okAfter s := by
  cases s with
  | nil => rw [r1F_nil]
  | cons c rest =>
    obtain ⟨t, ht⟩ := r1F_head f prev c rest
    rw [ht]
    rfl

theorem r1_peel {prev : Option Char} {s : Str} {c : Char} {out2 : Str}
    (hc : ¬(c = 'm')) (h : r1F s.length prev s = c :: out2) :
    ∃ rest, s = c :: rest ∧ out2 = r1F rest.length (some c) rest := by
  cases s with
  | nil =>
    rw [r1F_nil] at h
    cases h
  | cons d rest =>
    by_cases hcond : (boundaryBefore prev &&
        startsWithStr (d :: rest) ['m', 'i', 'l', 'e', 's'] &&
        okAfter ((d :: rest).drop 5)) = true
    · rw [r1C_cons_yes hcond] at h
      injection h with h1 _
      exact absurd h1.symm hc
    · rw [r1C_cons_no (Bool.eq_false_iff.mpr hcond)] at h
      injection h with h1 h2
      subst h1
      exact ⟨rest, rfl, h2.symm⟩

theorem CtxNoMiles_nil (prev : Option Char) : CtxNoMiles prev [] := by
  intro a b h
  cases a <;> exact List.noConfusion h

theorem getLast?_mem_self {l : Str} {x : Char} (h : l.getLast? = some x) :
    x ∈ l := by
  obtain ⟨hne, hx⟩ :=
    List.mem_getLast?_eq_getLast (show x ∈ l.getLast? by rw [h]; rfl)
  rw [hx]
  exact List.getLast_mem hne

/-- After the global `\bmiles\b` replace, no boundary-delimited `miles`
remains anywhere in the output. -/
theorem r1_resid : ∀ (n : Nat) (s : Str) (prev : Option Char), s.length ≤ n →
    CtxNoMiles prev (r1F s.length prev s) := by
  intro n
  induction n with
  | zero =>
    intro s prev hlen
    have hs : s = [] := List.length_eq_zero.mp (Nat.le_zero.mp hlen)
    subst hs
    rw [r1F_nil]
    exact CtxNoMiles_nil prev
  | succ n ih =>
    intro s prev hlen
    cases s with
    | nil =>
      rw [r1F_nil]
      exact CtxNoMiles_nil prev
    | cons c rest =>
      by_cases hcond : (boundaryBefore prev &&
          startsWithStr (c :: rest) ['m', 'i', 'l', 'e', 's'] &&
          okAfter ((c :: rest).drop 5)) = true
      · have hsw : startsWithStr (c :: rest) ['m', 'i', 'l', 'e', 's'] = true := by
          simp only [Bool.and_eq_true] at hcond
          exact hcond.1.2
        obtain ⟨b, hb⟩ := startsWithStr_iff.mp hsw
        simp only [List.cons_append, List.nil_append] at hb
        have hdrop : (c :: rest).drop 5 = b := by
          rw [hb]
          rfl
        have hok : okAfter b = true := by
          simp only [Bool.and_eq_true] at hcond
          rw [← hdrop]
          exact hcond.2
        rw [r1C_cons_yes hcond, hdrop]
        have hblen : b.length ≤ n := by
          have hlb := congrArg List.length hb
          simp only [List.length_cons] at hlb hlen
          omega
        have hres := ih b (some 's') hblen
        intro a b2 hsplit
        cases a with
        | nil =>
          injection hsplit with _ h2
          injection h2 with _ h3
          injection h3 with _ h4
          injection h4 with _ h5
          cases b with
          | nil =>
            rw [r1F_nil] at h5
            cases h5
          | cons b0 b1 =>
            obtain ⟨t, ht⟩ := r1F_head (b0 :: b1).length (some 's') b0 b1
            rw [ht] at h5
            injection h5 with h6 _
            rw [okAfter_cons, h6] at hok
            exact absurd hok (by decide)
        | cons a0 a1 =>
          injection hsplit with ha0 h2
          cases a1 with
          | nil =>
            injection h2 with hi _
            exact absurd hi (by decide)
          | cons a1c a2 =>
            injection h2 with ha1 h3
            cases a2 with
            | nil =>
              injection h3 with hl _
              exact absurd hl (by decide)
            | cons a2c a3 =>
              injection h3 with ha2 h4
              cases a3 with
              | nil =>
                injection h4 with he _
                exact absurd he (by decide)
              | cons a3c a4 =>
                injection h4 with ha3 h5
                have hres2 := hres a4 b2 h5
                cases a4 with
                | nil =>
                  left
                  show boundaryBefore (some a3c) = false
                  rw [← ha3]
                  decide
                | cons x a5 =>
                  exact hres2
      · rw [r1C_cons_no (Bool.eq_false_iff.mpr hcond)]
        have hres := ih rest (some c)
          (by simp only [List.length_cons] at hlen; omega)
        intro a b2 hsplit
        cases a with
        | nil =>
          injection hsplit with hc1 h2
          obtain ⟨r1, hr1, ho1⟩ := r1_peel (by decide) h2
          obtain ⟨r2, hr2, ho2⟩ := r1_peel (by decide) ho1.symm
          obtain ⟨r3, hr3, ho3⟩ := r1_peel (by decide) ho2.symm
          obtain ⟨r4, hr4, ho4⟩ := r1_peel (by decide) ho3.symm
          have hsw : startsWithStr (c :: rest) ['m', 'i', 'l', 'e', 's'] = true := by
            apply startsWithStr_iff.mpr
            exact ⟨r4, by rw [hc1, hr1, hr2, hr3, hr4]; rfl⟩
          have hdrop : (c :: rest).drop 5 = r4 := by
            rw [hr1, hr2, hr3, hr4]
            rfl
          have hfail : boundaryBefore prev = false ∨ okAfter r4 = false := by
            cases hbb : boundaryBefore prev with
            | false => exact Or.inl rfl
            | true =>
              cases hoa : okAfter r4 with
              | false => exact Or.inr rfl
              | true =>
                exfalso
                apply hcond
                simp only [Bool.and_eq_true]
                exact ⟨⟨hbb, hsw⟩, by rw [hdrop]; exact hoa⟩
          rcases hfail with hf | hf
          · exact Or.inl hf
          · right
            rw [ho4, r1F_okAfter]
            exact hf
        | cons a0 a1 =>
          injection hsplit with ha0 h2
          have hres2 := hres a1 b2 h2
          rw [ha0] at hres2
          exact hres2

theorem replaceMiles_resid (s : Str) : CtxNoMiles none (replaceMiles s) :=
  r1_resid s.length s none le_rfl

theorem mileAdjust_ctx {s : Str} (h : CtxNoMiles none s) :
    CtxNoMiles none (mileAdjust s) := by
  unfold mileAdjust
  by_cases h1 : s = "mile".toList
  · rw [if_pos h1]
    intro a b hab
    exfalso
    have hsl : s.length = 4 := by rw [h1]; rfl
    have hlen := congrArg List.length hab
    simp only [List.length_cons, List.length_append, hsl] at hlen
    have ha : a = [] := List.length_eq_zero.mp (by omega)
    have hb : b = [] := List.length_eq_zero.mp (by omega)
    subst ha
    subst hb
    injection hab with hx _
    exact absurd hx (by decide)
  · rw [if_neg h1]
    by_cases h2 : isMileMod s = true
    · rw [if_pos h2]
      intro a b hab
      cases a with
      | nil =>
        injection hab with hx _
        exact absurd hx (by decide)
      | cons a0 a1 =>
        injection hab with ha0 h3
        cases a1 with
        | nil =>
          left
          show boundaryBefore (some a0) = false
          rw [← ha0]
          decide
        | cons x a2 =>
          exact h (x :: a2) b h3
    · rw [if_neg h2]
      exact h

/-! ### Occurrence helpers and emission character classes -/

theorem no_miles_of_no_s {em : Str} (h : ∀ c ∈ em, ¬(c = 's')) :
    ∀ a b, em ≠ a ++ ('m' :: 'i' :: 'l' :: 'e' :: 's' :: b) := by
  intro a b hab
  exact h 's' (by rw [hab]; exact List.mem_append_right a (by simp)) rfl

theorem occ_five_le {em a b : Str}
    (h : em = a ++ ('m' :: 'i' :: 'l' :: 'e' :: 's' :: b)) : 5 ≤ em.length := by
  have hl := congrArg List.length h
  simp only [List.length_append, List.length_cons] at hl
  omega

/-- `miles` contains no space, so an occurrence of it in `P ++ ' ' :: Q`
lies entirely inside `P` or entirely inside `Q`. -/
theorem split_space_occ {P Q a b : Str}
    (h : P ++ ' ' :: Q = a ++ ('m' :: 'i' :: 'l' :: 'e' :: 's' :: b)) :
    (∃ a2 b2, P = a2 ++ ('m' :: 'i' :: 'l' :: 'e' :: 's' :: b2)) ∨
    (∃ a2 b2, Q = a2 ++ ('m' :: 'i' :: 'l' :: 'e' :: 's' :: b2)) := by
  rcases List.append_eq_append_iff.mp h with ⟨t, ht1, ht2⟩ | ⟨t, ht1, ht2⟩
  · -- a = P ++ t and ' ' :: Q = t ++ miles ++ b
    cases t with
    | nil =>
      injection ht2 with hx _
      exact absurd hx (by decide)
    | cons t0 t1 =>
      injection ht2 with _ h2
      exact Or.inr ⟨t1, b, h2⟩
  · -- P = a ++ t and miles ++ b = t ++ ' ' :: Q
    cases t with
    | nil =>
      injection ht2 with hx _
      exact absurd hx (by decide)
    | cons c1 t1 =>
      injection ht2 with hc1 h2
      cases t1 with
      | nil =>
        injection h2 with hx _
        exact absurd hx (by decide)
      | cons c2 t2 =>
        injection h2 with hc2 h3
        cases t2 with
        | nil =>
          injection h3 with hx _
          exact absurd hx (by decide)
        | cons c3 t3 =>
          injection h3 with hc3 h4
          cases t3 with
          | nil =>
            injection h4 with hx _
            exact absurd hx (by decide)
          | cons c4 t4 =>
            injection h4 with hc4 h5
            cases t4 with
            | nil =>
              injection h5 with hx _
              exact absurd hx (by decide)
            | cons c5 t5 =>
              injection h5 with hc5 h6
              refine Or.inl ⟨a, t5, ?_⟩
              rw [ht1, ← hc1, ← hc2, ← hc3, ← hc4, ← hc5]

theorem chain_nows : ∀ (l : Str), (∀ x ∈ l, isWsC x = false) →
    List.Chain' noWW l := by
  intro l
  induction l with
  | nil => intro _; exact List.chain'_nil
  | cons a t ih =>
    intro h
    rw [List.chain'_cons']
    exact ⟨fun y _ => Or.inl (h a (List.mem_cons_self _ _)),
      ih (fun x hx => h x (List.mem_cons_of_mem _ hx))⟩

theorem emchar_digit {x : Char} (h : isDigitC x = true) :
    isWsC x = false ∧ ¬(x = 's') ∧ toLowerC x = x := by
  refine ⟨digit_not_ws x h, ?_, ?_⟩
  · intro hx
    rw [hx] at h
    exact absurd h (by decide)
  · have hd := digit_toNat x h
    exact toLowerC_eq_self (by omega)

theorem md_chars {md : Str}
    (hmd : md = ['h'] ∨ md = ['s', 'h'] ∨ md = ['s', 'c'] ∨ md = ['w']) :
    ∀ x ∈ md, isWsC x = false ∧ toLowerC x = x := by
  intro x hx
  rcases hmd with rfl | rfl | rfl | rfl <;>
    simp only [List.mem_cons, List.not_mem_nil, or_false] at hx
  · subst hx
    exact ⟨by decide, by decide⟩
  · rcases hx with rfl | rfl <;> exact ⟨by decide, by decide⟩
  · rcases hx with rfl | rfl <;> exact ⟨by decide, by decide⟩
  · subst hx
    exact ⟨by decide, by decide⟩

theorem em3_chars {s em rem : Str} (h : match3At s = some (em, rem)) :
    ∀ x ∈ em, isWsC x = false ∧ ¬(x = 's') ∧ toLowerC x = x := by
  obtain ⟨D, fr, W, u, hs, hem, hDne, hDd, hfrS, hWne, hWs, huS, hok⟩ :=
    match3At_inv h
  intro x hx
  rw [hem] at hx
  rcases List.mem_append.mp hx with hx1 | hxu
  · rcases List.mem_append.mp hx1 with hxD | hxfr
    · exact emchar_digit (hDd x hxD)
    · rcases hfrS with rfl | ⟨fd, rfl, hfdne, hfdd⟩
      · exact absurd hxfr (List.not_mem_nil x)
      · rcases List.mem_cons.mp hxfr with rfl | hxfd
        · exact ⟨by decide, by decide, by decide⟩
        · exact emchar_digit (hfdd x hxfd)
  · rcases huS with rfl | rfl | rfl <;>
      simp only [List.mem_cons, List.not_mem_nil, or_false] at hxu
    · subst hxu
      exact ⟨by decide, by decide, by decide⟩
    · rcases hxu with rfl | rfl <;> exact ⟨by decide, by decide, by decide⟩
    · rcases hxu with rfl | rfl | rfl | rfl <;>
        exact ⟨by decide, by decide, by decide⟩

theorem em4_struct {s em rem : Str} (h : match4At s = some (em, rem)) :
    ∃ P md, em = P ++ ' ' :: md ∧
      (∀ x ∈ P, isWsC x = false ∧ ¬(x = 's') ∧ toLowerC x = x) ∧
      (md = ['h'] ∨ md = ['s', 'h'] ∨ md = ['s', 'c'] ∨ md = ['w']) := by
  obtain ⟨D, u, md, hs, hem, hDne, hDd, huS, hmdS, hok⟩ := match4At_inv h
  refine ⟨D ++ u, md, hem, ?_, hmdS⟩
  intro x hx
  rcases List.mem_append.mp hx with hxD | hxu
  · exact emchar_digit (hDd x hxD)
  · rcases huS with rfl | rfl | rfl <;>
      simp only [List.mem_cons, List.not_mem_nil, or_false] at hxu
    · subst hxu
      exact ⟨by decide, by decide, by decide⟩
    · rcases hxu with rfl | rfl <;> exact ⟨by decide, by decide, by decide⟩
    · rcases hxu with rfl | rfl | rfl | rfl <;>
        exact ⟨by decide, by decide, by decide⟩

theorem em5_struct {s em rem : Str} (h : match5At s = some (em, rem)) :
    ∃ P md, em = P ++ ' ' :: md ∧
      (∀ x ∈ P, isWsC x = false ∧ ¬(x = 's') ∧ toLowerC x = x) ∧
      (md = ['h'] ∨ md = ['s', 'h'] ∨ md = ['s', 'c'] ∨ md = ['w']) := by
  obtain ⟨D, md, hs, hem, hDne, hDd, hmdS, hok⟩ := match5At_inv h
  refine ⟨'4' :: 'x' :: (D ++ ['m']), md, ?_, ?_, hmdS⟩
  · rw [hem]
    simp
  · intro x hx
    rcases List.mem_cons.mp hx with rfl | hx2
    · exact ⟨by decide, by decide, by decide⟩
    · rcases List.mem_cons.mp hx2 with rfl | hx3
      · exact ⟨by decide, by decide, by decide⟩
      · rcases List.mem_append.mp hx3 with hxD | hxm
        · exact emchar_digit (hDd x hxD)
        · rcases List.mem_singleton.mp hxm with rfl
          exact ⟨by decide, by decide, by decide⟩

/-- Common consequences of the `digits · space · modifier` emission shape
used by the modifier-attaching and relay patterns. -/
theorem emPmd_facts {em P md : Str} (hsplit : em = P ++ ' ' :: md)
    (hP : ∀ x ∈ P, isWsC x = false ∧ ¬(x = 's') ∧ toLowerC x = x)
    (hmd : md = ['h'] ∨ md = ['s', 'h'] ∨ md = ['s', 'c'] ∨ md = ['w']) :
    (∀ x ∈ em, isWsC x = true → x = ' ') ∧
    List.Chain' noWW em ∧
    (∀ x, em.getLast? = some x → isWsC x = false) ∧
    (∀ x ∈ em, toLowerC x = x) ∧
    (∀ a b, em ≠ a ++ ('m' :: 'i' :: 'l' :: 'e' :: 's' :: b)) := by
  have hmdne : md ≠ [] := by
    rcases hmd with rfl | rfl | rfl | rfl <;> simp
  have hmdlen : md.length ≤ 2 := by
    rcases hmd with rfl | rfl | rfl | rfl <;> simp
  refine ⟨?_, ?_, ?_, ?_, ?_⟩
  · intro x hx hws
    rw [hsplit] at hx
    rcases List.mem_append.mp hx with hxP | hxq
    · exact absurd hws (by rw [(hP x hxP).1]; exact Bool.false_ne_true)
    · rcases List.mem_cons.mp hxq with rfl | hxmd
      · rfl
      · exact absurd hws
          (by rw [(md_chars hmd x hxmd).1]; exact Bool.false_ne_true)
  · rw [hsplit]
    rw [List.chain'_append]
    refine ⟨chain_nows P (fun x hx => (hP x hx).1), ?_, ?_⟩
    · rw [List.chain'_cons']
      refine ⟨?_, chain_nows md (fun x hx => (md_chars hmd x hx).1)⟩
      intro y hy
      exact Or.inr (md_chars hmd y (List.mem_of_mem_head? hy)).1
    · intro x hx y _
      exact Or.inl (hP x (getLast?_mem_self (Option.mem_def.mp hx))).1
  · intro x hx
    rw [hsplit, getLast?_append_right _ _ (by simp),
      getLast?_cons_ne hmdne] at hx
    exact ((md_chars hmd) x (getLast?_mem_self hx)).1
  · intro x hx
    rw [hsplit] at hx
    rcases List.mem_append.mp hx with hxP | hxq
    · exact (hP x hxP).2.2
    · rcases List.mem_cons.mp hxq with rfl | hxmd
      · decide
      · exact (md_chars hmd x hxmd).2
  · intro a b hab
    rw [hsplit] at hab
    rcases split_space_occ hab with ⟨a2, b2, hO⟩ | ⟨a2, b2, hO⟩
    · exact no_miles_of_no_s (fun c hc => (hP c hc).2.1) a2 b2 hO
    · have := occ_five_le hO
      omega

/-- Common consequences of an emission with no whitespace and no `s`. -/
theorem emNoS_facts {em : Str}
    (hP : ∀ x ∈ em, isWsC x = false ∧ ¬(x = 's') ∧ toLowerC x = x) :
    (∀ x ∈ em, isWsC x = true → x = ' ') ∧
    List.Chain' noWW em ∧
    (∀ x, em.getLast? = some x → isWsC x = false) ∧
    (∀ x ∈ em, toLowerC x = x) ∧
    (∀ a b, em ≠ a ++ ('m' :: 'i' :: 'l' :: 'e' :: 's' :: b)) := by
  refine ⟨?_, chain_nows em (fun x hx => (hP x hx).1), ?_,
    fun x hx => (hP x hx).2.2,
    no_miles_of_no_s (fun c hc => (hP c hc).2.1)⟩
  · intro x hx hws
    exact absurd hws (by rw [(hP x hx).1]; exact Bool.false_ne_true)
  · intro x hx
    exact (hP x (getLast?_mem_self hx)).1

theorem match3At_okrem : ∀ s em rem, match3At s = some (em, rem) →
    okAfter rem = true := by
  intro s em rem h
  obtain ⟨con, -, -, -, hok⟩ := match3At_consumed s em rem h
  exact hok

theorem match4At_okrem : ∀ s em rem, match4At s = some (em, rem) →
    okAfter rem = true := by
  intro s em rem h
  obtain ⟨con, -, -, -, hok⟩ := match4At_consumed s em rem h
  exact hok

theorem match5At_okrem : ∀ s em rem, match5At s = some (em, rem) →
    okAfter rem = true := by
  intro s em rem h
  obtain ⟨con, -, -, -, hok⟩ := match5At_consumed s em rem h
  exact hok

theorem iles_start3 (c : Char) (h : c = 'i' ∨ c = 'l' ∨ c = 'e' ∨ c = 's') :
    isDigitC c = false := by
  rcases h with rfl | rfl | rfl | rfl <;> decide

theorem iles_start5 (c : Char) (h : c = 'i' ∨ c = 'l' ∨ c = 'e' ∨ c = 's') :
    (decide (c = '4') : Bool) = false := by
  rcases h with rfl | rfl | rfl | rfl <;> decide

/-- A global replace whose emissions contain no boundary-free `miles` and
whose matches end before a non-word character preserves the absence of
boundary-delimited `miles`. -/
theorem ctx_pres (M : Str → Option (Str × Str)) (startOK : Char → Bool)
    (hhead : ∀ c t x, M (c :: t) = some x → startOK c = true)
    (hem : ∀ c t em rem, M (c :: t) = some (em, rem) → ∃ em2, em = c :: em2)
    (hcon : ∀ s em rem, M s = some (em, rem) → ∃ con, s = con ++ rem ∧ con ≠ [])
    (hok : ∀ s em rem, M s = some (em, rem) → okAfter rem = true)
    (hnomiles : ∀ s em rem, M s = some (em, rem) →
      ∀ a b, em ≠ a ++ ('m' :: 'i' :: 'l' :: 'e' :: 's' :: b))
    (hnoS : ∀ c, (c = 'i' ∨ c = 'l' ∨ c = 'e' ∨ c = 's') →
      startOK c = false) :
    ∀ (n : Nat) (s : Str) (prev : Option Char), s.length ≤ n →
      CtxNoMiles prev s → CtxNoMiles prev (scanF M s.length s) := by
  intro n
  induction n with
  | zero =>
    intro s prev hlen _
    have hsn : s = [] := List.length_eq_zero.mp (Nat.le_zero.mp hlen)
    subst hsn
    rw [scanF_nil]
    exact CtxNoMiles_nil prev
  | succ n ih =>
    intro s prev hlen hs
    cases s with
    | nil =>
      rw [scanF_nil]
      exact CtxNoMiles_nil prev
    | cons c rest =>
      cases hM : M (c :: rest) with
      | some er =>
        obtain ⟨em, rem⟩ := er
        rw [scanC_cons_some M hcon hM]
        obtain ⟨con, hconeq, hconne⟩ := hcon _ _ _ hM
        have hreml : rem.length ≤ n := by
          have hl := congrArg List.length hconeq
          simp only [List.length_cons, List.length_append] at hl
          cases con with
          | nil => exact absurd rfl hconne
          | cons _ _ =>
            simp only [List.length_cons] at hl hlen
            omega
        have hokr : okAfter rem = true := hok _ _ _ hM
        have hword_head : ∀ (x : Char) (X : Str), isWordC x = true →
            scanF M rem.length rem = x :: X → False := by
          intro x X hword hOUT
          cases rem with
          | nil =>
            rw [scanF_nil] at hOUT
            cases hOUT
          | cons r0 r1 =>
            obtain ⟨t', ht'⟩ := scan_head M hem (r0 :: r1).length r0 r1
            rw [ht'] at hOUT
            injection hOUT with h1 _
            rw [okAfter_cons, h1, hword] at hokr
            exact absurd hokr (by decide)
        have hrem_ctx : CtxNoMiles (lastOr prev con) rem := by
          intro a' b' h'
          have h2 := hs (con ++ a') b'
            (by rw [hconeq, h', List.append_assoc])
          rw [lastOr_append] at h2
          exact h2
        have hres := ih rem (lastOr prev con) hreml hrem_ctx
        intro a b2 hsplit
        rcases List.append_eq_append_iff.mp hsplit with ⟨t, ht1, ht2⟩ |
          ⟨t, ht1, ht2⟩
        · -- the occurrence starts at or after the end of the emission
          cases t with
          | nil =>
            exact absurd ht2
              (fun hO => hword_head 'm' _ (by decide) hO)
          | cons t0 t1 =>
            rw [ht1, lastOr_append]
            exact hres (t0 :: t1) b2 ht2
        · -- the occurrence starts inside the emission
          cases t with
          | nil =>
            rw [List.nil_append] at ht2
            exact absurd ht2.symm
              (fun hO => hword_head 'm' _ (by decide) hO)
          | cons c1 t1 =>
            injection ht2 with hc1 h3
            cases t1 with
            | nil =>
              exact absurd h3.symm
                (fun hO => hword_head 'i' _ (by decide) hO)
            | cons c2 t2 =>
              injection h3 with hc2 h4
              cases t2 with
              | nil =>
                exact absurd h4.symm
                  (fun hO => hword_head 'l' _ (by decide) hO)
              | cons c3 t3 =>
                injection h4 with hc3 h5
                cases t3 with
                | nil =>
                  exact absurd h5.symm
                    (fun hO => hword_head 'e' _ (by decide) hO)
                | cons c4 t4 =>
                  injection h5 with hc4 h6
                  cases t4 with
                  | nil =>
                    exact absurd h6.symm
                      (fun hO => hword_head 's' _ (by decide) hO)
                  | cons c5 t5 =>
                    injection h6 with hc5 h7
                    exact absurd
                      (by rw [ht1, ← hc1, ← hc2, ← hc3, ← hc4, ← hc5] :
                        em = a ++ ('m' :: 'i' :: 'l' :: 'e' :: 's' :: t5))
                      (hnomiles _ _ _ hM a t5)
      | none =>
        rw [scanC_cons_none M hM]
        have hrl : rest.length ≤ n := by
          simp only [List.length_cons] at hlen
          omega
        have hrest_ctx : CtxNoMiles (some c) rest := by
          intro a' b' h'
          exact hs (c :: a') b' (by rw [h']; rfl)
        have hres := ih rest (some c) hrl hrest_ctx
        intro a b2 hsplit
        cases a with
        | nil =>
          injection hsplit with hc1 h2
          obtain ⟨s2, hs2, hscan2⟩ := scan_peel M startOK hhead hem
            ['i', 'l', 'e', 's'] (fun x hx => hnoS x (by simpa using hx))
            rest b2 h2
          have h4 := hs [] s2 (by rw [hc1, hs2]; rfl)
          rcases h4 with hf | hf
          · exact Or.inl hf
          · right
            rw [← hscan2, scan_okAfter M hem]
            exact hf
        | cons a0 a1 =>
          injection hsplit with ha0 h2
          have hres2 := hres a1 b2 h2
          rw [ha0] at hres2
          exact hres2

theorem joinUnits_ctx {s : Str} (h : CtxNoMiles none s) :
    CtxNoMiles none (joinUnits s) :=
  ctx_pres match3At isDigitC (fun _ _ _ hx => match3At_head hx)
    (fun _ _ _ _ hx => match3At_em_head hx) match3At_con match3At_okrem
    (fun _ _ _ hx => (emNoS_facts (em3_chars hx)).2.2.2.2)
    iles_start3 s.length s none le_rfl h

theorem attachMod_ctx {s : Str} (h : CtxNoMiles none s) :
    CtxNoMiles none (attachMod s) :=
  ctx_pres match4At isDigitC (fun _ _ _ hx => match4At_head hx)
    (fun _ _ _ _ hx => match4At_em_head hx) match4At_con match4At_okrem
    (fun _ _ _ hx => by
      obtain ⟨P, md, hsp, hP, hmd⟩ := em4_struct hx
      exact (emPmd_facts hsp hP hmd).2.2.2.2)
    iles_start3 s.length s none le_rfl h

theorem relayMod_ctx {s : Str} (h : CtxNoMiles none s) :
    CtxNoMiles none (relayMod s) :=
  ctx_pres match5At (fun c => decide (c = '4'))
    (fun _ _ _ hx => match5At_head hx)
    (fun _ _ _ _ hx => match5At_em_head hx) match5At_con match5At_okrem
    (fun _ _ _ hx => by
      obtain ⟨P, md, hsp, hP, hmd⟩ := em5_struct hx
      exact (emPmd_facts hsp hP hmd).2.2.2.2)
    iles_start5 s.length s none le_rfl h

/-! ### Tidiness and lower-case preservation through the pipeline -/

theorem scan_tidy (M : Str → Option (Str × Str))
    (hcon : ∀ s em rem, M s = some (em, rem) → ∃ con, s = con ++ rem ∧ con ≠ [])
    (hemf : ∀ c t em rem, M (c :: t) = some (em, rem) →
      (∃ em2, em = c :: em2) ∧
      (∀ x ∈ em, isWsC x = true → x = ' ') ∧
      List.Chain' noWW em ∧
      (∀ x, em.getLast? = some x → isWsC x = false)) :
    ∀ (n : Nat) (s : Str), s.length ≤ n →
      (∀ x ∈ s, isWsC x = true → x = ' ') → List.Chain' noWW s →
      (∀ x ∈ scanF M s.length s, isWsC x = true → x = ' ') ∧
      List.Chain' noWW (scanF M s.length s) ∧
      (scanF M s.length s).head? = s.head? ∧
      ((∀ x, s.getLast? = some x → isWsC x = false) →
        ∀ x, (scanF M s.length s).getLast? = some x → isWsC x = false) := by
  have hemH : ∀ c t em rem, M (c :: t) = some (em, rem) →
      ∃ em2, em = c :: em2 := fun c t em rem hx => (hemf c t em rem hx).1
  intro n
  induction n with
  | zero =>
    intro s hlen h1 h2
    have hsn : s = [] := List.length_eq_zero.mp (Nat.le_zero.mp hlen)
    subst hsn
    rw [scanF_nil]
    exact ⟨h1, h2, rfl, fun h => h⟩
  | succ n ih =>
    intro s hlen h1 h2
    cases s with
    | nil =>
      rw [scanF_nil]
      exact ⟨h1, h2, rfl, fun h => h⟩
    | cons c rest =>
      cases hM : M (c :: rest) with
      | some er =>
        obtain ⟨em, rem⟩ := er
        rw [scanC_cons_some M hcon hM]
        obtain ⟨⟨em2, hem2⟩, hemws, hemch, hemlast⟩ := hemf _ _ _ _ hM
        obtain ⟨con, hconeq, hconne⟩ := hcon _ _ _ hM
        have hreml : rem.length ≤ n := by
          have hl := congrArg List.length hconeq
          simp only [List.length_cons, List.length_append] at hl
          cases con with
          | nil => exact absurd rfl hconne
          | cons _ _ =>
            simp only [List.length_cons] at hl hlen
            omega
        have hremws : ∀ x ∈ rem, isWsC x = true → x = ' ' := fun x hx =>
          h1 x (by rw [hconeq]; exact List.mem_append_right con hx)
        have hremch : List.Chain' noWW rem := by
          rw [hconeq] at h2
          exact h2.right_of_append
        obtain ⟨ihws, ihch, ihhead, ihlast⟩ := ih rem hreml hremws hremch
        refine ⟨?_, ?_, ?_, ?_⟩
        · intro x hx hws
          rcases List.mem_append.mp hx with hxe | hxo
          · exact hemws x hxe hws
          · exact ihws x hxo hws
        · rw [List.chain'_append]
          refine ⟨hemch, ihch, ?_⟩
          intro x hx y _
          exact Or.inl (hemlast x (Option.mem_def.mp hx))
        · rw [hem2]
          rfl
        · intro hlast_s x hx
          cases rem with
          | nil =>
            rw [scanF_nil, List.append_nil] at hx
            exact hemlast x hx
          | cons r0 r1 =>
            obtain ⟨t', ht'⟩ := scan_head M hemH (r0 :: r1).length r0 r1
            rw [ht', getLast?_append_right _ _ (by simp)] at hx
            have hlast_rem : ∀ y, (r0 :: r1).getLast? = some y →
                isWsC y = false := by
              intro y hy
              apply hlast_s
              rw [hconeq, getLast?_append_right _ _ (by simp)]
              exact hy
            exact ihlast hlast_rem x (by rw [ht']; exact hx)
      | none =>
        rw [scanC_cons_none M hM]
        have hrl : rest.length ≤ n := by
          simp only [List.length_cons] at hlen
          omega
        obtain ⟨ihws, ihch, ihhead, ihlast⟩ := ih rest hrl
          (fun x hx => h1 x (List.mem_cons_of_mem _ hx))
          (List.chain'_cons'.mp h2).2
        refine ⟨?_, ?_, rfl, ?_⟩
        · intro x hx hws
          rcases List.mem_cons.mp hx with rfl | hxo
          · exact h1 x (List.mem_cons_self _ _) hws
          · exact ihws x hxo hws
        · rw [List.chain'_cons']
          refine ⟨?_, ihch⟩
          intro y hy
          rw [Option.mem_def, ihhead] at hy
          exact (List.chain'_cons'.mp h2).1 y (Option.mem_def.mpr hy)
        · intro hlast_s x hx
          cases rest with
          | nil =>
            rw [scanF_nil] at hx
            exact hlast_s x hx
          | cons r0 r1 =>
            obtain ⟨t', ht'⟩ := scan_head M hemH (r0 :: r1).length r0 r1
            rw [ht', getLast?_cons_ne (by simp)] at hx
            have hlast_rest : ∀ y, (r0 :: r1).getLast? = some y →
                isWsC y = false := by
              intro y hy
              apply hlast_s
              rw [getLast?_cons_ne (by simp)]
              exact hy
            exact ihlast hlast_rest x (by rw [ht']; exact hx)

theorem scan_lower (M : Str → Option (Str × Str))
    (hcon : ∀ s em rem, M s = some (em, rem) → ∃ con, s = con ++ rem ∧ con ≠ [])
    (hemf : ∀ c t em rem, M (c :: t) = some (em, rem) →
      ∀ x ∈ em, toLowerC x = x) :
    ∀ (n : Nat) (s : Str), s.length ≤ n →
      noUpper s → noUpper (scanF M s.length s) := by
  intro n
  induction n with
  | zero =>
    intro s hlen h
    have hsn : s = [] := List.length_eq_zero.mp (Nat.le_zero.mp hlen)
    subst hsn
    rw [scanF_nil]
    exact h
  | succ n ih =>
    intro s hlen h
    cases s with
    | nil =>
      rw [scanF_nil]
      exact h
    | cons c rest =>
      cases hM : M (c :: rest) with
      | some er =>
        obtain ⟨em, rem⟩ := er
        rw [scanC_cons_some M hcon hM]
        obtain ⟨con, hconeq, hconne⟩ := hcon _ _ _ hM
        have hreml : rem.length ≤ n := by
          have hl := congrArg List.length hconeq
          simp only [List.length_cons, List.length_append] at hl
          cases con with
          | nil => exact absurd rfl hconne
          | cons _ _ =>
            simp only [List.length_cons] at hl hlen
            omega
        intro x hx
        rcases List.mem_append.mp hx with hxe | hxo
        · exact hemf _ _ _ _ hM x hxe
        · exact ih rem hreml
            (fun y hy => h y (by rw [hconeq]; exact List.mem_append_right con hy))
            x hxo
      | none =>
        rw [scanC_cons_none M hM]
        have hrl : rest.length ≤ n := by
          simp only [List.length_cons] at hlen
          omega
        intro x hx
        rcases List.mem_cons.mp hx with rfl | hxo
        · exact h x (List.mem_cons_self _ _)
        · exact ih rest hrl (fun y hy => h y (List.mem_cons_of_mem _ hy)) x hxo

theorem r1F_tidy : ∀ (f : Nat) (prev : Option Char) (s : Str),
    (∀ x ∈ s, isWsC x = true → x = ' ') → List.Chain' noWW s →
    (∀ x ∈ r1F f prev s, isWsC x = true → x = ' ') ∧
    List.Chain' noWW (r1F f prev s) ∧
    (r1F f prev s).head? = s.head? ∧
    ((∀ x, s.getLast? = some x → isWsC x = false) →
      ∀ x, (r1F f prev s).getLast? = some x → isWsC x = false) := by
  intro f
  induction f with
  | zero =>
    intro prev s h1 h2
    cases s <;> exact ⟨h1, h2, rfl, fun h => h⟩
  | succ f ih =>
    intro prev s h1 h2
    cases s with
    | nil => exact ⟨h1, h2, rfl, fun h => h⟩
    | cons c rest =>
      by_cases hcond : (boundaryBefore prev &&
          startsWithStr (c :: rest) ['m', 'i', 'l', 'e', 's'] &&
          okAfter ((c :: rest).drop 5)) = true
      · have hsw : startsWithStr (c :: rest) ['m', 'i', 'l', 'e', 's'] = true := by
          simp only [Bool.and_eq_true] at hcond
          exact hcond.1.2
        obtain ⟨b, hb⟩ := startsWithStr_iff.mp hsw
        simp only [List.cons_append, List.nil_append] at hb
        have hdrop : (c :: rest).drop 5 = b := by
          rw [hb]
          rfl
        have hstep : r1F (f + 1) prev (c :: rest) =
            'm' :: 'i' :: 'l' :: 'e' :: r1F f (some 's') b := by
          rw [r1F, if_pos hcond, hdrop]
        rw [hstep]
        have hb_ws : ∀ x ∈ b, isWsC x = true → x = ' ' := by
          intro x hx
          exact h1 x (by rw [hb]; simp [hx])
        have hb_ch : List.Chain' noWW b := by
          rw [hb] at h2
          have h3 := (List.chain'_cons'.mp h2).2
          have h4 := (List.chain'_cons'.mp h3).2
          have h5 := (List.chain'_cons'.mp h4).2
          have h6 := (List.chain'_cons'.mp h5).2
          exact (List.chain'_cons'.mp h6).2
        obtain ⟨ihws, ihch, ihhead, ihlast⟩ := ih (some 's') b hb_ws hb_ch
        refine ⟨?_, ?_, ?_, ?_⟩
        · intro x hx hws
          rcases List.mem_cons.mp hx with rfl | hx1
          · exact absurd hws (by decide)
          · rcases List.mem_cons.mp hx1 with rfl | hx2
            · exact absurd hws (by decide)
            · rcases List.mem_cons.mp hx2 with rfl | hx3
              · exact absurd hws (by decide)
              · rcases List.mem_cons.mp hx3 with rfl | hx4
                · exact absurd hws (by decide)
                · exact ihws x hx4 hws
        · rw [List.chain'_cons']
          refine ⟨fun y _ => Or.inl (by decide), ?_⟩
          rw [List.chain'_cons']
          refine ⟨fun y _ => Or.inl (by decide), ?_⟩
          rw [List.chain'_cons']
          refine ⟨fun y _ => Or.inl (by decide), ?_⟩
          rw [List.chain'_cons']
          exact ⟨fun y _ => Or.inl (by decide), ihch⟩
        · rw [hb]
          rfl
        · intro hlast_s x hx
          cases b with
          | nil =>
            rw [r1F_nil] at hx
            rw [getLast?_cons_ne (by simp), getLast?_cons_ne (by simp),
              getLast?_cons_ne (by simp)] at hx
            injection hx with hx2
            rw [← hx2]
            decide
          | cons b0 b1 =>
            obtain ⟨t', ht'⟩ := r1F_head f (some 's') b0 b1
            rw [ht', getLast?_cons_ne (by simp), getLast?_cons_ne (by simp),
              getLast?_cons_ne (by simp), getLast?_cons_ne (by simp)] at hx
            have hlast_b : ∀ y, (b0 :: b1).getLast? = some y →
                isWsC y = false := by
              intro y hy
              apply hlast_s
              rw [hb, getLast?_cons_ne (by simp), getLast?_cons_ne (by simp),
                getLast?_cons_ne (by simp), getLast?_cons_ne (by simp),
                getLast?_cons_ne (by simp)]
              exact hy
            exact ihlast hlast_b x (by rw [ht']; exact hx)
      · have hstep : r1F (f + 1) prev (c :: rest) =
            c :: r1F f (some c) rest := by
          rw [r1F, if_neg hcond]
        rw [hstep]
        obtain ⟨ihws, ihch, ihhead, ihlast⟩ := ih (some c) rest
          (fun x hx => h1 x (List.mem_cons_of_mem _ hx))
          (List.chain'_cons'.mp h2).2
        refine ⟨?_, ?_, rfl, ?_⟩
        · intro x hx hws
          rcases List.mem_cons.mp hx with rfl | hxo
          · exact h1 x (List.mem_cons_self _ _) hws
          · exact ihws x hxo hws
        · rw [List.chain'_cons']
          refine ⟨?_, ihch⟩
          intro y hy
          rw [Option.mem_def, ihhead] at hy
          exact (List.chain'_cons'.mp h2).1 y (Option.mem_def.mpr hy)
        · intro hlast_s x hx
          cases rest with
          | nil =>
            rw [r1F_nil] at hx
            exact hlast_s x hx
          | cons r0 r1 =>
            obtain ⟨t', ht'⟩ := r1F_head f (some c) r0 r1
            rw [ht', getLast?_cons_ne (by simp)] at hx
            have hlast_rest : ∀ y, (r0 :: r1).getLast? = some y →
                isWsC y = false := by
              intro y hy
              apply hlast_s
              rw [getLast?_cons_ne (by simp)]
              exact hy
            exact ihlast hlast_rest x (by rw [ht']; exact hx)

theorem r1F_lower : ∀ (f : Nat) (prev : Option Char) (s : Str),
    noUpper s → noUpper (r1F f prev s) := by
  intro f
  induction f with
  | zero =>
    intro prev s h
    cases s <;> exact h
  | succ f ih =>
    intro prev s h
    cases s with
    | nil => exact h
    | cons c rest =>
      by_cases hcond : (boundaryBefore prev &&
          startsWithStr (c :: rest) ['m', 'i', 'l', 'e', 's'] &&
          okAfter ((c :: rest).drop 5)) = true
      · have hstep : r1F (f + 1) prev (c :: rest) =
            'm' :: 'i' :: 'l' :: 'e' ::
              r1F f (some 's') ((c :: rest).drop 5) := by
          rw [r1F, if_pos hcond]
        rw [hstep]
        intro x hx
        rcases List.mem_cons.mp hx with rfl | hx1
        · decide
        · rcases List.mem_cons.mp hx1 with rfl | hx2
          · decide
          · rcases List.mem_cons.mp hx2 with rfl | hx3
            · decide
            · rcases List.mem_cons.mp hx3 with rfl | hx4
              · decide
              · exact ih (some 's') _
                  (fun y hy => h y (List.mem_of_mem_drop hy)) x hx4
      · have hstep : r1F (f + 1) prev (c :: rest) =
            c :: r1F f (some c) rest := by
          rw [r1F, if_neg hcond]
        rw [hstep]
        intro x hx
        rcases List.mem_cons.mp hx with rfl | hxo
        · exact h x (List.mem_cons_self _ _)
        · exact ih (some c) rest
            (fun y hy => h y (List.mem_cons_of_mem _ hy)) x hxo

theorem isMileMod_head {s : Str} (h : isMileMod s = true) :
    ∃ r, s = 'm' :: 'i' :: 'l' :: 'e' :: r := by
  unfold isMileMod at h
  split at h
  · rename_i r
    exact ⟨r, rfl⟩
  · exact absurd h (by decide)

theorem tidy_one_cons {s : Str} (h : tidy s) {r : Str} (hs : s = 'm' :: r) :
    tidy ('1' :: s) := by
  obtain ⟨h1, h2, h3, h4⟩ := h
  refine ⟨?_, ?_, ?_, ?_⟩
  · intro c hc hws
    rcases List.mem_cons.mp hc with rfl | hc2
    · exact absurd hws (by decide)
    · exact h1 c hc2 hws
  · rw [List.chain'_cons']
    exact ⟨fun y _ => Or.inl (by decide), h2⟩
  · intro c hc
    rw [List.head?_cons] at hc
    injection hc with hc2
    rw [← hc2]
    decide
  · intro c hc
    rw [getLast?_cons_ne (by rw [hs]; simp)] at hc
    exact h4 c hc

theorem mileAdjust_tidy {s : Str} (h : tidy s) : tidy (mileAdjust s) := by
  unfold mileAdjust
  by_cases h1 : s = "mile".toList
  · rw [if_pos h1]
    exact tidy_one_cons h (by rw [h1]; rfl)
  · rw [if_neg h1]
    by_cases h2 : isMileMod s = true
    · rw [if_pos h2]
      obtain ⟨r, hr⟩ := isMileMod_head h2
      exact tidy_one_cons h hr
    · rw [if_neg h2]
      exact h

theorem mileAdjust_lower {s : Str} (h : noUpper s) :
    noUpper (mileAdjust s) := by
  unfold mileAdjust
  by_cases h1 : s = "mile".toList
  · rw [if_pos h1]
    intro c hc
    rcases List.mem_cons.mp hc with rfl | hc2
    · decide
    · exact h c hc2
  · rw [if_neg h1]
    by_cases h2 : isMileMod s = true
    · rw [if_pos h2]
      intro c hc
      rcases List.mem_cons.mp hc with rfl | hc2
      · decide
      · exact h c hc2
    · rw [if_neg h2]
      exact h

theorem replaceMiles_tidy {s : Str} (h : tidy s) : tidy (replaceMiles s) := by
  unfold replaceMiles
  obtain ⟨h1, h2, h3, h4⟩ := h
  obtain ⟨o1, o2, o3, o4⟩ := r1F_tidy s.length none s h1 h2
  refine ⟨o1, o2, ?_, o4 h4⟩
  intro c hc
  rw [o3] at hc
  exact h3 c hc

theorem replaceMiles_lower {s : Str} (h : noUpper s) :
    noUpper (replaceMiles s) :=
  r1F_lower s.length none s h

theorem joinUnits_tidy {s : Str} (h : tidy s) : tidy (joinUnits s) := by
  unfold joinUnits
  obtain ⟨h1, h2, h3, h4⟩ := h
  obtain ⟨o1, o2, o3, o4⟩ := scan_tidy match3At match3At_con
    (fun _ _ _ _ hx => ⟨match3At_em_head hx,
      (emNoS_facts (em3_chars hx)).1,
      (emNoS_facts (em3_chars hx)).2.1,
      (emNoS_facts (em3_chars hx)).2.2.1⟩)
    s.length s le_rfl h1 h2
  refine ⟨o1, o2, ?_, o4 h4⟩
  intro c hc
  rw [o3] at hc
  exact h3 c hc

theorem attachMod_tidy {s : Str} (h : tidy s) : tidy (attachMod s) := by
  unfold attachMod
  obtain ⟨h1, h2, h3, h4⟩ := h
  obtain ⟨o1, o2, o3, o4⟩ := scan_tidy match4At match4At_con
    (fun _ _ _ _ hx => by
      obtain ⟨P, md, hsp, hP, hmd⟩ := em4_struct hx
      exact ⟨match4At_em_head hx, (emPmd_facts hsp hP hmd).1,
        (emPmd_facts hsp hP hmd).2.1, (emPmd_facts hsp hP hmd).2.2.1⟩)
    s.length s le_rfl h1 h2
  refine ⟨o1, o2, ?_, o4 h4⟩
  intro c hc
  rw [o3] at hc
  exact h3 c hc

theorem relayMod_tidy {s : Str} (h : tidy s) : tidy (relayMod s) := by
  unfold relayMod
  obtain ⟨h1, h2, h3, h4⟩ := h
  obtain ⟨o1, o2, o3, o4⟩ := scan_tidy match5At match5At_con
    (fun _ _ _ _ hx => by
      obtain ⟨P, md, hsp, hP, hmd⟩ := em5_struct hx
      exact ⟨match5At_em_head hx, (emPmd_facts hsp hP hmd).1,
        (emPmd_facts hsp hP hmd).2.1, (emPmd_facts hsp hP hmd).2.2.1⟩)
    s.length s le_rfl h1 h2
  refine ⟨o1, o2, ?_, o4 h4⟩
  intro c hc
  rw [o3] at hc
  exact h3 c hc

theorem joinUnits_lower {s : Str} (h : noUpper s) : noUpper (joinUnits s) :=
  scan_lower match3At match3At_con
    (fun _ _ _ _ hx x hxx => (em3_chars hx x hxx).2.2)
    s.length s le_rfl h

theorem attachMod_lower {s : Str} (h : noUpper s) : noUpper (attachMod s) :=
  scan_lower match4At match4At_con
    (fun _ _ _ _ hx => by
      obtain ⟨P, md, hsp, hP, hmd⟩ := em4_struct hx
      exact (emPmd_facts hsp hP hmd).2.2.2.1)
    s.length s le_rfl h

theorem relayMod_lower {s : Str} (h : noUpper s) : noUpper (relayMod s) :=
  scan_lower match5At match5At_con
    (fun _ _ _ _ hx => by
      obtain ⟨P, md, hsp, hP, hmd⟩ := em5_struct hx
      exact (emPmd_facts hsp hP hmd).2.2.2.1)
    s.length s le_rfl h

/-! ### Fixed points of the individual stages, and acceptance shapes -/

theorem joinUnits_id {s : Str} (h : NoM match3At s) : joinUnits s = s :=
  scanF_id match3At s.length s h

theorem attachMod_id {s : Str} (h : NoM match4At s) : attachMod s = s :=
  scanF_id match4At s.length s h

theorem relayMod_id {s : Str} (h : NoM match5At s) : relayMod s = s :=
  scanF_id match5At s.length s h

theorem mileAdjust_id {s : Str} (h1 : ¬(s = "mile".toList))
    (h2 : isMileMod s = false) : mileAdjust s = s := by
  unfold mileAdjust
  rw [if_neg h1, if_neg (by rw [h2]; exact Bool.false_ne_true)]

theorem normalizeEventName_eq (s : Str) (hs : s.isEmpty = false) :
    normalizeEventName s =
      if isCommaWalk (collapseWs (trimStr s)) then
        some (replaceMwEnd (collapseWs (trimStr s)))
      else if relayTest (relayMod (attachMod (joinUnits (mileAdjust
          (replaceMiles (lowerStr (collapseWs (trimStr s)))))))) then
        some (relayMod (attachMod (joinUnits (mileAdjust
          (replaceMiles (lowerStr (collapseWs (trimStr s))))))))
      else if validationTest (relayMod (attachMod (joinUnits (mileAdjust
          (replaceMiles (lowerStr (collapseWs (trimStr s)))))))) then
        some (relayMod (attachMod (joinUnits (mileAdjust
          (replaceMiles (lowerStr (collapseWs (trimStr s))))))))
      else if hmTest (relayMod (attachMod (joinUnits (mileAdjust
          (replaceMiles (lowerStr (collapseWs (trimStr s)))))))) then
        some (relayMod (attachMod (joinUnits (mileAdjust
          (replaceMiles (lowerStr (collapseWs (trimStr s))))))))
      else if fieldTest (relayMod (attachMod (joinUnits (mileAdjust
          (replaceMiles (lowerStr (collapseWs (trimStr s)))))))) then
        some (relayMod (attachMod (joinUnits (mileAdjust
          (replaceMiles (lowerStr (collapseWs (trimStr s))))))))
      else if combinedTest (relayMod (attachMod (joinUnits (mileAdjust
          (replaceMiles (lowerStr (collapseWs (trimStr s)))))))) then
        some (removeDots (relayMod (attachMod (joinUnits (mileAdjust
          (replaceMiles (lowerStr (collapseWs (trimStr s)))))))))
      else
        none := by
  unfold normalizeEventName
  rw [if_neg (by rw [hs]; exact Bool.false_ne_true)]

theorem relayTest_shape {k : Str} (h : relayTest k = true) :
    ∃ d r, k = '4' :: 'x' :: (d :: r) ∧ isDigitC d = true := by
  unfold relayTest at h
  split at h
  · rename_i r
    by_cases hds : (r.takeWhile isDigitC).isEmpty = true
    · rw [if_pos hds] at h
      cases h
    · cases r with
      | nil => exact absurd rfl hds
      | cons d r2 =>
        cases hd : isDigitC d with
        | false =>
          rw [List.takeWhile_cons_of_neg (by simp [hd])] at hds
          exact absurd rfl hds
        | true => exact ⟨d, r2, rfl, hd⟩
  · cases h

theorem alt1_nodigit {c : Char} {t : Str} (h : isDigitC c = false) :
    alt1Test (c :: t) = false := by
  unfold alt1Test
  rw [List.takeWhile_cons_of_neg (by simp [h])]
  rfl

theorem alt2_nodigit {c : Char} {t : Str} (h : isDigitC c = false) :
    alt2Test (c :: t) = false := by
  unfold alt2Test
  rw [List.takeWhile_cons_of_neg (by simp [h])]
  rfl

theorem alt3_nodigit {c : Char} {t : Str} (h : isDigitC c = false) :
    alt3Test (c :: t) = false := by
  unfold alt3Test
  rw [List.takeWhile_cons_of_neg (by simp [h])]
  rfl

theorem alt1_drop_comma {k t : Str}
    (hne : (k.takeWhile isDigitC).isEmpty = false)
    (hdw : k.dropWhile isDigitC = ',' :: t) : alt1Test k = false := by
  unfold alt1Test
  rw [if_neg (by rw [hne]; exact Bool.false_ne_true), hdw]
  rfl

theorem alt2_drop_comma {k t : Str}
    (hne : (k.takeWhile isDigitC).isEmpty = false)
    (hdw : k.dropWhile isDigitC = ',' :: t) : alt2Test k = false := by
  unfold alt2Test
  rw [if_neg (by rw [hne]; exact Bool.false_ne_true), hdw]
  rfl

theorem alt3_drop_comma {k t : Str}
    (hne : (k.takeWhile isDigitC).isEmpty = false)
    (hdw : k.dropWhile isDigitC = ',' :: t) : alt3Test k = false := by
  unfold alt3Test
  rw [if_neg (by rw [hne]; exact Bool.false_ne_true), hdw]
  rfl

theorem not_contains_marathon {k : Str} (h : ¬(('a' : Char) ∈ k)) :
    containsStr k "marathon".toList = false := by
  cases hc : containsStr k "marathon".toList with
  | false => rfl
  | true =>
    exfalso
    obtain ⟨A, B, hAB⟩ := containsStr_iff.mp hc
    exact h (by
      rw [hAB]
      exact List.mem_append_left _ (List.mem_append_right _ (by decide)))

theorem not_contains_walk {k : Str} (h : ¬(('k' : Char) ∈ k)) :
    containsStr k "walk".toList = false := by
  cases hc : containsStr k "walk".toList with
  | false => rfl
  | true =>
    exfalso
    obtain ⟨A, B, hAB⟩ := containsStr_iff.mp hc
    exact h (by
      rw [hAB]
      exact List.mem_append_left _ (List.mem_append_right _ (by decide)))

theorem isMileMod_shape {s : Str} (h : isMileMod s = true) :
    ∃ W md, s = 'm' :: 'i' :: 'l' :: 'e' :: (W ++ md) ∧ W ≠ [] ∧
      (∀ c ∈ W, isWsC c = true) ∧
      (md = ['h'] ∨ md = ['s', 'h'] ∨ md = ['s', 'c'] ∨ md = ['w']) := by
  obtain ⟨r, rfl⟩ := isMileMod_head h
  simp only [isMileMod] at h
  by_cases hws : (r.takeWhile isWsC).isEmpty = true
  · rw [if_pos hws] at h
    cases h
  · rw [if_neg hws] at h
    have hWne : r.takeWhile isWsC ≠ [] := by
      intro hW
      exact hws (by rw [hW]; rfl)
    have hWws : ∀ c ∈ r.takeWhile isWsC, isWsC c = true := by
      intro c hc
      exact List.mem_takeWhile_imp hc
    split at h
    · rename_i heq
      exact ⟨r.takeWhile isWsC, ['h'],
        by rw [← heq, List.takeWhile_append_dropWhile],
        hWne, hWws, Or.inl rfl⟩
    · rename_i heq
      exact ⟨r.takeWhile isWsC, ['s', 'h'],
        by rw [← heq, List.takeWhile_append_dropWhile],
        hWne, hWws, Or.inr (Or.inl rfl)⟩
    · rename_i heq
      exact ⟨r.takeWhile isWsC, ['s', 'c'],
        by rw [← heq, List.takeWhile_append_dropWhile],
        hWne, hWws, Or.inr (Or.inr (Or.inl rfl))⟩
    · rename_i heq
      exact ⟨r.takeWhile isWsC, ['w'],
        by rw [← heq, List.takeWhile_append_dropWhile],
        hWne, hWws, Or.inr (Or.inr (Or.inr rfl))⟩
    · cases h

theorem isCommaWalk_shape {k : Str} (h : isCommaWalk k = true) :
    (∃ a b c d m w, k = [a, ',', b, c, d, m, w] ∧ isDigitC a = true ∧
      isDigitC b = true ∧ isDigitC c = true ∧ isDigitC d = true ∧
      (m = 'm' ∨ m = 'M') ∧ (w = 'w' ∨ w = 'W')) ∨
    (∃ a1 a2 b c d m w, k = [a1, a2, ',', b, c, d, m, w] ∧
      isDigitC a1 = true ∧ isDigitC a2 = true ∧ isDigitC b = true ∧
      isDigitC c = true ∧ isDigitC d = true ∧
      (m = 'm' ∨ m = 'M') ∧ (w = 'w' ∨ w = 'W')) := by
  unfold isCommaWalk at h
  split at h
  · rename_i a b c d m w
    simp only [Bool.and_eq_true, Bool.or_eq_true, decide_eq_true_eq] at h
    obtain ⟨⟨⟨⟨⟨h1, h2⟩, h3⟩, h4⟩, h5⟩, h6⟩ := h
    exact Or.inl ⟨a, b, c, d, m, w, rfl, h1, h2, h3, h4, h5, h6⟩
  · rename_i a1 a2 b c d m w
    simp only [Bool.and_eq_true, Bool.or_eq_true, decide_eq_true_eq] at h
    obtain ⟨⟨⟨⟨⟨⟨h1, h2⟩, h3⟩, h4⟩, h5⟩, h6⟩, h7⟩ := h
    exact Or.inr ⟨a1, a2, b, c, d, m, w, rfl, h1, h2, h3, h4, h5, h6, h7⟩
  · cases h

theorem acc_not_cw {k : Str}
    (hacc : relayTest k = true ∨ validationTest k = true) :
    isCommaWalk k = false := by
  cases hcw : isCommaWalk k with
  | false => rfl
  | true =>
    exfalso
    rcases isCommaWalk_shape hcw with
      ⟨a, b, c, d, m, w, rfl, hda, hdb, hdc, hdd, hm, hw⟩ |
      ⟨a1, a2, b, c, d, m, w, rfl, hda1, hda2, hdb, hdc, hdd, hm, hw⟩
    · have hnoa : ¬(('a' : Char) ∈ [a, ',', b, c, d, m, w]) := by
        intro hmem
        simp only [List.mem_cons, List.not_mem_nil, or_false] at hmem
        rcases hmem with h1 | h1 | h1 | h1 | h1 | h1 | h1
        · rw [← h1] at hda
          exact absurd hda (by decide)
        · exact absurd h1 (by decide)
        · rw [← h1] at hdb
          exact absurd hdb (by decide)
        · rw [← h1] at hdc
          exact absurd hdc (by decide)
        · rw [← h1] at hdd
          exact absurd hdd (by decide)
        · rw [← h1] at hm
          rcases hm with h2 | h2 <;> exact absurd h2 (by decide)
        · rw [← h1] at hw
          rcases hw with h2 | h2 <;> exact absurd h2 (by decide)
      have hnok : ¬(('k' : Char) ∈ [a, ',', b, c, d, m, w]) := by
        intro hmem
        simp only [List.mem_cons, List.not_mem_nil, or_false] at hmem
        rcases hmem with h1 | h1 | h1 | h1 | h1 | h1 | h1
        · rw [← h1] at hda
          exact absurd hda (by decide)
        · exact absurd h1 (by decide)
        · rw [← h1] at hdb
          exact absurd hdb (by decide)
        · rw [← h1] at hdc
          exact absurd hdc (by decide)
        · rw [← h1] at hdd
          exact absurd hdd (by decide)
        · rw [← h1] at hm
          rcases hm with h2 | h2 <;> exact absurd h2 (by decide)
        · rw [← h1] at hw
          rcases hw with h2 | h2 <;> exact absurd h2 (by decide)
      rcases hacc with hr | hv
      · obtain ⟨dd, rr, hk, hdd2⟩ := relayTest_shape hr
        injection hk with h1 h2
        injection h2 with h3 _
        exact absurd h3 (by decide)
      · have htw : List.takeWhile isDigitC [a, ',', b, c, d, m, w] = [a] := by
          rw [List.takeWhile_cons_of_pos hda,
            List.takeWhile_cons_of_neg (by decide)]
        have hdw : List.dropWhile isDigitC [a, ',', b, c, d, m, w] =
            ',' :: [b, c, d, m, w] := by
          rw [List.dropWhile_cons_of_pos hda,
            List.dropWhile_cons_of_neg (by decide)]
        have hne2 :
            (List.takeWhile isDigitC [a, ',', b, c, d, m, w]).isEmpty =
              false := by
          rw [htw]
          rfl
        simp only [validationTest, Bool.or_eq_true] at hv
        rcases hv with (((h1 | h1) | h1) | h1) | h1
        · exact absurd h1
            (by rw [alt1_drop_comma hne2 hdw]; exact Bool.false_ne_true)
        · exact absurd h1
            (by rw [alt2_drop_comma hne2 hdw]; exact Bool.false_ne_true)
        · exact absurd h1
            (by rw [alt3_drop_comma hne2 hdw]; exact Bool.false_ne_true)
        · exact absurd h1
            (by rw [not_contains_marathon hnoa]; exact Bool.false_ne_true)
        · exact absurd h1
            (by rw [not_contains_walk hnok]; exact Bool.false_ne_true)
    · have hnoa : ¬(('a' : Char) ∈ [a1, a2, ',', b, c, d, m, w]) := by
        intro hmem
        simp only [List.mem_cons, List.not_mem_nil, or_false] at hmem
        rcases hmem with h1 | h1 | h1 | h1 | h1 | h1 | h1 | h1
        · rw [← h1] at hda1
          exact absurd hda1 (by decide)
        · rw [← h1] at hda2
          exact absurd hda2 (by decide)
        · exact absurd h1 (by decide)
        · rw [← h1] at hdb
          exact absurd hdb (by decide)
        · rw [← h1] at hdc
          exact absurd hdc (by decide)
        · rw [← h1] at hdd
          exact absurd hdd (by decide)
        · rw [← h1] at hm
          rcases hm with h2 | h2 <;> exact absurd h2 (by decide)
        · rw [← h1] at hw
          rcases hw with h2 | h2 <;> exact absurd h2 (by decide)
      have hnok : ¬(('k' : Char) ∈ [a1, a2, ',', b, c, d, m, w]) := by
        intro hmem
        simp only [List.mem_cons, List.not_mem_nil, or_false] at hmem
        rcases hmem with h1 | h1 | h1 | h1 | h1 | h1 | h1 | h1
        · rw [← h1] at hda1
          exact absurd hda1 (by decide)
        · rw [← h1] at hda2
          exact absurd hda2 (by decide)
        · exact absurd h1 (by decide)
        · rw [← h1] at hdb
          exact absurd hdb (by decide)
        · rw [← h1] at hdc
          exact absurd hdc (by decide)
        · rw [← h1] at hdd
          exact absurd hdd (by decide)
        · rw [← h1] at hm
          rcases hm with h2 | h2 <;> exact absurd h2 (by decide)
        · rw [← h1] at hw
          rcases hw with h2 | h2 <;> exact absurd h2 (by decide)
      rcases hacc with hr | hv
      · obtain ⟨dd, rr, hk, hdd2⟩ := relayTest_shape hr
        injection hk with h1 h2
        injection h2 with h3 h4
        injection h4 with h5 _
        rw [← h5] at hdd2
        exact absurd hdd2 (by decide)
      · have htw : List.takeWhile isDigitC [a1, a2, ',', b, c, d, m, w] =
            [a1, a2] := by
          rw [List.takeWhile_cons_of_pos hda1,
            List.takeWhile_cons_of_pos hda2,
            List.takeWhile_cons_of_neg (by decide)]
        have hdw : List.dropWhile isDigitC [a1, a2, ',', b, c, d, m, w] =
            ',' :: [b, c, d, m, w] := by
          rw [List.dropWhile_cons_of_pos hda1,
            List.dropWhile_cons_of_pos hda2,
            List.dropWhile_cons_of_neg (by decide)]
        have hne2 :
            (List.takeWhile isDigitC [a1, a2, ',', b, c, d, m, w]).isEmpty =
              false := by
          rw [htw]
          rfl
        simp only [validationTest, Bool.or_eq_true] at hv
        rcases hv with (((h1 | h1) | h1) | h1) | h1
        · exact absurd h1
            (by rw [alt1_drop_comma hne2 hdw]; exact Bool.false_ne_true)
        · exact absurd h1
            (by rw [alt2_drop_comma hne2 hdw]; exact Bool.false_ne_true)
        · exact absurd h1
            (by rw [alt3_drop_comma hne2 hdw]; exact Bool.false_ne_true)
        · exact absurd h1
            (by rw [not_contains_marathon hnoa]; exact Bool.false_ne_true)
        · exact absurd h1
            (by rw [not_contains_walk hnok]; exact Bool.false_ne_true)

theorem acc_not_mileMod {k : Str}
    (hacc : relayTest k = true ∨ validationTest k = true) :
    isMileMod k = false := by
  cases hmm2 : isMileMod k with
  | false => rfl
  | true =>
    exfalso
    obtain ⟨W, md, hk, hWne, hWws, hmd⟩ := isMileMod_shape hmm2
    subst hk
    rcases hacc with hr | hv
    · obtain ⟨dd, rr, hk2, _⟩ := relayTest_shape hr
      injection hk2 with h1 _
      exact absurd h1 (by decide)
    · have hnoa :
          ¬(('a' : Char) ∈ 'm' :: 'i' :: 'l' :: 'e' :: (W ++ md)) := by
        intro hmem
        simp only [List.mem_cons, List.mem_append] at hmem
        rcases hmem with h1 | h1 | h1 | h1 | h1 | h1
        · exact absurd h1 (by decide)
        · exact absurd h1 (by decide)
        · exact absurd h1 (by decide)
        · exact absurd h1 (by decide)
        · exact absurd (hWws 'a' h1) (by decide)
        · rcases hmd with rfl | rfl | rfl | rfl <;>
            exact absurd h1 (by decide)
      have hnok :
          ¬(('k' : Char) ∈ 'm' :: 'i' :: 'l' :: 'e' :: (W ++ md)) := by
        intro hmem
        simp only [List.mem_cons, List.mem_append] at hmem
        rcases hmem with h1 | h1 | h1 | h1 | h1 | h1
        · exact absurd h1 (by decide)
        · exact absurd h1 (by decide)
        · exact absurd h1 (by decide)
        · exact absurd h1 (by decide)
        · exact absurd (hWws 'k' h1) (by decide)
        · rcases hmd with rfl | rfl | rfl | rfl <;>
            exact absurd h1 (by decide)
      simp only [validationTest, Bool.or_eq_true] at hv
      rcases hv with (((h1 | h1) | h1) | h1) | h1
      · exact absurd h1
          (by rw [alt1_nodigit (by decide)]; exact Bool.false_ne_true)
      · exact absurd h1
          (by rw [alt2_nodigit (by decide)]; exact Bool.false_ne_true)
      · exact absurd h1
          (by rw [alt3_nodigit (by decide)]; exact Bool.false_ne_true)
      · exact absurd h1
          (by rw [not_contains_marathon hnoa]; exact Bool.false_ne_true)
      · exact absurd h1
          (by rw [not_contains_walk hnok]; exact Bool.false_ne_true)

/-- A tidy, lower-case, residual-free string accepted by the relay or
validation test is a fixed point of the whole normaliser. -/
theorem main_fix {k : Str} (htidy : tidy k) (hlow : noUpper k)
    (hctx : CtxNoMiles none k) (h3 : NoM match3At k) (h4 : NoM match4At k)
    (h5 : NoM match5At k)
    (hacc : relayTest k = true ∨ validationTest k = true) :
    normalizeEventName k = some k := by
  have hne : k.isEmpty = false := by
    cases k with
    | nil =>
      exfalso
      rcases hacc with h | h <;> exact absurd h (by decide)
    | cons _ _ => rfl
  have hmile : ¬(k = "mile".toList) := by
    intro hk
    rw [hk] at hacc
    rcases hacc with h | h <;> exact absurd h (by decide)
  rw [normalizeEventName_eq k hne, tidy_fix htidy, lowerStr_id hlow,
    replaceMiles_id hctx, mileAdjust_id hmile (acc_not_mileMod hacc),
    joinUnits_id h3, attachMod_id h4, relayMod_id h5,
    if_neg (by rw [acc_not_cw hacc]; exact Bool.false_ne_true)]
  by_cases hr : relayTest k = true
  · rw [if_pos hr]
  · rw [if_neg hr]
    have hv : validationTest k = true := by
      rcases hacc with h | h
      · exact absurd h hr
      · exact h
    rw [if_pos hv]

theorem tidy_of_nows {l : Str} (h : ∀ x ∈ l, isWsC x = false) : tidy l :=
  ⟨fun c hc hws => absurd hws (by rw [h c hc]; exact Bool.false_ne_true),
   chain_nows l h,
   fun c hc => h c (List.mem_of_mem_head? (Option.mem_def.mpr hc)),
   fun c hc => h c (getLast?_mem_self hc)⟩

/-- The comma-grouped walk branch returns a fixed point of the whole
normaliser. -/
theorem comma_fix {n0 : Str} (h : isCommaWalk n0 = true) :
    normalizeEventName (replaceMwEnd n0) = some (replaceMwEnd n0) := by
  rcases isCommaWalk_shape h with
    ⟨a, b, c, d, m, w, rfl, hda, hdb, hdc, hdd, hm, hw⟩ |
    ⟨a1, a2, b, c, d, m, w, rfl, hda1, hda2, hdb, hdc, hdd, hm, hw⟩
  · have hrw : replaceMwEnd [a, ',', b, c, d, m, w] =
        [a, ',', b, c, d, 'm', 'W'] := by
      rcases hm with rfl | rfl <;> rcases hw with rfl | rfl <;> rfl
    rw [hrw]
    have hnws : ∀ x ∈ ([a, ',', b, c, d, 'm', 'W'] : Str),
        isWsC x = false := by
      intro x hx
      simp only [List.mem_cons, List.not_mem_nil, or_false] at hx
      rcases hx with rfl | rfl | rfl | rfl | rfl | rfl | rfl
      · exact digit_not_ws _ hda
      · decide
      · exact digit_not_ws _ hdb
      · exact digit_not_ws _ hdc
      · exact digit_not_ws _ hdd
      · decide
      · decide
    have htidy : tidy [a, ',', b, c, d, 'm', 'W'] := tidy_of_nows hnws
    rw [normalizeEventName_eq [a, ',', b, c, d, 'm', 'W'] (by rfl),
      tidy_fix htidy]
    have hcw2 : isCommaWalk [a, ',', b, c, d, 'm', 'W'] = true := by
      simp only [isCommaWalk]
      rw [hda, hdb, hdc, hdd]
      decide
    rw [if_pos hcw2]
    rfl
  · have hrw : replaceMwEnd [a1, a2, ',', b, c, d, m, w] =
        [a1, a2, ',', b, c, d, 'm', 'W'] := by
      rcases hm with rfl | rfl <;> rcases hw with rfl | rfl <;> rfl
    rw [hrw]
    have hnws : ∀ x ∈ ([a1, a2, ',', b, c, d, 'm', 'W'] : Str),
        isWsC x = false := by
      intro x hx
      simp only [List.mem_cons, List.not_mem_nil, or_false] at hx
      rcases hx with rfl | rfl | rfl | rfl | rfl | rfl | rfl | rfl
      · exact digit_not_ws _ hda1
      · exact digit_not_ws _ hda2
      · decide
      · exact digit_not_ws _ hdb
      · exact digit_not_ws _ hdc
      · exact digit_not_ws _ hdd
      · decide
      · decide
    have htidy : tidy [a1, a2, ',', b, c, d, 'm', 'W'] := tidy_of_nows hnws
    rw [normalizeEventName_eq [a1, a2, ',', b, c, d, 'm', 'W'] (by rfl),
      tidy_fix htidy]
    have hcw2 : isCommaWalk [a1, a2, ',', b, c, d, 'm', 'W'] = true := by
      simp only [isCommaWalk]
      rw [hda1, hda2, hdb, hdc, hdd]
      decide
    rw [if_pos hcw2]
    rfl

theorem shTail_enum {r2 : Str} (h : shTail r2 = true)
    (hws : ∀ x ∈ r2, isWsC x = true → x = ' ')
    (hch : List.Chain' noWW r2) :
    r2 = ['s', 'h'] ∨ r2 = [' ', 's', 'h'] := by
  unfold shTail at h
  split at h
  · rename_i heq
    have hr2 : r2 = r2.takeWhile isWsC ++ ['s', 'h'] := by
      rw [← heq]
      exact (List.takeWhile_append_dropWhile isWsC r2).symm
    cases hWc : r2.takeWhile isWsC with
    | nil =>
      left
      rw [hr2, hWc]
      rfl
    | cons x W2 =>
      have hxws : isWsC x = true :=
        List.mem_takeWhile_imp (by rw [hWc]; exact List.mem_cons_self _ _)
      have hxsp : x = ' ' := hws x
        (by
          rw [hr2, hWc]
          exact List.mem_append_left _ (List.mem_cons_self _ _)) hxws
      cases W2 with
      | nil =>
        right
        rw [hr2, hWc, hxsp]
        rfl
      | cons y W3 =>
        exfalso
        have hyws : isWsC y = true :=
          List.mem_takeWhile_imp
            (by rw [hWc]; exact List.mem_cons_of_mem _ (List.mem_cons_self _ _))
        have hshape : r2 = x :: y :: (W3 ++ ['s', 'h']) := by
          rw [hr2, hWc]
          rfl
        rw [hshape] at hch
        have hno := (List.chain'_cons'.mp hch).1 y rfl
        rcases hno with h5 | h5
        · rw [hxws] at h5
          cases h5
        · rw [hyws] at h5
          cases h5
  · cases h

theorem heptTail_enum {r : Str} (h : heptPentTail r = true)
    (hws : ∀ x ∈ r, isWsC x = true → x = ' ')
    (hch : List.Chain' noWW r) :
    r = [] ∨ r = ['.'] ∨ r = ['s', 'h'] ∨ r = [' ', 's', 'h'] ∨
    r = ['.', 's', 'h'] ∨ r = ['.', ' ', 's', 'h'] := by
  unfold heptPentTail at h
  split at h
  · exact Or.inl rfl
  · rename_i r2
    simp only [Bool.or_eq_true] at h
    rcases h with h2 | h2
    · have hws2 : ∀ x ∈ r2, isWsC x = true → x = ' ' :=
        fun x hx => hws x (List.mem_cons_of_mem _ hx)
      have hch2 := (List.chain'_cons'.mp hch).2
      rcases shTail_enum h2 hws2 hch2 with rfl | rfl
      · exact Or.inr (Or.inr (Or.inr (Or.inr (Or.inl rfl))))
      · exact Or.inr (Or.inr (Or.inr (Or.inr (Or.inr rfl))))
    · have hr2 : r2 = [] := by
        cases r2 with
        | nil => rfl
        | cons _ _ => cases h2
      subst hr2
      exact Or.inr (Or.inl rfl)
  · rcases shTail_enum h hws hch with rfl | rfl
    · exact Or.inr (Or.inr (Or.inl rfl))
    · exact Or.inr (Or.inr (Or.inr (Or.inl rfl)))

theorem combined_tidy_enum {s : Str} (hc : combinedTest s = true)
    (ht : tidy s) :
    s = "hept".toList ∨ s = "hept.".toList ∨ s = "heptsh".toList ∨
    s = "hept sh".toList ∨ s = "hept.sh".toList ∨ s = "hept. sh".toList ∨
    s = "pent".toList ∨ s = "pent.".toList ∨ s = "pentsh".toList ∨
    s = "pent sh".toList ∨ s = "pent.sh".toList ∨ s = "pent. sh".toList ∨
    s = "dec".toList ∨ s = "dec.".toList ∨
    s = "decathlon".toList ∨ s = "heptathlon".toList ∨
    s = "pentathlon".toList := by
  obtain ⟨ht1, ht2, -, -⟩ := ht
  simp only [combinedTest, Bool.or_eq_true, decide_eq_true_eq] at hc
  rcases hc with ((hm | hd) | hd) | hd
  · split at hm
    · rename_i r
      have hwsr : ∀ x ∈ r, isWsC x = true → x = ' ' := by
        intro x hx
        exact ht1 x (List.mem_cons_of_mem _ (List.mem_cons_of_mem _
          (List.mem_cons_of_mem _ (List.mem_cons_of_mem _ hx))))
      have hchr : List.Chain' noWW r := by
        have c1 := (List.chain'_cons'.mp ht2).2
        have c2 := (List.chain'_cons'.mp c1).2
        have c3 := (List.chain'_cons'.mp c2).2
        exact (List.chain'_cons'.mp c3).2
      rcases heptTail_enum hm hwsr hchr with rfl | rfl | rfl | rfl | rfl | rfl
      · exact Or.inl rfl
      · exact Or.inr (Or.inl rfl)
      · exact Or.inr (Or.inr (Or.inl rfl))
      · exact Or.inr (Or.inr (Or.inr (Or.inl rfl)))
      · exact Or.inr (Or.inr (Or.inr (Or.inr (Or.inl rfl))))
      · exact Or.inr (Or.inr (Or.inr (Or.inr (Or.inr (Or.inl rfl)))))
    · rename_i r
      have hwsr : ∀ x ∈ r, isWsC x = true → x = ' ' := by
        intro x hx
        exact ht1 x (List.mem_cons_of_mem _ (List.mem_cons_of_mem _
          (List.mem_cons_of_mem _ (List.mem_cons_of_mem _ hx))))
      have hchr : List.Chain' noWW r := by
        have c1 := (List.chain'_cons'.mp ht2).2
        have c2 := (List.chain'_cons'.mp c1).2
        have c3 := (List.chain'_cons'.mp c2).2
        exact (List.chain'_cons'.mp c3).2
      rcases heptTail_enum hm hwsr hchr with rfl | rfl | rfl | rfl | rfl | rfl
      · exact Or.inr (Or.inr (Or.inr (Or.inr (Or.inr (Or.inr (Or.inl rfl))))))
      · exact Or.inr (Or.inr (Or.inr (Or.inr (Or.inr (Or.inr (Or.inr
          (Or.inl rfl)))))))
      · exact Or.inr (Or.inr (Or.inr (Or.inr (Or.inr (Or.inr (Or.inr
          (Or.inr (Or.inl rfl))))))))
      · exact Or.inr (Or.inr (Or.inr (Or.inr (Or.inr (Or.inr (Or.inr
          (Or.inr (Or.inr (Or.inl rfl)))))))))
      · exact Or.inr (Or.inr (Or.inr (Or.inr (Or.inr (Or.inr (Or.inr
          (Or.inr (Or.inr (Or.inr (Or.inl rfl))))))))))
      · exact Or.inr (Or.inr (Or.inr (Or.inr (Or.inr (Or.inr (Or.inr
          (Or.inr (Or.inr (Or.inr (Or.inr (Or.inl rfl)))))))))))
    · rename_i r
      simp only [Bool.or_eq_true, decide_eq_true_eq] at hm
      rcases hm with he | he
      · have hr : r = [] := by
          cases r with
          | nil => rfl
          | cons _ _ => cases he
        subst hr
        exact Or.inr (Or.inr (Or.inr (Or.inr (Or.inr (Or.inr (Or.inr
          (Or.inr (Or.inr (Or.inr (Or.inr (Or.inr (Or.inl rfl))))))))))))
      · subst he
        exact Or.inr (Or.inr (Or.inr (Or.inr (Or.inr (Or.inr (Or.inr
          (Or.inr (Or.inr (Or.inr (Or.inr (Or.inr (Or.inr
            (Or.inl rfl)))))))))))))
    · cases hm
  · subst hd
    exact Or.inr (Or.inr (Or.inr (Or.inr (Or.inr (Or.inr (Or.inr (Or.inr
      (Or.inr (Or.inr (Or.inr (Or.inr (Or.inr (Or.inr
        (Or.inl rfl))))))))))))))
  · subst hd
    exact Or.inr (Or.inr (Or.inr (Or.inr (Or.inr (Or.inr (Or.inr (Or.inr
      (Or.inr (Or.inr (Or.inr (Or.inr (Or.inr (Or.inr (Or.inr
        (Or.inl rfl)))))))))))))))
  · subst hd
    exact Or.inr (Or.inr (Or.inr (Or.inr (Or.inr (Or.inr (Or.inr (Or.inr
      (Or.inr (Or.inr (Or.inr (Or.inr (Or.inr (Or.inr (Or.inr
        (Or.inr rfl)))))))))))))))

set_option maxHeartbeats 1000000 in
/-- Every non-null output of the normaliser is one of its fixed points. -/
theorem normalize_fix {d k : Str} (h : normalizeEventName d = some k) :
    normalizeEventName k = some k := by
  by_cases hde : d.isEmpty = true
  · rw [show normalizeEventName d = none by
      unfold normalizeEventName; rw [if_pos hde]] at h
    cases h
  · have hd' : d.isEmpty = false := Bool.eq_false_iff.mpr hde
    rw [normalizeEventName_eq d hd'] at h
    by_cases hcw : isCommaWalk (collapseWs (trimStr d)) = true
    · rw [if_pos hcw] at h
      injection h with h2
      rw [← h2]
      exact comma_fix hcw
    · rw [if_neg hcw] at h
      set x0 := collapseWs (trimStr d) with hx0
      set x1 := lowerStr x0 with hx1
      set x2 := replaceMiles x1 with hx2
      set x3 := mileAdjust x2 with hx3
      set x4 := joinUnits x3 with hx4
      set x5 := attachMod x4 with hx5
      set x6 := relayMod x5 with hx6
      have htidy : tidy x6 :=
        relayMod_tidy (attachMod_tidy (joinUnits_tidy (mileAdjust_tidy
          (replaceMiles_tidy (tidy_lower (tidy_canon d))))))
      have hlow : noUpper x6 :=
        relayMod_lower (attachMod_lower (joinUnits_lower (mileAdjust_lower
          (replaceMiles_lower (noUpper_lowerStr x0)))))
      have hctx : CtxNoMiles none x6 :=
        relayMod_ctx (attachMod_ctx (joinUnits_ctx (mileAdjust_ctx
          (replaceMiles_resid x1))))
      have h3 : NoM match3At x6 :=
        scan5_no3 x5.length x5 le_rfl
          (scan4_no3 x4.length x4 le_rfl (scan3_no3 x3.length x3 le_rfl))
      have h4 : NoM match4At x6 :=
        scan5_no4 x5.length x5 le_rfl (scan4_no4 x4.length x4 le_rfl)
      have h5 : NoM match5At x6 := scan5_no5 x5.length x5 le_rfl
      clear_value x6 x5 x4 x3 x2 x1 x0
      by_cases hr : relayTest x6 = true
      · rw [if_pos hr] at h
        injection h with h2
        rw [← h2]
        exact main_fix htidy hlow hctx h3 h4 h5 (Or.inl hr)
      · rw [if_neg hr] at h
        by_cases hv : validationTest x6 = true
        · rw [if_pos hv] at h
          injection h with h2
          rw [← h2]
          exact main_fix htidy hlow hctx h3 h4 h5 (Or.inr hv)
        · rw [if_neg hv] at h
          by_cases hhm : hmTest x6 = true
          · rw [if_pos hhm] at h
            injection h with h2
            rw [← h2]
            simp only [hmTest, Bool.or_eq_true, decide_eq_true_eq] at hhm
            rcases hhm with (h6 | h6) | h6 <;> (rw [h6]; decide)
          · rw [if_neg hhm] at h
            by_cases hf : fieldTest x6 = true
            · rw [if_pos hf] at h
              injection h with h2
              rw [← h2]
              simp only [fieldTest, Bool.or_eq_true, decide_eq_true_eq] at hf
              rcases hf with
                ((((((h6 | h6) | h6) | h6) | h6) | h6) | h6) | h6 <;>
                (rw [h6]; decide)
            · rw [if_neg hf] at h
              by_cases hcb : combinedTest x6 = true
              · rw [if_pos hcb] at h
                injection h with h2
                rw [← h2]
                rcases combined_tidy_enum hcb htidy with
                  h6 | h6 | h6 | h6 | h6 | h6 | h6 | h6 | h6 | h6 | h6 |
                  h6 | h6 | h6 | h6 | h6 | h6 <;>
                  (rw [h6]; decide)
              · rw [if_neg hcb] at h
                cases h

/-- C2: event-name normalisation is idempotent — normalising any output of
`normalizeEventName` (with `null` propagated, as `normalizeEventName`
itself does for falsy input) returns it unchanged, so
`normalize (normalize d) = normalize d` for every descriptor `d`. -/
theorem C2_normalize_idempotent (d : Str) :
    normalizeOpt (normalizeEventName d) = normalizeEventName d := by
  cases h : normalizeEventName d with
  | none => rfl
  | some k =>
    show normalizeEventName k = some k
    exact normalize_fix h

end ScoringExtractor
